import Mathlib

/-!
Rocket League goal predictor: the time-indexed event store.

A shallow embedding of `GameDataTracker.h` (the per-type ordered event map, its
overlap-resolving insertion and its time queries), of `TimedTaskSet.h` (the set
of pending background computations), of the tick hook and `ResetLocalState` in
`GoalPredictor.cpp`, of the augmentation masks, `InferRaw` and `Predict` in
`InferenceEngine.cpp`, and of the payload types of `GameEvents.h`.

Modelling conventions.

* A `double` timestamp is a rational number.  The definitions come in two
  readings of the arithmetic.  In the plain ones arithmetic is exact, and the
  literal `0.000001` is `1 / 1000000`.  The ones in the namespaces `Rounded`
  take the rounding `fl` of `double` arithmetic as a parameter and apply it
  after each operation of the source that computes a `double`; `roundBinary64`
  is the rounding of the machine (IEEE 754 binary64, to nearest, ties to
  even), without overflow to infinity.  With the identity for `fl` the two
  readings agree.
* The enumeration `OverlapAction` is unscoped, so it has a value besides its
  three enumerators; it is the constructor `ADD`, for which `AddEvent` takes the
  branch commented `// nothing for ADD`.
* A `std::map<double, T>` is the list of its entries in iteration order.  The
  map keeps its keys strictly ascending; that invariant is the predicate
  `KeysAscending`, stated as a hypothesis where a result depends on it and
  proved to be preserved by insertion.
* An iterator is the index of the entry it points to; `map.end()` is the length
  of the list.  `map.erase(it)` removes the entry at that index, so the returned
  iterator (the next entry) has the same index, and an iterator to a later
  entry moves down by one.
* Dereferencing or erasing `map.end()` is undefined behaviour in C++; a loop
  that does so yields the explicit outcome `pastEnd`.
* The `while` loop of `AddEvent` is run with a fuel bound; running out of fuel
  is the explicit outcome `outOfFuel`.
* A `std::future<T>` is a handle; what `valid()`, `wait_for(0)` and `get()` show
  of it is read off a state function from handles to `FutureState`, which the
  background computations change between calls.  The call `wait()` returns with
  the future ready.
* A `float` is a rational number as well, and a `float` array reached through a
  pointer is a function from indices to entries.  The ONNX session is a
  parameter of `InferRaw` and `Predict`: a function from the batch to the output
  tensor, or to no tensor when the run throws.
* What the tick hook reads from the game, the settings and the futures is one
  record, `TickObservation`; `GetInferenceInput`, which reads game objects, is a
  field of it.
-/

namespace RLGP

/-! ## GameEvents.h -/

/-- The payload `struct SecondEvent`. -/
structure SecondEvent where
  second : Int
  overtime : Bool
  deriving DecidableEq

/-- The payload `struct BallHitEvent`. -/
structure BallHitEvent where
  orange : Bool
  deriving DecidableEq

/-- The payload `struct DemolitionEvent`. -/
structure DemolitionEvent where
  victim_orange : Bool
  victim_pri_id : String
  deriving DecidableEq

/-- The payload `struct GoalEvent`. -/
structure GoalEvent where
  orange_scored : Bool
  deriving DecidableEq

/-- The payload `struct KickoffEvent`, which has no members. -/
structure KickoffEvent where
  deriving DecidableEq

/-- The payload `struct BigBoostPickupEvent`. -/
structure BigBoostPickupEvent where
  boost_index : Int
  deriving DecidableEq

/-- A value of `enum Augmentation`, by its integer value.  The plugin reads the
level with the cast `(Augmentation)newCvar.getIntValue()` and `Predict` takes
`(int)augmentation`, so a value is any integer of the enumeration's range, not
only one of the three enumerators below. -/
structure Augmentation where
  value : Nat
  deriving DecidableEq

/-- The enumerator `NO_AUGMENT = 1`: predict on the raw inputs. -/
def Augmentation.NO_AUGMENT : Augmentation := ⟨1⟩

/-- The enumerator `AUGMENT_2X = 2`: add flip_xy. -/
def Augmentation.AUGMENT_2X : Augmentation := ⟨2⟩

/-- The enumerator `AUGMENT_4X = 4`: add flip_x, flip_y, flip_xy. -/
def Augmentation.AUGMENT_4X : Augmentation := ⟨4⟩

/-- The values of `enum PredictionReliability`. -/
inductive PredictionReliability where
  | RELIABLE
  | UNRELIABLE_NEAR_ZERO_SECONDS
  deriving DecidableEq

/-- The payload `struct Prediction`; its `float` and `double` members are rationals. -/
structure Prediction where
  prob_blue : ℚ
  prob_orange : ℚ
  prob_delta : ℚ
  reliability : PredictionReliability
  augmentation : Augmentation
  prediction_time_ms : ℚ
  deriving DecidableEq

/-- The five-argument constructor of `Prediction`: `prob_delta` is blue minus orange. -/
def Prediction.make (prob_blue prob_orange : ℚ) (reliability : PredictionReliability)
    (augmentation : Augmentation) (prediction_time_ms : ℚ) : Prediction :=
  { prob_blue := prob_blue
    prob_orange := prob_orange
    prob_delta := prob_blue - prob_orange
    reliability := reliability
    augmentation := augmentation
    prediction_time_ms := prediction_time_ms }

/-! ## Double arithmetic

The value a `double` operation stores is the exact result rounded to the nearest
binary64 number.  The definitions of the namespaces `Rounded` below take that
rounding as a parameter `fl`, applied once after each `double` operation of the
source; the identity gives exact arithmetic and `roundBinary64` the arithmetic
of the machine. -/

/-- The number of binary digits of `n`, by repeated halving; `fuel` bounds the
number of halvings. -/
def bitLengthLoop : Nat → Nat → Nat
  | 0, _ => 0
  | fuel + 1, n => if n = 0 then 0 else bitLengthLoop fuel (n / 2) + 1

/-- The number of binary digits of `n`: 0 for 0, and otherwise the `b` with
`2 ^ (b - 1) ≤ n < 2 ^ b`. -/
def bitLength (n : Nat) : Nat := bitLengthLoop n n

/-- The binary exponent of a positive rational `a`: the integer `e` with
`2 ^ e ≤ a < 2 ^ (e + 1)`. -/
def binaryExponent (a : ℚ) : ℤ :=
  let e : ℤ := (bitLength a.num.natAbs : ℤ) - (bitLength a.den : ℤ)
  if (2 : ℚ) ^ e ≤ a then e else e - 1

/-- Rounding to the nearest integer, a tie going to the even one. -/
def roundHalfEven (q : ℚ) : ℤ :=
  if q - ⌊q⌋ < 1 / 2 then ⌊q⌋
  else if 1 / 2 < q - ⌊q⌋ then ⌊q⌋ + 1
  else if ⌊q⌋ % 2 = 0 then ⌊q⌋ else ⌊q⌋ + 1

/-- The spacing of the binary64 numbers at `a`: `2 ^ (e - 52)` where `e` is the
binary exponent of `|a|`, and `2 ^ (-1074)` below the smallest normal number
`2 ^ (-1022)`. -/
def binary64Ulp (a : ℚ) : ℚ := (2 : ℚ) ^ (max (binaryExponent |a|) (-1022) - 52)

/-- Rounding to binary64, to nearest with ties to even (the default rounding of
IEEE 754): the `double` nearest to the exact value `x`.  Values beyond the
largest finite `double` are rounded on the same grid instead of becoming
infinite. -/
def roundBinary64 (x : ℚ) : ℚ :=
  if x = 0 then 0 else roundHalfEven (x / binary64Ulp x) * binary64Ulp x

/-! ## GameDataTracker.h -/

/-- What to do if an overlap is found when adding a new event (`enum OverlapAction`).
The enumeration is unscoped and has no fixed underlying type, so besides its three
enumerators (the values 0, 1 and 2) it has one more value, 3, which the cast
`(OverlapAction)3` yields.  `AddEvent` compares the action with each enumerator in
turn and takes the branch commented `// nothing for ADD` for that value; it is the
constructor `ADD` here. -/
inductive OverlapAction where
  | SKIP
  | REPLACE
  | REPLACE_IF_EARLIER
  | ADD
  deriving DecidableEq

/-- Configuration for detecting and handling overlaps in `AddEvent`
(`struct OverlapOptions`, with its default member initialisers). -/
structure OverlapOptions where
  overlapRadiusMs : ℚ := 100
  onlyLookForEqual : Bool := false
  overlapAction : OverlapAction := OverlapAction.SKIP
  deriving DecidableEq

/-- The entries of a `std::map<double, T>` in iteration order. -/
abbrev Series (T : Type) := List (ℚ × T)

/-- The invariant of `std::map`: keys strictly ascending (hence pairwise distinct). -/
def KeysAscending {T : Type} (m : Series T) : Prop :=
  m.Pairwise (fun a b => a.1 < b.1)

instance instDecidableKeysAscending {T : Type} (m : Series T) : Decidable (KeysAscending m) :=
  inferInstanceAs (Decidable (List.Pairwise (fun a b : ℚ × T => a.1 < b.1) m))

/-- The constant `0.000001` added by the collision loop of `AddEvent`. -/
def jitterStep : ℚ := 1 / 1000000

/-- How a call that may mutate the store ends: normally, with the new state; by
moving an iterator past `map.end()`; or with the loop fuel used up. -/
inductive Outcome (α : Type) where
  | done (a : α)
  | pastEnd
  | outOfFuel
  deriving DecidableEq

namespace TimeSeries

variable {T : Type}

/-- The call `map.lower_bound(x)`: iterator to the first entry whose key is not less than `x`. -/
def lower_bound (m : Series T) (x : ℚ) : Nat :=
  m.findIdx (fun e => decide (¬ e.1 < x))

/-- The call `map.upper_bound(x)`: iterator to the first entry whose key is greater than `x`. -/
def upper_bound (m : Series T) (x : ℚ) : Nat :=
  m.findIdx (fun e => decide (x < e.1))

/-- The call `map.contains(k)`. -/
def contains (m : Series T) (k : ℚ) : Bool :=
  m.any (fun e => decide (e.1 = k))

/-- The call `map.emplace(k, v)`: inserts the entry at its place in key order unless an
entry with that key exists already, in which case the map is left as it is. -/
def emplace : Series T → ℚ → T → Series T
  | [], k, v => [(k, v)]
  | e :: rest, k, v =>
      if k < e.1 then (k, v) :: e :: rest
      else if e.1 < k then e :: emplace rest k v
      else e :: rest

/-- A `std::ranges::subrange` of map iterators: its `begin()` and `end()`. -/
structure Subrange where
  first : Nat
  last : Nat
  deriving DecidableEq

/-- The call `empty()` on a subrange: its `begin()` equals its `end()`. -/
def Subrange.empty (r : Subrange) : Bool :=
  decide (r.first = r.last)

/-- The query `GetAll`: the whole map, from `map.begin()` to `map.end()`. -/
def GetAll (m : Series T) : Series T := m

/-- The query `GetRangeInclusive`:
`subrange(map.lower_bound(minTimeMs), map.upper_bound(maxTimeMs))`. -/
def GetRangeInclusive (m : Series T) (minTimeMs maxTimeMs : ℚ) : Subrange :=
  ⟨lower_bound m minTimeMs, upper_bound m maxTimeMs⟩

/-- The query `GetRangeAroundInclusive`. -/
def GetRangeAroundInclusive (m : Series T) (timeMs radiusMs : ℚ) : Subrange :=
  GetRangeInclusive m (timeMs - radiusMs) (timeMs + radiusMs)

/-- Walking a subrange, `for (it = first; it != last; ++it)`, collecting `*it`;
the first argument is the part of the map from `it` on.  The result is `none`
when the walk runs into `map.end()` before meeting `last`. -/
def walk : Series T → Nat → Nat → Option (Series T)
  | [], it, last => if it = last then some [] else none
  | e :: rest, it, last =>
      if it = last then some []
      else (walk rest (it + 1) last).map (fun es => e :: es)

/-- The entries a caller sees when iterating the subrange `r` of the map `m`. -/
def Subrange.entries (r : Subrange) (m : Series T) : Option (Series T) :=
  walk (m.drop r.first) r.first r.last

/-- The query `GetMostRecentTimeMs`. -/
def GetMostRecentTimeMs (m : Series T) (timeMs : ℚ) : Option ℚ :=
  let it := upper_bound m timeMs
  if it = 0 then none
  else m[it - 1]?.map (fun prev => prev.1)

/-- The query `GetMostRecent`. -/
def GetMostRecent (m : Series T) (timeMs : ℚ) : Option (ℚ × T) :=
  let it := upper_bound m timeMs
  if it = 0 then none
  else m[it - 1]?.map (fun prev => (prev.1, prev.2))

/-- The query `GetClosest`, with the two distances computed exactly;
`Rounded.GetClosest` below is the same with each distance rounded to a `double`. -/
def GetClosest (m : Series T) (timeMs : ℚ) : Option (ℚ × T) :=
  if m.isEmpty then none
  else
    let it_next := lower_bound m timeMs
    if it_next = 0 then m[it_next]?
    else if it_next = m.length then m[it_next - 1]?
    else
      match m[it_next - 1]?, m[it_next]? with
      | some it_prev, some nxt =>
          let dist_prev := timeMs - it_prev.1
          let dist_next := nxt.1 - timeMs
          if dist_prev ≤ dist_next then some it_prev else some nxt
      | _, _ => none

/-- How the overlap loop of `AddEvent` ends: by an early `return`, by running to
`range.end()`, or by using `map.end()` as if it pointed to an entry. -/
inductive LoopResult (T : Type) where
  | returned (m : Series T)
  | completed (m : Series T)
  | pastEnd
  deriving DecidableEq

/-- The overlap loop of `AddEvent`,
`for (auto it = range.begin(); it != range.end(); ) { ... }`.
The map is `passed ++ rest`, the iterator `it` is `passed.length`, and `last` is
where `range.end()` now points.  Erasing the entry at `it` moves `last` down by
one when `last` lies after `it`.  With `it` at `map.end()` the condition
`!options.onlyLookForEqual || it->second == data` reads the entry only when the
flag is set, and only `SKIP` then leaves without touching it (`ADD` goes on to
`++it`).  For `ADD` an overlapping entry is left where it is and the iterator
moves on. -/
def overlapLoop [DecidableEq T] (timeMs : ℚ) (data : T) (options : OverlapOptions) :
    Series T → Series T → Nat → LoopResult T
  | passed, [], last =>
      if passed.length = last then LoopResult.completed passed
      else if options.onlyLookForEqual then LoopResult.pastEnd
      else
        match options.overlapAction with
        | OverlapAction.SKIP => LoopResult.returned passed
        | OverlapAction.REPLACE => LoopResult.pastEnd
        | OverlapAction.REPLACE_IF_EARLIER => LoopResult.pastEnd
        | OverlapAction.ADD => LoopResult.pastEnd
  | passed, e :: rest, last =>
      if passed.length = last then LoopResult.completed (passed ++ e :: rest)
      else if !options.onlyLookForEqual || decide (e.2 = data) then
        match options.overlapAction with
        | OverlapAction.SKIP => LoopResult.returned (passed ++ e :: rest)
        | OverlapAction.REPLACE =>
            overlapLoop timeMs data options passed rest
              (if passed.length < last then last - 1 else last)
        | OverlapAction.REPLACE_IF_EARLIER =>
            if timeMs < e.1 then
              overlapLoop timeMs data options passed rest
                (if passed.length < last then last - 1 else last)
            else LoopResult.returned (passed ++ e :: rest)
        | OverlapAction.ADD => overlapLoop timeMs data options (passed ++ [e]) rest last
      else overlapLoop timeMs data options (passed ++ [e]) rest last

/-- The collision loop of `AddEvent`,
`while (map.contains(timeMs)) { timeMs += 0.000001; }`: the key it stops at, or
`none` when the fuel is used up first.  One unit of fuel pays for one evaluation
of the loop condition, so `n` iterations of the body need fuel `n + 1`.  The sum
is exact here; `Rounded.jitterLoop` below rounds the literal and each sum. -/
def jitterLoop : Nat → Series T → ℚ → Option ℚ
  | 0, _, _ => none
  | fuel + 1, m, timeMs =>
      if contains m timeMs then jitterLoop fuel m (timeMs + jitterStep)
      else some timeMs

/-- The member function `AddEvent`, on the map of one payload type. -/
def AddEvent [DecidableEq T] (fuel : Nat) (m : Series T) (timeMs : ℚ) (data : T)
    (options : OverlapOptions) : Outcome (Series T) :=
  let range := GetRangeAroundInclusive m timeMs options.overlapRadiusMs
  match overlapLoop timeMs data options (m.take range.first) (m.drop range.first)
      range.last with
  | LoopResult.returned m1 => Outcome.done m1
  | LoopResult.pastEnd => Outcome.pastEnd
  | LoopResult.completed m1 =>
      match jitterLoop fuel m1 timeMs with
      | none => Outcome.outOfFuel
      | some t1 => Outcome.done (emplace m1 t1 data)

/-- Calling `AddEvent` once for each value of a list, in order, always with the
same timestamp and options. -/
def addAll [DecidableEq T] (fuel : Nat) (timeMs : ℚ) (options : OverlapOptions) :
    List T → Series T → Outcome (Series T)
  | [], m => Outcome.done m
  | v :: vs, m =>
      match AddEvent fuel m timeMs v options with
      | Outcome.done m1 => addAll fuel timeMs options vs m1
      | Outcome.pastEnd => Outcome.pastEnd
      | Outcome.outOfFuel => Outcome.outOfFuel

/-! ### Vocabulary for the statements -/

/-- The key of the entry lies in the inclusive window `[timeMs - radiusMs, timeMs + radiusMs]`. -/
def inWindow (timeMs radiusMs : ℚ) (e : ℚ × T) : Bool :=
  decide (timeMs - radiusMs ≤ e.1) && decide (e.1 ≤ timeMs + radiusMs)

/-- The entry counts as overlapping: the equality filter is off, or its value
equals the value being added. -/
def overlaps [DecidableEq T] (onlyLookForEqual : Bool) (data : T) (e : ℚ × T) : Bool :=
  !onlyLookForEqual || decide (e.2 = data)

/-- The map without the overlapping entries of the window. -/
def keptEntries [DecidableEq T] (timeMs radiusMs : ℚ) (onlyLookForEqual : Bool) (data : T)
    (m : Series T) : Series T :=
  m.filter (fun e => !(inWindow timeMs radiusMs e && overlaps onlyLookForEqual data e))

/-- The first overlapping entry of the window, in ascending key order. -/
def firstOverlap [DecidableEq T] (timeMs radiusMs : ℚ) (onlyLookForEqual : Bool) (data : T)
    (m : Series T) : Option (ℚ × T) :=
  (m.filter (fun e => inWindow timeMs radiusMs e && overlaps onlyLookForEqual data e)).head?

/-- The values `vs` stored one per key at `timeMs + i * 0.000001`, for
`i = start, start + 1, ...`. -/
def staggered (timeMs : ℚ) : Nat → List T → Series T
  | _, [] => []
  | start, v :: vs => (timeMs + start * jitterStep, v) :: staggered timeMs (start + 1) vs

/-- The overlap loop as `AddEvent` runs it: over the subrange
`GetRangeAroundInclusive(timeMs, options.overlapRadiusMs)` of the map. -/
def overlapScan [DecidableEq T] (m : Series T) (timeMs : ℚ) (data : T)
    (options : OverlapOptions) : LoopResult T :=
  overlapLoop timeMs data options
    (m.take (GetRangeAroundInclusive m timeMs options.overlapRadiusMs).first)
    (m.drop (GetRangeAroundInclusive m timeMs options.overlapRadiusMs).first)
    (GetRangeAroundInclusive m timeMs options.overlapRadiusMs).last

/-- The overlap loop of `AddEvent` with a record of the positions its body is run
on, in the order of the runs: `some e` for the entry `e` the iterator points to,
`none` for the position past the end of the map.  The first component repeats
`overlapLoop` case by case. -/
def overlapLoopTraced [DecidableEq T] (timeMs : ℚ) (data : T) (options : OverlapOptions) :
    Series T → Series T → Nat → LoopResult T × List (Option (ℚ × T))
  | passed, [], last =>
      if passed.length = last then (LoopResult.completed passed, [])
      else if options.onlyLookForEqual then (LoopResult.pastEnd, [none])
      else
        match options.overlapAction with
        | OverlapAction.SKIP => (LoopResult.returned passed, [none])
        | OverlapAction.REPLACE => (LoopResult.pastEnd, [none])
        | OverlapAction.REPLACE_IF_EARLIER => (LoopResult.pastEnd, [none])
        | OverlapAction.ADD => (LoopResult.pastEnd, [none])
  | passed, e :: rest, last =>
      if passed.length = last then (LoopResult.completed (passed ++ e :: rest), [])
      else if !options.onlyLookForEqual || decide (e.2 = data) then
        match options.overlapAction with
        | OverlapAction.SKIP => (LoopResult.returned (passed ++ e :: rest), [some e])
        | OverlapAction.REPLACE =>
            ((overlapLoopTraced timeMs data options passed rest
                (if passed.length < last then last - 1 else last)).1,
              some e :: (overlapLoopTraced timeMs data options passed rest
                (if passed.length < last then last - 1 else last)).2)
        | OverlapAction.REPLACE_IF_EARLIER =>
            if timeMs < e.1 then
              ((overlapLoopTraced timeMs data options passed rest
                  (if passed.length < last then last - 1 else last)).1,
                some e :: (overlapLoopTraced timeMs data options passed rest
                  (if passed.length < last then last - 1 else last)).2)
            else (LoopResult.returned (passed ++ e :: rest), [some e])
        | OverlapAction.ADD =>
            ((overlapLoopTraced timeMs data options (passed ++ [e]) rest last).1,
              some e :: (overlapLoopTraced timeMs data options (passed ++ [e]) rest last).2)
      else
        ((overlapLoopTraced timeMs data options (passed ++ [e]) rest last).1,
          some e :: (overlapLoopTraced timeMs data options (passed ++ [e]) rest last).2)

/-- The positions the overlap loop of `AddEvent` runs its body on, over the
subrange `GetRangeAroundInclusive(timeMs, options.overlapRadiusMs)`. -/
def scanVisits [DecidableEq T] (m : Series T) (timeMs : ℚ) (data : T)
    (options : OverlapOptions) : List (Option (ℚ × T)) :=
  (overlapLoopTraced timeMs data options
    (m.take (GetRangeAroundInclusive m timeMs options.overlapRadiusMs).first)
    (m.drop (GetRangeAroundInclusive m timeMs options.overlapRadiusMs).first)
    (GetRangeAroundInclusive m timeMs options.overlapRadiusMs).last).2

/-! ### The same functions with the rounding of `double` arithmetic

Each `double` operation of the source is followed by the rounding `fl`: the
two bounds of `GetRangeAroundInclusive`, the two distances of `GetClosest`, and
the literal `0.000001` and the sum `timeMs += 0.000001` of the collision loop.
Comparisons, `lower_bound`, `upper_bound`, `contains` and `emplace` compute
nothing and are the ones above. -/

namespace Rounded

/-- The query `GetRangeAroundInclusive`:
`GetRangeInclusive<T>(timeMs - radiusMs, timeMs + radiusMs)`, both bounds rounded. -/
def GetRangeAroundInclusive (fl : ℚ → ℚ) (m : Series T) (timeMs radiusMs : ℚ) : Subrange :=
  GetRangeInclusive m (fl (timeMs - radiusMs)) (fl (timeMs + radiusMs))

/-- The query `GetClosest`, with `double dist_prev = timeMs - it_prev->first` and
`double dist_next = it_next->first - timeMs` rounded. -/
def GetClosest (fl : ℚ → ℚ) (m : Series T) (timeMs : ℚ) : Option (ℚ × T) :=
  if m.isEmpty then none
  else
    let it_next := lower_bound m timeMs
    if it_next = 0 then m[it_next]?
    else if it_next = m.length then m[it_next - 1]?
    else
      match m[it_next - 1]?, m[it_next]? with
      | some it_prev, some nxt =>
          let dist_prev := fl (timeMs - it_prev.1)
          let dist_next := fl (nxt.1 - timeMs)
          if dist_prev ≤ dist_next then some it_prev else some nxt
      | _, _ => none

/-- The collision loop of `AddEvent`,
`while (map.contains(timeMs)) { timeMs += 0.000001; }`, with the literal and the
sum rounded: the key it stops at, or `none` when the fuel is used up first. -/
def jitterLoop (fl : ℚ → ℚ) : Nat → Series T → ℚ → Option ℚ
  | 0, _, _ => none
  | fuel + 1, m, timeMs =>
      if contains m timeMs then jitterLoop fl fuel m (fl (timeMs + fl jitterStep))
      else some timeMs

/-- The overlap loop as `AddEvent` runs it, over the subrange
`GetRangeAroundInclusive(timeMs, options.overlapRadiusMs)` with rounded bounds. -/
def overlapScan [DecidableEq T] (fl : ℚ → ℚ) (m : Series T) (timeMs : ℚ) (data : T)
    (options : OverlapOptions) : LoopResult T :=
  overlapLoop timeMs data options
    (m.take (GetRangeAroundInclusive fl m timeMs options.overlapRadiusMs).first)
    (m.drop (GetRangeAroundInclusive fl m timeMs options.overlapRadiusMs).first)
    (GetRangeAroundInclusive fl m timeMs options.overlapRadiusMs).last

/-- The member function `AddEvent`, on the map of one payload type. -/
def AddEvent [DecidableEq T] (fl : ℚ → ℚ) (fuel : Nat) (m : Series T) (timeMs : ℚ) (data : T)
    (options : OverlapOptions) : Outcome (Series T) :=
  let range := GetRangeAroundInclusive fl m timeMs options.overlapRadiusMs
  match overlapLoop timeMs data options (m.take range.first) (m.drop range.first)
      range.last with
  | LoopResult.returned m1 => Outcome.done m1
  | LoopResult.pastEnd => Outcome.pastEnd
  | LoopResult.completed m1 =>
      match jitterLoop fl fuel m1 timeMs with
      | none => Outcome.outOfFuel
      | some t1 => Outcome.done (emplace m1 t1 data)

/-- Calling `AddEvent` once for each value of a list, in order, always with the
same timestamp and options. -/
def addAll [DecidableEq T] (fl : ℚ → ℚ) (fuel : Nat) (timeMs : ℚ) (options : OverlapOptions) :
    List T → Series T → Outcome (Series T)
  | [], m => Outcome.done m
  | v :: vs, m =>
      match AddEvent fl fuel m timeMs v options with
      | Outcome.done m1 => addAll fl fuel timeMs options vs m1
      | Outcome.pastEnd => Outcome.pastEnd
      | Outcome.outOfFuel => Outcome.outOfFuel

/-- The value of `timeMs` after `k` runs of the body of the collision loop. -/
def jitterKey (fl : ℚ → ℚ) (timeMs : ℚ) : Nat → ℚ
  | 0 => timeMs
  | k + 1 => fl (jitterKey fl timeMs k + fl jitterStep)

/-- The values `vs` stored one per key, under the keys the collision loop
reaches after `start`, `start + 1`, ... runs of its body. -/
def staggered (fl : ℚ → ℚ) (timeMs : ℚ) : Nat → List T → Series T
  | _, [] => []
  | start, v :: vs => (jitterKey fl timeMs start, v) :: staggered fl timeMs (start + 1) vs

end Rounded

end TimeSeries

/-! ### The tracker: one series per payload type -/

/-- The payload types the plugin stores in the tracker, standing for their
`std::type_index`. -/
inductive EventKind where
  | secondEvent
  | ballHitEvent
  | demolitionEvent
  | goalEvent
  | kickoffEvent
  | bigBoostPickupEvent
  | prediction
  deriving DecidableEq

/-- The payload type behind each type index. -/
def EventKind.Payload : EventKind → Type
  | EventKind.secondEvent => SecondEvent
  | EventKind.ballHitEvent => BallHitEvent
  | EventKind.demolitionEvent => DemolitionEvent
  | EventKind.goalEvent => GoalEvent
  | EventKind.kickoffEvent => KickoffEvent
  | EventKind.bigBoostPickupEvent => BigBoostPickupEvent
  | EventKind.prediction => Prediction

instance EventKind.instDecidableEqPayload : (k : EventKind) → DecidableEq k.Payload
  | EventKind.secondEvent => inferInstanceAs (DecidableEq SecondEvent)
  | EventKind.ballHitEvent => inferInstanceAs (DecidableEq BallHitEvent)
  | EventKind.demolitionEvent => inferInstanceAs (DecidableEq DemolitionEvent)
  | EventKind.goalEvent => inferInstanceAs (DecidableEq GoalEvent)
  | EventKind.kickoffEvent => inferInstanceAs (DecidableEq KickoffEvent)
  | EventKind.bigBoostPickupEvent => inferInstanceAs (DecidableEq BigBoostPickupEvent)
  | EventKind.prediction => inferInstanceAs (DecidableEq Prediction)

/-- The class `GameDataTracker`: `timeSeriesMap` holds, for each type index, the
series created for it so far (`none`: no series created yet). -/
structure GameDataTracker where
  timeSeriesMap : (k : EventKind) → Option (Series k.Payload)

namespace GameDataTracker

/-- A freshly constructed tracker: `timeSeriesMap` is empty. -/
def empty : GameDataTracker := ⟨fun _ => none⟩

/-- The private `GetMap<T>()`: `try_emplace` the type index, create the series
when the index was new, and hand out the map. -/
def GetMap (g : GameDataTracker) (k : EventKind) : GameDataTracker × Series k.Payload :=
  match g.timeSeriesMap k with
  | some map => (g, map)
  | none => (⟨Function.update g.timeSeriesMap k (some [])⟩, [])

/-- The member function `AddEvent<T>`: the map handed out by `GetMap<T>()` is
updated in place. -/
def AddEvent (fuel : Nat) (g : GameDataTracker) (k : EventKind) (timeMs : ℚ)
    (data : k.Payload) (options : OverlapOptions) : Outcome GameDataTracker :=
  let (g1, map) := g.GetMap k
  match TimeSeries.AddEvent fuel map timeMs data options with
  | Outcome.done map1 => Outcome.done ⟨Function.update g1.timeSeriesMap k (some map1)⟩
  | Outcome.pastEnd => Outcome.pastEnd
  | Outcome.outOfFuel => Outcome.outOfFuel

/-- The member function `GetAll<T>`. -/
def GetAll (g : GameDataTracker) (k : EventKind) : GameDataTracker × Series k.Payload :=
  let (g1, map) := g.GetMap k
  (g1, TimeSeries.GetAll map)

/-- The member function `GetMostRecentTimeMs<T>`. -/
def GetMostRecentTimeMs (g : GameDataTracker) (k : EventKind) (timeMs : ℚ) :
    GameDataTracker × Option ℚ :=
  let (g1, map) := g.GetMap k
  (g1, TimeSeries.GetMostRecentTimeMs map timeMs)

/-- The member function `GetRangeInclusive<T>`: a subrange of the map of `T`. -/
def GetRangeInclusive (g : GameDataTracker) (k : EventKind) (minTimeMs maxTimeMs : ℚ) :
    GameDataTracker × TimeSeries.Subrange :=
  let (g1, map) := g.GetMap k
  (g1, TimeSeries.GetRangeInclusive map minTimeMs maxTimeMs)

/-- The member function `GetRangeAroundInclusive<T>`. -/
def GetRangeAroundInclusive (g : GameDataTracker) (k : EventKind) (timeMs radiusMs : ℚ) :
    GameDataTracker × TimeSeries.Subrange :=
  g.GetRangeInclusive k (timeMs - radiusMs) (timeMs + radiusMs)

/-- The member function `GetMostRecent<T>`. -/
def GetMostRecent (g : GameDataTracker) (k : EventKind) (timeMs : ℚ) :
    GameDataTracker × Option (ℚ × k.Payload) :=
  let (g1, map) := g.GetMap k
  (g1, TimeSeries.GetMostRecent map timeMs)

/-- The member function `GetClosest<T>`. -/
def GetClosest (g : GameDataTracker) (k : EventKind) (timeMs : ℚ) :
    GameDataTracker × Option (ℚ × k.Payload) :=
  let (g1, map) := g.GetMap k
  (g1, TimeSeries.GetClosest map timeMs)

/-- The member function `Clear`. -/
def Clear (_g : GameDataTracker) : GameDataTracker := ⟨fun _ => none⟩

/-- Running one step after another, as long as each ends normally. -/
def andThen (r : Outcome GameDataTracker) (f : GameDataTracker → Outcome GameDataTracker) :
    Outcome GameDataTracker :=
  match r with
  | Outcome.done g => f g
  | Outcome.pastEnd => Outcome.pastEnd
  | Outcome.outOfFuel => Outcome.outOfFuel

/-- The end-to-end scenario: a kickoff at 0 (radius 1000), a goal for blue at
5000 (radius 200), and a second kickoff at 300 (radius 1000), every call with
the same equality flag and overlap action. -/
def kickoffScenario (fuel : Nat) (onlyLookForEqual : Bool) (action : OverlapAction) :
    Outcome GameDataTracker :=
  andThen
    (andThen
      (AddEvent fuel empty EventKind.kickoffEvent 0 KickoffEvent.mk
        ⟨1000, onlyLookForEqual, action⟩)
      (fun g => AddEvent fuel g EventKind.goalEvent 5000 (GoalEvent.mk false)
        ⟨200, onlyLookForEqual, action⟩))
    (fun g => AddEvent fuel g EventKind.kickoffEvent 300 KickoffEvent.mk
      ⟨1000, onlyLookForEqual, action⟩)

/-- The contents of the series of one payload type after a run, when the run ended normally. -/
def seriesAfter (r : Outcome GameDataTracker) (k : EventKind) : Option (Series k.Payload) :=
  match r with
  | Outcome.done g => some (g.GetAll k).2
  | Outcome.pastEnd => none
  | Outcome.outOfFuel => none

/-- The entries a caller sees when iterating a subrange handed out for the type
`k`: the subrange's iterators point into the map of `k`. -/
def rangeEntries (g : GameDataTracker) (k : EventKind) (r : TimeSeries.Subrange) :
    Option (Series k.Payload) :=
  r.entries (g.GetMap k).2

/-- Every query on the type `k` returns the same result on the two trackers. -/
def SameQueries (g g1 : GameDataTracker) (k : EventKind) : Prop :=
  (g1.GetAll k).2 = (g.GetAll k).2 ∧
  (∀ a b : ℚ, (g1.GetRangeInclusive k a b).2 = (g.GetRangeInclusive k a b).2 ∧
    g1.rangeEntries k (g1.GetRangeInclusive k a b).2 =
      g.rangeEntries k (g.GetRangeInclusive k a b).2) ∧
  (∀ t r : ℚ, (g1.GetRangeAroundInclusive k t r).2 = (g.GetRangeAroundInclusive k t r).2 ∧
    g1.rangeEntries k (g1.GetRangeAroundInclusive k t r).2 =
      g.rangeEntries k (g.GetRangeAroundInclusive k t r).2) ∧
  (∀ t : ℚ, (g1.GetMostRecentTimeMs k t).2 = (g.GetMostRecentTimeMs k t).2) ∧
  (∀ t : ℚ, (g1.GetMostRecent k t).2 = (g.GetMostRecent k t).2) ∧
  (∀ t : ℚ, (g1.GetClosest k t).2 = (g.GetClosest k t).2)

/-- Every query on the type `k` returns the empty sequence or none. -/
def AllQueriesEmpty (g : GameDataTracker) (k : EventKind) : Prop :=
  (g.GetAll k).2 = [] ∧
  (∀ a b : ℚ, (g.GetRangeInclusive k a b).2.empty = true ∧
    g.rangeEntries k (g.GetRangeInclusive k a b).2 = some []) ∧
  (∀ t r : ℚ, (g.GetRangeAroundInclusive k t r).2.empty = true ∧
    g.rangeEntries k (g.GetRangeAroundInclusive k t r).2 = some []) ∧
  (∀ t : ℚ, (g.GetMostRecentTimeMs k t).2 = none) ∧
  (∀ t : ℚ, (g.GetMostRecent k t).2 = none) ∧
  (∀ t : ℚ, (g.GetClosest k t).2 = none)

/-- The first two steps of the end-to-end scenario, with the options the plugin
passes: a kickoff at 0 (radius 1000), then a goal for blue at 5000 (radius 200). -/
def kickoffGoalScenario (fuel : Nat) : Outcome GameDataTracker :=
  andThen
    (AddEvent fuel empty EventKind.kickoffEvent 0 KickoffEvent.mk
      ⟨1000, false, OverlapAction.SKIP⟩)
    (fun g => AddEvent fuel g EventKind.goalEvent 5000 (GoalEvent.mk false)
      ⟨200, false, OverlapAction.SKIP⟩)

/-- The answer of `GetMostRecentTimeMs<T>` after a run, when the run ended normally. -/
def mostRecentTimeMsAfter (r : Outcome GameDataTracker) (k : EventKind) (timeMs : ℚ) :
    Option (Option ℚ) :=
  match r with
  | Outcome.done g => some (g.GetMostRecentTimeMs k timeMs).2
  | Outcome.pastEnd => none
  | Outcome.outOfFuel => none

/-! ### `AddEvent<T>` with the rounding of `double` arithmetic -/

namespace Rounded

/-- The member function `AddEvent<T>`, with the rounded `AddEvent` on the map
handed out by `GetMap<T>()`. -/
def AddEvent (fl : ℚ → ℚ) (fuel : Nat) (g : GameDataTracker) (k : EventKind) (timeMs : ℚ)
    (data : k.Payload) (options : OverlapOptions) : Outcome GameDataTracker :=
  let (g1, map) := g.GetMap k
  match TimeSeries.Rounded.AddEvent fl fuel map timeMs data options with
  | Outcome.done map1 => Outcome.done ⟨Function.update g1.timeSeriesMap k (some map1)⟩
  | Outcome.pastEnd => Outcome.pastEnd
  | Outcome.outOfFuel => Outcome.outOfFuel

end Rounded

end GameDataTracker

/-! ## TimedTaskSet.h -/

/-- What a `std::future<T>` shows when it is asked: `valid()` is false; or it is
valid, `wait_for(0)` answers `ready` and `get()` yields the result; or it is
valid and its computation is still running. -/
inductive FutureState (R : Type) where
  | invalid
  | ready (result : R)
  | running
  deriving DecidableEq

/-- The call `valid()`. -/
def FutureState.valid {R : Type} : FutureState R → Bool
  | FutureState.invalid => false
  | FutureState.ready _ => true
  | FutureState.running => true

/-- The future is valid and `wait_for(std::chrono::seconds(0))` answers `ready`. -/
def FutureState.isReady {R : Type} : FutureState R → Bool
  | FutureState.invalid => false
  | FutureState.ready _ => true
  | FutureState.running => false

/-- The future is valid and not ready yet. -/
def FutureState.isRunning {R : Type} : FutureState R → Bool
  | FutureState.invalid => false
  | FutureState.ready _ => false
  | FutureState.running => true

/-- The private `struct TaskEntry`.  The member `task` is a `std::future<T>`: a
handle of type `H`, whose state is read off the futures' shared state, a
function from handles to `FutureState`. -/
structure TaskEntry (H : Type) where
  timeMs : ℚ
  task : H
  deriving DecidableEq

/-- The class `TimedTaskSet<T>`: the vector `tasks`. -/
structure TimedTaskSet (H : Type) where
  tasks : List (TaskEntry H)
  deriving DecidableEq

namespace TimedTaskSet

variable {H R : Type}

/-- The member function `Add`: `tasks.push_back`. -/
def Add (s : TimedTaskSet H) (timeMs : ℚ) (task : H) : TimedTaskSet H :=
  ⟨s.tasks ++ [⟨timeMs, task⟩]⟩

/-- The loop of `GetCompletedTasks`,
`for (auto it = tasks.begin(); it != tasks.end(); ) { ... }`.  The vector is
`kept ++ rest`, the iterator `it` is `kept.length`; `tasks.erase(it)` drops the
head of `rest`, `++it` moves it to `kept`, and `results.push_back` appends. -/
def completedLoop (state : H → FutureState R) :
    List (TaskEntry H) → List (TaskEntry H) → List (ℚ × R) → List (ℚ × R) × List (TaskEntry H)
  | kept, [], results => (results, kept)
  | kept, e :: rest, results =>
      match state e.task with
      | FutureState.invalid => completedLoop state kept rest results
      | FutureState.ready result =>
          completedLoop state kept rest (results ++ [(e.timeMs, result)])
      | FutureState.running => completedLoop state (kept ++ [e]) rest results

/-- The member function `GetCompletedTasks`, under the current state of the
futures: the results it returns and the set it leaves. -/
def GetCompletedTasks (state : H → FutureState R) (s : TimedTaskSet H) :
    List (ℚ × R) × TimedTaskSet H :=
  ((completedLoop state [] s.tasks []).1, ⟨(completedLoop state [] s.tasks []).2⟩)

/-- The loop of `GetClosestTimeMs`, `for (size_t i = 1; i < tasks.size(); ++i)`,
over the entries from index `i` on, with the current `closestTimeMs` and
`minDiffMs`.  The difference is exact here; `Rounded.closestLoop` below takes
`std::abs` of the rounded difference. -/
def closestLoop (timeMs : ℚ) : List (TaskEntry H) → ℚ → ℚ → ℚ
  | [], closestTimeMs, _ => closestTimeMs
  | e :: rest, closestTimeMs, minDiffMs =>
      if |e.timeMs - timeMs| < minDiffMs then
        closestLoop timeMs rest e.timeMs |e.timeMs - timeMs|
      else closestLoop timeMs rest closestTimeMs minDiffMs

/-- The member function `GetClosestTimeMs`. -/
def GetClosestTimeMs (s : TimedTaskSet H) (timeMs : ℚ) : Option ℚ :=
  match s.tasks with
  | [] => none
  | e :: rest => some (closestLoop timeMs rest e.timeMs |e.timeMs - timeMs|)

/-- The call `wait()` on the future `h`: it returns once the future is ready.
A running future becomes ready with the result its computation delivers,
`eventual h`; a ready one stays as it is. -/
def wait [DecidableEq H] (eventual : H → R) (state : H → FutureState R) (h : H) :
    H → FutureState R :=
  fun x =>
    if x = h then
      match state h with
      | FutureState.invalid => FutureState.invalid
      | FutureState.ready result => FutureState.ready result
      | FutureState.running => FutureState.ready (eventual h)
    else state x

/-- The loop of `WaitAllAndClear`,
`for (auto& entry : tasks) { if (entry.task.valid()) { entry.task.wait(); } }`:
the state of the futures after it, and the futures `wait()` was called on, in
order. -/
def waitLoop [DecidableEq H] (eventual : H → R) :
    List (TaskEntry H) → (H → FutureState R) → List H → (H → FutureState R) × List H
  | [], state, waited => (state, waited)
  | e :: rest, state, waited =>
      if (state e.task).valid then
        waitLoop eventual rest (wait eventual state e.task) (waited ++ [e.task])
      else waitLoop eventual rest state waited

/-- What a call of `WaitAllAndClear` or of the destructor leaves behind. -/
structure Drained (H R : Type) where
  state : H → FutureState R
  waited : List H
  set : TimedTaskSet H

/-- The member function `WaitAllAndClear`: the state of the futures when it
returns, the futures it waited on, and the set it leaves (`tasks.clear()`). -/
def WaitAllAndClear [DecidableEq H] (eventual : H → R) (state : H → FutureState R)
    (s : TimedTaskSet H) : Drained H R :=
  ⟨(waitLoop eventual s.tasks state []).1, (waitLoop eventual s.tasks state []).2, ⟨[]⟩⟩

/-- The destructor `~TimedTaskSet`, whose body is the call `WaitAllAndClear()`. -/
def destructor [DecidableEq H] (eventual : H → R) (state : H → FutureState R)
    (s : TimedTaskSet H) : Drained H R :=
  WaitAllAndClear eventual state s

/-! ### Vocabulary for the statements -/

/-- The pair `GetCompletedTasks` returns for an entry whose future is ready. -/
def completedPair (state : H → FutureState R) (e : TaskEntry H) : Option (ℚ × R) :=
  match state e.task with
  | FutureState.invalid => none
  | FutureState.ready result => some (e.timeMs, result)
  | FutureState.running => none

/-- A call of `Add` or of `GetCompletedTasks`; a poll comes with the state the
futures are in when it is made. -/
inductive TaskOp (H R : Type) where
  | add (timeMs : ℚ) (task : H)
  | poll (state : H → FutureState R)

/-- The futures handed to `Add` by a sequence of calls, in order. -/
def addedHandles : List (TaskOp H R) → List H
  | [] => []
  | TaskOp.add _ task :: ops => task :: addedHandles ops
  | TaskOp.poll _ :: ops => addedHandles ops

/-- Running a sequence of calls on a set: the futures of the entries whose
result was returned, poll after poll, each poll's in storage order. -/
def returnedHandles : List (TaskOp H R) → TimedTaskSet H → List H
  | [], _ => []
  | TaskOp.add timeMs task :: ops, s => returnedHandles ops (s.Add timeMs task)
  | TaskOp.poll state :: ops, s =>
      ((s.tasks.filter (fun e => (state e.task).isReady)).map (fun e => e.task)) ++
        returnedHandles ops (GetCompletedTasks state s).2

/-! ### The closest-time query with the rounding of `double` arithmetic -/

namespace Rounded

/-- The loop of `GetClosestTimeMs`, with `double diff = std::abs(tasks[i].timeMs - timeMs)`
computed from the rounded difference. -/
def closestLoop (fl : ℚ → ℚ) (timeMs : ℚ) : List (TaskEntry H) → ℚ → ℚ → ℚ
  | [], closestTimeMs, _ => closestTimeMs
  | e :: rest, closestTimeMs, minDiffMs =>
      if |fl (e.timeMs - timeMs)| < minDiffMs then
        closestLoop fl timeMs rest e.timeMs |fl (e.timeMs - timeMs)|
      else closestLoop fl timeMs rest closestTimeMs minDiffMs

/-- The member function `GetClosestTimeMs`, with
`double minDiffMs = std::abs(closestTimeMs - timeMs)` computed from the rounded
difference. -/
def GetClosestTimeMs (fl : ℚ → ℚ) (s : TimedTaskSet H) (timeMs : ℚ) : Option ℚ :=
  match s.tasks with
  | [] => none
  | e :: rest => some (closestLoop fl timeMs rest e.timeMs |fl (e.timeMs - timeMs)|)

end Rounded

end TimedTaskSet

/-! ## GoalPredictor.cpp: the duplicate-launch check of the tick -/

/-- The constant `PREDICTION_OVERLAP_RADIUS_MS`. -/
def PREDICTION_OVERLAP_RADIUS_MS : ℚ := 30

/-- The local `alreadyScheduled` of the tick hook:
`closestPendingMs.has_value() &&
std::abs(closestPendingMs.value() - currentGameTimeMs) <= PREDICTION_OVERLAP_RADIUS_MS`,
with `closestPendingMs = pendingPredictions.GetClosestTimeMs(currentGameTimeMs)`. -/
def alreadyScheduled {H : Type} (pendingPredictions : TimedTaskSet H) (currentGameTimeMs : ℚ) :
    Bool :=
  match pendingPredictions.GetClosestTimeMs currentGameTimeMs with
  | none => false
  | some closestPendingMs =>
      decide (|closestPendingMs - currentGameTimeMs| ≤ PREDICTION_OVERLAP_RADIUS_MS)

/-- The overlap check of the tick hook, up to the condition of
`if (!overlapRange.empty() || alreadyScheduled) { return; }`: the tracker after
the query and whether the tick returns here without launching. -/
def duplicateLaunchCheck {H : Type} (g : GameDataTracker) (pendingPredictions : TimedTaskSet H)
    (currentGameTimeMs : ℚ) : GameDataTracker × Bool :=
  let (g1, overlapRange) :=
    g.GetRangeAroundInclusive EventKind.prediction currentGameTimeMs
      PREDICTION_OVERLAP_RADIUS_MS
  (g1, !overlapRange.empty || alreadyScheduled pendingPredictions currentGameTimeMs)

/-! ### The overlap check with the rounding of `double` arithmetic -/

namespace Rounded

/-- The local `alreadyScheduled` of the tick hook, with the difference
`closestPendingMs.value() - currentGameTimeMs` rounded and the closest pending
time found with rounded distances. -/
def alreadyScheduled {H : Type} (fl : ℚ → ℚ) (pendingPredictions : TimedTaskSet H)
    (currentGameTimeMs : ℚ) : Bool :=
  match TimedTaskSet.Rounded.GetClosestTimeMs fl pendingPredictions currentGameTimeMs with
  | none => false
  | some closestPendingMs =>
      decide (|fl (closestPendingMs - currentGameTimeMs)| ≤ PREDICTION_OVERLAP_RADIUS_MS)

/-- The overlap check of the tick hook with rounded arithmetic: the subrange is
`GetRangeAroundInclusive<Prediction>(currentGameTimeMs, PREDICTION_OVERLAP_RADIUS_MS)`
with rounded bounds, on the map `GetMap<Prediction>()` hands out. -/
def duplicateLaunchCheck {H : Type} (fl : ℚ → ℚ) (g : GameDataTracker)
    (pendingPredictions : TimedTaskSet H) (currentGameTimeMs : ℚ) : GameDataTracker × Bool :=
  let (g1, map) := g.GetMap EventKind.prediction
  (g1,
    !(TimeSeries.Rounded.GetRangeAroundInclusive fl map currentGameTimeMs
        PREDICTION_OVERLAP_RADIUS_MS).empty ||
      alreadyScheduled fl pendingPredictions currentGameTimeMs)

end Rounded

/-! ## InferenceEngine.cpp: augmentation masks and `Predict`

A `float` array reached through a pointer is a function from indices to entries;
only the indices below the array's size mean anything.  The entry type of the
mask and swap helpers is left generic (anything a `float` factor can be
multiplied onto), so that the same code also runs on symbolic entries; the
plugin uses it on numbers. -/

namespace InferenceEngine

def INPUT_DIM : Nat := 114

def OUTPUT_DIM : Nat := 3

def NUM_BALL_COLS : Nat := 6

def NUM_PLAYER_COLS : Nat := 17

def player_col_index (player_i player_col_i : Nat) : Nat :=
  NUM_BALL_COLS + NUM_PLAYER_COLS * player_i + player_col_i

def boost_index (boost_i : Nat) : Nat :=
  NUM_BALL_COLS + NUM_PLAYER_COLS * 6 + boost_i

/-- The assignment `a[i] = x`. -/
def assign {α : Type} (a : Nat → α) (i : Nat) (x : α) : Nat → α :=
  fun k => if k = i then x else a k

/-- The call `std::swap(a[i], a[j])`. -/
def swap {α : Type} (a : Nat → α) (i j : Nat) : Nat → α :=
  assign (assign a i (a j)) j (a i)

/-- The call `std::swap_ranges(a + first1, a + last1, a + first2)`: the entries are
swapped pair by pair, front to back. -/
def swap_ranges {α : Type} (a : Nat → α) (first1 last1 first2 : Nat) : Nat → α :=
  (List.range (last1 - first1)).foldl (fun b k => swap b (first1 + k) (first2 + k)) a

/-- Running `f` on the memory that starts `offset` entries into `p`, as in
`f(p + offset)`. -/
def atOffset {α : Type} (offset : Nat) (f : (Nat → α) → (Nat → α)) (p : Nat → α) : Nat → α :=
  fun j => if offset ≤ j then f (fun i => p (offset + i)) (j - offset) else p j

/-- The three mask vectors of the engine, each of size `INPUT_DIM`. -/
structure Masks where
  mask_flip_x : Nat → ℚ
  mask_flip_y : Nat → ℚ
  mask_flip_xy : Nat → ℚ

/-- One round of the loop `for (int i = 0; i < 6; i++)` of `InitializeMasks`, on
the pair `(mask_flip_x, mask_flip_y)`. -/
def playerMasks (m : (Nat → ℚ) × (Nat → ℚ)) (i : Nat) : (Nat → ℚ) × (Nat → ℚ) :=
  let x := assign m.1 (player_col_index i 0) (-1)
  let y := assign m.2 (player_col_index i 1) (-1)
  let x := assign x (player_col_index i 3) (-1)
  let y := assign y (player_col_index i 4) (-1)
  let x := assign x (player_col_index i 6) (-1)
  let y := assign y (player_col_index i 7) (-1)
  let x := assign x (player_col_index i 9) (-1)
  let y := assign y (player_col_index i 10) (-1)
  let y := assign y (player_col_index i 12) (-1)
  let x := assign x (player_col_index i 13) (-1)
  let x := assign x (player_col_index i 14) (-1)
  let y := assign y (player_col_index i 14) (-1)
  (x, y)

/-- The masks `InitializeMasks` builds. -/
def InitializeMasks : Masks :=
  let x : Nat → ℚ := fun _ => 1
  let y : Nat → ℚ := fun _ => 1
  let xy : Nat → ℚ := fun _ => 1
  let x := assign x 0 (-1)
  let y := assign y 1 (-1)
  let x := assign x 3 (-1)
  let y := assign y 4 (-1)
  let m := (List.range 6).foldl playerMasks (x, y)
  { mask_flip_x := m.1
    mask_flip_y := m.2
    mask_flip_xy := fun i => if i < INPUT_DIM then m.1 i * m.2 i else xy i }

/-- The helper `ApplyMask(input, mask, output, swap_teams)`: the new contents of
the memory at `output`. -/
def ApplyMask {α : Type} [HMul α ℚ α] (input : Nat → α) (mask : Nat → ℚ) (output : Nat → α)
    (swap_teams : Bool) : Nat → α :=
  let output1 : Nat → α := fun i => if i < INPUT_DIM then input i * mask i else output i
  if swap_teams then
    swap_ranges output1 NUM_BALL_COLS (NUM_BALL_COLS + NUM_PLAYER_COLS * 3)
      (NUM_BALL_COLS + NUM_PLAYER_COLS * 3)
  else output1

def SwapBoostX {α : Type} (data : Nat → α) : Nat → α :=
  let data := swap data (boost_index 0 + 0) (boost_index 0 + 1)
  let data := swap data (boost_index 0 + 2) (boost_index 0 + 3)
  swap data (boost_index 0 + 4) (boost_index 0 + 5)

def SwapBoostY {α : Type} (data : Nat → α) : Nat → α :=
  let data := swap data (boost_index 0 + 0) (boost_index 0 + 4)
  swap data (boost_index 0 + 1) (boost_index 0 + 5)

def SwapBoostXY {α : Type} (data : Nat → α) : Nat → α :=
  let data := swap data (boost_index 0 + 0) (boost_index 0 + 5)
  let data := swap data (boost_index 0 + 1) (boost_index 0 + 4)
  swap data (boost_index 0 + 2) (boost_index 0 + 3)

/-- The struct `InferenceInput`; `inputs` holds `INPUT_DIM` entries. -/
structure InferenceInput where
  inputs : Nat → ℚ
  reliability : PredictionReliability

/-- A `std::vector<float>`: its size and its entries. -/
structure FloatVector where
  size : Nat
  data : Nat → ℚ

/-- What `session->Run` hands back for a batch of `num_batches` rows: `none` when
it throws an `Ort::Exception`, else the output tensor's entries, each a number or
`none` for a `float` that is not a number (NaN, infinity). -/
abbrev Session := Nat → (Nat → ℚ) → Option (Nat → Option ℚ)

/-- The range test `val >= 0.0f && val <= 1.0f` of `InferRaw`. -/
def validOutput : Option ℚ → Bool
  | some val => decide (0 ≤ val) && decide (val ≤ 1)
  | none => false

/-- The member function `InferRaw`: the `num_batches * OUTPUT_DIM` model outputs,
or the empty vector on any failure. -/
def InferRaw (session : Session) (input : FloatVector) : List ℚ :=
  if input.size % INPUT_DIM ≠ 0 then []
  else
    let num_batches := input.size / INPUT_DIM
    match session num_batches input.data with
    | none => []
    | some out_ptr =>
        let out_vector := (List.range (num_batches * OUTPUT_DIM)).map out_ptr
        if out_vector.all validOutput then out_vector.filterMap id else []

/-- The first `switch` of `Predict`, which fills `batch_input`: the cases fall
through from `AUGMENT_4X` over `AUGMENT_2X` to `NO_AUGMENT`, and a value that is
none of the three enumerators runs no case. -/
def buildBatch (masks : Masks) (input_ptr : Nat → ℚ) (augmentation : Augmentation)
    (batch_input : Nat → ℚ) : Nat → ℚ :=
  let b :=
    if augmentation = Augmentation.AUGMENT_4X then
      let b := atOffset (3 * INPUT_DIM)
        (fun out => ApplyMask input_ptr masks.mask_flip_y out true) batch_input
      let b := atOffset (3 * INPUT_DIM) SwapBoostY b
      let b := atOffset (2 * INPUT_DIM)
        (fun out => ApplyMask input_ptr masks.mask_flip_x out false) b
      atOffset (2 * INPUT_DIM) SwapBoostX b
    else batch_input
  let b :=
    if augmentation = Augmentation.AUGMENT_4X ∨ augmentation = Augmentation.AUGMENT_2X then
      let b := atOffset (1 * INPUT_DIM)
        (fun out => ApplyMask input_ptr masks.mask_flip_xy out true) b
      atOffset (1 * INPUT_DIM) SwapBoostXY b
    else b
  if augmentation = Augmentation.AUGMENT_4X ∨ augmentation = Augmentation.AUGMENT_2X ∨
      augmentation = Augmentation.NO_AUGMENT then
    fun i => if i < INPUT_DIM then input_ptr i else b i
  else b

/-- The second `switch` of `Predict`, which sums the outputs into
`(prob_blue, prob_orange)`, with the same fall-through. -/
def sumOutputs (augmentation : Augmentation) (batch_output : List ℚ) : ℚ × ℚ :=
  let p : ℚ × ℚ := (0, 0)
  let p :=
    if augmentation = Augmentation.AUGMENT_4X then
      (p.1 + (batch_output.getD 10 0 + batch_output.getD 6 0),
        p.2 + (batch_output.getD 9 0 + batch_output.getD 7 0))
    else p
  let p :=
    if augmentation = Augmentation.AUGMENT_4X ∨ augmentation = Augmentation.AUGMENT_2X then
      (p.1 + batch_output.getD 4 0, p.2 + batch_output.getD 3 0)
    else p
  if augmentation = Augmentation.AUGMENT_4X ∨ augmentation = Augmentation.AUGMENT_2X ∨
      augmentation = Augmentation.NO_AUGMENT then
    (p.1 + batch_output.getD 0 0, p.2 + batch_output.getD 1 0)
  else p

/-- The member function `Predict`, with the clock readings around the inference
as arguments. -/
def Predict (masks : Masks) (session : Session) (input : InferenceInput)
    (augmentation : Augmentation) (startTimeMs endTimeMs : ℚ) : Option Prediction :=
  let augmentationNum := augmentation.value
  let batch_input : FloatVector :=
    { size := augmentationNum * INPUT_DIM
      data := buildBatch masks input.inputs augmentation (fun _ => 0) }
  let batch_output := InferRaw session batch_input
  if batch_output.isEmpty then none
  else
    let p := sumOutputs augmentation batch_output
    some (Prediction.make (p.1 / augmentationNum) (p.2 / augmentationNum) input.reliability
      augmentation (endTimeMs - startTimeMs))

/-! ### Vocabulary for the statements -/

/-- The batch row `flip_x` of `Predict`: the mask for x, no team swap, then
`SwapBoostX`, written over the row `out`. -/
def flipX {α : Type} [HMul α ℚ α] (out v : Nat → α) : Nat → α :=
  SwapBoostX (ApplyMask v InitializeMasks.mask_flip_x out false)

/-- The batch row `flip_y` of `Predict`: the mask for y with the teams swapped,
then `SwapBoostY`. -/
def flipY {α : Type} [HMul α ℚ α] (out v : Nat → α) : Nat → α :=
  SwapBoostY (ApplyMask v InitializeMasks.mask_flip_y out true)

/-- The batch row `flip_xy` of `Predict`: the mask for x and y with the teams
swapped, then `SwapBoostXY`. -/
def flipXY {α : Type} [HMul α ℚ α] (out v : Nat → α) : Nat → α :=
  SwapBoostXY (ApplyMask v InitializeMasks.mask_flip_xy out true)

/-- Row `k` of a batch. -/
def batchRow (batch : Nat → ℚ) (k : Nat) : Nat → ℚ :=
  fun i => batch (k * INPUT_DIM + i)

/-- The zeroed row, as `batch_input` is created. -/
def zeroRow : Nat → ℚ := fun _ => 0

/-- A symbolic entry: the input entry with index `index`, times `coeff`. -/
structure Term where
  index : Nat
  coeff : ℚ
  deriving DecidableEq

instance : HMul Term ℚ Term := ⟨fun m q => ⟨m.index, m.coeff * q⟩⟩

/-- The number a symbolic entry stands for, given the input vector. -/
def Term.eval (v : Nat → ℚ) (m : Term) : ℚ := v m.index * m.coeff

/-- The symbolic input vector: entry `i` is the input entry `i`. -/
def Term.var (i : Nat) : Term := ⟨i, 1⟩

/-- The symbolic zeroed row. -/
def Term.zero (i : Nat) : Term := ⟨i, 0⟩

/-- Row `k` of the batch is built with the teams swapped (rows 1 and 3). -/
def rowSwapsTeams (k : Nat) : Bool := decide (k = 1) || decide (k = 3)

/-- The blue probability read off row `k` of the model output. -/
def rowBlue (batch_output : List ℚ) (k : Nat) : ℚ :=
  batch_output.getD (OUTPUT_DIM * k + (if rowSwapsTeams k then 1 else 0)) 0

/-- The orange probability read off row `k` of the model output. -/
def rowOrange (batch_output : List ℚ) (k : Nat) : ℚ :=
  batch_output.getD (OUTPUT_DIM * k + (if rowSwapsTeams k then 0 else 1)) 0

/-- A model for the examples: entry `k` of its output tensor is `(k + 1)² / 200`,
whatever the batch. -/
def squaresSession : Session := fun _ _ => some (fun k => some (((k : ℚ) + 1) ^ 2 / 200))

/-- An input for the examples: entry `k` of the vector is the number `k + 1`. -/
def rampInput : InferenceInput := ⟨fun k => (k : ℚ) + 1, PredictionReliability.RELIABLE⟩

/-- The index of the same column of the player in the same slot of the other
team: the player columns of the first three players are the indices 6 to 56,
those of the last three the indices 57 to 107. -/
def otherTeamIndex (i : Nat) : Nat :=
  if i < NUM_BALL_COLS + NUM_PLAYER_COLS * 3 then i + NUM_PLAYER_COLS * 3
  else i - NUM_PLAYER_COLS * 3

/-- The row is built with the teams swapped: in every player column it holds,
up to the sign, the input entry of the other team's player in the same slot. -/
def TeamsSwapped (input row : Nat → ℚ) : Prop :=
  ∀ i, i < NUM_BALL_COLS + NUM_PLAYER_COLS * 6 → NUM_BALL_COLS ≤ i →
    (row i = input (otherTeamIndex i) ∨ row i = -input (otherTeamIndex i))

instance instDecidableTeamsSwapped (input row : Nat → ℚ) : Decidable (TeamsSwapped input row) :=
  inferInstanceAs (Decidable (∀ i, i < NUM_BALL_COLS + NUM_PLAYER_COLS * 6 → NUM_BALL_COLS ≤ i →
    (row i = input (otherTeamIndex i) ∨ row i = -input (otherTeamIndex i))))

/-- The row is built without swapping the teams: in every player column it
holds, up to the sign, the input entry of that column. -/
def TeamsKept (input row : Nat → ℚ) : Prop :=
  ∀ i, i < NUM_BALL_COLS + NUM_PLAYER_COLS * 6 → NUM_BALL_COLS ≤ i →
    (row i = input i ∨ row i = -input i)

instance instDecidableTeamsKept (input row : Nat → ℚ) : Decidable (TeamsKept input row) :=
  inferInstanceAs (Decidable (∀ i, i < NUM_BALL_COLS + NUM_PLAYER_COLS * 6 → NUM_BALL_COLS ≤ i →
    (row i = input i ∨ row i = -input i)))

/-- A model for the examples that reads the batch: in each row it compares the
magnitudes of the first player column of the two teams (the indices 6 and 57),
and answers 3/4 for the team with the smaller one and 1/4 for the other (output
entries 0 and 1 of the row; entry 2 is 0). -/
def nearSideSession : Session := fun _ batch =>
  some (fun j =>
    if j % OUTPUT_DIM = 0 then
      some (if |batch (j / OUTPUT_DIM * INPUT_DIM + 6)| < |batch (j / OUTPUT_DIM * INPUT_DIM + 57)|
        then 3 / 4 else 1 / 4)
    else if j % OUTPUT_DIM = 1 then
      some (if |batch (j / OUTPUT_DIM * INPUT_DIM + 6)| < |batch (j / OUTPUT_DIM * INPUT_DIM + 57)|
        then 1 / 4 else 3 / 4)
    else some 0)

/-- The lowest and highest value the setting `GoalPredictor_Augmentation` is
registered with (`registerCvar(..., true, 1, true, 4)`). -/
def AUGMENTATION_CVAR_MIN : Nat := 1

def AUGMENTATION_CVAR_MAX : Nat := 4

/-- The cast `(Augmentation)newCvar.getIntValue()` of `LoadCVars`. -/
def augmentationOfCvar (n : Nat) : Augmentation := ⟨n⟩

end InferenceEngine

/-! ## GoalPredictor.cpp: the scheduling tick -/

/-- The values of `enum GameType`. -/
inductive GameType where
  | NONE
  | REPLAY
  | ONLINE
  deriving DecidableEq

/-- The struct `GameKey`. -/
structure GameKey where
  type : GameType
  guid : String
  deriving DecidableEq

/-- The member function `GameKey::IsActive`. -/
def GameKey.IsActive (k : GameKey) : Bool := decide (k.type ≠ GameType.NONE)

/-- The constant `GAME_KEY_NONE`. -/
def GAME_KEY_NONE : GameKey := ⟨GameType.NONE, ""⟩

/-- The members of `class GoalPredictor` that the tick hook and `ResetLocalState`
read and write.  The pending futures are handles of type `H`. -/
structure GoalPredictor (H : Type) where
  gameDataTracker : GameDataTracker
  pendingPredictions : TimedTaskSet H
  currentGameKey : GameKey
  lastGameTimeMs : ℚ
  lastGameTimeWorldTimeMs : ℚ
  lastTickWorldTimeMs : ℚ
  inGoalReplay : Bool

/-- What one run of the tick hook reads from outside the plugin's own state:
the game key `GetGameKey` reports; the state of the futures when they are
asked, and the result a running computation delivers when it is waited for; the
game and world clock and `IsPaused()`; the setting `enabled` and whether
`GetCurrentGameState()` hands out a server, and `GetbRoundActive()`; whether
`LogPredictionTime` gets as far as its tracker query; the call
`GetInferenceInput`, as the tracker it leaves and whether it returned an input;
and the future `std::async` hands back if a computation is launched. -/
structure TickObservation (H : Type) where
  gameKey : GameKey
  futures : H → FutureState (Option Prediction)
  eventual : H → Option Prediction
  currentGameTimeMs : ℚ
  currentWorldTimeMs : ℚ
  isPaused : Bool
  enabled : Bool
  serverAvailable : Bool
  roundActive : Bool
  logsPredictionTime : Bool
  GetInferenceInput : GameDataTracker → GameDataTracker × Bool
  task : H

namespace GoalPredictor

variable {H : Type}

/-- The member function `ResetLocalState`. -/
def ResetLocalState [DecidableEq H] (eventual : H → Option Prediction)
    (futures : H → FutureState (Option Prediction)) (p : GoalPredictor H)
    (newGameKey : GameKey) : GoalPredictor H :=
  { gameDataTracker := p.gameDataTracker.Clear
    pendingPredictions := (p.pendingPredictions.WaitAllAndClear eventual futures).set
    currentGameKey := newGameKey
    lastGameTimeMs := -1
    lastGameTimeWorldTimeMs := -1
    lastTickWorldTimeMs := -1
    inGoalReplay := false }

/-- The member function `IsActive(assertGameLive)`. -/
def IsActive (p : GoalPredictor H) (enabled serverAvailable roundActive : Bool)
    (assertGameLive : Bool) : Bool :=
  if !enabled || !p.currentGameKey.IsActive then false
  else if !serverAvailable then false
  else !assertGameLive || roundActive

/-- The first statement of the tick hook:
`if (gameKey != currentGameKey) { ResetLocalState(gameKey); }`. -/
def sessionCheck [DecidableEq H] (p : GoalPredictor H) (o : TickObservation H) :
    GoalPredictor H :=
  if o.gameKey ≠ p.currentGameKey then ResetLocalState o.eventual o.futures p o.gameKey
  else p

/-- The loop `for (const auto& [timeMs, prediction] : completedPredictions)` of
the tick hook: each result that has a value is written into the `Prediction`
series with `{ .overlapRadiusMs = PREDICTION_OVERLAP_RADIUS_MS, .overlapAction = REPLACE }`. -/
def recordCompleted (fuel : Nat) :
    List (ℚ × Option Prediction) → GameDataTracker → Outcome GameDataTracker
  | [], g => Outcome.done g
  | (timeMs, prediction) :: rest, g =>
      match prediction with
      | some value =>
          match g.AddEvent fuel EventKind.prediction timeMs value
              { overlapRadiusMs := PREDICTION_OVERLAP_RADIUS_MS,
                overlapAction := OverlapAction.REPLACE } with
          | Outcome.done g1 => recordCompleted fuel rest g1
          | Outcome.pastEnd => Outcome.pastEnd
          | Outcome.outOfFuel => Outcome.outOfFuel
      | none => recordCompleted fuel rest g

/-- The block "Update time tracking" of the tick hook. -/
def trackTime (p : GoalPredictor H) (o : TickObservation H) : GoalPredictor H :=
  let p1 :=
    if o.currentGameTimeMs ≠ p.lastGameTimeMs then
      { p with lastGameTimeWorldTimeMs := o.currentWorldTimeMs,
               lastTickWorldTimeMs := o.currentWorldTimeMs }
    else p
  let p2 := if !o.isPaused then { p1 with lastTickWorldTimeMs := o.currentWorldTimeMs } else p1
  { p2 with lastGameTimeMs := o.currentGameTimeMs }

/-- The end of the tick hook, from the overlap check on: the state it leaves and
whether `std::async` was called. -/
def launchStep (p : GoalPredictor H) (o : TickObservation H) : GoalPredictor H × Bool :=
  let check := duplicateLaunchCheck p.gameDataTracker p.pendingPredictions o.currentGameTimeMs
  if check.2 then ({ p with gameDataTracker := check.1 }, false)
  else
    let input := o.GetInferenceInput check.1
    if !input.2 then ({ p with gameDataTracker := input.1 }, false)
    else
      ({ p with gameDataTracker := input.1,
                pendingPredictions := p.pendingPredictions.Add o.currentGameTimeMs o.task },
        true)

/-- The tick hook after its first statement, on the state the session check
left: the state it leaves and whether a new computation was launched. -/
def tickBody (fuel : Nat) (p : GoalPredictor H) (o : TickObservation H) :
    Outcome (GoalPredictor H × Bool) :=
  if !o.gameKey.IsActive then Outcome.done (p, false)
  else
    let completed := TimedTaskSet.GetCompletedTasks o.futures p.pendingPredictions
    match recordCompleted fuel completed.1 p.gameDataTracker with
    | Outcome.pastEnd => Outcome.pastEnd
    | Outcome.outOfFuel => Outcome.outOfFuel
    | Outcome.done g1 =>
        let g2 :=
          if !completed.1.isEmpty && o.logsPredictionTime then
            (g1.GetRangeInclusive EventKind.prediction (p.lastGameTimeMs - 1000)
              p.lastGameTimeMs).1
          else g1
        let newGameTime := decide (o.currentGameTimeMs ≠ p.lastGameTimeMs)
        let newWorldTime := decide (o.currentWorldTimeMs ≠ p.lastTickWorldTimeMs)
        let p2 := trackTime { p with gameDataTracker := g2, pendingPredictions := completed.2 } o
        if !(p2.IsActive o.enabled o.serverAvailable o.roundActive false) ||
            (!newGameTime && !newWorldTime) then
          Outcome.done (p2, false)
        else Outcome.done (launchStep p2 o)

/-- The hook on `Function Engine.GameViewportClient.Tick`. -/
def Tick [DecidableEq H] (fuel : Nat) (p : GoalPredictor H) (o : TickObservation H) :
    Outcome (GoalPredictor H × Bool) :=
  tickBody fuel (sessionCheck p o) o

/-! ### The tick hook with the rounding of `double` arithmetic

The hook computes with `double` values in `AddEvent` and in the two tests of the
overlap check, and `LogPredictionTime` computes `lastGameTimeMs - 1000`; the
session check and the time tracking only compare and copy. -/

namespace Rounded

/-- The loop `for (const auto& [timeMs, prediction] : completedPredictions)` of
the tick hook, with the rounded `AddEvent`. -/
def recordCompleted (fl : ℚ → ℚ) (fuel : Nat) :
    List (ℚ × Option Prediction) → GameDataTracker → Outcome GameDataTracker
  | [], g => Outcome.done g
  | (timeMs, prediction) :: rest, g =>
      match prediction with
      | some value =>
          match GameDataTracker.Rounded.AddEvent fl fuel g EventKind.prediction timeMs value
              { overlapRadiusMs := PREDICTION_OVERLAP_RADIUS_MS,
                overlapAction := OverlapAction.REPLACE } with
          | Outcome.done g1 => recordCompleted fl fuel rest g1
          | Outcome.pastEnd => Outcome.pastEnd
          | Outcome.outOfFuel => Outcome.outOfFuel
      | none => recordCompleted fl fuel rest g

/-- The end of the tick hook, from the overlap check on, with the rounded check:
the state it leaves and whether `std::async` was called. -/
def launchStep (fl : ℚ → ℚ) (p : GoalPredictor H) (o : TickObservation H) :
    GoalPredictor H × Bool :=
  let check :=
    RLGP.Rounded.duplicateLaunchCheck fl p.gameDataTracker p.pendingPredictions
      o.currentGameTimeMs
  if check.2 then ({ p with gameDataTracker := check.1 }, false)
  else
    let input := o.GetInferenceInput check.1
    if !input.2 then ({ p with gameDataTracker := input.1 }, false)
    else
      ({ p with gameDataTracker := input.1,
                pendingPredictions := p.pendingPredictions.Add o.currentGameTimeMs o.task },
        true)

/-- The tick hook after its first statement, with rounded arithmetic. -/
def tickBody (fl : ℚ → ℚ) (fuel : Nat) (p : GoalPredictor H) (o : TickObservation H) :
    Outcome (GoalPredictor H × Bool) :=
  if !o.gameKey.IsActive then Outcome.done (p, false)
  else
    let completed := TimedTaskSet.GetCompletedTasks o.futures p.pendingPredictions
    match recordCompleted fl fuel completed.1 p.gameDataTracker with
    | Outcome.pastEnd => Outcome.pastEnd
    | Outcome.outOfFuel => Outcome.outOfFuel
    | Outcome.done g1 =>
        let g2 :=
          if !completed.1.isEmpty && o.logsPredictionTime then
            (g1.GetRangeInclusive EventKind.prediction (fl (p.lastGameTimeMs - 1000))
              p.lastGameTimeMs).1
          else g1
        let newGameTime := decide (o.currentGameTimeMs ≠ p.lastGameTimeMs)
        let newWorldTime := decide (o.currentWorldTimeMs ≠ p.lastTickWorldTimeMs)
        let p2 := trackTime { p with gameDataTracker := g2, pendingPredictions := completed.2 } o
        if !(p2.IsActive o.enabled o.serverAvailable o.roundActive false) ||
            (!newGameTime && !newWorldTime) then
          Outcome.done (p2, false)
        else Outcome.done (launchStep fl p2 o)

/-- The hook on `Function Engine.GameViewportClient.Tick`, with rounded arithmetic. -/
def Tick [DecidableEq H] (fl : ℚ → ℚ) (fuel : Nat) (p : GoalPredictor H)
    (o : TickObservation H) : Outcome (GoalPredictor H × Bool) :=
  tickBody fl fuel (sessionCheck p o) o

end Rounded

/-! ### Vocabulary for the statements -/

/-- The entries of the `Prediction` series: what `GetAll<Prediction>` hands out. -/
def predictions (p : GoalPredictor H) : Series Prediction :=
  (p.gameDataTracker.GetAll EventKind.prediction).2

/-- The state in which the tick hook arrives at the condition
`if (!IsActive() || (!newGameTime && !newWorldTime))`, for a tick whose game key
is active: after the session check, the poll of the pending tasks, the
recording of the completed predictions, `LogPredictionTime` and the time
tracking.  The overlap check and `GetInferenceInput` read this state. -/
def stateAtCheck [DecidableEq H] (fl : ℚ → ℚ) (fuel : Nat) (p : GoalPredictor H)
    (o : TickObservation H) : Outcome (GoalPredictor H) :=
  let q := sessionCheck p o
  let completed := TimedTaskSet.GetCompletedTasks o.futures q.pendingPredictions
  match Rounded.recordCompleted fl fuel completed.1 q.gameDataTracker with
  | Outcome.pastEnd => Outcome.pastEnd
  | Outcome.outOfFuel => Outcome.outOfFuel
  | Outcome.done g1 =>
      let g2 :=
        if !completed.1.isEmpty && o.logsPredictionTime then
          (g1.GetRangeInclusive EventKind.prediction (fl (q.lastGameTimeMs - 1000))
            q.lastGameTimeMs).1
        else g1
      Outcome.done (trackTime { q with gameDataTracker := g2, pendingPredictions := completed.2 } o)

/-- The timestamps of any two pending tasks differ by more than
`PREDICTION_OVERLAP_RADIUS_MS`. -/
def PendingSpaced (s : TimedTaskSet H) : Prop :=
  s.tasks.Pairwise (fun a b => PREDICTION_OVERLAP_RADIUS_MS < |a.timeMs - b.timeMs|)

/-- The keys ascend in steps of more than `PREDICTION_OVERLAP_RADIUS_MS`. -/
def KeysSpaced {T : Type} (m : Series T) : Prop :=
  m.Pairwise (fun a b => a.1 + PREDICTION_OVERLAP_RADIUS_MS < b.1)

/-- The call does nothing to the tracker but query it: every series holds the
entries it held. -/
def OnlyQueries (f : GameDataTracker → GameDataTracker × Bool) : Prop :=
  ∀ (g : GameDataTracker) (k : EventKind), ((f g).1.GetAll k).2 = (g.GetAll k).2

/-- The states the plugin reaches from a state in `Init`, by ticks that end
normally and whose `GetInferenceInput` only queries the tracker, by calls of
`ResetLocalState` (on load and unload and when the setting `enabled` changes),
and by the plugin's other code (event hooks, renderer), which leaves the pending
list and the `Prediction` series as they are.  A tick's fuel pays for the tests
of the collision loop of `AddEvent`, which the code makes at least once. -/
inductive ReachableFrom [DecidableEq H] (Init : GoalPredictor H → Prop) :
    GoalPredictor H → Prop where
  | init (p : GoalPredictor H) : Init p → ReachableFrom Init p
  | tick (fuel : Nat) (p : GoalPredictor H) (o : TickObservation H) (p1 : GoalPredictor H)
      (launched : Bool) :
      ReachableFrom Init p → OnlyQueries o.GetInferenceInput → 0 < fuel →
      Tick fuel p o = Outcome.done (p1, launched) → ReachableFrom Init p1
  | reset (p : GoalPredictor H) (eventual : H → Option Prediction)
      (futures : H → FutureState (Option Prediction)) (newGameKey : GameKey) :
      ReachableFrom Init p → ReachableFrom Init (ResetLocalState eventual futures p newGameKey)
  | other (p p1 : GoalPredictor H) :
      ReachableFrom Init p → p1.pendingPredictions = p.pendingPredictions →
      p1.predictions = p.predictions → ReachableFrom Init p1

/-- A start of the scheduling loop for the pending list alone: no task is pending. -/
def NothingPending (p : GoalPredictor H) : Prop :=
  p.pendingPredictions.tasks = []

/-- A start of the scheduling loop: no task is pending and no prediction is
stored, as `ResetLocalState` leaves the plugin. -/
def Fresh (p : GoalPredictor H) : Prop :=
  p.pendingPredictions.tasks = [] ∧ p.predictions = []

/-- Ticks run one after the other, as long as each ends normally. -/
def runTicks [DecidableEq H] (fuel : Nat) :
    List (TickObservation H) → GoalPredictor H → Outcome (GoalPredictor H)
  | [], p => Outcome.done p
  | o :: os, p =>
      match Tick fuel p o with
      | Outcome.done r => runTicks fuel os r.1
      | Outcome.pastEnd => Outcome.pastEnd
      | Outcome.outOfFuel => Outcome.outOfFuel

/-- The entries of the `Prediction` series after a run that ended normally. -/
def predictionsAfter (r : Outcome (GoalPredictor H)) : Option (Series Prediction) :=
  match r with
  | Outcome.done p => some p.predictions
  | Outcome.pastEnd => none
  | Outcome.outOfFuel => none

/-- The timestamps of the pending tasks after a run that ended normally. -/
def pendingAfter (r : Outcome (GoalPredictor H)) : Option (List ℚ) :=
  match r with
  | Outcome.done p => some (p.pendingPredictions.tasks.map (fun e => e.timeMs))
  | Outcome.pastEnd => none
  | Outcome.outOfFuel => none

/-- The state a run ended in, or `fallback` when it did not end normally. -/
def stateAfter (r : Outcome (GoalPredictor H)) (fallback : GoalPredictor H) : GoalPredictor H :=
  match r with
  | Outcome.done p => p
  | Outcome.pastEnd => fallback
  | Outcome.outOfFuel => fallback

/-- A tick observation for the examples: an online game with the plugin enabled
and a server at hand, game and world clock both at `now`, no logging, and
`GetInferenceInput` returning an input without touching the tracker. -/
def exampleTick (now : ℚ) (futures : Nat → FutureState (Option Prediction)) (task : Nat) :
    TickObservation Nat :=
  { gameKey := ⟨GameType.ONLINE, ""⟩
    futures := futures
    eventual := fun _ => none
    currentGameTimeMs := now
    currentWorldTimeMs := now
    isPaused := false
    enabled := true
    serverAvailable := true
    roundActive := true
    logsPredictionTime := false
    GetInferenceInput := fun g => (g, true)
    task := task }

/-- A prediction for the examples. -/
def examplePrediction : Prediction :=
  Prediction.make (1 / 2) (1 / 4) PredictionReliability.RELIABLE Augmentation.AUGMENT_4X 7

/-- The plugin right after `ResetLocalState` in an online game. -/
def freshPlugin : GoalPredictor Nat :=
  { gameDataTracker := GameDataTracker.empty
    pendingPredictions := ⟨[]⟩
    currentGameKey := ⟨GameType.ONLINE, ""⟩
    lastGameTimeMs := -1
    lastGameTimeWorldTimeMs := -1
    lastTickWorldTimeMs := -1
    inGoalReplay := false }

/-- The futures of the examples while every computation is still running. -/
def allRunning : Nat → FutureState (Option Prediction) := fun _ => FutureState.running

/-- The futures of the examples once every computation has delivered `examplePrediction`. -/
def allReady : Nat → FutureState (Option Prediction) :=
  fun _ => FutureState.ready (some examplePrediction)

/-- Two ticks from the fresh plugin, at the game times 0 and 31, with every
computation still running. -/
def twoLaunches : Outcome (GoalPredictor Nat) :=
  runTicks 1 [exampleTick 0 allRunning 1, exampleTick 31 allRunning 2] freshPlugin

/-- The two ticks of `twoLaunches`, then a tick at the game time 100 by which
both computations have delivered. -/
def twoRecorded : Outcome (GoalPredictor Nat) :=
  runTicks 1 [exampleTick 0 allRunning 1, exampleTick 31 allRunning 2,
    exampleTick 100 allReady 3] freshPlugin

/-- One tick from the fresh plugin, at the game time 0. -/
def oneLaunch : Outcome (GoalPredictor Nat) :=
  runTicks 1 [exampleTick 0 allRunning 1] freshPlugin

/-- A tick observation for the examples in which no game is tracked: the game
key is `GAME_KEY_NONE`. -/
def menuTick : TickObservation Nat :=
  { exampleTick 200 allReady 4 with gameKey := GAME_KEY_NONE }

/-- The state a tick leaves, as a run of one tick. -/
def tickState (r : Outcome (GoalPredictor H × Bool)) : Outcome (GoalPredictor H) :=
  match r with
  | Outcome.done q => Outcome.done q.1
  | Outcome.pastEnd => Outcome.pastEnd
  | Outcome.outOfFuel => Outcome.outOfFuel

/-- Whether the tick launched a new computation, when it ended normally. -/
def launchedIn (r : Outcome (GoalPredictor H × Bool)) : Option Bool :=
  match r with
  | Outcome.done q => some q.2
  | Outcome.pastEnd => none
  | Outcome.outOfFuel => none

end GoalPredictor

end RLGP

/-! ## Rounding to binary64 -/

namespace RLGP

theorem bitLengthLoop_spec : ∀ (fuel n : Nat), 0 < n → n ≤ fuel →
    2 ^ (bitLengthLoop fuel n - 1) ≤ n ∧ n < 2 ^ bitLengthLoop fuel n ∧
      0 < bitLengthLoop fuel n := by
  intro fuel
  induction fuel with
  | zero =>
    intro n h0 hle
    omega
  | succ fuel ih =>
    intro n h0 hle
    rw [bitLengthLoop, if_neg (by omega)]
    by_cases h1 : n / 2 = 0
    · have hn : n = 1 := by omega
      subst hn
      cases fuel <;> simp [bitLengthLoop]
    · obtain ⟨ha, hb, hc⟩ := ih (n / 2) (by omega) (by omega)
      refine ⟨?_, ?_, by omega⟩
      · have : bitLengthLoop fuel (n / 2) + 1 - 1 = (bitLengthLoop fuel (n / 2) - 1) + 1 := by
          omega
        rw [this, pow_succ]
        omega
      · rw [pow_succ]
        omega

theorem bitLength_spec (n : Nat) (h : 0 < n) :
    2 ^ (bitLength n - 1) ≤ n ∧ n < 2 ^ bitLength n ∧ 0 < bitLength n :=
  bitLengthLoop_spec n n h le_rfl

theorem binaryExponent_spec (a : ℚ) (ha : 0 < a) :
    (2 : ℚ) ^ binaryExponent a ≤ a ∧ a < (2 : ℚ) ^ (binaryExponent a + 1) := by
  have hnum : 0 < a.num := Rat.num_pos.mpr ha
  have hden : 0 < a.den := a.den_pos
  obtain ⟨n1, n2, n3⟩ := bitLength_spec a.num.natAbs (by omega)
  obtain ⟨d1, d2, d3⟩ := bitLength_spec a.den hden
  set bn := bitLength a.num.natAbs with hbn
  set bd := bitLength a.den with hbd
  have hval : a = (a.num.natAbs : ℚ) / (a.den : ℚ) := by
    have h1 : ((a.num.natAbs : ℤ) : ℚ) = (a.num : ℚ) := by
      rw [Int.natAbs_of_nonneg (le_of_lt hnum)]
    have h2 : (a.num.natAbs : ℚ) = (a.num : ℚ) := by
      rw [← h1, Int.cast_natCast]
    rw [h2]
    exact (Rat.num_div_den a).symm
  have hdq : (0 : ℚ) < (a.den : ℚ) := by exact_mod_cast hden
  have n1q : (2 : ℚ) ^ (bn - 1) ≤ (a.num.natAbs : ℚ) := by exact_mod_cast n1
  have n2q : (a.num.natAbs : ℚ) < (2 : ℚ) ^ bn := by exact_mod_cast n2
  have d1q : (2 : ℚ) ^ (bd - 1) ≤ (a.den : ℚ) := by exact_mod_cast d1
  have d2q : (a.den : ℚ) < (2 : ℚ) ^ bd := by exact_mod_cast d2
  have two_pos : ∀ z : ℤ, (0 : ℚ) < (2 : ℚ) ^ z := fun z => zpow_pos (by norm_num) z
  -- upper bound: a < 2 ^ (bn - bd + 1)
  have hup : a < (2 : ℚ) ^ ((bn : ℤ) - (bd : ℤ) + 1) := by
    rw [hval, div_lt_iff₀ hdq]
    have e1 : (2 : ℚ) ^ ((bn : ℤ) - (bd : ℤ) + 1) * (2 : ℚ) ^ (bd - 1) = (2 : ℚ) ^ bn := by
      rw [← zpow_natCast (2 : ℚ) (bd - 1), ← zpow_add₀ (by norm_num : (2 : ℚ) ≠ 0),
        ← zpow_natCast (2 : ℚ) bn]
      congr 1
      omega
    calc (a.num.natAbs : ℚ) < (2 : ℚ) ^ bn := n2q
      _ = (2 : ℚ) ^ ((bn : ℤ) - (bd : ℤ) + 1) * (2 : ℚ) ^ (bd - 1) := e1.symm
      _ ≤ (2 : ℚ) ^ ((bn : ℤ) - (bd : ℤ) + 1) * (a.den : ℚ) :=
          mul_le_mul_of_nonneg_left d1q (le_of_lt (two_pos _))
  -- lower bound: 2 ^ (bn - bd - 1) ≤ a
  have hlow : (2 : ℚ) ^ ((bn : ℤ) - (bd : ℤ) - 1) ≤ a := by
    rw [hval, le_div_iff₀ hdq]
    have e1 : (2 : ℚ) ^ ((bn : ℤ) - (bd : ℤ) - 1) * (2 : ℚ) ^ bd = (2 : ℚ) ^ (bn - 1) := by
      rw [← zpow_natCast (2 : ℚ) bd, ← zpow_add₀ (by norm_num : (2 : ℚ) ≠ 0),
        ← zpow_natCast (2 : ℚ) (bn - 1)]
      congr 1
      omega
    calc (2 : ℚ) ^ ((bn : ℤ) - (bd : ℤ) - 1) * (a.den : ℚ)
        ≤ (2 : ℚ) ^ ((bn : ℤ) - (bd : ℤ) - 1) * (2 : ℚ) ^ bd :=
          mul_le_mul_of_nonneg_left (le_of_lt d2q) (le_of_lt (two_pos _))
      _ = (2 : ℚ) ^ (bn - 1) := e1
      _ ≤ (a.num.natAbs : ℚ) := n1q
  unfold binaryExponent
  simp only [← hbn, ← hbd]
  split_ifs with h
  · exact ⟨h, hup⟩
  · refine ⟨hlow, ?_⟩
    rw [sub_add_cancel]
    exact not_le.mp h

theorem roundHalfEven_bounds (q : ℚ) :
    ⌊q⌋ ≤ roundHalfEven q ∧ roundHalfEven q ≤ ⌊q⌋ + 1 := by
  unfold roundHalfEven
  split_ifs <;> constructor <;> omega

theorem roundHalfEven_intCast (n : ℤ) : roundHalfEven (n : ℚ) = n := by
  unfold roundHalfEven
  rw [Int.floor_intCast, sub_self, if_pos (by norm_num)]

theorem roundHalfEven_mono {q r : ℚ} (h : q ≤ r) : roundHalfEven q ≤ roundHalfEven r := by
  have hfl : ⌊q⌋ ≤ ⌊r⌋ := Int.floor_mono h
  rcases lt_or_eq_of_le hfl with hlt | heq
  · have h1 := (roundHalfEven_bounds q).2
    have h2 := (roundHalfEven_bounds r).1
    omega
  · unfold roundHalfEven
    rw [heq]
    have hsub : q - (⌊r⌋ : ℚ) ≤ r - (⌊r⌋ : ℚ) := by linarith
    split_ifs <;> first | omega | (exfalso; linarith)

theorem roundHalfEven_neg (q : ℚ) : roundHalfEven (-q) = -roundHalfEven q := by
  have h0 : (⌊q⌋ : ℚ) ≤ q := Int.floor_le q
  have h1 : q < (⌊q⌋ : ℚ) + 1 := Int.lt_floor_add_one q
  by_cases hf : q = (⌊q⌋ : ℚ)
  · have hfloor : ⌊-q⌋ = -⌊q⌋ := by
      rw [Int.floor_eq_iff]
      push_cast
      constructor <;> linarith
    unfold roundHalfEven
    rw [hfloor]
    push_cast
    have e1 : -q - -(⌊q⌋ : ℚ) = 0 := by linarith
    have e2 : q - (⌊q⌋ : ℚ) = 0 := by linarith
    rw [e1, e2, if_pos (by norm_num), if_pos (by norm_num)]
  · have hlt : (⌊q⌋ : ℚ) < q := lt_of_le_of_ne h0 (fun h => hf h.symm)
    have hfloor : ⌊-q⌋ = -⌊q⌋ - 1 := by
      rw [Int.floor_eq_iff]
      push_cast
      constructor <;> linarith
    unfold roundHalfEven
    rw [hfloor]
    push_cast
    have e1 : -q - (-(⌊q⌋ : ℚ) - 1) = 1 - (q - (⌊q⌋ : ℚ)) := by ring
    rw [e1]
    split_ifs <;> first | omega | (exfalso; linarith)

theorem two_zpow_pos (z : ℤ) : (0 : ℚ) < (2 : ℚ) ^ z := zpow_pos (by norm_num) z

theorem binary64Ulp_pos (x : ℚ) : 0 < binary64Ulp x := two_zpow_pos _

theorem binary64Ulp_neg (x : ℚ) : binary64Ulp (-x) = binary64Ulp x := by
  unfold binary64Ulp
  rw [abs_neg]

theorem roundBinary64_neg (x : ℚ) : roundBinary64 (-x) = -roundBinary64 x := by
  unfold roundBinary64
  by_cases hx : x = 0
  · subst hx
    simp
  · rw [if_neg (neg_ne_zero.mpr hx), if_neg hx, binary64Ulp_neg, neg_div, roundHalfEven_neg]
    push_cast
    ring

theorem roundBinary64_zero : roundBinary64 0 = 0 := by
  unfold roundBinary64
  rw [if_pos rfl]

theorem binaryExponent_mono {x y : ℚ} (hx : 0 < x) (h : x ≤ y) :
    binaryExponent x ≤ binaryExponent y := by
  obtain ⟨a1, _⟩ := binaryExponent_spec x hx
  obtain ⟨_, b2⟩ := binaryExponent_spec y (lt_of_lt_of_le hx h)
  have hlt : (2 : ℚ) ^ binaryExponent x < (2 : ℚ) ^ (binaryExponent y + 1) :=
    lt_of_le_of_lt (le_trans a1 h) b2
  have := (zpow_lt_zpow_iff_right₀ (by norm_num : (1 : ℚ) < 2)).mp hlt
  omega

/-- A positive value rounds into the closed binade it lies in. -/
theorem roundBinary64_pos_bounds (x : ℚ) (hx : 0 < x) :
    0 ≤ roundBinary64 x ∧
      roundBinary64 x ≤ (2 : ℚ) ^ (max (binaryExponent x) (-1022) + 1) ∧
      (-1022 ≤ binaryExponent x → (2 : ℚ) ^ binaryExponent x ≤ roundBinary64 x) := by
  obtain ⟨a1, a2⟩ := binaryExponent_spec x hx
  have hu : binary64Ulp x = (2 : ℚ) ^ (max (binaryExponent x) (-1022) - 52) := by
    unfold binary64Ulp
    rw [abs_of_pos hx]
  have hupos := binary64Ulp_pos x
  have hval : roundBinary64 x = roundHalfEven (x / binary64Ulp x) * binary64Ulp x := by
    unfold roundBinary64
    rw [if_neg (ne_of_gt hx)]
  have h53 : ((2 ^ 53 : ℤ) : ℚ) * binary64Ulp x =
      (2 : ℚ) ^ (max (binaryExponent x) (-1022) + 1) := by
    rw [hu]
    have : ((2 ^ 53 : ℤ) : ℚ) = (2 : ℚ) ^ (53 : ℤ) := by norm_num
    rw [this, ← zpow_add₀ (by norm_num : (2 : ℚ) ≠ 0)]
    congr 1
    omega
  refine ⟨?_, ?_, ?_⟩
  · rw [hval]
    apply mul_nonneg _ (le_of_lt hupos)
    have h0 : roundHalfEven ((0 : ℤ) : ℚ) ≤ roundHalfEven (x / binary64Ulp x) :=
      roundHalfEven_mono (by
        push_cast
        exact div_nonneg (le_of_lt hx) (le_of_lt hupos))
    rw [roundHalfEven_intCast] at h0
    exact_mod_cast h0
  · rw [hval, ← h53]
    apply mul_le_mul_of_nonneg_right _ (le_of_lt hupos)
    have hle : x / binary64Ulp x ≤ ((2 ^ 53 : ℤ) : ℚ) := by
      rw [div_le_iff₀ hupos, h53]
      refine le_trans (le_of_lt a2) ?_
      apply zpow_le_zpow_right₀ (by norm_num)
      have := le_max_left (binaryExponent x) (-1022)
      omega
    have := roundHalfEven_mono hle
    rw [roundHalfEven_intCast] at this
    exact_mod_cast this
  · intro hnorm
    have hmax : max (binaryExponent x) (-1022) = binaryExponent x := max_eq_left hnorm
    have h52 : ((2 ^ 52 : ℤ) : ℚ) * binary64Ulp x = (2 : ℚ) ^ binaryExponent x := by
      rw [hu, hmax]
      have : ((2 ^ 52 : ℤ) : ℚ) = (2 : ℚ) ^ (52 : ℤ) := by norm_num
      rw [this, ← zpow_add₀ (by norm_num : (2 : ℚ) ≠ 0)]
      congr 1
      omega
    rw [hval, ← h52]
    apply mul_le_mul_of_nonneg_right _ (le_of_lt hupos)
    have hle : ((2 ^ 52 : ℤ) : ℚ) ≤ x / binary64Ulp x := by
      rw [le_div_iff₀ hupos, h52]
      exact a1
    have := roundHalfEven_mono hle
    rw [roundHalfEven_intCast] at this
    exact_mod_cast this

theorem roundBinary64_mono_pos {x y : ℚ} (hx : 0 < x) (h : x ≤ y) :
    roundBinary64 x ≤ roundBinary64 y := by
  have hy : 0 < y := lt_of_lt_of_le hx h
  have hexp := binaryExponent_mono hx h
  have hmax : max (binaryExponent x) (-1022) ≤ max (binaryExponent y) (-1022) :=
    max_le_max hexp le_rfl
  rcases lt_or_eq_of_le hmax with hlt | heq
  · obtain ⟨_, hxup, _⟩ := roundBinary64_pos_bounds x hx
    obtain ⟨_, _, hylow⟩ := roundBinary64_pos_bounds y hy
    have hynorm : -1022 ≤ binaryExponent y := by
      by_contra hcon
      have h1 : max (binaryExponent y) (-1022) = -1022 := max_eq_right (by omega)
      have h2 := le_max_right (binaryExponent x) (-1022)
      omega
    have hmaxy : max (binaryExponent y) (-1022) = binaryExponent y := max_eq_left hynorm
    refine le_trans hxup (le_trans ?_ (hylow hynorm))
    apply zpow_le_zpow_right₀ (by norm_num)
    omega
  · have hu : binary64Ulp x = binary64Ulp y := by
      unfold binary64Ulp
      rw [abs_of_pos hx, abs_of_pos hy, heq]
    unfold roundBinary64
    rw [if_neg (ne_of_gt hx), if_neg (ne_of_gt hy), hu]
    apply mul_le_mul_of_nonneg_right _ (le_of_lt (binary64Ulp_pos y))
    have := roundHalfEven_mono (div_le_div_of_nonneg_right h (le_of_lt (binary64Ulp_pos y)))
    exact_mod_cast this

/-- Rounding to binary64 is monotone. -/
theorem roundBinary64_monotone : Monotone roundBinary64 := by
  intro x y h
  rcases lt_trichotomy 0 x with hx | hx | hx
  · exact roundBinary64_mono_pos hx h
  · subst hx
    rcases eq_or_lt_of_le h with hy | hy
    · rw [← hy]
    · rw [roundBinary64_zero]
      exact (roundBinary64_pos_bounds y hy).1
  · rcases lt_trichotomy 0 y with hy | hy | hy
    · have h1 := (roundBinary64_pos_bounds (-x) (by linarith)).1
      rw [roundBinary64_neg] at h1
      have h2 := (roundBinary64_pos_bounds y hy).1
      linarith
    · subst hy
      have h1 := (roundBinary64_pos_bounds (-x) (by linarith)).1
      rw [roundBinary64_neg] at h1
      rw [roundBinary64_zero]
      linarith
    · have := roundBinary64_mono_pos (x := -y) (y := -x) (by linarith) (by linarith)
      rw [roundBinary64_neg, roundBinary64_neg] at this
      linarith

theorem roundHalfEven_nearest (q : ℚ) : |(roundHalfEven q : ℚ) - q| ≤ 1 / 2 := by
  have h0 : (⌊q⌋ : ℚ) ≤ q := Int.floor_le q
  have h1 : q < (⌊q⌋ : ℚ) + 1 := Int.lt_floor_add_one q
  unfold roundHalfEven
  rw [abs_le]
  split_ifs <;> push_cast <;> constructor <;> linarith

/-- Rounding to binary64 moves a value by at most half the spacing at it. -/
theorem roundBinary64_nearest (x : ℚ) : |roundBinary64 x - x| ≤ binary64Ulp x / 2 := by
  have hu := binary64Ulp_pos x
  unfold roundBinary64
  split_ifs with h
  · subst h
    simp only [sub_self, abs_zero]
    exact le_of_lt (half_pos hu)
  · have h1 := roundHalfEven_nearest (x / binary64Ulp x)
    have e : (roundHalfEven (x / binary64Ulp x) : ℚ) * binary64Ulp x - x =
        ((roundHalfEven (x / binary64Ulp x) : ℚ) - x / binary64Ulp x) * binary64Ulp x := by
      field_simp
    rw [e, abs_mul, abs_of_pos hu]
    calc |(roundHalfEven (x / binary64Ulp x) : ℚ) - x / binary64Ulp x| * binary64Ulp x
        ≤ 1 / 2 * binary64Ulp x := mul_le_mul_of_nonneg_right h1 (le_of_lt hu)
      _ = binary64Ulp x / 2 := by ring

end RLGP

/-! ## Lemmas on the map primitives -/

namespace RLGP

namespace TimeSeries

variable {T : Type}

theorem keysAscending_cons {e : ℚ × T} {m : Series T} :
    KeysAscending (e :: m) ↔ (∀ x ∈ m, e.1 < x.1) ∧ KeysAscending m := by
  unfold KeysAscending
  exact List.pairwise_cons

theorem keysAscending_append {a b : Series T} :
    KeysAscending (a ++ b) ↔
      KeysAscending a ∧ KeysAscending b ∧ ∀ x ∈ a, ∀ y ∈ b, x.1 < y.1 := by
  unfold KeysAscending
  exact List.pairwise_append

theorem keysAscending_sublist {a b : Series T} (h : a.Sublist b) (hb : KeysAscending b) :
    KeysAscending a := by
  unfold KeysAscending at *
  exact hb.sublist h

/-- In an ascending map, `findIdx` of a predicate that stays true from the first
entry satisfying it on splits the map into the entries before it (none
satisfies the predicate) and the entries from it on (all satisfy it). -/
theorem findIdx_split (p : ℚ × T → Bool) (m : Series T) (hm : KeysAscending m)
    (hp : ∀ a b : ℚ × T, a.1 < b.1 → p a = true → p b = true) :
    ∃ A R : Series T, m = A ++ R ∧ m.findIdx p = A.length ∧
      (∀ e ∈ A, p e = false) ∧ (∀ e ∈ R, p e = true) := by
  induction m with
  | nil => exact ⟨[], [], rfl, rfl, by simp, by simp⟩
  | cons e m ih =>
    obtain ⟨hlt, hm1⟩ := keysAscending_cons.mp hm
    by_cases hpe : p e = true
    · refine ⟨[], e :: m, rfl, ?_, by simp, ?_⟩
      · simp [List.findIdx_cons, hpe]
      · intro x hx
        rcases List.mem_cons.mp hx with rfl | hx
        · exact hpe
        · exact hp _ _ (hlt x hx) hpe
    · obtain ⟨A, R, hAR, hidx, hA, hR⟩ := ih hm1
      refine ⟨e :: A, R, by simp [hAR], ?_, ?_, hR⟩
      · simp [List.findIdx_cons, hpe, hidx]
      · intro x hx
        rcases List.mem_cons.mp hx with rfl | hx
        · simpa using hpe
        · exact hA x hx

theorem findIdx_append_of_false (p : ℚ × T → Bool) (A R : Series T)
    (hA : ∀ e ∈ A, p e = false) : (A ++ R).findIdx p = A.length + R.findIdx p := by
  induction A with
  | nil => simp
  | cons a A ih =>
    have ha : p a = false := hA a (List.mem_cons_self _ _)
    have hA1 : ∀ e ∈ A, p e = false := fun e he => hA e (List.mem_cons_of_mem _ he)
    simp [List.findIdx_cons, ha, ih hA1]
    omega

/-- The split at `lower_bound`: keys below `x` before it, keys at least `x` from it on. -/
theorem lower_bound_split (m : Series T) (x : ℚ) (hm : KeysAscending m) :
    ∃ A R : Series T, m = A ++ R ∧ lower_bound m x = A.length ∧
      (∀ e ∈ A, e.1 < x) ∧ (∀ e ∈ R, x ≤ e.1) := by
  obtain ⟨A, R, hAR, hidx, hA, hR⟩ :=
    findIdx_split (fun e => decide (¬ e.1 < x)) m hm (by
      intro a b hab ha
      simp only [decide_eq_true_eq, not_lt] at ha ⊢
      exact le_of_lt (lt_of_le_of_lt ha hab))
  refine ⟨A, R, hAR, hidx, ?_, ?_⟩
  · intro e he
    have := hA e he
    simpa using this
  · intro e he
    have := hR e he
    simpa using this

/-- The split at `upper_bound`: keys at most `x` before it, keys above `x` from it on. -/
theorem upper_bound_split (m : Series T) (x : ℚ) (hm : KeysAscending m) :
    ∃ A R : Series T, m = A ++ R ∧ upper_bound m x = A.length ∧
      (∀ e ∈ A, e.1 ≤ x) ∧ (∀ e ∈ R, x < e.1) := by
  obtain ⟨A, R, hAR, hidx, hA, hR⟩ :=
    findIdx_split (fun e => decide (x < e.1)) m hm (by
      intro a b hab ha
      simp only [decide_eq_true_eq] at ha ⊢
      exact lt_trans ha hab)
  refine ⟨A, R, hAR, hidx, ?_, ?_⟩
  · intro e he
    have := hA e he
    simpa using this
  · intro e he
    have := hR e he
    simpa using this

/-- The scan window of an ascending map: for `lo ≤ hi` the map is the entries
below `lo`, then the entries of `[lo, hi]`, then the entries above `hi`, with
`lower_bound lo` and `upper_bound hi` at the two seams. -/
theorem window_split (m : Series T) (lo hi : ℚ) (hm : KeysAscending m) (hle : lo ≤ hi) :
    ∃ A W B : Series T, m = A ++ (W ++ B) ∧ lower_bound m lo = A.length ∧
      upper_bound m hi = A.length + W.length ∧
      (∀ e ∈ A, e.1 < lo) ∧ (∀ e ∈ W, lo ≤ e.1 ∧ e.1 ≤ hi) ∧ (∀ e ∈ B, hi < e.1) := by
  obtain ⟨A, R, hAR, hlo, hA, hR⟩ := lower_bound_split m lo hm
  have hRasc : KeysAscending R := by
    rw [hAR] at hm
    exact (keysAscending_append.mp hm).2.1
  obtain ⟨W, B, hWB, hhi, hW, hB⟩ := upper_bound_split R hi hRasc
  refine ⟨A, W, B, by rw [hAR, hWB], hlo, ?_, hA, ?_, hB⟩
  · have h1 : upper_bound m hi = A.length + upper_bound R hi := by
      unfold upper_bound
      rw [hAR]
      apply findIdx_append_of_false
      intro e he
      have := hA e he
      simp only [decide_eq_false_iff_not, not_lt]
      exact le_trans (le_of_lt this) hle
    rw [h1, hhi]
  · intro e he
    refine ⟨hR e ?_, hW e he⟩
    rw [hWB]
    exact List.mem_append_left _ he

/-! ## The overlap loop -/

theorem overlapLoop_at_last [DecidableEq T] (t : ℚ) (v : T) (o : OverlapOptions)
    (A B : Series T) :
    overlapLoop t v o A B A.length = LoopResult.completed (A ++ B) := by
  cases B <;> simp [overlapLoop]

theorem overlapLoop_cons [DecidableEq T] (t : ℚ) (v : T) (o : OverlapOptions)
    (passed : Series T) (e : ℚ × T) (rest : Series T) (last : Nat) :
    overlapLoop t v o passed (e :: rest) last =
      if passed.length = last then LoopResult.completed (passed ++ e :: rest)
      else if overlaps o.onlyLookForEqual v e = true then
        match o.overlapAction with
        | OverlapAction.SKIP => LoopResult.returned (passed ++ e :: rest)
        | OverlapAction.REPLACE =>
            overlapLoop t v o passed rest (if passed.length < last then last - 1 else last)
        | OverlapAction.REPLACE_IF_EARLIER =>
            if t < e.1 then
              overlapLoop t v o passed rest (if passed.length < last then last - 1 else last)
            else LoopResult.returned (passed ++ e :: rest)
        | OverlapAction.ADD => overlapLoop t v o (passed ++ [e]) rest last
      else overlapLoop t v o (passed ++ [e]) rest last := by
  rw [overlapLoop]
  rfl

/-- With `ADD` the loop runs to the end of the window and leaves the map alone. -/
theorem overlapLoop_add [DecidableEq T] (t : ℚ) (v : T) (o : OverlapOptions)
    (ho : o.overlapAction = OverlapAction.ADD) (W B : Series T) :
    ∀ A : Series T, overlapLoop t v o A (W ++ B) (A.length + W.length) =
      LoopResult.completed (A ++ (W ++ B)) := by
  induction W with
  | nil =>
    intro A
    simpa using overlapLoop_at_last t v o A B
  | cons e W ih =>
    intro A
    have hne : ¬ A.length = A.length + (W.length + 1) := by omega
    have h := ih (A ++ [e])
    have hlen : (A ++ [e]).length + W.length = A.length + (W.length + 1) := by
      simp
      omega
    rw [hlen] at h
    rw [List.cons_append, List.length_cons, overlapLoop_cons, if_neg hne, ho]
    simp only [ite_self]
    rw [h]
    simp

/-- With `SKIP` the loop returns at the first overlapping entry of the window and
otherwise runs to the end of the window; the map is not touched. -/
theorem overlapLoop_skip [DecidableEq T] (t : ℚ) (v : T) (o : OverlapOptions)
    (ho : o.overlapAction = OverlapAction.SKIP) (W B : Series T) :
    ∀ A : Series T, overlapLoop t v o A (W ++ B) (A.length + W.length) =
      if W.any (overlaps o.onlyLookForEqual v) then LoopResult.returned (A ++ (W ++ B))
      else LoopResult.completed (A ++ (W ++ B)) := by
  induction W with
  | nil =>
    intro A
    simpa using overlapLoop_at_last t v o A B
  | cons e W ih =>
    intro A
    have hne : ¬ A.length = A.length + (W.length + 1) := by omega
    rw [List.cons_append, List.length_cons, overlapLoop_cons]
    by_cases hov : overlaps o.onlyLookForEqual v e = true
    · simp [hne, ho, hov]
    · have h := ih (A ++ [e])
      have hlen : (A ++ [e]).length + W.length = A.length + (W.length + 1) := by
        simp
        omega
      rw [hlen] at h
      have hov0 : overlaps o.onlyLookForEqual v e = false := by simpa using hov
      rw [if_neg hne, if_neg hov, h, List.any_cons, hov0, Bool.false_or]
      simp

/-- With `REPLACE` the loop erases exactly the overlapping entries of the window. -/
theorem overlapLoop_replace [DecidableEq T] (t : ℚ) (v : T) (o : OverlapOptions)
    (ho : o.overlapAction = OverlapAction.REPLACE) (W B : Series T) :
    ∀ A : Series T, overlapLoop t v o A (W ++ B) (A.length + W.length) =
      LoopResult.completed
        (A ++ (W.filter (fun e => !overlaps o.onlyLookForEqual v e) ++ B)) := by
  induction W with
  | nil =>
    intro A
    simpa using overlapLoop_at_last t v o A B
  | cons e W ih =>
    intro A
    have hne : ¬ A.length = A.length + (W.length + 1) := by omega
    have hlt : A.length < A.length + (W.length + 1) := by omega
    rw [List.cons_append, List.length_cons, overlapLoop_cons]
    by_cases hov : overlaps o.onlyLookForEqual v e = true
    · have h := ih A
      have hs : A.length + (W.length + 1) - 1 = A.length + W.length := by omega
      rw [if_neg hne, if_pos hov, ho]
      simp only [if_pos hlt]
      rw [hs, h]
      simp [hov]
    · have h := ih (A ++ [e])
      have hlen : (A ++ [e]).length + W.length = A.length + (W.length + 1) := by
        simp
        omega
      rw [hlen] at h
      rw [if_neg hne, if_neg hov, h]
      simp [hov]

/-- With `REPLACE_IF_EARLIER`, when every overlapping entry of the window lies
after `t`, the loop erases exactly the overlapping entries of the window. -/
theorem overlapLoop_rie_later [DecidableEq T] (t : ℚ) (v : T) (o : OverlapOptions)
    (ho : o.overlapAction = OverlapAction.REPLACE_IF_EARLIER) (W B : Series T)
    (hW : ∀ e ∈ W, overlaps o.onlyLookForEqual v e = true → t < e.1) :
    ∀ A : Series T, overlapLoop t v o A (W ++ B) (A.length + W.length) =
      LoopResult.completed
        (A ++ (W.filter (fun e => !overlaps o.onlyLookForEqual v e) ++ B)) := by
  induction W with
  | nil =>
    intro A
    simpa using overlapLoop_at_last t v o A B
  | cons e W ih =>
    intro A
    have hW1 : ∀ x ∈ W, overlaps o.onlyLookForEqual v x = true → t < x.1 :=
      fun x hx => hW x (List.mem_cons_of_mem _ hx)
    have hne : ¬ A.length = A.length + (W.length + 1) := by omega
    have hlt : A.length < A.length + (W.length + 1) := by omega
    rw [List.cons_append, List.length_cons, overlapLoop_cons]
    by_cases hov : overlaps o.onlyLookForEqual v e = true
    · have hte : t < e.1 := hW e (List.mem_cons_self _ _) hov
      have h := ih hW1 A
      have hs : A.length + (W.length + 1) - 1 = A.length + W.length := by omega
      rw [if_neg hne, if_pos hov, ho]
      simp only [if_pos hlt, if_pos hte]
      rw [hs, h]
      simp [hov]
    · have h := ih hW1 (A ++ [e])
      have hlen : (A ++ [e]).length + W.length = A.length + (W.length + 1) := by
        simp
        omega
      rw [hlen] at h
      rw [if_neg hne, if_neg hov, h]
      simp [hov]

/-- With `REPLACE_IF_EARLIER`, when some overlapping entry of an ascending window
is not after `t`, the loop returns at the first overlapping entry without
touching the map. -/
theorem overlapLoop_rie_abort [DecidableEq T] (t : ℚ) (v : T) (o : OverlapOptions)
    (ho : o.overlapAction = OverlapAction.REPLACE_IF_EARLIER) (W B : Series T)
    (hasc : KeysAscending W)
    (hW : ∃ e ∈ W, overlaps o.onlyLookForEqual v e = true ∧ e.1 ≤ t) :
    ∀ A : Series T, overlapLoop t v o A (W ++ B) (A.length + W.length) =
      LoopResult.returned (A ++ (W ++ B)) := by
  induction W with
  | nil =>
    obtain ⟨e, he, _⟩ := hW
    simp at he
  | cons e W ih =>
    intro A
    obtain ⟨hlt, hasc1⟩ := keysAscending_cons.mp hasc
    have hne : ¬ A.length = A.length + (W.length + 1) := by omega
    rw [List.cons_append, List.length_cons, overlapLoop_cons]
    by_cases hov : overlaps o.onlyLookForEqual v e = true
    · have hte : ¬ t < e.1 := by
        obtain ⟨x, hx, _, hxt⟩ := hW
        rcases List.mem_cons.mp hx with rfl | hx
        · exact not_lt.mpr hxt
        · exact not_lt.mpr (le_trans (le_of_lt (hlt x hx)) hxt)
      rw [if_neg hne, if_pos hov, ho]
      simp only [if_neg hte]
    · have hW1 : ∃ x ∈ W, overlaps o.onlyLookForEqual v x = true ∧ x.1 ≤ t := by
        obtain ⟨x, hx, hxo, hxt⟩ := hW
        rcases List.mem_cons.mp hx with rfl | hx
        · exact absurd hxo hov
        · exact ⟨x, hx, hxo, hxt⟩
      have h := ih hasc1 hW1 (A ++ [e])
      have hlen : (A ++ [e]).length + W.length = A.length + (W.length + 1) := by
        simp
        omega
      rw [hlen] at h
      rw [if_neg hne, if_neg hov, h]
      simp

/-- Whatever the loop does, the map it leaves is the map it started from with
some entries erased. -/
theorem overlapLoop_sublist [DecidableEq T] (t : ℚ) (v : T) (o : OverlapOptions)
    (rest : Series T) :
    ∀ (passed : Series T) (last : Nat) (m1 : Series T),
      (overlapLoop t v o passed rest last = LoopResult.completed m1 ∨
        overlapLoop t v o passed rest last = LoopResult.returned m1) →
      m1.Sublist (passed ++ rest) := by
  induction rest with
  | nil =>
    intro passed last m1 h
    unfold overlapLoop at h
    split_ifs at h
    · simp at h
      subst h
      simp
    · simp at h
    · cases hact : o.overlapAction <;> simp [hact] at h
      subst h
      simp
  | cons e rest ih =>
    intro passed last m1 h
    have hsub : (passed ++ rest).Sublist (passed ++ e :: rest) :=
      List.Sublist.append_left (List.sublist_cons_self e rest) passed
    rw [overlapLoop_cons] at h
    by_cases h1 : passed.length = last
    · rw [if_pos h1] at h
      simp at h
      subst h
      exact List.Sublist.refl _
    · rw [if_neg h1] at h
      by_cases h2 : overlaps o.onlyLookForEqual v e = true
      · rw [if_pos h2] at h
        cases hact : o.overlapAction
        · rw [hact] at h
          simp at h
          subst h
          exact List.Sublist.refl _
        · rw [hact] at h
          exact (ih _ _ _ h).trans hsub
        · rw [hact] at h
          by_cases h3 : t < e.1
          · simp only [if_pos h3] at h
            exact (ih _ _ _ h).trans hsub
          · simp only [if_neg h3] at h
            simp at h
            subst h
            exact List.Sublist.refl _
        · rw [hact] at h
          have := ih _ _ _ h
          simpa using this
      · rw [if_neg h2] at h
        have := ih _ _ _ h
        simpa using this

/-! ## The collision loop and `emplace` -/

theorem jitterStep_pos : 0 < jitterStep := by
  unfold jitterStep
  norm_num

theorem contains_eq_true_iff (m : Series T) (k : ℚ) :
    contains m k = true ↔ ∃ e ∈ m, e.1 = k := by
  unfold contains
  simp

theorem contains_eq_false_iff (m : Series T) (k : ℚ) :
    contains m k = false ↔ ∀ e ∈ m, e.1 ≠ k := by
  unfold contains
  simp

/-- Stepping past an occupied key leaves strictly fewer entries at or after the key. -/
theorem length_filter_step_lt (m : Series T) (t : ℚ) (h : contains m t = true) :
    (m.filter (fun e => decide (t + jitterStep ≤ e.1))).length <
      (m.filter (fun e => decide (t ≤ e.1))).length := by
  have hmono : ∀ l : Series T, (l.filter (fun e => decide (t + jitterStep ≤ e.1))).length ≤
      (l.filter (fun e => decide (t ≤ e.1))).length := by
    intro l
    induction l with
    | nil => simp
    | cons a l ih =>
      by_cases h1 : t + jitterStep ≤ a.1
      · have h2 : t ≤ a.1 := le_trans (le_of_lt (lt_add_of_pos_right t jitterStep_pos)) h1
        simp [List.filter_cons, h1, h2, ih]
      · by_cases h2 : t ≤ a.1
        · simp [List.filter_cons, h1, h2]
          omega
        · simp [List.filter_cons, h1, h2, ih]
  induction m with
  | nil => simp [contains] at h
  | cons a m ih =>
    by_cases ha : a.1 = t
    · have h1 : ¬ t + jitterStep ≤ a.1 := by
        rw [ha]
        exact not_le.mpr (lt_add_of_pos_right t jitterStep_pos)
      have h2 : t ≤ a.1 := by rw [ha]
      have := hmono m
      simp [List.filter_cons, h1, h2]
      omega
    · have hm : contains m t = true := by
        obtain ⟨e, he, hek⟩ := (contains_eq_true_iff _ _).mp h
        rcases List.mem_cons.mp he with rfl | he
        · exact absurd hek ha
        · exact (contains_eq_true_iff _ _).mpr ⟨e, he, hek⟩
      have := ih hm
      by_cases h1 : t + jitterStep ≤ a.1
      · have h2 : t ≤ a.1 := le_trans (le_of_lt (lt_add_of_pos_right t jitterStep_pos)) h1
        simp [List.filter_cons, h1, h2]
        omega
      · by_cases h2 : t ≤ a.1
        · simp [List.filter_cons, h1, h2]
          omega
        · simp [List.filter_cons, h1, h2]
          omega

/-- The collision loop stops within as many iterations as there are entries at
or after the requested key, at the first key `t + k * 0.000001` that is free. -/
theorem jitterLoop_spec (m : Series T) :
    ∀ (fuel : Nat) (t : ℚ), (m.filter (fun e => decide (t ≤ e.1))).length < fuel →
      ∃ k : Nat, k ≤ (m.filter (fun e => decide (t ≤ e.1))).length ∧
        jitterLoop fuel m t = some (t + k * jitterStep) ∧
        contains m (t + k * jitterStep) = false ∧
        ∀ j : Nat, j < k → contains m (t + j * jitterStep) = true := by
  intro fuel
  induction fuel with
  | zero =>
    intro t h
    omega
  | succ fuel ih =>
    intro t h
    by_cases hc : contains m t = true
    · have hlt := length_filter_step_lt m t hc
      obtain ⟨k, hk, hres, hfree, hocc⟩ := ih (t + jitterStep) (by omega)
      have heq : t + jitterStep + (k : ℚ) * jitterStep = t + ((k + 1 : Nat) : ℚ) * jitterStep := by
        push_cast
        ring
      refine ⟨k + 1, by omega, ?_, ?_, ?_⟩
      · rw [jitterLoop, if_pos hc, hres, heq]
      · rw [← heq]
        exact hfree
      · intro j hj
        cases j with
        | zero => simpa using hc
        | succ j =>
          have := hocc j (by omega)
          have heq2 : t + jitterStep + (j : ℚ) * jitterStep =
              t + ((j + 1 : Nat) : ℚ) * jitterStep := by
            push_cast
            ring
          rw [← heq2]
          exact this
    · have hc0 : contains m t = false := by simpa using hc
      refine ⟨0, by omega, ?_, ?_, ?_⟩
      · rw [jitterLoop, if_neg hc]
        simp
      · simpa using hc0
      · intro j hj
        omega

theorem length_filter_le_length (m : Series T) (p : ℚ × T → Bool) :
    (m.filter p).length ≤ m.length :=
  List.length_filter_le p m

theorem mem_emplace (m : Series T) (k : ℚ) (v : T) :
    ∀ x ∈ emplace m k v, x = (k, v) ∨ x ∈ m := by
  induction m with
  | nil =>
    intro x hx
    simp [emplace] at hx
    exact Or.inl hx
  | cons e m ih =>
    intro x hx
    unfold emplace at hx
    split_ifs at hx
    · rcases List.mem_cons.mp hx with h | h
      · exact Or.inl h
      · exact Or.inr h
    · rcases List.mem_cons.mp hx with h | h
      · exact Or.inr (by rw [h]; exact List.mem_cons_self _ _)
      · rcases ih x h with h | h
        · exact Or.inl h
        · exact Or.inr (List.mem_cons_of_mem _ h)
    · exact Or.inr hx

/-- The call `emplace` keeps the keys ascending. -/
theorem emplace_keysAscending (m : Series T) (k : ℚ) (v : T) (hm : KeysAscending m) :
    KeysAscending (emplace m k v) := by
  induction m with
  | nil =>
    unfold emplace KeysAscending
    simp
  | cons e m ih =>
    obtain ⟨hlt, hm1⟩ := keysAscending_cons.mp hm
    unfold emplace
    split_ifs with h1 h2
    · refine keysAscending_cons.mpr ⟨?_, hm⟩
      intro x hx
      rcases List.mem_cons.mp hx with rfl | hx
      · exact h1
      · exact lt_trans h1 (hlt x hx)
    · refine keysAscending_cons.mpr ⟨?_, ih hm1⟩
      intro x hx
      rcases mem_emplace m k v x hx with rfl | hx
      · exact h2
      · exact hlt x hx
    · exact hm

/-- The call `emplace` never removes or overwrites an entry. -/
theorem emplace_sublist (m : Series T) (k : ℚ) (v : T) : m.Sublist (emplace m k v) := by
  induction m with
  | nil => simp
  | cons e m ih =>
    unfold emplace
    split_ifs
    · exact List.sublist_cons_self _ _
    · exact List.Sublist.cons₂ e ih
    · exact List.Sublist.refl _

/-- On a free key `emplace` adds exactly the new entry. -/
theorem emplace_perm (m : Series T) (k : ℚ) (v : T) (hfree : contains m k = false) :
    (emplace m k v).Perm ((k, v) :: m) := by
  induction m with
  | nil => simp [emplace]
  | cons e m ih =>
    have hne : e.1 ≠ k := (contains_eq_false_iff _ _).mp hfree e (List.mem_cons_self _ _)
    have hfree1 : contains m k = false :=
      (contains_eq_false_iff _ _).mpr
        (fun x hx => (contains_eq_false_iff _ _).mp hfree x (List.mem_cons_of_mem _ hx))
    unfold emplace
    split_ifs with h1 h2
    · exact List.Perm.refl _
    · exact ((ih hfree1).cons e).trans (List.Perm.swap _ _ _)
    · exact absurd (le_antisymm (not_lt.mp h1) (not_lt.mp h2)) hne

/-- After every key of the map, `emplace` appends. -/
theorem emplace_of_all_lt (m : Series T) (k : ℚ) (v : T) (h : ∀ e ∈ m, e.1 < k) :
    emplace m k v = m ++ [(k, v)] := by
  induction m with
  | nil => simp [emplace]
  | cons e m ih =>
    have he : e.1 < k := h e (List.mem_cons_self _ _)
    have h1 : ¬ k < e.1 := not_lt.mpr (le_of_lt he)
    unfold emplace
    rw [if_neg h1, if_pos he, ih (fun x hx => h x (List.mem_cons_of_mem _ hx))]
    simp

/-! ## `AddEvent` on an ascending map -/

/-- The loop call made by `AddEvent`, once the window is known. -/
theorem loopArgs_of_split (m A W B : Series T) (t r : ℚ)
    (hsplit : m = A ++ (W ++ B)) (hlo : lower_bound m (t - r) = A.length)
    (hhi : upper_bound m (t + r) = A.length + W.length) :
    m.take (GetRangeAroundInclusive m t r).first = A ∧
      m.drop (GetRangeAroundInclusive m t r).first = W ++ B ∧
      (GetRangeAroundInclusive m t r).last = A.length + W.length := by
  unfold GetRangeAroundInclusive GetRangeInclusive
  simp only
  rw [hlo, hhi]
  subst hsplit
  simp

/-- Filtering the window part of a split map. -/
theorem filter_window_of_split (A W B : Series T) (t r : ℚ) (q : ℚ × T → Bool)
    (hA : ∀ e ∈ A, e.1 < t - r) (hW : ∀ e ∈ W, t - r ≤ e.1 ∧ e.1 ≤ t + r)
    (hB : ∀ e ∈ B, t + r < e.1) :
    (A ++ (W ++ B)).filter (fun e => !(inWindow t r e && q e)) =
      A ++ (W.filter (fun e => !q e) ++ B) := by
  have h1 : A.filter (fun e => !(inWindow t r e && q e)) = A := by
    apply List.filter_eq_self.mpr
    intro e he
    have := hA e he
    simp [inWindow, not_le.mpr this]
  have h2 : B.filter (fun e => !(inWindow t r e && q e)) = B := by
    apply List.filter_eq_self.mpr
    intro e he
    have := hB e he
    simp [inWindow, not_le.mpr this]
  have h3 : W.filter (fun e => !(inWindow t r e && q e)) = W.filter (fun e => !q e) := by
    apply List.filter_congr
    intro e he
    have := hW e he
    simp [inWindow, this.1, this.2]
  rw [List.filter_append, List.filter_append, h1, h2, h3]

/-- The entries of the window part of a split map. -/
theorem filter_inWindow_of_split (A W B : Series T) (t r : ℚ) (q : ℚ × T → Bool)
    (hA : ∀ e ∈ A, e.1 < t - r) (hW : ∀ e ∈ W, t - r ≤ e.1 ∧ e.1 ≤ t + r)
    (hB : ∀ e ∈ B, t + r < e.1) :
    (A ++ (W ++ B)).filter (fun e => inWindow t r e && q e) = W.filter q := by
  have h1 : A.filter (fun e => inWindow t r e && q e) = [] := by
    apply List.filter_eq_nil_iff.mpr
    intro e he
    have := hA e he
    simp [inWindow, not_le.mpr this]
  have h2 : B.filter (fun e => inWindow t r e && q e) = [] := by
    apply List.filter_eq_nil_iff.mpr
    intro e he
    have := hB e he
    simp [inWindow, not_le.mpr this]
  have h3 : W.filter (fun e => inWindow t r e && q e) = W.filter q := by
    apply List.filter_congr
    intro e he
    have := hW e he
    simp [inWindow, this.1, this.2]
  rw [List.filter_append, List.filter_append, h1, h2, h3]
  simp

/-- An entry of a split map lies in the window exactly when it is in the window part. -/
theorem mem_window_of_split (A W B : Series T) (t r : ℚ)
    (hA : ∀ e ∈ A, e.1 < t - r) (hW : ∀ e ∈ W, t - r ≤ e.1 ∧ e.1 ≤ t + r)
    (hB : ∀ e ∈ B, t + r < e.1) (e : ℚ × T) :
    (e ∈ A ++ (W ++ B) ∧ inWindow t r e = true) ↔ e ∈ W := by
  constructor
  · rintro ⟨he, hwin⟩
    simp only [inWindow, Bool.and_eq_true, decide_eq_true_eq] at hwin
    rcases List.mem_append.mp he with h | h
    · exact absurd (hA e h) (not_lt.mpr hwin.1)
    · rcases List.mem_append.mp h with h | h
      · exact h
      · exact absurd (hB e h) (not_lt.mpr hwin.2)
  · intro he
    refine ⟨List.mem_append_right _ (List.mem_append_left _ he), ?_⟩
    have := hW e he
    simp [inWindow, this.1, this.2]

/-- What `AddEvent` does once the overlap loop has run to the end of the window
leaving the map `m1`: the collision loop finds the first free key
`t + k * 0.000001` within `m1.length` steps and the value is emplaced there. -/
theorem addEvent_of_completed [DecidableEq T] (fuel : Nat) (m m1 : Series T) (t : ℚ) (v : T)
    (o : OverlapOptions)
    (hloop : overlapLoop t v o (m.take (GetRangeAroundInclusive m t o.overlapRadiusMs).first)
      (m.drop (GetRangeAroundInclusive m t o.overlapRadiusMs).first)
      (GetRangeAroundInclusive m t o.overlapRadiusMs).last = LoopResult.completed m1)
    (hfuel : m1.length < fuel) :
    ∃ k : Nat, k ≤ m1.length ∧
      AddEvent fuel m t v o = Outcome.done (emplace m1 (t + k * jitterStep) v) ∧
      jitterLoop fuel m1 t = some (t + k * jitterStep) ∧
      contains m1 (t + k * jitterStep) = false ∧
      ∀ j : Nat, j < k → contains m1 (t + j * jitterStep) = true := by
  have hle := length_filter_le_length m1 (fun e => decide (t ≤ e.1))
  obtain ⟨k, hk, hres, hfree, hocc⟩ := jitterLoop_spec m1 fuel t (by omega)
  refine ⟨k, by omega, ?_, hres, hfree, hocc⟩
  unfold AddEvent
  simp only [hloop, hres]

/-- What `AddEvent` does once the overlap loop has returned early. -/
theorem addEvent_of_returned [DecidableEq T] (fuel : Nat) (m m1 : Series T) (t : ℚ) (v : T)
    (o : OverlapOptions)
    (hloop : overlapLoop t v o (m.take (GetRangeAroundInclusive m t o.overlapRadiusMs).first)
      (m.drop (GetRangeAroundInclusive m t o.overlapRadiusMs).first)
      (GetRangeAroundInclusive m t o.overlapRadiusMs).last = LoopResult.returned m1) :
    AddEvent fuel m t v o = Outcome.done m1 := by
  unfold AddEvent
  simp only [hloop]

/-- The overlap loop of `AddEvent` on an ascending map with a non-negative
radius: which entries the window holds and how the loop ends, per action. -/
theorem loop_of_ascending [DecidableEq T] (m : Series T) (t : ℚ) (v : T) (o : OverlapOptions)
    (hm : KeysAscending m) (hr : 0 ≤ o.overlapRadiusMs) :
    ∃ A W B : Series T, m = A ++ (W ++ B) ∧ KeysAscending W ∧
      (∀ e, (e ∈ m ∧ inWindow t o.overlapRadiusMs e = true) ↔ e ∈ W) ∧
      keptEntries t o.overlapRadiusMs o.onlyLookForEqual v m =
        A ++ (W.filter (fun e => !overlaps o.onlyLookForEqual v e) ++ B) ∧
      firstOverlap t o.overlapRadiusMs o.onlyLookForEqual v m =
        (W.filter (overlaps o.onlyLookForEqual v)).head? ∧
      overlapLoop t v o (m.take (GetRangeAroundInclusive m t o.overlapRadiusMs).first)
        (m.drop (GetRangeAroundInclusive m t o.overlapRadiusMs).first)
        (GetRangeAroundInclusive m t o.overlapRadiusMs).last =
          overlapLoop t v o A (W ++ B) (A.length + W.length) := by
  obtain ⟨A, W, B, hsplit, hlo, hhi, hA, hW, hB⟩ :=
    window_split m (t - o.overlapRadiusMs) (t + o.overlapRadiusMs) hm (by linarith)
  obtain ⟨h1, h2, h3⟩ := loopArgs_of_split m A W B t o.overlapRadiusMs hsplit hlo hhi
  refine ⟨A, W, B, hsplit, ?_, ?_, ?_, ?_, ?_⟩
  · rw [hsplit] at hm
    exact (keysAscending_append.mp (keysAscending_append.mp hm).2.1).1
  · intro e
    rw [hsplit]
    exact mem_window_of_split A W B t o.overlapRadiusMs hA hW hB e
  · unfold keptEntries
    rw [hsplit]
    exact filter_window_of_split A W B t o.overlapRadiusMs _ hA hW hB
  · unfold firstOverlap
    rw [hsplit, filter_inWindow_of_split A W B t o.overlapRadiusMs _ hA hW hB]
  · rw [h1, h2, h3]

theorem getElem?_before_seam (A : Series T) (p : ℚ × T) (R : Series T) :
    ((A ++ [p]) ++ R)[(A ++ [p]).length - 1]? = some p := by
  induction A with
  | nil => simp
  | cons a A ih => simpa using ih

theorem getElem?_at_seam (A : Series T) (n : ℚ × T) (R : Series T) :
    (A ++ n :: R)[A.length]? = some n := by
  induction A with
  | nil => simp
  | cons a A ih => simpa using ih

/-- In an ascending map an entry is determined by its key. -/
theorem eq_of_key_eq (m : Series T) (hm : KeysAscending m) (a b : ℚ × T) (ha : a ∈ m)
    (hb : b ∈ m) (hkey : a.1 = b.1) : a = b := by
  induction m with
  | nil => simp at ha
  | cons e m ih =>
    obtain ⟨hlt, hm1⟩ := keysAscending_cons.mp hm
    rcases List.mem_cons.mp ha with rfl | ha1
    · rcases List.mem_cons.mp hb with rfl | hb1
      · rfl
      · exact absurd hkey (ne_of_lt (hlt b hb1))
    · rcases List.mem_cons.mp hb with rfl | hb1
      · exact absurd hkey.symm (ne_of_lt (hlt a ha1))
      · exact ih hm1 ha1 hb1

/-- The last entry of an ascending map has the greatest key. -/
theorem le_last_of_ascending (A : Series T) (p : ℚ × T) (h : KeysAscending (A ++ [p])) :
    ∀ e ∈ A ++ [p], e.1 ≤ p.1 := by
  intro e he
  rcases List.mem_append.mp he with h1 | h1
  · exact le_of_lt ((keysAscending_append.mp h).2.2 e h1 p (by simp))
  · simp at h1
    rw [h1]

/-- The first entry of an ascending map has the least key. -/
theorem first_le_of_ascending (n : ℚ × T) (R : Series T) (h : KeysAscending (n :: R)) :
    ∀ e ∈ n :: R, n.1 ≤ e.1 := by
  intro e he
  rcases List.mem_cons.mp he with rfl | h1
  · exact le_refl _
  · exact le_of_lt ((keysAscending_cons.mp h).1 e h1)

/-- The two most-recent queries on an ascending map: `none` when every key is
after `t`, and otherwise the entry with the greatest key among those `≤ t`. -/
theorem mostRecent_of_ascending (m : Series T) (t : ℚ) (hm : KeysAscending m) :
    ((∀ e ∈ m, t < e.1) ∧ GetMostRecentTimeMs m t = none ∧ GetMostRecent m t = none) ∨
    (∃ p ∈ m, p.1 ≤ t ∧ (∀ e ∈ m, e.1 ≤ t → e.1 ≤ p.1) ∧
      GetMostRecentTimeMs m t = some p.1 ∧ GetMostRecent m t = some p) := by
  obtain ⟨A, R, hsplit, hidx, hA, hR⟩ := upper_bound_split m t hm
  rcases List.eq_nil_or_concat A with hnil | ⟨A1, p, hA1⟩
  · left
    subst hnil
    simp only [List.nil_append] at hsplit
    simp only [List.length_nil] at hidx
    refine ⟨?_, ?_, ?_⟩
    · rw [hsplit]
      exact hR
    · unfold GetMostRecentTimeMs
      simp [hidx]
    · unfold GetMostRecent
      simp [hidx]
  · right
    rw [List.concat_eq_append] at hA1
    subst hA1
    have hAasc : KeysAscending (A1 ++ [p]) := by
      rw [hsplit] at hm
      exact (keysAscending_append.mp hm).1
    have hne : ¬ (A1 ++ [p]).length = 0 := by simp
    have hget : m[(A1 ++ [p]).length - 1]? = some p := by
      rw [hsplit]
      exact getElem?_before_seam A1 p R
    refine ⟨p, ?_, hA p (by simp), ?_, ?_, ?_⟩
    · rw [hsplit]
      simp
    · intro e he het
      rw [hsplit] at he
      rcases List.mem_append.mp he with h1 | h1
      · exact le_last_of_ascending A1 p hAasc e h1
      · exact absurd (hR e h1) (not_lt.mpr het)
    · unfold GetMostRecentTimeMs
      simp only [hidx, if_neg hne, hget, Option.map_some']
    · unfold GetMostRecent
      simp only [hidx, if_neg hne, hget, Option.map_some']

theorem walk_window (W B : Series T) :
    ∀ i : Nat, walk (W ++ B) i (i + W.length) = some W := by
  induction W with
  | nil =>
    intro i
    cases B <;> simp [walk]
  | cons e W ih =>
    intro i
    have hne : ¬ i = i + (W.length + 1) := by omega
    have h := ih (i + 1)
    have hidx : i + 1 + W.length = i + (W.length + 1) := by omega
    rw [hidx] at h
    simp [walk, hne, h]

theorem filter_range_of_split (A W B : Series T) (lo hi : ℚ)
    (hA : ∀ e ∈ A, e.1 < lo) (hW : ∀ e ∈ W, lo ≤ e.1 ∧ e.1 ≤ hi) (hB : ∀ e ∈ B, hi < e.1) :
    (A ++ (W ++ B)).filter (fun e => decide (lo ≤ e.1 ∧ e.1 ≤ hi)) = W := by
  have h1 : A.filter (fun e => decide (lo ≤ e.1 ∧ e.1 ≤ hi)) = [] := by
    apply List.filter_eq_nil_iff.mpr
    intro e he
    have := hA e he
    simp [not_le.mpr this]
  have h2 : B.filter (fun e => decide (lo ≤ e.1 ∧ e.1 ≤ hi)) = [] := by
    apply List.filter_eq_nil_iff.mpr
    intro e he
    have := hB e he
    simp only [decide_eq_true_eq, not_and, not_le]
    intro _
    exact this
  have h3 : W.filter (fun e => decide (lo ≤ e.1 ∧ e.1 ≤ hi)) = W := by
    apply List.filter_eq_self.mpr
    intro e he
    have := hW e he
    simp [this.1, this.2]
  rw [List.filter_append, List.filter_append, h1, h2, h3]
  simp

/-- The closest-entry query on an ascending map, by where `lower_bound` falls. -/
theorem getClosest_of_split (A R : Series T) (t : ℚ)
    (hidx : lower_bound (A ++ R) t = A.length) :
    (A = [] → ∀ n R1, R = n :: R1 → GetClosest (A ++ R) t = some n) ∧
    (R = [] → ∀ A1 p, A = A1 ++ [p] → GetClosest (A ++ R) t = some p) ∧
    (∀ A1 p n R1, A = A1 ++ [p] → R = n :: R1 →
      GetClosest (A ++ R) t = if t - p.1 ≤ n.1 - t then some p else some n) := by
  refine ⟨?_, ?_, ?_⟩
  · intro hA n R1 hR
    subst hA hR
    unfold GetClosest
    simp only [List.nil_append, List.length_nil] at hidx ⊢
    simp [hidx]
  · intro hR A1 p hA
    subst hA hR
    unfold GetClosest
    have hget := getElem?_before_seam A1 p []
    simp only [List.append_nil] at hidx hget ⊢
    have hne : ¬ (A1 ++ [p]).length = 0 := by simp
    have hemp : (A1 ++ [p]).isEmpty = false := by
      cases A1 <;> rfl
    simp only [hemp, hidx, if_neg hne, if_true, hget]
    simp
  · intro A1 p n R1 hA hR
    subst hA hR
    unfold GetClosest
    have hprev := getElem?_before_seam A1 p (n :: R1)
    have hnext := getElem?_at_seam (A1 ++ [p]) n R1
    have hne : ¬ (A1 ++ [p]).length = 0 := by simp
    have hne2 : ¬ (A1 ++ [p]).length = (A1 ++ [p] ++ n :: R1).length := by
      simp
    have hemp : (A1 ++ [p] ++ n :: R1).isEmpty = false := by
      cases A1 <;> rfl
    simp only [hemp, hidx, if_neg hne, if_neg hne2, hprev, hnext]
    simp

/-! ## Loop outcomes on an ascending map, and repeated insertion at one timestamp -/

/-- On an ascending map with a non-negative radius, when no entry of the window
counts as overlapping, the loop runs to the end of the window and leaves the
map alone, whatever the action. -/
theorem overlapScan_of_no_overlap [DecidableEq T] (m : Series T) (t : ℚ) (v : T)
    (o : OverlapOptions) (hm : KeysAscending m) (hr : 0 ≤ o.overlapRadiusMs)
    (hno : ∀ e ∈ m, inWindow t o.overlapRadiusMs e = true →
      overlaps o.onlyLookForEqual v e = false) :
    overlapScan m t v o = LoopResult.completed m := by
  obtain ⟨A, W, B, hsplit, _, hmem, _, _, hloop⟩ := loop_of_ascending m t v o hm hr
  have hW : ∀ e ∈ W, overlaps o.onlyLookForEqual v e = false := by
    intro e he
    obtain ⟨hem, hwin⟩ := (hmem e).mpr he
    exact hno e hem hwin
  have hfilter : W.filter (fun e => !overlaps o.onlyLookForEqual v e) = W := by
    apply List.filter_eq_self.mpr
    intro e he
    simp [hW e he]
  unfold overlapScan
  rw [hloop]
  cases hact : o.overlapAction
  · rw [overlapLoop_skip t v o hact W B A]
    have hany : ¬ W.any (overlaps o.onlyLookForEqual v) = true := by
      intro h
      obtain ⟨e, he, hov⟩ := List.any_eq_true.mp h
      rw [hW e he] at hov
      exact Bool.false_ne_true hov
    rw [if_neg hany, ← hsplit]
  · rw [overlapLoop_replace t v o hact W B A, hfilter, ← hsplit]
  · rw [overlapLoop_rie_later t v o hact W B (by
      intro e he hov
      rw [hW e he] at hov
      exact absurd hov Bool.false_ne_true) A, hfilter, ← hsplit]
  · rw [overlapLoop_add t v o hact W B A, ← hsplit]

/-- On an ascending map with a non-negative radius the loop never runs past the
end of the map. -/
theorem overlapScan_total [DecidableEq T] (m : Series T) (t : ℚ) (v : T)
    (o : OverlapOptions) (hm : KeysAscending m) (hr : 0 ≤ o.overlapRadiusMs) :
    ∃ m1, overlapScan m t v o = LoopResult.returned m1 ∨
      overlapScan m t v o = LoopResult.completed m1 := by
  obtain ⟨A, W, B, _, hWasc, _, _, _, hloop⟩ := loop_of_ascending m t v o hm hr
  unfold overlapScan
  rw [hloop]
  cases hact : o.overlapAction
  · rw [overlapLoop_skip t v o hact W B A]
    by_cases hany : W.any (overlaps o.onlyLookForEqual v) = true
    · exact ⟨_, Or.inl (if_pos hany)⟩
    · exact ⟨_, Or.inr (if_neg hany)⟩
  · exact ⟨_, Or.inr (overlapLoop_replace t v o hact W B A)⟩
  · by_cases hex : ∃ e ∈ W, overlaps o.onlyLookForEqual v e = true ∧ e.1 ≤ t
    · exact ⟨_, Or.inl (overlapLoop_rie_abort t v o hact W B hWasc hex A)⟩
    · refine ⟨_, Or.inr (overlapLoop_rie_later t v o hact W B ?_ A)⟩
      intro e he hov
      by_contra hlt
      exact hex ⟨e, he, hov, not_lt.mp hlt⟩
  · exact ⟨_, Or.inr (overlapLoop_add t v o hact W B A)⟩

theorem addEvent_eq_of_scan [DecidableEq T] (fuel : Nat) (m : Series T) (t : ℚ) (v : T)
    (o : OverlapOptions) :
    AddEvent fuel m t v o =
      match overlapScan m t v o with
      | LoopResult.returned m1 => Outcome.done m1
      | LoopResult.pastEnd => Outcome.pastEnd
      | LoopResult.completed m1 =>
          match jitterLoop fuel m1 t with
          | none => Outcome.outOfFuel
          | some t1 => Outcome.done (emplace m1 t1 v) := by
  rfl

theorem staggered_cons (t : ℚ) (s : Nat) (v : T) (vs : List T) :
    staggered t s (v :: vs) = (t + s * jitterStep, v) :: staggered t (s + 1) vs := by
  rfl

theorem staggered_append (t : ℚ) (a b : List T) :
    ∀ s : Nat, staggered t s (a ++ b) = staggered t s a ++ staggered t (s + a.length) b := by
  induction a with
  | nil =>
    intro s
    simp [staggered]
  | cons x a ih =>
    intro s
    have : s + 1 + a.length = s + (a.length + 1) := by omega
    rw [List.cons_append, staggered_cons, staggered_cons, ih (s + 1), List.length_cons, this,
      List.cons_append]

theorem mem_staggered (t : ℚ) (vs : List T) :
    ∀ (s : Nat) (e : ℚ × T), e ∈ staggered t s vs →
      ∃ i : Nat, s ≤ i ∧ i < s + vs.length ∧ e.1 = t + i * jitterStep ∧ e.2 ∈ vs := by
  induction vs with
  | nil =>
    intro s e he
    simp [staggered] at he
  | cons x vs ih =>
    intro s e he
    simp only [staggered, List.mem_cons] at he
    rcases he with rfl | he
    · exact ⟨s, le_refl _, by simp, rfl, by simp⟩
    · obtain ⟨i, h1, h2, h3, h4⟩ := ih (s + 1) e he
      exact ⟨i, by omega, by simp only [List.length_cons]; omega, h3,
        List.mem_cons_of_mem _ h4⟩

theorem staggered_key_lt (t : ℚ) (i j : Nat) (h : i < j) :
    t + (i : ℚ) * jitterStep < t + (j : ℚ) * jitterStep := by
  have hij : (i : ℚ) < (j : ℚ) := by exact_mod_cast h
  have := mul_lt_mul_of_pos_right hij jitterStep_pos
  linarith

theorem staggered_key_inj (t : ℚ) (i j : Nat)
    (h : t + (i : ℚ) * jitterStep = t + (j : ℚ) * jitterStep) : i = j := by
  rcases Nat.lt_trichotomy i j with hlt | heq | hgt
  · exact absurd h (ne_of_lt (staggered_key_lt t i j hlt))
  · exact heq
  · exact absurd h.symm (ne_of_lt (staggered_key_lt t j i hgt))

theorem staggered_keysAscending (t : ℚ) (vs : List T) :
    ∀ s : Nat, KeysAscending (staggered t s vs) := by
  induction vs with
  | nil =>
    intro s
    simp [staggered, KeysAscending]
  | cons x vs ih =>
    intro s
    simp only [staggered]
    refine keysAscending_cons.mpr ⟨?_, ih (s + 1)⟩
    intro e he
    obtain ⟨i, h1, _, h3, _⟩ := mem_staggered t vs (s + 1) e he
    rw [h3]
    exact staggered_key_lt t s i (by omega)

theorem staggered_length (t : ℚ) (vs : List T) :
    ∀ s : Nat, (staggered t s vs).length = vs.length := by
  induction vs with
  | nil =>
    intro s
    simp [staggered]
  | cons x vs ih =>
    intro s
    simp [staggered, ih (s + 1)]

theorem staggered_values (t : ℚ) (vs : List T) :
    ∀ s : Nat, (staggered t s vs).map Prod.snd = vs := by
  induction vs with
  | nil =>
    intro s
    simp [staggered]
  | cons x vs ih =>
    intro s
    simp [staggered, ih (s + 1)]

theorem contains_staggered (t : ℚ) (vs : List T) :
    ∀ s j : Nat, contains (staggered t s vs) (t + j * jitterStep) = true ↔
      s ≤ j ∧ j < s + vs.length := by
  intro s j
  rw [contains_eq_true_iff]
  constructor
  · rintro ⟨e, he, hkey⟩
    obtain ⟨i, h1, h2, h3, _⟩ := mem_staggered t vs s e he
    rw [h3] at hkey
    have := staggered_key_inj t i j hkey
    omega
  · revert s
    induction vs with
    | nil =>
      intro s h
      simp at h
      omega
    | cons x vs ih =>
      intro s h
      by_cases hs : s = j
      · exact ⟨(t + s * jitterStep, x), by simp [staggered], by rw [hs]⟩
      · obtain ⟨e, he, hkey⟩ := ih (s + 1) ⟨by omega, by
          simp only [List.length_cons] at h
          omega⟩
        exact ⟨e, by simp [staggered, he], hkey⟩

/-- Adding a value that the map does not hold yet, at the timestamp `t`, with
radius 0 and the equality flag on, to the map holding earlier values at
`t, t + 0.000001, ...`: the value lands on the next staggered key. -/
theorem addEvent_staggered [DecidableEq T] (fuel : Nat) (t : ℚ) (action : OverlapAction)
    (pre : List T) (v : T) (hv : v ∉ pre) (hfuel : pre.length < fuel) :
    AddEvent fuel (staggered t 0 pre) t v ⟨0, true, action⟩ =
      Outcome.done (staggered t 0 (pre ++ [v])) := by
  have hasc := staggered_keysAscending t pre 0
  have hscan : overlapScan (staggered t 0 pre) t v ⟨0, true, action⟩ =
      LoopResult.completed (staggered t 0 pre) := by
    apply overlapScan_of_no_overlap _ _ _ _ hasc (le_refl _)
    intro e he _
    obtain ⟨_, _, _, _, h4⟩ := mem_staggered t pre 0 e he
    unfold overlaps
    simp only [Bool.not_true, Bool.false_or, decide_eq_false_iff_not]
    intro heq
    rw [heq] at h4
    exact hv h4
  have hlen := staggered_length t pre 0
  obtain ⟨k, _, hres, _, hfree, hocc⟩ :=
    addEvent_of_completed fuel (staggered t 0 pre) (staggered t 0 pre) t v
      ⟨0, true, action⟩ hscan (by omega)
  have hk : k = pre.length := by
    have h1 : ¬ k < pre.length := by
      intro hlt
      have := (contains_staggered t pre 0 k).mpr ⟨by omega, by omega⟩
      rw [hfree] at this
      exact Bool.false_ne_true this
    have h2 : ¬ pre.length < k := by
      intro hlt
      have := (contains_staggered t pre 0 pre.length).mp (hocc pre.length hlt)
      omega
    omega
  rw [hres, hk, staggered_append, emplace_of_all_lt]
  · simp [staggered]
  · intro e he
    obtain ⟨i, _, h2, h3, _⟩ := mem_staggered t pre 0 e he
    rw [h3]
    exact staggered_key_lt t i pre.length (by omega)

/-- Adding pairwise distinct values one after another at the same timestamp,
with radius 0 and the equality flag on, staggers them in insertion order. -/
theorem addAll_staggered [DecidableEq T] (fuel : Nat) (t : ℚ) (action : OverlapAction)
    (vs : List T) :
    ∀ pre : List T, (pre ++ vs).Nodup → (pre ++ vs).length ≤ fuel →
      addAll fuel t ⟨0, true, action⟩ vs (staggered t 0 pre) =
        Outcome.done (staggered t 0 (pre ++ vs)) := by
  induction vs with
  | nil =>
    intro pre _ _
    simp [addAll]
  | cons v vs ih =>
    intro pre hnd hfuel
    have hv : v ∉ pre := by
      intro hmem
      have := List.nodup_append.mp hnd
      exact this.2.2 hmem (List.mem_cons_self _ _)
    have hstep := addEvent_staggered fuel t action pre v hv (by
      simp only [List.length_append, List.length_cons] at hfuel
      omega)
    have hassoc : pre ++ v :: vs = (pre ++ [v]) ++ vs := by simp
    rw [addAll, hstep]
    simp only
    rw [hassoc] at hnd hfuel ⊢
    exact ih (pre ++ [v]) hnd hfuel

theorem keysAscending_nodup_keys (m : Series T) (hm : KeysAscending m) :
    (m.map Prod.fst).Nodup := by
  unfold KeysAscending at hm
  unfold List.Nodup
  rw [List.pairwise_map]
  exact hm.imp (fun h => ne_of_lt h)

theorem overlapScan_sublist [DecidableEq T] (m m1 : Series T) (t : ℚ) (v : T)
    (o : OverlapOptions)
    (h : overlapScan m t v o = LoopResult.completed m1 ∨
      overlapScan m t v o = LoopResult.returned m1) : m1.Sublist m := by
  unfold overlapScan at h
  have := overlapLoop_sublist t v o _ _ _ m1 h
  rwa [List.take_append_drop] at this

/-- Whenever `AddEvent` ends normally on an ascending map, the map it leaves is ascending. -/
theorem addEvent_keysAscending_of_done [DecidableEq T] (fuel : Nat) (m m2 : Series T) (t : ℚ)
    (v : T) (o : OverlapOptions) (hm : KeysAscending m)
    (h : AddEvent fuel m t v o = Outcome.done m2) : KeysAscending m2 := by
  rw [addEvent_eq_of_scan] at h
  cases hscan : overlapScan m t v o with
  | returned m1 =>
    rw [hscan] at h
    simp only [Outcome.done.injEq] at h
    rw [← h]
    exact keysAscending_sublist (overlapScan_sublist m m1 t v o (Or.inr hscan)) hm
  | pastEnd =>
    rw [hscan] at h
    simp at h
  | completed m1 =>
    simp only [hscan] at h
    have hm1 := keysAscending_sublist (overlapScan_sublist m m1 t v o (Or.inl hscan)) hm
    cases hj : jitterLoop fuel m1 t with
    | none =>
      simp [hj] at h
    | some t1 =>
      simp only [hj, Outcome.done.injEq] at h
      rw [← h]
      exact emplace_keysAscending m1 t1 v hm1

/-- On an ascending map, with a non-negative radius and enough fuel, `AddEvent` ends normally. -/
theorem addEvent_done_of_ascending [DecidableEq T] (fuel : Nat) (m : Series T) (t : ℚ)
    (v : T) (o : OverlapOptions) (hm : KeysAscending m) (hr : 0 ≤ o.overlapRadiusMs)
    (hfuel : m.length < fuel) : ∃ m2, AddEvent fuel m t v o = Outcome.done m2 := by
  obtain ⟨m1, h | h⟩ := overlapScan_total m t v o hm hr
  · exact ⟨m1, addEvent_of_returned fuel m m1 t v o h⟩
  · have hlen := (overlapScan_sublist m m1 t v o (Or.inl h)).length_le
    obtain ⟨k, _, hres, _⟩ := addEvent_of_completed fuel m m1 t v o h (by omega)
    exact ⟨_, hres⟩

/-- The number of iterations of the collision loop: when the keys
`t, ..., t + (k - 1) * 0.000001` are occupied and `t + k * 0.000001` is free, the
loop needs exactly `k + 1` evaluations of its condition. -/
theorem jitterLoop_exact (m : Series T) :
    ∀ (k : Nat) (t : ℚ), contains m (t + k * jitterStep) = false →
      (∀ j : Nat, j < k → contains m (t + j * jitterStep) = true) →
      jitterLoop (k + 1) m t = some (t + k * jitterStep) ∧ jitterLoop k m t = none := by
  intro k
  induction k with
  | zero =>
    intro t hfree _
    have h0 : contains m t = false := by simpa using hfree
    simp [jitterLoop, h0]
  | succ k ih =>
    intro t hfree hocc
    have h0 : contains m t = true := by simpa using hocc 0 (by omega)
    have heq : ∀ j : Nat, t + jitterStep + (j : ℚ) * jitterStep =
        t + ((j + 1 : Nat) : ℚ) * jitterStep := by
      intro j
      push_cast
      ring
    obtain ⟨h1, h2⟩ := ih (t + jitterStep) (by rw [heq]; exact hfree) (by
      intro j hj
      rw [heq]
      exact hocc (j + 1) (by omega))
    constructor
    · rw [jitterLoop, if_pos h0, h1, heq]
    · rw [jitterLoop, if_pos h0, h2]

/-- On an ascending map with a non-negative radius, the subrange around `t` is
empty exactly when no entry has its key in the window. -/
theorem rangeAround_empty_iff (m : Series T) (t r : ℚ) (hm : KeysAscending m) (hr : 0 ≤ r) :
    (GetRangeAroundInclusive m t r).empty = true ↔
      ¬ ∃ e ∈ m, t - r ≤ e.1 ∧ e.1 ≤ t + r := by
  obtain ⟨A, W, B, hsplit, hlo, hhi, hA, hW, hB⟩ :=
    window_split m (t - r) (t + r) hm (by linarith)
  have hmem := mem_window_of_split A W B t r hA hW hB
  unfold Subrange.empty GetRangeAroundInclusive GetRangeInclusive
  simp only [decide_eq_true_eq]
  rw [hlo, hhi]
  constructor
  · intro hlen
    have hWnil : W = [] := List.length_eq_zero.mp (by omega)
    rintro ⟨e, he, h1, h2⟩
    have : e ∈ W := (hmem e).mp ⟨hsplit ▸ he, by simp [inWindow, h1, h2]⟩
    rw [hWnil] at this
    simp at this
  · intro hno
    cases hWc : W with
    | nil => simp
    | cons w W1 =>
      exfalso
      apply hno
      have hw : w ∈ W := by
        rw [hWc]
        exact List.mem_cons_self _ _
      obtain ⟨hwm, _⟩ := (hmem w).mpr hw
      exact ⟨w, hsplit ▸ hwm, (hW w hw).1, (hW w hw).2⟩

/-! ## Without the equality filter -/

/-- On an ascending map with a non-negative radius and one of the three
enumerators as action, the overlap loop either returns early with the map
untouched or completes with the overlapping window entries erased. -/
theorem overlapScan_returned_or_kept [DecidableEq T] (m : Series T) (t : ℚ) (v : T)
    (o : OverlapOptions) (hm : KeysAscending m) (hr : 0 ≤ o.overlapRadiusMs)
    (hadd : o.overlapAction ≠ OverlapAction.ADD) :
    overlapScan m t v o = LoopResult.returned m ∨
      overlapScan m t v o =
        LoopResult.completed (keptEntries t o.overlapRadiusMs o.onlyLookForEqual v m) := by
  obtain ⟨A, W, B, hsplit, hWasc, _, hkept, _, hloop⟩ := loop_of_ascending m t v o hm hr
  unfold overlapScan
  rw [hloop, hkept]
  cases hact : o.overlapAction
  · rw [overlapLoop_skip t v o hact W B A]
    by_cases hany : W.any (overlaps o.onlyLookForEqual v) = true
    · left
      rw [if_pos hany, ← hsplit]
    · right
      rw [if_neg hany]
      have hfilter : W.filter (fun e => !overlaps o.onlyLookForEqual v e) = W := by
        apply List.filter_eq_self.mpr
        intro e he
        have : ¬ overlaps o.onlyLookForEqual v e = true := by
          intro hov
          exact hany (List.any_eq_true.mpr ⟨e, he, hov⟩)
        simpa using this
      rw [hfilter]
  · right
    exact overlapLoop_replace t v o hact W B A
  · by_cases hex : ∃ e ∈ W, overlaps o.onlyLookForEqual v e = true ∧ e.1 ≤ t
    · left
      rw [overlapLoop_rie_abort t v o hact W B hWasc hex A, ← hsplit]
    · right
      apply overlapLoop_rie_later t v o hact W B
      intro e he hov
      by_contra hlt
      exact hex ⟨e, he, hov, not_lt.mp hlt⟩
  · exact absurd hact hadd

/-- With the equality filter off and a non-negative radius, no kept entry has the key `t`. -/
theorem contains_keptEntries_flag_off [DecidableEq T] (m : Series T) (t r : ℚ) (v : T)
    (hr : 0 ≤ r) : contains (keptEntries t r false v m) t = false := by
  rw [contains_eq_false_iff]
  intro e he hkey
  unfold keptEntries at he
  rw [List.mem_filter] at he
  have hwin : inWindow t r e = true := by
    unfold inWindow
    rw [hkey]
    simp
    exact hr
  have hov : overlaps false v e = true := by
    unfold overlaps
    simp
  simp [hwin, hov] at he

/-- On a free key the collision loop stops at its first test. -/
theorem jitterLoop_of_free (fuel : Nat) (m : Series T) (t : ℚ) (hfuel : 0 < fuel)
    (hfree : contains m t = false) : jitterLoop fuel m t = some t := by
  obtain ⟨n, rfl⟩ : ∃ n, fuel = n + 1 := ⟨fuel - 1, by omega⟩
  rw [jitterLoop, hfree]
  simp

/-- With the equality filter off and a non-negative radius, `AddEvent` on an
ascending map ends with one unit of fuel: the map untouched, or `v` stored under
`t` next to the entries outside the window. -/
theorem addEvent_flag_off [DecidableEq T] (fuel : Nat) (m : Series T) (t : ℚ) (v : T) (r : ℚ)
    (action : OverlapAction) (hm : KeysAscending m) (hr : 0 ≤ r) (hfuel : 0 < fuel)
    (hadd : action ≠ OverlapAction.ADD) :
    (overlapScan m t v ⟨r, false, action⟩ = LoopResult.returned m ∧
        AddEvent fuel m t v ⟨r, false, action⟩ = Outcome.done m) ∨
      (overlapScan m t v ⟨r, false, action⟩ =
          LoopResult.completed (keptEntries t r false v m) ∧
        AddEvent fuel m t v ⟨r, false, action⟩ =
          Outcome.done (emplace (keptEntries t r false v m) t v)) := by
  rcases overlapScan_returned_or_kept m t v ⟨r, false, action⟩ hm hr hadd with h | h
  · left
    refine ⟨h, ?_⟩
    rw [addEvent_eq_of_scan]
    simp only [h]
  · right
    refine ⟨h, ?_⟩
    rw [addEvent_eq_of_scan]
    simp only [h, jitterLoop_of_free fuel _ t hfuel (contains_keptEntries_flag_off m t r v hr)]

/-! ## The positions the overlap loop visits -/

theorem overlapLoopTraced_cons [DecidableEq T] (t : ℚ) (v : T) (o : OverlapOptions)
    (passed : Series T) (e : ℚ × T) (rest : Series T) (last : Nat) :
    overlapLoopTraced t v o passed (e :: rest) last =
      if passed.length = last then (LoopResult.completed (passed ++ e :: rest), [])
      else if overlaps o.onlyLookForEqual v e = true then
        match o.overlapAction with
        | OverlapAction.SKIP => (LoopResult.returned (passed ++ e :: rest), [some e])
        | OverlapAction.REPLACE =>
            ((overlapLoopTraced t v o passed rest
                (if passed.length < last then last - 1 else last)).1,
              some e :: (overlapLoopTraced t v o passed rest
                (if passed.length < last then last - 1 else last)).2)
        | OverlapAction.REPLACE_IF_EARLIER =>
            if t < e.1 then
              ((overlapLoopTraced t v o passed rest
                  (if passed.length < last then last - 1 else last)).1,
                some e :: (overlapLoopTraced t v o passed rest
                  (if passed.length < last then last - 1 else last)).2)
            else (LoopResult.returned (passed ++ e :: rest), [some e])
        | OverlapAction.ADD =>
            ((overlapLoopTraced t v o (passed ++ [e]) rest last).1,
              some e :: (overlapLoopTraced t v o (passed ++ [e]) rest last).2)
      else
        ((overlapLoopTraced t v o (passed ++ [e]) rest last).1,
          some e :: (overlapLoopTraced t v o (passed ++ [e]) rest last).2) := by
  rw [overlapLoopTraced]
  rfl

/-- The traced loop computes the result of `overlapLoop`. -/
theorem overlapLoopTraced_fst [DecidableEq T] (t : ℚ) (v : T) (o : OverlapOptions)
    (rest : Series T) :
    ∀ (passed : Series T) (last : Nat),
      (overlapLoopTraced t v o passed rest last).1 = overlapLoop t v o passed rest last := by
  induction rest with
  | nil =>
    intro passed last
    unfold overlapLoopTraced overlapLoop
    split_ifs
    · rfl
    · rfl
    · cases o.overlapAction <;> rfl
  | cons e rest ih =>
    intro passed last
    rw [overlapLoopTraced_cons, overlapLoop_cons]
    by_cases h1 : passed.length = last
    · rw [if_pos h1, if_pos h1]
    · rw [if_neg h1, if_neg h1]
      by_cases h2 : overlaps o.onlyLookForEqual v e = true
      · rw [if_pos h2, if_pos h2]
        cases hact : o.overlapAction
        · rfl
        · exact ih _ _
        · by_cases h3 : t < e.1
          · simp only [if_pos h3]
            exact ih _ _
          · simp only [if_neg h3]
        · exact ih _ _
      · rw [if_neg h2, if_neg h2]
        exact ih _ _

/-- Over a window `W` that ends where the iterator range ends, the loop runs its
body on the entries of a prefix of `W`, in order, and on all of `W` when it runs
to completion; it never ends past the end of the map. -/
theorem overlapLoopTraced_window [DecidableEq T] (t : ℚ) (v : T) (o : OverlapOptions)
    (W B : Series T) :
    ∀ A : Series T, ∃ P : Series T, P <+: W ∧
      (overlapLoopTraced t v o A (W ++ B) (A.length + W.length)).2 = P.map some ∧
      (overlapLoopTraced t v o A (W ++ B) (A.length + W.length)).1 ≠ LoopResult.pastEnd ∧
      (∀ m1, (overlapLoopTraced t v o A (W ++ B) (A.length + W.length)).1 =
        LoopResult.completed m1 → P = W) := by
  induction W with
  | nil =>
    intro A
    refine ⟨[], List.prefix_refl _, ?_, ?_, ?_⟩
    · cases B <;> simp [overlapLoopTraced]
    · cases B <;> simp [overlapLoopTraced]
    · intro _ _
      rfl
  | cons e W ih =>
    intro A
    have hne : ¬ A.length = A.length + (W.length + 1) := by omega
    have hlt : A.length < A.length + (W.length + 1) := by omega
    have hs : A.length + (W.length + 1) - 1 = A.length + W.length := by omega
    have hlen : (A ++ [e]).length + W.length = A.length + (W.length + 1) := by
      simp
      omega
    rw [List.cons_append, List.length_cons, overlapLoopTraced_cons, if_neg hne]
    have hrec : ∀ A1 : Series T, ∃ P : Series T, P <+: e :: W ∧
        (some e :: (overlapLoopTraced t v o A1 (W ++ B) (A1.length + W.length)).2) =
          P.map some ∧
        (overlapLoopTraced t v o A1 (W ++ B) (A1.length + W.length)).1 ≠
          LoopResult.pastEnd ∧
        (∀ m1, (overlapLoopTraced t v o A1 (W ++ B) (A1.length + W.length)).1 =
          LoopResult.completed m1 → P = e :: W) := by
      intro A1
      obtain ⟨P, hP, htrace, hend, hall⟩ := ih A1
      refine ⟨e :: P, ?_, ?_, hend, ?_⟩
      · obtain ⟨S, hS⟩ := hP
        exact ⟨S, by rw [← hS]; rfl⟩
      · rw [htrace]
        rfl
      · intro m1 h
        rw [hall m1 h]
    have hstop : ∃ P : Series T, P <+: e :: W ∧
        ([some e] : List (Option (ℚ × T))) = P.map some ∧
        LoopResult.returned (A ++ e :: (W ++ B)) ≠ LoopResult.pastEnd ∧
        (∀ m1, LoopResult.returned (A ++ e :: (W ++ B)) = LoopResult.completed m1 →
          P = e :: W) := by
      refine ⟨[e], ⟨W, rfl⟩, rfl, by simp, ?_⟩
      intro m1 h
      simp at h
    by_cases hov : overlaps o.onlyLookForEqual v e = true
    · rw [if_pos hov]
      cases hact : o.overlapAction
      · exact hstop
      · simp only [if_pos hlt]
        rw [hs]
        exact hrec A
      · by_cases h3 : t < e.1
        · simp only [if_pos h3, if_pos hlt]
          rw [hs]
          exact hrec A
        · simp only [if_neg h3]
          exact hstop
      · have := hrec (A ++ [e])
        rw [hlen] at this
        exact this
    · rw [if_neg hov]
      have := hrec (A ++ [e])
      rw [hlen] at this
      exact this

/-- On an ascending map with a non-negative radius, the overlap loop of
`AddEvent` runs its body on the entries of a prefix of the window entries, in
ascending key order, and on every window entry when it runs to completion. -/
theorem scanVisits_of_ascending [DecidableEq T] (m : Series T) (t : ℚ) (v : T)
    (o : OverlapOptions) (hm : KeysAscending m) (hr : 0 ≤ o.overlapRadiusMs) :
    ∃ P : Series T, P <+: m.filter (inWindow t o.overlapRadiusMs) ∧
      scanVisits m t v o = P.map some ∧
      overlapScan m t v o ≠ LoopResult.pastEnd ∧
      (∀ m1, overlapScan m t v o = LoopResult.completed m1 →
        P = m.filter (inWindow t o.overlapRadiusMs)) := by
  obtain ⟨A, W, B, hsplit, hlo, hhi, hA, hW, hB⟩ :=
    window_split m (t - o.overlapRadiusMs) (t + o.overlapRadiusMs) hm (by linarith)
  obtain ⟨h1, h2, h3⟩ := loopArgs_of_split m A W B t o.overlapRadiusMs hsplit hlo hhi
  have hfilter : m.filter (inWindow t o.overlapRadiusMs) = W := by
    have := filter_inWindow_of_split A W B t o.overlapRadiusMs (fun _ => true) hA hW hB
    rw [hsplit]
    simpa using this
  obtain ⟨P, hP, htrace, hend, hall⟩ := overlapLoopTraced_window t v o W B A
  rw [overlapLoopTraced_fst] at hend hall
  unfold scanVisits overlapScan
  rw [h1, h2, h3, hfilter]
  exact ⟨P, hP, htrace, hend, hall⟩

/-! ## The closest entry with rounded distances -/

/-- With exact arithmetic the rounded `GetClosest` is `GetClosest`. -/
theorem rounded_getClosest_id (m : Series T) (t : ℚ) :
    Rounded.GetClosest (fun x => x) m t = GetClosest m t := rfl

/-- The three cases of the rounded `GetClosest`, with the map split at
`lower_bound(timeMs)`. -/
theorem rounded_getClosest_of_split (fl : ℚ → ℚ) (A R : Series T) (t : ℚ)
    (hidx : lower_bound (A ++ R) t = A.length) :
    (A = [] → ∀ n R1, R = n :: R1 → Rounded.GetClosest fl (A ++ R) t = some n) ∧
    (R = [] → ∀ A1 p, A = A1 ++ [p] → Rounded.GetClosest fl (A ++ R) t = some p) ∧
    (∀ A1 p n R1, A = A1 ++ [p] → R = n :: R1 →
      Rounded.GetClosest fl (A ++ R) t =
        if fl (t - p.1) ≤ fl (n.1 - t) then some p else some n) := by
  refine ⟨?_, ?_, ?_⟩
  · intro hA n R1 hR
    subst hA hR
    unfold Rounded.GetClosest
    simp only [List.nil_append, List.length_nil] at hidx ⊢
    simp [hidx]
  · intro hR A1 p hA
    subst hA hR
    unfold Rounded.GetClosest
    have hget := getElem?_before_seam A1 p []
    simp only [List.append_nil] at hidx hget ⊢
    have hne : ¬ (A1 ++ [p]).length = 0 := by simp
    have hemp : (A1 ++ [p]).isEmpty = false := by
      cases A1 <;> rfl
    simp only [hemp, hidx, if_neg hne, if_true, hget]
    simp
  · intro A1 p n R1 hA hR
    subst hA hR
    unfold Rounded.GetClosest
    have hprev := getElem?_before_seam A1 p (n :: R1)
    have hnext := getElem?_at_seam (A1 ++ [p]) n R1
    have hne : ¬ (A1 ++ [p]).length = 0 := by simp
    have hne2 : ¬ (A1 ++ [p]).length = (A1 ++ [p] ++ n :: R1).length := by
      simp
    have hemp : (A1 ++ [p] ++ n :: R1).isEmpty = false := by
      cases A1 <;> rfl
    simp only [hemp, hidx, if_neg hne, if_neg hne2, hprev, hnext]
    simp

/-- The rounded `GetClosest` on a non-empty ascending map: the entry it returns
has the least rounded distance, and the lower key on an exact tie. -/
theorem rounded_getClosest_spec (fl : ℚ → ℚ) (hfl : Monotone fl) (m : Series T) (t : ℚ)
    (hm : KeysAscending m) (hne : m ≠ []) :
    ∃ p ∈ m, Rounded.GetClosest fl m t = some p ∧
      (∀ e ∈ m, fl |p.1 - t| ≤ fl |e.1 - t|) ∧
      (∀ e ∈ m, |e.1 - t| = |p.1 - t| → p.1 ≤ e.1) := by
  obtain ⟨A, R, hsplit, hidx, hA, hR⟩ := lower_bound_split m t hm
  subst hsplit
  obtain ⟨hAasc, hRasc, _⟩ := keysAscending_append.mp hm
  obtain ⟨hcase1, hcase2, hcase3⟩ := rounded_getClosest_of_split fl A R t hidx
  have habsA : ∀ e ∈ A, |e.1 - t| = t - e.1 := by
    intro e he
    rw [abs_of_neg (by linarith [hA e he])]
    ring
  have habsR : ∀ e ∈ R, |e.1 - t| = e.1 - t := by
    intro e he
    exact abs_of_nonneg (by linarith [hR e he])
  rcases List.eq_nil_or_concat A with hnil | ⟨A1, p, hA1⟩
  · subst hnil
    cases R with
    | nil => exact absurd rfl hne
    | cons n R1 =>
      have hmin := first_le_of_ascending n R1 hRasc
      have hn : n ∈ n :: R1 := List.mem_cons_self _ _
      refine ⟨n, List.mem_append_right _ hn, hcase1 rfl n R1 rfl, ?_, ?_⟩
      · intro e he
        simp only [List.nil_append] at he
        rw [habsR n hn, habsR e he]
        have := hmin e he
        exact hfl (by linarith)
      · intro e he _
        simp only [List.nil_append] at he
        exact hmin e he
  · rw [List.concat_eq_append] at hA1
    subst hA1
    have hmax := le_last_of_ascending A1 p hAasc
    have hp : p ∈ A1 ++ [p] := by simp
    cases R with
    | nil =>
      refine ⟨p, List.mem_append_left _ hp, hcase2 rfl A1 p rfl, ?_, ?_⟩
      · intro e he
        simp only [List.append_nil] at he
        rw [habsA p hp, habsA e he]
        have := hmax e he
        exact hfl (by linarith)
      · intro e he heq
        simp only [List.append_nil] at he
        rw [habsA p hp, habsA e he] at heq
        linarith
    | cons n R1 =>
      have hmin := first_le_of_ascending n R1 hRasc
      have hn : n ∈ n :: R1 := List.mem_cons_self _ _
      have hres := hcase3 A1 p n R1 rfl rfl
      by_cases hd : fl (t - p.1) ≤ fl (n.1 - t)
      · rw [if_pos hd] at hres
        refine ⟨p, List.mem_append_left _ hp, hres, ?_, ?_⟩
        · intro e he
          rw [habsA p hp]
          rcases List.mem_append.mp he with h1 | h1
          · rw [habsA e h1]
            have := hmax e h1
            exact hfl (by linarith)
          · rw [habsR e h1]
            have := hmin e h1
            exact le_trans hd (hfl (by linarith))
        · intro e he heq
          rcases List.mem_append.mp he with h1 | h1
          · rw [habsA p hp, habsA e h1] at heq
            linarith
          · have h2 := hR e h1
            have h3 := hA p hp
            linarith
      · rw [if_neg hd] at hres
        have hd1 : fl (n.1 - t) < fl (t - p.1) := not_le.mp hd
        refine ⟨n, List.mem_append_right _ hn, hres, ?_, ?_⟩
        · intro e he
          rw [habsR n hn]
          rcases List.mem_append.mp he with h1 | h1
          · rw [habsA e h1]
            have := hmax e h1
            exact le_trans (le_of_lt hd1) (hfl (by linarith))
          · rw [habsR e h1]
            have := hmin e h1
            exact hfl (by linarith)
        · intro e he heq
          rcases List.mem_append.mp he with h1 | h1
          · exfalso
            rw [habsR n hn, habsA e h1] at heq
            have h2 := hmax e h1
            have h3 : fl (t - p.1) ≤ fl (n.1 - t) := hfl (by linarith)
            exact hd h3
          · exact hmin e h1

/-! ## `AddEvent` with rounded arithmetic -/

/-- With exact arithmetic the rounded subrange is the subrange. -/
theorem rounded_getRangeAroundInclusive_id (m : Series T) (t r : ℚ) :
    Rounded.GetRangeAroundInclusive (fun x => x) m t r = GetRangeAroundInclusive m t r := rfl

/-- With exact arithmetic the rounded collision loop is the collision loop. -/
theorem rounded_jitterLoop_id (m : Series T) :
    ∀ (fuel : Nat) (t : ℚ), Rounded.jitterLoop (fun x => x) fuel m t = jitterLoop fuel m t := by
  intro fuel
  induction fuel with
  | zero =>
    intro t
    rfl
  | succ fuel ih =>
    intro t
    rw [Rounded.jitterLoop, jitterLoop, ih]

/-- With exact arithmetic the rounded `AddEvent` is `AddEvent`. -/
theorem rounded_addEvent_id [DecidableEq T] (fuel : Nat) (m : Series T) (t : ℚ) (v : T)
    (o : OverlapOptions) :
    Rounded.AddEvent (fun x => x) fuel m t v o = AddEvent fuel m t v o := by
  unfold Rounded.AddEvent AddEvent
  simp only [rounded_getRangeAroundInclusive_id, rounded_jitterLoop_id]

/-- With exact arithmetic the rounded repeated insertion is the repeated insertion. -/
theorem rounded_addAll_id [DecidableEq T] (fuel : Nat) (t : ℚ) (o : OverlapOptions)
    (vs : List T) :
    ∀ m : Series T, Rounded.addAll (fun x => x) fuel t o vs m = addAll fuel t o vs m := by
  induction vs with
  | nil =>
    intro m
    rfl
  | cons v vs ih =>
    intro m
    rw [Rounded.addAll, addAll, rounded_addEvent_id]
    cases AddEvent fuel m t v o with
    | done m1 => exact ih m1
    | pastEnd => rfl
    | outOfFuel => rfl

/-- The keys the collision loop reaches from the key after one step. -/
theorem jitterKey_shift (fl : ℚ → ℚ) (t : ℚ) :
    ∀ k : Nat, Rounded.jitterKey fl (fl (t + fl jitterStep)) k = Rounded.jitterKey fl t (k + 1) := by
  intro k
  induction k with
  | zero => rfl
  | succ k ih =>
    rw [Rounded.jitterKey, ih]
    rfl

/-- With exact arithmetic the key after `k` steps is `t + k * 0.000001`. -/
theorem jitterKey_id (t : ℚ) :
    ∀ k : Nat, Rounded.jitterKey (fun x => x) t k = t + k * jitterStep := by
  intro k
  induction k with
  | zero => simp [Rounded.jitterKey]
  | succ k ih =>
    rw [Rounded.jitterKey, ih]
    push_cast
    ring

theorem length_filter_lt_of_lt (m : Series T) (t t1 : ℚ) (hlt : t < t1)
    (h : contains m t = true) :
    (m.filter (fun e => decide (t1 ≤ e.1))).length <
      (m.filter (fun e => decide (t ≤ e.1))).length := by
  have hmono : ∀ l : Series T, (l.filter (fun e => decide (t1 ≤ e.1))).length ≤
      (l.filter (fun e => decide (t ≤ e.1))).length := by
    intro l
    induction l with
    | nil => simp
    | cons a l ih =>
      by_cases h1 : t1 ≤ a.1
      · have h2 : t ≤ a.1 := le_trans (le_of_lt hlt) h1
        simp [List.filter_cons, h1, h2, ih]
      · by_cases h2 : t ≤ a.1
        · simp [List.filter_cons, h1, h2]
          omega
        · simp [List.filter_cons, h1, h2, ih]
  induction m with
  | nil => simp [contains] at h
  | cons a m ih =>
    by_cases ha : a.1 = t
    · have h1 : ¬ t1 ≤ a.1 := by
        rw [ha]
        exact not_le.mpr hlt
      have h2 : t ≤ a.1 := by rw [ha]
      have := hmono m
      simp [List.filter_cons, h1, h2]
      omega
    · have hm : contains m t = true := by
        obtain ⟨e, he, hek⟩ := (contains_eq_true_iff _ _).mp h
        rcases List.mem_cons.mp he with rfl | he
        · exact absurd hek ha
        · exact (contains_eq_true_iff _ _).mpr ⟨e, he, hek⟩
      have := ih hm
      by_cases h1 : t1 ≤ a.1
      · have h2 : t ≤ a.1 := le_trans (le_of_lt hlt) h1
        simp [List.filter_cons, h1, h2]
        omega
      · by_cases h2 : t ≤ a.1
        · simp [List.filter_cons, h1, h2]
          omega
        · simp [List.filter_cons, h1, h2]
          omega

/-- The rounded collision loop stops within as many iterations as there are
entries at or after the requested key, at the first key it reaches that is
free, provided each of those steps yields a larger key. -/
theorem rounded_jitterLoop_spec (fl : ℚ → ℚ) (m : Series T) :
    ∀ (fuel : Nat) (t : ℚ), (m.filter (fun e => decide (t ≤ e.1))).length < fuel →
      (∀ k, k < (m.filter (fun e => decide (t ≤ e.1))).length →
        Rounded.jitterKey fl t k < Rounded.jitterKey fl t (k + 1)) →
      ∃ k : Nat, k ≤ (m.filter (fun e => decide (t ≤ e.1))).length ∧
        Rounded.jitterLoop fl fuel m t = some (Rounded.jitterKey fl t k) ∧
        contains m (Rounded.jitterKey fl t k) = false ∧
        ∀ j : Nat, j < k → contains m (Rounded.jitterKey fl t j) = true := by
  intro fuel
  induction fuel with
  | zero =>
    intro t h
    omega
  | succ fuel ih =>
    intro t h hstep
    by_cases hc : contains m t = true
    · have hpos : 0 < (m.filter (fun e => decide (t ≤ e.1))).length := by
        obtain ⟨e, he, hek⟩ := (contains_eq_true_iff _ _).mp hc
        apply List.length_pos_of_mem (a := e)
        rw [List.mem_filter]
        exact ⟨he, by simp [hek]⟩
      have h01 : t < fl (t + fl jitterStep) := hstep 0 hpos
      have hlt := length_filter_lt_of_lt m t (fl (t + fl jitterStep)) h01 hc
      obtain ⟨k, hk, hres, hfree, hocc⟩ := ih (fl (t + fl jitterStep)) (by omega) (by
        intro k hk
        rw [jitterKey_shift, jitterKey_shift]
        exact hstep (k + 1) (by omega))
      refine ⟨k + 1, by omega, ?_, ?_, ?_⟩
      · rw [Rounded.jitterLoop, if_pos hc, hres, jitterKey_shift]
      · rw [← jitterKey_shift]
        exact hfree
      · intro j hj
        cases j with
        | zero => exact hc
        | succ j =>
          have := hocc j (by omega)
          rw [← jitterKey_shift]
          exact this
    · have hc0 : contains m t = false := by simpa using hc
      refine ⟨0, by omega, ?_, ?_, ?_⟩
      · rw [Rounded.jitterLoop, if_neg hc]
        rfl
      · exact hc0
      · intro j hj
        omega

/-- The number of iterations of the rounded collision loop: when the first `k`
keys it reaches are occupied and the next one is free, any fuel above `k` gives
that key. -/
theorem rounded_jitterLoop_exact (fl : ℚ → ℚ) (m : Series T) :
    ∀ (k : Nat) (t : ℚ), contains m (Rounded.jitterKey fl t k) = false →
      (∀ j : Nat, j < k → contains m (Rounded.jitterKey fl t j) = true) →
      ∀ fuel : Nat, k < fuel →
        Rounded.jitterLoop fl fuel m t = some (Rounded.jitterKey fl t k) := by
  intro k
  induction k with
  | zero =>
    intro t hfree _ fuel hfuel
    obtain ⟨f, rfl⟩ : ∃ f, fuel = f + 1 := ⟨fuel - 1, by omega⟩
    have h0 : ¬ contains m t = true := by
      intro h
      rw [show Rounded.jitterKey fl t 0 = t from rfl, h] at hfree
      exact Bool.noConfusion hfree
    rw [Rounded.jitterLoop, if_neg h0]
    rfl
  | succ k ih =>
    intro t hfree hocc fuel hfuel
    obtain ⟨f, rfl⟩ : ∃ f, fuel = f + 1 := ⟨fuel - 1, by omega⟩
    have h0 : contains m t = true := hocc 0 (by omega)
    rw [Rounded.jitterLoop, if_pos h0, ← jitterKey_shift]
    apply ih
    · rw [jitterKey_shift]
      exact hfree
    · intro j hj
      rw [jitterKey_shift]
      exact hocc (j + 1) (by omega)
    · omega

/-- A collision at a key that the addition of `0.000001` does not change: the
rounded collision loop uses up any fuel. -/
theorem rounded_jitterLoop_stuck (fl : ℚ → ℚ) (m : Series T) (t : ℚ)
    (hc : contains m t = true) (hfix : fl (t + fl jitterStep) = t) :
    ∀ fuel : Nat, Rounded.jitterLoop fl fuel m t = none := by
  intro fuel
  induction fuel with
  | zero => rfl
  | succ fuel ih => rw [Rounded.jitterLoop, if_pos hc, hfix, ih]

/-- The rounded collision loop started on a free key stops there. -/
theorem rounded_jitterLoop_of_free (fl : ℚ → ℚ) (fuel : Nat) (m : Series T) (t : ℚ)
    (hfuel : 0 < fuel) (hfree : contains m t = false) :
    Rounded.jitterLoop fl fuel m t = some t :=
  rounded_jitterLoop_exact fl m 0 t hfree (by
    intro j hj
    omega) fuel hfuel

/-- The loop call made by the rounded `AddEvent` on an ascending map whose window
bounds are in order. -/
theorem rounded_loop_of_ascending [DecidableEq T] (fl : ℚ → ℚ) (m : Series T) (t : ℚ) (v : T)
    (o : OverlapOptions) (hm : KeysAscending m)
    (hle : fl (t - o.overlapRadiusMs) ≤ fl (t + o.overlapRadiusMs)) :
    ∃ A W B : Series T, m = A ++ (W ++ B) ∧ KeysAscending W ∧
      (∀ e ∈ A, e.1 < fl (t - o.overlapRadiusMs)) ∧
      (∀ e ∈ W, fl (t - o.overlapRadiusMs) ≤ e.1 ∧ e.1 ≤ fl (t + o.overlapRadiusMs)) ∧
      (∀ e ∈ B, fl (t + o.overlapRadiusMs) < e.1) ∧
      Rounded.overlapScan fl m t v o = overlapLoop t v o A (W ++ B) (A.length + W.length) := by
  obtain ⟨A, W, B, hsplit, hlo, hhi, hA, hW, hB⟩ :=
    window_split m (fl (t - o.overlapRadiusMs)) (fl (t + o.overlapRadiusMs)) hm hle
  refine ⟨A, W, B, hsplit, ?_, hA, hW, hB, ?_⟩
  · rw [hsplit] at hm
    exact (keysAscending_append.mp (keysAscending_append.mp hm).2.1).1
  · unfold Rounded.overlapScan Rounded.GetRangeAroundInclusive GetRangeInclusive
    simp only
    rw [hlo, hhi]
    subst hsplit
    simp

/-- On an ascending map whose window bounds are in order the rounded loop never
runs past the end of the map. -/
theorem rounded_overlapScan_total [DecidableEq T] (fl : ℚ → ℚ) (m : Series T) (t : ℚ) (v : T)
    (o : OverlapOptions) (hm : KeysAscending m)
    (hle : fl (t - o.overlapRadiusMs) ≤ fl (t + o.overlapRadiusMs)) :
    ∃ m1, Rounded.overlapScan fl m t v o = LoopResult.returned m1 ∨
      Rounded.overlapScan fl m t v o = LoopResult.completed m1 := by
  obtain ⟨A, W, B, _, hWasc, _, _, _, hloop⟩ := rounded_loop_of_ascending fl m t v o hm hle
  rw [hloop]
  cases hact : o.overlapAction
  · rw [overlapLoop_skip t v o hact W B A]
    by_cases hany : W.any (overlaps o.onlyLookForEqual v) = true
    · exact ⟨_, Or.inl (if_pos hany)⟩
    · exact ⟨_, Or.inr (if_neg hany)⟩
  · exact ⟨_, Or.inr (overlapLoop_replace t v o hact W B A)⟩
  · by_cases hex : ∃ e ∈ W, overlaps o.onlyLookForEqual v e = true ∧ e.1 ≤ t
    · exact ⟨_, Or.inl (overlapLoop_rie_abort t v o hact W B hWasc hex A)⟩
    · refine ⟨_, Or.inr (overlapLoop_rie_later t v o hact W B ?_ A)⟩
      intro e he hov
      by_contra hlt
      exact hex ⟨e, he, hov, not_lt.mp hlt⟩
  · exact ⟨_, Or.inr (overlapLoop_add t v o hact W B A)⟩

theorem rounded_addEvent_eq_of_scan [DecidableEq T] (fl : ℚ → ℚ) (fuel : Nat) (m : Series T)
    (t : ℚ) (v : T) (o : OverlapOptions) :
    Rounded.AddEvent fl fuel m t v o =
      match Rounded.overlapScan fl m t v o with
      | LoopResult.returned m1 => Outcome.done m1
      | LoopResult.pastEnd => Outcome.pastEnd
      | LoopResult.completed m1 =>
          match Rounded.jitterLoop fl fuel m1 t with
          | none => Outcome.outOfFuel
          | some t1 => Outcome.done (emplace m1 t1 v) := by
  rfl

theorem rounded_overlapScan_sublist [DecidableEq T] (fl : ℚ → ℚ) (m m1 : Series T) (t : ℚ)
    (v : T) (o : OverlapOptions)
    (h : Rounded.overlapScan fl m t v o = LoopResult.completed m1 ∨
      Rounded.overlapScan fl m t v o = LoopResult.returned m1) : m1.Sublist m := by
  unfold Rounded.overlapScan at h
  have := overlapLoop_sublist t v o _ _ _ m1 h
  rwa [List.take_append_drop] at this

/-- Whenever the rounded `AddEvent` ends normally on an ascending map, the map it
leaves is ascending. -/
theorem rounded_addEvent_keysAscending_of_done [DecidableEq T] (fl : ℚ → ℚ) (fuel : Nat)
    (m m2 : Series T) (t : ℚ) (v : T) (o : OverlapOptions) (hm : KeysAscending m)
    (h : Rounded.AddEvent fl fuel m t v o = Outcome.done m2) : KeysAscending m2 := by
  rw [rounded_addEvent_eq_of_scan] at h
  cases hscan : Rounded.overlapScan fl m t v o with
  | returned m1 =>
    rw [hscan] at h
    simp only [Outcome.done.injEq] at h
    rw [← h]
    exact keysAscending_sublist (rounded_overlapScan_sublist fl m m1 t v o (Or.inr hscan)) hm
  | pastEnd =>
    rw [hscan] at h
    simp at h
  | completed m1 =>
    simp only [hscan] at h
    have hm1 :=
      keysAscending_sublist (rounded_overlapScan_sublist fl m m1 t v o (Or.inl hscan)) hm
    cases hj : Rounded.jitterLoop fl fuel m1 t with
    | none =>
      simp [hj] at h
    | some t1 =>
      simp only [hj, Outcome.done.injEq] at h
      rw [← h]
      exact emplace_keysAscending m1 t1 v hm1

/-- On an ascending map whose window bounds are in order the rounded `AddEvent`
does not run past the end of the map. -/
theorem rounded_addEvent_ne_pastEnd [DecidableEq T] (fl : ℚ → ℚ) (fuel : Nat)
    (m : Series T) (t : ℚ) (v : T) (o : OverlapOptions) (hm : KeysAscending m)
    (hle : fl (t - o.overlapRadiusMs) ≤ fl (t + o.overlapRadiusMs)) :
    Rounded.AddEvent fl fuel m t v o ≠ Outcome.pastEnd := by
  rw [rounded_addEvent_eq_of_scan]
  obtain ⟨m1, h | h⟩ := rounded_overlapScan_total fl m t v o hm hle
  · rw [h]
    simp
  · rw [h]
    simp only
    cases Rounded.jitterLoop fl fuel m1 t <;> simp

/-- On an ascending map whose window bounds are in order, with more fuel than
entries, the rounded `AddEvent` ends normally when each of the steps of the
collision loop yields a larger key. -/
theorem rounded_addEvent_done_of_steps [DecidableEq T] (fl : ℚ → ℚ) (fuel : Nat)
    (m : Series T) (t : ℚ) (v : T) (o : OverlapOptions) (hm : KeysAscending m)
    (hle : fl (t - o.overlapRadiusMs) ≤ fl (t + o.overlapRadiusMs))
    (hfuel : m.length < fuel)
    (hstep : ∀ k, k < m.length → Rounded.jitterKey fl t k < Rounded.jitterKey fl t (k + 1)) :
    ∃ m2, Rounded.AddEvent fl fuel m t v o = Outcome.done m2 := by
  rw [rounded_addEvent_eq_of_scan]
  obtain ⟨m1, h | h⟩ := rounded_overlapScan_total fl m t v o hm hle
  · rw [h]
    exact ⟨m1, rfl⟩
  · rw [h]
    have hlen := (rounded_overlapScan_sublist fl m m1 t v o (Or.inl h)).length_le
    have hfl := length_filter_le_length m1 (fun e => decide (t ≤ e.1))
    obtain ⟨k, _, hres, _⟩ := rounded_jitterLoop_spec fl m1 fuel t (by omega) (by
      intro k hk
      exact hstep k (by omega))
    simp only [hres]
    exact ⟨_, rfl⟩

/-! ## Repeated insertion at one timestamp with rounded arithmetic -/

/-- On an ascending map the subrange between two bounds in order is empty exactly
when no entry has its key between them. -/
theorem range_empty_iff (m : Series T) (lo hi : ℚ) (hm : KeysAscending m) (hle : lo ≤ hi) :
    (GetRangeInclusive m lo hi).empty = true ↔ ¬ ∃ e ∈ m, lo ≤ e.1 ∧ e.1 ≤ hi := by
  obtain ⟨A, W, B, hsplit, hlo, hhi, hA, hW, hB⟩ := window_split m lo hi hm hle
  unfold Subrange.empty GetRangeInclusive
  simp only [decide_eq_true_eq]
  rw [hlo, hhi]
  constructor
  · intro hlen
    have hWnil : W = [] := List.length_eq_zero.mp (by omega)
    rintro ⟨e, he, h1, h2⟩
    rw [hsplit, hWnil] at he
    simp only [List.nil_append, List.mem_append] at he
    rcases he with he | he
    · have := hA e he
      linarith
    · have := hB e he
      linarith
  · intro hno
    cases hWc : W with
    | nil => simp
    | cons w W1 =>
      exfalso
      apply hno
      have hw : w ∈ W := by
        rw [hWc]
        exact List.mem_cons_self _ _
      refine ⟨w, ?_, (hW w hw).1, (hW w hw).2⟩
      rw [hsplit]
      exact List.mem_append_right _ (List.mem_append_left _ hw)

/-- With the equality filter off, `REPLACE` and a window around a timestamp that
rounding leaves between its bounds, the rounded `AddEvent` on an ascending map
ends normally with one unit of fuel. -/
theorem rounded_addEvent_replace_total [DecidableEq T] (fl : ℚ → ℚ) (fuel : Nat)
    (m : Series T) (t : ℚ) (v : T) (r : ℚ) (hm : KeysAscending m) (hfuel : 0 < fuel)
    (hlo : fl (t - r) ≤ t) (hhi : t ≤ fl (t + r)) :
    ∃ m1, Rounded.AddEvent fl fuel m t v ⟨r, false, OverlapAction.REPLACE⟩ = Outcome.done m1 := by
  obtain ⟨A, W, B, _, _, hA, _, hB, hloop⟩ :=
    rounded_loop_of_ascending fl m t v ⟨r, false, OverlapAction.REPLACE⟩ hm
      (le_trans hlo hhi)
  have hfilter : W.filter (fun e => !overlaps false v e) = [] := by
    apply List.filter_eq_nil_iff.mpr
    intro e _
    simp [overlaps]
  have hscan : Rounded.overlapScan fl m t v ⟨r, false, OverlapAction.REPLACE⟩ =
      LoopResult.completed (A ++ B) := by
    rw [hloop, overlapLoop_replace t v _ rfl W B A]
    simp only [hfilter, List.nil_append]
  have hfree : contains (A ++ B) t = false := by
    rw [contains_eq_false_iff]
    intro e he
    rcases List.mem_append.mp he with h | h
    · have := hA e h
      simp only at this
      exact ne_of_lt (lt_of_lt_of_le this hlo)
    · have := hB e h
      simp only at this
      exact ne_of_gt (lt_of_le_of_lt hhi this)
  rw [rounded_addEvent_eq_of_scan, hscan]
  simp only [rounded_jitterLoop_of_free fl fuel (A ++ B) t hfuel hfree]
  exact ⟨_, rfl⟩

end TimeSeries

/-! ## The tracker -/

namespace GameDataTracker

theorem getMap_of_some (g : GameDataTracker) (k : EventKind) (s : Series k.Payload)
    (h : g.timeSeriesMap k = some s) : g.GetMap k = (g, s) := by
  unfold GetMap
  rw [h]

theorem getMap_of_none (g : GameDataTracker) (k : EventKind) (h : g.timeSeriesMap k = none) :
    g.GetMap k = (⟨Function.update g.timeSeriesMap k (some [])⟩, []) := by
  unfold GetMap
  rw [h]

/-- The map handed out for a type depends only on that type's slot. -/
theorem getMap_snd_congr (g g1 : GameDataTracker) (k : EventKind)
    (h : g1.timeSeriesMap k = g.timeSeriesMap k) : (g1.GetMap k).2 = (g.GetMap k).2 := by
  cases hk : g.timeSeriesMap k with
  | none =>
    rw [getMap_of_none g k hk, getMap_of_none g1 k (h.trans hk)]
  | some s =>
    rw [getMap_of_some g k s hk, getMap_of_some g1 k s (h.trans hk)]

/-- The call `GetMap<T>()` leaves the slot of every other type as it was. -/
theorem getMap_fst_other (g : GameDataTracker) (k u : EventKind) (hne : u ≠ k) :
    (g.GetMap k).1.timeSeriesMap u = g.timeSeriesMap u := by
  cases hk : g.timeSeriesMap k with
  | none =>
    rw [getMap_of_none g k hk]
    exact Function.update_noteq hne _ _
  | some s =>
    rw [getMap_of_some g k s hk]

/-- After `GetMap<T>()` the slot of `T` holds the map that was handed out. -/
theorem getMap_fst_self (g : GameDataTracker) (k : EventKind) :
    (g.GetMap k).1.timeSeriesMap k = some (g.GetMap k).2 := by
  cases hk : g.timeSeriesMap k with
  | none =>
    rw [getMap_of_none g k hk]
    exact Function.update_same _ _ _
  | some s =>
    rw [getMap_of_some g k s hk]
    exact hk

/-- The call `GetMap<T>()` never changes a series that exists. -/
theorem getMap_fst_of_some (g : GameDataTracker) (k u : EventKind) (s : Series u.Payload)
    (h : g.timeSeriesMap u = some s) : (g.GetMap k).1.timeSeriesMap u = some s := by
  by_cases hne : u = k
  · subst hne
    rw [getMap_of_some g u s h]
    exact h
  · rw [getMap_fst_other g k u hne]
    exact h

/-- Trackers that hand out the same map for a type answer every query on it alike. -/
theorem sameQueries_of_getMap_eq (g g1 : GameDataTracker) (k : EventKind)
    (h : (g1.GetMap k).2 = (g.GetMap k).2) : SameQueries g g1 k := by
  unfold SameQueries rangeEntries GetRangeAroundInclusive GetAll GetRangeInclusive
    GetMostRecentTimeMs GetMostRecent GetClosest
  simp only [h]
  simp

/-- A tracker that hands out the empty map for a type answers every query on it
with the empty sequence or none. -/
theorem allQueriesEmpty_of_getMap_nil (g : GameDataTracker) (k : EventKind)
    (h : (g.GetMap k).2 = []) : AllQueriesEmpty g k := by
  unfold AllQueriesEmpty rangeEntries GetRangeAroundInclusive GetAll GetRangeInclusive
    GetMostRecentTimeMs GetMostRecent GetClosest
  simp only [h]
  refine ⟨rfl, ?_, ?_, ?_, ?_, ?_⟩
  · intro a b
    exact ⟨rfl, rfl⟩
  · intro t r
    exact ⟨rfl, rfl⟩
  · intro t
    rfl
  · intro t
    rfl
  · intro t
    rfl

/-- The effect of `AddEvent<T>` on the slots of the tracker. -/
theorem addEvent_slots (fuel : Nat) (g g1 : GameDataTracker) (k : EventKind) (t : ℚ)
    (data : k.Payload) (o : OverlapOptions)
    (h : g.AddEvent fuel k t data o = Outcome.done g1) :
    (∀ u, u ≠ k → g1.timeSeriesMap u = g.timeSeriesMap u) ∧
    ∃ m1, TimeSeries.AddEvent fuel (g.GetMap k).2 t data o = Outcome.done m1 ∧
      g1.timeSeriesMap k = some m1 := by
  unfold AddEvent at h
  simp only at h
  cases hadd : TimeSeries.AddEvent fuel (g.GetMap k).2 t data o with
  | done m1 =>
    rw [hadd] at h
    simp only [Outcome.done.injEq] at h
    subst h
    refine ⟨?_, m1, rfl, ?_⟩
    · intro u hne
      simp only
      rw [Function.update_noteq hne]
      exact getMap_fst_other g k u hne
    · simp only
      exact Function.update_same _ _ _
  | pastEnd =>
    rw [hadd] at h
    simp at h
  | outOfFuel =>
    rw [hadd] at h
    simp at h

end GameDataTracker

/-! ## The set of pending tasks -/

namespace TimedTaskSet

variable {H R : Type}

/-- The loop of `GetCompletedTasks` appends the pairs of the ready entries to the
results and the running entries to the kept ones, both in storage order. -/
theorem completedLoop_spec (state : H → FutureState R) (rest : List (TaskEntry H)) :
    ∀ (kept : List (TaskEntry H)) (results : List (ℚ × R)),
      completedLoop state kept rest results =
        (results ++ rest.filterMap (completedPair state),
          kept ++ rest.filter (fun e => (state e.task).isRunning)) := by
  induction rest with
  | nil =>
    intro kept results
    simp [completedLoop]
  | cons e rest ih =>
    intro kept results
    cases hs : state e.task with
    | invalid =>
      rw [completedLoop]
      simp only [hs]
      rw [ih]
      simp [List.filterMap_cons, List.filter_cons, completedPair, hs, FutureState.isRunning]
    | ready result =>
      rw [completedLoop]
      simp only [hs]
      rw [ih]
      simp [List.filterMap_cons, List.filter_cons, completedPair, hs, FutureState.isRunning]
    | running =>
      rw [completedLoop]
      simp only [hs]
      rw [ih]
      simp [List.filterMap_cons, List.filter_cons, completedPair, hs, FutureState.isRunning]

theorem getCompletedTasks_eq (state : H → FutureState R) (s : TimedTaskSet H) :
    GetCompletedTasks state s =
      (s.tasks.filterMap (completedPair state),
        ⟨s.tasks.filter (fun e => (state e.task).isRunning)⟩) := by
  unfold GetCompletedTasks
  rw [completedLoop_spec]
  simp

theorem completedPair_eq_none_of_running (state : H → FutureState R) (e : TaskEntry H)
    (h : (state e.task).isRunning = true) : completedPair state e = none := by
  unfold completedPair
  cases hs : state e.task with
  | invalid => rfl
  | ready result =>
    rw [hs] at h
    simp [FutureState.isRunning] at h
  | running => rfl

theorem not_ready_and_running (st : FutureState R) :
    ¬ (st.isReady = true ∧ st.isRunning = true) := by
  cases st <;> simp [FutureState.isReady, FutureState.isRunning]

/-- The loop of `GetClosestTimeMs`: starting from the entry at index `i0` of the
entries seen so far, which is a first nearest one among them, it ends on a first
nearest entry of the whole vector. -/
theorem closestLoop_spec (t : ℚ) (rest : List (TaskEntry H)) :
    ∀ (pre : List (TaskEntry H)) (i0 : Nat) (e0 : TaskEntry H), pre[i0]? = some e0 →
      (∀ x ∈ pre, |e0.timeMs - t| ≤ |x.timeMs - t|) →
      (∀ (j : Nat) (x : TaskEntry H), j < i0 → pre[j]? = some x →
        |e0.timeMs - t| < |x.timeMs - t|) →
      ∃ (i : Nat) (e : TaskEntry H), (pre ++ rest)[i]? = some e ∧
        closestLoop t rest e0.timeMs |e0.timeMs - t| = e.timeMs ∧
        (∀ x ∈ pre ++ rest, |e.timeMs - t| ≤ |x.timeMs - t|) ∧
        (∀ (j : Nat) (x : TaskEntry H), j < i → (pre ++ rest)[j]? = some x →
          |e.timeMs - t| < |x.timeMs - t|) := by
  induction rest with
  | nil =>
    intro pre i0 e0 h0 hmin hfirst
    refine ⟨i0, e0, by simpa using h0, rfl, by simpa using hmin, ?_⟩
    intro j x hj hx
    exact hfirst j x hj (by simpa using hx)
  | cons a rest ih =>
    intro pre i0 e0 h0 hmin hfirst
    have hi0 : i0 < pre.length := by
      by_contra hge
      rw [List.getElem?_eq_none (by omega)] at h0
      simp at h0
    have happ : pre ++ a :: rest = (pre ++ [a]) ++ rest := by simp
    have hgetpre : ∀ j, j < pre.length → (pre ++ [a])[j]? = pre[j]? := by
      intro j hj
      exact List.getElem?_append_left hj
    rw [closestLoop, happ]
    by_cases hlt : |a.timeMs - t| < |e0.timeMs - t|
    · rw [if_pos hlt]
      apply ih (pre ++ [a]) pre.length a
      · simp
      · intro x hx
        rcases List.mem_append.mp hx with h1 | h1
        · exact le_of_lt (lt_of_lt_of_le hlt (hmin x h1))
        · simp at h1
          rw [h1]
      · intro j x hj hx
        rw [hgetpre j hj] at hx
        have hxmem : x ∈ pre := List.getElem?_mem hx
        exact lt_of_lt_of_le hlt (hmin x hxmem)
    · rw [if_neg hlt]
      apply ih (pre ++ [a]) i0 e0
      · rw [hgetpre i0 hi0]
        exact h0
      · intro x hx
        rcases List.mem_append.mp hx with h1 | h1
        · exact hmin x h1
        · simp at h1
          rw [h1]
          exact not_lt.mp hlt
      · intro j x hj hx
        rw [hgetpre j (by omega)] at hx
        exact hfirst j x hj hx

/-- The closest-time query: none on the empty set, and otherwise the timestamp
of a first nearest entry. -/
theorem getClosestTimeMs_spec (s : TimedTaskSet H) (t : ℚ) :
    (s.tasks = [] ∧ s.GetClosestTimeMs t = none) ∨
    ∃ (i : Nat) (e : TaskEntry H), s.tasks[i]? = some e ∧
      s.GetClosestTimeMs t = some e.timeMs ∧
      (∀ x ∈ s.tasks, |e.timeMs - t| ≤ |x.timeMs - t|) ∧
      (∀ (j : Nat) (x : TaskEntry H), j < i → s.tasks[j]? = some x →
        |e.timeMs - t| < |x.timeMs - t|) := by
  cases hs : s.tasks with
  | nil =>
    left
    refine ⟨rfl, ?_⟩
    unfold GetClosestTimeMs
    rw [hs]
  | cons e0 rest =>
    right
    obtain ⟨i, e, hget, hres, hmin, hfirst⟩ :=
      closestLoop_spec t rest [e0] 0 e0 rfl (by simp) (by
        intro j x hj
        omega)
    refine ⟨i, e, by simpa using hget, ?_, by simpa using hmin, ?_⟩
    · unfold GetClosestTimeMs
      rw [hs]
      simp only
      rw [hres]
    · intro j x hj hx
      exact hfirst j x hj (by simpa using hx)

/-- With exact arithmetic the rounded loop of `GetClosestTimeMs` is the loop. -/
theorem rounded_closestLoop_id (t : ℚ) (rest : List (TaskEntry H)) :
    ∀ (c d : ℚ), Rounded.closestLoop (fun x => x) t rest c d = closestLoop t rest c d := by
  induction rest with
  | nil =>
    intro c d
    rfl
  | cons a rest ih =>
    intro c d
    rw [Rounded.closestLoop, closestLoop, ih, ih]

/-- With exact arithmetic the rounded `GetClosestTimeMs` is `GetClosestTimeMs`. -/
theorem rounded_getClosestTimeMs_id (s : TimedTaskSet H) (t : ℚ) :
    Rounded.GetClosestTimeMs (fun x => x) s t = s.GetClosestTimeMs t := by
  unfold Rounded.GetClosestTimeMs GetClosestTimeMs
  cases s.tasks with
  | nil => rfl
  | cons e rest => simp only [rounded_closestLoop_id]

/-- The rounded loop of `GetClosestTimeMs`: starting from the entry at index `i0`
of the entries seen so far, the first of them with the least computed distance,
it ends on the first entry of the whole vector with the least computed
distance. -/
theorem rounded_closestLoop_spec (fl : ℚ → ℚ) (t : ℚ) (rest : List (TaskEntry H)) :
    ∀ (pre : List (TaskEntry H)) (i0 : Nat) (e0 : TaskEntry H), pre[i0]? = some e0 →
      (∀ x ∈ pre, |fl (e0.timeMs - t)| ≤ |fl (x.timeMs - t)|) →
      (∀ (j : Nat) (x : TaskEntry H), j < i0 → pre[j]? = some x →
        |fl (e0.timeMs - t)| < |fl (x.timeMs - t)|) →
      ∃ (i : Nat) (e : TaskEntry H), (pre ++ rest)[i]? = some e ∧
        Rounded.closestLoop fl t rest e0.timeMs |fl (e0.timeMs - t)| = e.timeMs ∧
        (∀ x ∈ pre ++ rest, |fl (e.timeMs - t)| ≤ |fl (x.timeMs - t)|) ∧
        (∀ (j : Nat) (x : TaskEntry H), j < i → (pre ++ rest)[j]? = some x →
          |fl (e.timeMs - t)| < |fl (x.timeMs - t)|) := by
  induction rest with
  | nil =>
    intro pre i0 e0 h0 hmin hfirst
    refine ⟨i0, e0, by simpa using h0, rfl, by simpa using hmin, ?_⟩
    intro j x hj hx
    exact hfirst j x hj (by simpa using hx)
  | cons a rest ih =>
    intro pre i0 e0 h0 hmin hfirst
    have hi0 : i0 < pre.length := by
      by_contra hge
      rw [List.getElem?_eq_none (by omega)] at h0
      simp at h0
    have happ : pre ++ a :: rest = (pre ++ [a]) ++ rest := by simp
    have hgetpre : ∀ j, j < pre.length → (pre ++ [a])[j]? = pre[j]? := by
      intro j hj
      exact List.getElem?_append_left hj
    rw [Rounded.closestLoop, happ]
    by_cases hlt : |fl (a.timeMs - t)| < |fl (e0.timeMs - t)|
    · rw [if_pos hlt]
      apply ih (pre ++ [a]) pre.length a
      · simp
      · intro x hx
        rcases List.mem_append.mp hx with h1 | h1
        · exact le_of_lt (lt_of_lt_of_le hlt (hmin x h1))
        · simp at h1
          rw [h1]
      · intro j x hj hx
        rw [hgetpre j hj] at hx
        have hxmem : x ∈ pre := List.getElem?_mem hx
        exact lt_of_lt_of_le hlt (hmin x hxmem)
    · rw [if_neg hlt]
      apply ih (pre ++ [a]) i0 e0
      · rw [hgetpre i0 hi0]
        exact h0
      · intro x hx
        rcases List.mem_append.mp hx with h1 | h1
        · exact hmin x h1
        · simp at h1
          rw [h1]
          exact not_lt.mp hlt
      · intro j x hj hx
        rw [hgetpre j (by omega)] at hx
        exact hfirst j x hj hx

/-- The rounded closest-time query on a non-empty set: the timestamp of the
first entry with the least computed distance. -/
theorem rounded_getClosestTimeMs_spec (fl : ℚ → ℚ) (s : TimedTaskSet H) (t : ℚ)
    (hne : s.tasks ≠ []) :
    ∃ (i : Nat) (e : TaskEntry H), s.tasks[i]? = some e ∧
      Rounded.GetClosestTimeMs fl s t = some e.timeMs ∧
      (∀ x ∈ s.tasks, |fl (e.timeMs - t)| ≤ |fl (x.timeMs - t)|) ∧
      (∀ (j : Nat) (x : TaskEntry H), j < i → s.tasks[j]? = some x →
        |fl (e.timeMs - t)| < |fl (x.timeMs - t)|) := by
  cases hs : s.tasks with
  | nil => exact absurd hs hne
  | cons e0 rest =>
    obtain ⟨i, e, hget, hres, hmin, hfirst⟩ :=
      rounded_closestLoop_spec fl t rest [e0] 0 e0 rfl (by simp) (by
        intro j x hj
        omega)
    refine ⟨i, e, by simpa using hget, ?_, by simpa using hmin, ?_⟩
    · unfold Rounded.GetClosestTimeMs
      rw [hs]
      simp only
      rw [hres]
    · intro j x hj hx
      exact hfirst j x hj (by simpa using hx)

end TimedTaskSet

namespace TimedTaskSet

variable {H R : Type}

theorem length_filterMap_completedPair (state : H → FutureState R)
    (tasks : List (TaskEntry H)) :
    (tasks.filterMap (completedPair state)).length =
      (tasks.filter (fun e => (state e.task).isReady)).length := by
  induction tasks with
  | nil => rfl
  | cons e tasks ih =>
    cases hs : state e.task <;>
      simp [List.filterMap_cons, List.filter_cons, completedPair, hs, FutureState.isReady, ih]

/-- The pairs a poll returns are those of the entries whose future is ready. -/
theorem filterMap_completedPair_ready (state : H → FutureState R)
    (tasks : List (TaskEntry H)) :
    tasks.filterMap (completedPair state) =
      (tasks.filter (fun e => (state e.task).isReady)).filterMap (completedPair state) := by
  induction tasks with
  | nil => rfl
  | cons e tasks ih =>
    cases hs : state e.task <;>
      simp [List.filterMap_cons, List.filter_cons, completedPair, hs, FutureState.isReady, ih]

/-- Polling again under the same state of the futures returns nothing and
leaves the set as it is. -/
theorem getCompletedTasks_twice (state : H → FutureState R) (s : TimedTaskSet H) :
    GetCompletedTasks state (GetCompletedTasks state s).2 =
      ([], (GetCompletedTasks state s).2) := by
  rw [getCompletedTasks_eq state s]
  simp only
  rw [getCompletedTasks_eq]
  simp only [List.filter_filter, Bool.and_self]
  congr 1
  apply List.filterMap_eq_nil_iff.mpr
  intro e he
  rw [List.mem_filter] at he
  exact completedPair_eq_none_of_running state e he.2

/-- The futures returned along a sequence of calls are pairwise distinct and
were all handed to `Add`, when the futures pending at the start and those
handed to `Add` are pairwise distinct. -/
theorem returnedHandles_nodup (ops : List (TaskOp H R)) :
    ∀ s : TimedTaskSet H, (s.tasks.map (fun e => e.task) ++ addedHandles ops).Nodup →
      (returnedHandles ops s).Nodup ∧
      ∀ h ∈ returnedHandles ops s, h ∈ s.tasks.map (fun e => e.task) ++ addedHandles ops := by
  induction ops with
  | nil =>
    intro s _
    simp [returnedHandles]
  | cons op ops ih =>
    intro s hnd
    cases op with
    | add timeMs task =>
      have heq : (s.Add timeMs task).tasks.map (fun e => e.task) ++ addedHandles ops =
          s.tasks.map (fun e => e.task) ++ addedHandles (TaskOp.add timeMs task :: ops) := by
        simp [Add, addedHandles]
      have := ih (s.Add timeMs task) (by rw [heq]; exact hnd)
      rw [heq] at this
      simpa [returnedHandles] using this
    | poll state =>
      have hnext : (GetCompletedTasks state s).2.tasks =
          s.tasks.filter (fun e => (state e.task).isRunning) := by
        rw [getCompletedTasks_eq]
      have hsubP : ((s.tasks.filter (fun e => (state e.task).isRunning)).map
          (fun e => e.task)).Sublist (s.tasks.map (fun e => e.task)) :=
        (List.filter_sublist s.tasks).map _
      have hsubR : ((s.tasks.filter (fun e => (state e.task).isReady)).map
          (fun e => e.task)).Sublist (s.tasks.map (fun e => e.task)) :=
        (List.filter_sublist s.tasks).map _
      have hadded : addedHandles (TaskOp.poll state :: ops) = addedHandles ops := rfl
      rw [hadded] at hnd ⊢
      obtain ⟨hP, hA, hdisj⟩ := List.nodup_append.mp hnd
      have hnd1 : ((GetCompletedTasks state s).2.tasks.map (fun e => e.task) ++
          addedHandles ops).Nodup := by
        rw [hnext]
        exact hnd.sublist (List.Sublist.append hsubP (List.Sublist.refl _))
      obtain ⟨hrest, hrestmem⟩ := ih (GetCompletedTasks state s).2 hnd1
      rw [hnext] at hrestmem
      rw [returnedHandles]
      constructor
      · refine List.nodup_append.mpr ⟨hP.sublist hsubR, hrest, ?_⟩
        intro x hxR hxrest
        have hxP : x ∈ s.tasks.map (fun e => e.task) := hsubR.subset hxR
        rcases List.mem_append.mp (hrestmem x hxrest) with h1 | h1
        · obtain ⟨e1, he1, hx1⟩ := List.mem_map.mp hxR
          obtain ⟨e2, he2, hx2⟩ := List.mem_map.mp h1
          rw [List.mem_filter] at he1 he2
          have hready : (state x).isReady = true := by
            rw [← hx1]
            exact he1.2
          have hrunning : (state x).isRunning = true := by
            rw [← hx2]
            exact he2.2
          exact not_ready_and_running (state x) ⟨hready, hrunning⟩
        · exact hdisj hxP h1
      · intro x hx
        rcases List.mem_append.mp hx with h1 | h1
        · exact List.mem_append_left _ (hsubR.subset h1)
        · rcases List.mem_append.mp (hrestmem x h1) with h2 | h2
          · exact List.mem_append_left _ (hsubP.subset h2)
          · exact List.mem_append_right _ h2

theorem wait_valid [DecidableEq H] (eventual : H → R) (state : H → FutureState R) (h x : H) :
    (wait eventual state h x).valid = (state x).valid := by
  unfold wait
  by_cases hx : x = h
  · subst hx
    simp only [if_true]
    cases state x <;> rfl
  · simp only [if_neg hx]

theorem wait_of_ready [DecidableEq H] (eventual : H → R) (state : H → FutureState R) (h x : H)
    (result : R) (hr : state x = FutureState.ready result) :
    wait eventual state h x = FutureState.ready result := by
  unfold wait
  by_cases hx : x = h
  · subst hx
    simp only [if_true, hr]
  · simp only [if_neg hx, hr]

theorem wait_self_ready [DecidableEq H] (eventual : H → R) (state : H → FutureState R) (h : H)
    (hv : (state h).valid = true) : ∃ result, wait eventual state h h = FutureState.ready result := by
  unfold wait
  simp only [if_true]
  cases hs : state h with
  | invalid =>
    rw [hs] at hv
    simp [FutureState.valid] at hv
  | ready result => exact ⟨result, rfl⟩
  | running => exact ⟨eventual h, rfl⟩

theorem wait_other [DecidableEq H] (eventual : H → R) (state : H → FutureState R) (h x : H)
    (hx : x ≠ h) : wait eventual state h x = state x := by
  unfold wait
  simp only [if_neg hx]

/-- The loop of `WaitAllAndClear`: it waits on exactly the valid futures of the
entries, in storage order; afterwards each of them is ready, a future that was
ready keeps its result, validity is what it was, and the futures of no entry
are untouched. -/
theorem waitLoop_spec [DecidableEq H] (eventual : H → R) (rest : List (TaskEntry H)) :
    ∀ (state : H → FutureState R) (waited : List H),
      (waitLoop eventual rest state waited).2 =
          waited ++ (rest.filter (fun e => (state e.task).valid)).map (fun e => e.task) ∧
      (∀ x, ((waitLoop eventual rest state waited).1 x).valid = (state x).valid) ∧
      (∀ x result, state x = FutureState.ready result →
        (waitLoop eventual rest state waited).1 x = FutureState.ready result) ∧
      (∀ e ∈ rest, (state e.task).valid = true →
        ∃ result, (waitLoop eventual rest state waited).1 e.task = FutureState.ready result) ∧
      (∀ x, (∀ e ∈ rest, e.task ≠ x) → (waitLoop eventual rest state waited).1 x = state x) := by
  induction rest with
  | nil =>
    intro state waited
    simp [waitLoop]
  | cons a rest ih =>
    intro state waited
    by_cases hv : (state a.task).valid = true
    · obtain ⟨h1, h2, h3, h4, h5⟩ := ih (wait eventual state a.task) (waited ++ [a.task])
      have hfilter : rest.filter (fun e => (wait eventual state a.task e.task).valid) =
          rest.filter (fun e => (state e.task).valid) := by
        apply List.filter_congr
        intro e _
        exact wait_valid eventual state a.task e.task
      rw [waitLoop, if_pos hv]
      refine ⟨?_, ?_, ?_, ?_, ?_⟩
      · rw [h1, hfilter]
        simp [List.filter_cons, hv]
      · intro x
        rw [h2 x, wait_valid]
      · intro x result hx
        exact h3 x result (wait_of_ready eventual state a.task x result hx)
      · intro e he hev
        rcases List.mem_cons.mp he with rfl | he1
        · obtain ⟨result, hres⟩ := wait_self_ready eventual state e.task hv
          exact ⟨result, h3 e.task result hres⟩
        · exact h4 e he1 (by rw [wait_valid]; exact hev)
      · intro x hx
        rw [h5 x (fun e he => hx e (List.mem_cons_of_mem _ he))]
        exact wait_other eventual state a.task x (fun h => hx a (List.mem_cons_self _ _) h.symm)
    · obtain ⟨h1, h2, h3, h4, h5⟩ := ih state waited
      rw [waitLoop, if_neg hv]
      refine ⟨?_, h2, h3, ?_, ?_⟩
      · rw [h1]
        simp [List.filter_cons, hv]
      · intro e he hev
        rcases List.mem_cons.mp he with rfl | he1
        · exact absurd hev hv
        · exact h4 e he1 hev
      · intro x hx
        exact h5 x (fun e he => hx e (List.mem_cons_of_mem _ he))

end TimedTaskSet

/-- The local `alreadyScheduled` of the tick is true exactly when some pending
task lies within the overlap radius of the current game time. -/
theorem alreadyScheduled_iff {H : Type} (s : TimedTaskSet H) (now : ℚ) :
    alreadyScheduled s now = true ↔
      ∃ x ∈ s.tasks, |x.timeMs - now| ≤ PREDICTION_OVERLAP_RADIUS_MS := by
  unfold alreadyScheduled
  rcases TimedTaskSet.getClosestTimeMs_spec s now with
    ⟨hnil, hnone⟩ | ⟨i, e, hget, hres, hmin, _⟩
  · rw [hnone, hnil]
    simp
  · rw [hres]
    simp only [decide_eq_true_eq]
    constructor
    · intro h
      exact ⟨e, List.getElem?_mem hget, h⟩
    · rintro ⟨x, hx, hxd⟩
      exact le_trans (hmin x hx) hxd

/-! ## The augmentation masks -/

namespace InferenceEngine

theorem assign_comp {α β : Type} (f : α → β) (a : Nat → α) (i : Nat) (x : α) :
    (fun k => f (assign a i x k)) = assign (fun k => f (a k)) i (f x) := by
  funext k
  unfold assign
  split_ifs <;> rfl

theorem swap_comp {α β : Type} (f : α → β) (a : Nat → α) (i j : Nat) :
    (fun k => f (swap a i j k)) = swap (fun k => f (a k)) i j := by
  unfold swap
  rw [assign_comp, assign_comp]

theorem swap_ranges_comp {α β : Type} (f : α → β) (a : Nat → α) (first1 last1 first2 : Nat) :
    (fun k => f (swap_ranges a first1 last1 first2 k)) =
      swap_ranges (fun k => f (a k)) first1 last1 first2 := by
  unfold swap_ranges
  generalize List.range (last1 - first1) = l
  induction l generalizing a with
  | nil => rfl
  | cons n l ih =>
    rw [List.foldl_cons, List.foldl_cons, ih, swap_comp]

theorem applyMask_comp {α β : Type} [HMul α ℚ α] [HMul β ℚ β] (f : α → β)
    (hf : ∀ (a : α) (q : ℚ), f (a * q) = f a * q) (input : Nat → α) (mask : Nat → ℚ)
    (output : Nat → α) (swap_teams : Bool) :
    (fun k => f (ApplyMask input mask output swap_teams k)) =
      ApplyMask (fun k => f (input k)) mask (fun k => f (output k)) swap_teams := by
  have h1 : (fun k => f (if k < INPUT_DIM then input k * mask k else output k)) =
      fun k => if k < INPUT_DIM then f (input k) * mask k else f (output k) := by
    funext k
    split_ifs
    · exact hf _ _
    · rfl
  unfold ApplyMask
  cases swap_teams
  · simpa using h1
  · simp only [if_true]
    rw [swap_ranges_comp, h1]

theorem swapBoostX_comp {α β : Type} (f : α → β) (data : Nat → α) :
    (fun k => f (SwapBoostX data k)) = SwapBoostX (fun k => f (data k)) := by
  unfold SwapBoostX
  simp only [swap_comp]

theorem swapBoostY_comp {α β : Type} (f : α → β) (data : Nat → α) :
    (fun k => f (SwapBoostY data k)) = SwapBoostY (fun k => f (data k)) := by
  unfold SwapBoostY
  simp only [swap_comp]

theorem swapBoostXY_comp {α β : Type} (f : α → β) (data : Nat → α) :
    (fun k => f (SwapBoostXY data k)) = SwapBoostXY (fun k => f (data k)) := by
  unfold SwapBoostXY
  simp only [swap_comp]

theorem flipX_comp {α β : Type} [HMul α ℚ α] [HMul β ℚ β] (f : α → β)
    (hf : ∀ (a : α) (q : ℚ), f (a * q) = f a * q) (out v : Nat → α) :
    (fun k => f (flipX out v k)) = flipX (fun k => f (out k)) (fun k => f (v k)) := by
  unfold flipX
  rw [swapBoostX_comp, applyMask_comp f hf]

theorem flipY_comp {α β : Type} [HMul α ℚ α] [HMul β ℚ β] (f : α → β)
    (hf : ∀ (a : α) (q : ℚ), f (a * q) = f a * q) (out v : Nat → α) :
    (fun k => f (flipY out v k)) = flipY (fun k => f (out k)) (fun k => f (v k)) := by
  unfold flipY
  rw [swapBoostY_comp, applyMask_comp f hf]

theorem flipXY_comp {α β : Type} [HMul α ℚ α] [HMul β ℚ β] (f : α → β)
    (hf : ∀ (a : α) (q : ℚ), f (a * q) = f a * q) (out v : Nat → α) :
    (fun k => f (flipXY out v k)) = flipXY (fun k => f (out k)) (fun k => f (v k)) := by
  unfold flipXY
  rw [swapBoostXY_comp, applyMask_comp f hf]

theorem eval_mul (v : Nat → ℚ) (m : Term) (q : ℚ) :
    Term.eval v (m * q) = Term.eval v m * q := by
  show v m.index * (m.coeff * q) = v m.index * m.coeff * q
  ring

theorem eval_var (v : Nat → ℚ) : (fun k => Term.eval v (Term.var k)) = v := by
  funext k
  simp [Term.eval, Term.var]

theorem eval_zero (v : Nat → ℚ) : (fun k => Term.eval v (Term.zero k)) = zeroRow := by
  funext k
  simp [Term.eval, Term.zero, zeroRow]

/-- Each of the three rows is the value of its symbolic row. -/
theorem flipX_eval (v : Nat → ℚ) :
    flipX zeroRow v = fun k => Term.eval v (flipX Term.zero Term.var k) := by
  rw [flipX_comp (Term.eval v) (eval_mul v), eval_var, eval_zero]

theorem flipY_eval (v : Nat → ℚ) :
    flipY zeroRow v = fun k => Term.eval v (flipY Term.zero Term.var k) := by
  rw [flipY_comp (Term.eval v) (eval_mul v), eval_var, eval_zero]

theorem flipXY_eval (v : Nat → ℚ) :
    flipXY zeroRow v = fun k => Term.eval v (flipXY Term.zero Term.var k) := by
  rw [flipXY_comp (Term.eval v) (eval_mul v), eval_var, eval_zero]

/-- Two rows applied in turn are the value of the two symbolic rows applied in turn. -/
theorem flipX_flipY_eval (v : Nat → ℚ) :
    flipX zeroRow (flipY zeroRow v) =
      fun k => Term.eval v (flipX Term.zero (flipY Term.zero Term.var) k) := by
  rw [flipX_comp (Term.eval v) (eval_mul v), ← flipY_eval, eval_zero]

theorem flipY_flipX_eval (v : Nat → ℚ) :
    flipY zeroRow (flipX zeroRow v) =
      fun k => Term.eval v (flipY Term.zero (flipX Term.zero Term.var) k) := by
  rw [flipY_comp (Term.eval v) (eval_mul v), ← flipX_eval, eval_zero]

theorem flipX_flipX_eval (v : Nat → ℚ) :
    flipX zeroRow (flipX zeroRow v) =
      fun k => Term.eval v (flipX Term.zero (flipX Term.zero Term.var) k) := by
  rw [flipX_comp (Term.eval v) (eval_mul v), ← flipX_eval, eval_zero]

theorem flipY_flipY_eval (v : Nat → ℚ) :
    flipY zeroRow (flipY zeroRow v) =
      fun k => Term.eval v (flipY Term.zero (flipY Term.zero Term.var) k) := by
  rw [flipY_comp (Term.eval v) (eval_mul v), ← flipY_eval, eval_zero]

theorem flipXY_flipXY_eval (v : Nat → ℚ) :
    flipXY zeroRow (flipXY zeroRow v) =
      fun k => Term.eval v (flipXY Term.zero (flipXY Term.zero Term.var) k) := by
  rw [flipXY_comp (Term.eval v) (eval_mul v), ← flipXY_eval, eval_zero]

set_option maxRecDepth 100000 in
/-- The symbolic rows: `flip_xy` is `flip_x` after `flip_y`. -/
theorem symbolic_flipXY_eq_flipX_flipY :
    ∀ i, i < INPUT_DIM →
      flipXY Term.zero Term.var i = flipX Term.zero (flipY Term.zero Term.var) i := by
  decide!

set_option maxRecDepth 100000 in
/-- The symbolic rows: `flip_xy` is `flip_y` after `flip_x`. -/
theorem symbolic_flipXY_eq_flipY_flipX :
    ∀ i, i < INPUT_DIM →
      flipXY Term.zero Term.var i = flipY Term.zero (flipX Term.zero Term.var) i := by
  decide!

set_option maxRecDepth 100000 in
/-- The symbolic rows: each of the three transforms undoes itself. -/
theorem symbolic_flips_involutive :
    ∀ i, i < INPUT_DIM →
      flipX Term.zero (flipX Term.zero Term.var) i = Term.var i ∧
      flipY Term.zero (flipY Term.zero Term.var) i = Term.var i ∧
      flipXY Term.zero (flipXY Term.zero Term.var) i = Term.var i := by
  decide!

theorem atOffset_atOffset {α : Type} (offset : Nat) (f g : (Nat → α) → (Nat → α))
    (p : Nat → α) :
    atOffset offset f (atOffset offset g p) = atOffset offset (fun out => f (g out)) p := by
  funext j
  unfold atOffset
  by_cases h : offset ≤ j
  · simp only [if_pos h]
    congr 1
    funext i
    simp
  · simp only [if_neg h]

end InferenceEngine

/-! ## The batch `Predict` builds -/

namespace InferenceEngine

theorem swap_below {α : Type} (n : Nat) (a b : Nat → α) (i j : Nat) (hi : i < n) (hj : j < n) :
    swap (fun k => if k < n then a k else b k) i j =
      fun k => if k < n then swap a i j k else b k := by
  funext k
  unfold swap assign
  by_cases h1 : k = j
  · subst h1
    simp [hi, hj]
  · by_cases h2 : k = i
    · subst h2
      simp [h1, hi, hj]
    · simp [h1, h2]

theorem foldl_swap_below {α : Type} (n first1 first2 : Nat) (b : Nat → α) (l : List Nat)
    (hl : ∀ x ∈ l, first1 + x < n ∧ first2 + x < n) :
    ∀ a : Nat → α,
      l.foldl (fun c k => swap c (first1 + k) (first2 + k))
          (fun k => if k < n then a k else b k) =
        fun k => if k < n then
          l.foldl (fun c k => swap c (first1 + k) (first2 + k)) a k else b k := by
  induction l with
  | nil =>
    intro a
    rfl
  | cons x l ih =>
    intro a
    have hx := hl x (List.mem_cons_self _ _)
    rw [List.foldl_cons, List.foldl_cons, swap_below n a b _ _ hx.1 hx.2,
      ih (fun y hy => hl y (List.mem_cons_of_mem _ hy))]

/-- The helper `ApplyMask` writes the first `INPUT_DIM` entries of `output`, to
values that do not depend on what `output` held, and nothing else. -/
theorem applyMask_row {α : Type} [HMul α ℚ α] (input : Nat → α) (mask : Nat → ℚ)
    (output output0 : Nat → α) (swap_teams : Bool) :
    ApplyMask input mask output swap_teams =
      fun k => if k < INPUT_DIM then ApplyMask input mask output0 swap_teams k
        else output k := by
  have h1 : (fun i => if i < INPUT_DIM then input i * mask i else output i) =
      fun i => if i < INPUT_DIM then
        (fun k => if k < INPUT_DIM then input k * mask k else output0 k) i else output i := by
    funext i
    by_cases h : i < INPUT_DIM
    · simp [h]
    · simp [h]
  unfold ApplyMask
  cases swap_teams
  · simpa using h1
  · simp only [if_true]
    unfold swap_ranges
    rw [h1, foldl_swap_below]
    intro x hx
    have := List.mem_range.mp hx
    simp only [NUM_BALL_COLS, NUM_PLAYER_COLS, INPUT_DIM] at this ⊢
    omega

theorem swapBoostX_row {α : Type} (a b : Nat → α) :
    SwapBoostX (fun k => if k < INPUT_DIM then a k else b k) =
      fun k => if k < INPUT_DIM then SwapBoostX a k else b k := by
  unfold SwapBoostX
  simp only
  rw [swap_below, swap_below, swap_below] <;>
    simp [boost_index, NUM_BALL_COLS, NUM_PLAYER_COLS, INPUT_DIM]

theorem swapBoostY_row {α : Type} (a b : Nat → α) :
    SwapBoostY (fun k => if k < INPUT_DIM then a k else b k) =
      fun k => if k < INPUT_DIM then SwapBoostY a k else b k := by
  unfold SwapBoostY
  simp only
  rw [swap_below, swap_below] <;>
    simp [boost_index, NUM_BALL_COLS, NUM_PLAYER_COLS, INPUT_DIM]

theorem swapBoostXY_row {α : Type} (a b : Nat → α) :
    SwapBoostXY (fun k => if k < INPUT_DIM then a k else b k) =
      fun k => if k < INPUT_DIM then SwapBoostXY a k else b k := by
  unfold SwapBoostXY
  simp only
  rw [swap_below, swap_below, swap_below] <;>
    simp [boost_index, NUM_BALL_COLS, NUM_PLAYER_COLS, INPUT_DIM]

/-- Writing one batch row: `ApplyMask` and then a boost swap on the memory at
`offset` change the `INPUT_DIM` entries from `offset` on, and nothing else. -/
theorem atOffset_row (offset : Nat) (F : (Nat → ℚ) → (Nat → ℚ)) (R : Nat → ℚ)
    (hF : ∀ out : Nat → ℚ, F out = fun k => if k < INPUT_DIM then R k else out k)
    (p : Nat → ℚ) :
    atOffset offset F p =
      fun j => if offset ≤ j ∧ j < offset + INPUT_DIM then R (j - offset) else p j := by
  funext j
  unfold atOffset
  by_cases h : offset ≤ j
  · rw [if_pos h, hF]
    by_cases h2 : j - offset < INPUT_DIM
    · have h3 : j < offset + INPUT_DIM := by omega
      simp [h, h2, h3]
    · have h3 : ¬ j < offset + INPUT_DIM := by omega
      have h4 : offset + (j - offset) = j := by omega
      simp [h, h2, h3, h4]
  · simp [h]

theorem flipX_row (v out : Nat → ℚ) :
    SwapBoostX (ApplyMask v InitializeMasks.mask_flip_x out false) =
      fun k => if k < INPUT_DIM then flipX zeroRow v k else out k := by
  rw [applyMask_row v _ out zeroRow, swapBoostX_row]
  rfl

theorem flipY_row (v out : Nat → ℚ) :
    SwapBoostY (ApplyMask v InitializeMasks.mask_flip_y out true) =
      fun k => if k < INPUT_DIM then flipY zeroRow v k else out k := by
  rw [applyMask_row v _ out zeroRow, swapBoostY_row]
  rfl

theorem flipXY_row (v out : Nat → ℚ) :
    SwapBoostXY (ApplyMask v InitializeMasks.mask_flip_xy out true) =
      fun k => if k < INPUT_DIM then flipXY zeroRow v k else out k := by
  rw [applyMask_row v _ out zeroRow, swapBoostXY_row]
  rfl

end InferenceEngine

namespace InferenceEngine

/-- The batch for `AUGMENT_4X`: the input, then `flip_xy`, `flip_x`, `flip_y`. -/
theorem buildBatch_4X (v : Nat → ℚ) :
    buildBatch InitializeMasks v Augmentation.AUGMENT_4X zeroRow =
      fun j => if j < INPUT_DIM then v j
        else if j < 2 * INPUT_DIM then flipXY zeroRow v (j - INPUT_DIM)
        else if j < 3 * INPUT_DIM then flipX zeroRow v (j - 2 * INPUT_DIM)
        else if j < 4 * INPUT_DIM then flipY zeroRow v (j - 3 * INPUT_DIM)
        else 0 := by
  unfold buildBatch
  simp only [if_true, true_or]
  rw [atOffset_atOffset, atOffset_atOffset, atOffset_atOffset,
    atOffset_row _ _ _ (flipXY_row v), atOffset_row _ _ _ (flipX_row v),
    atOffset_row _ _ _ (flipY_row v)]
  funext j
  simp only [INPUT_DIM, zeroRow]
  split_ifs <;> first | with_reducible rfl | omega

theorem buildBatch_2X (v : Nat → ℚ) :
    buildBatch InitializeMasks v Augmentation.AUGMENT_2X zeroRow =
      fun j => if j < INPUT_DIM then v j
        else if j < 2 * INPUT_DIM then flipXY zeroRow v (j - INPUT_DIM)
        else 0 := by
  unfold buildBatch
  have h : ¬ Augmentation.AUGMENT_2X = Augmentation.AUGMENT_4X := by decide
  simp only [if_neg h, if_true, true_or, or_true]
  rw [atOffset_atOffset, atOffset_row _ _ _ (flipXY_row v)]
  funext j
  simp only [INPUT_DIM, zeroRow]
  split_ifs <;> first | with_reducible rfl | omega

theorem buildBatch_NO (v : Nat → ℚ) :
    buildBatch InitializeMasks v Augmentation.NO_AUGMENT zeroRow =
      fun j => if j < INPUT_DIM then v j else 0 := by
  unfold buildBatch
  have h : ¬ Augmentation.NO_AUGMENT = Augmentation.AUGMENT_4X := by decide
  have h2 : ¬ Augmentation.NO_AUGMENT = Augmentation.AUGMENT_2X := by decide
  simp only [if_neg h, if_true, or_true, h2, false_or, h, if_false]
  rfl

/-- A value that is none of the three enumerators leaves the batch as it was. -/
theorem buildBatch_other (masks : Masks) (v : Nat → ℚ) (a : Augmentation) (b : Nat → ℚ)
    (h1 : a ≠ Augmentation.NO_AUGMENT) (h2 : a ≠ Augmentation.AUGMENT_2X)
    (h4 : a ≠ Augmentation.AUGMENT_4X) : buildBatch masks v a b = b := by
  unfold buildBatch
  simp [h1, h2, h4]

/-- A non-empty result of `InferRaw`: the input size is a multiple of
`INPUT_DIM`, there are `OUTPUT_DIM` outputs per row, and each lies in `[0, 1]`. -/
theorem inferRaw_spec (session : Session) (input : FloatVector)
    (h : InferRaw session input ≠ []) :
    input.size % INPUT_DIM = 0 ∧
      (InferRaw session input).length = input.size / INPUT_DIM * OUTPUT_DIM ∧
      (∀ x ∈ InferRaw session input, 0 ≤ x ∧ x ≤ 1) ∧
      ∃ out_ptr, session (input.size / INPUT_DIM) input.data = some out_ptr ∧
        ∀ k, k < input.size / INPUT_DIM * OUTPUT_DIM →
          out_ptr k = some ((InferRaw session input).getD k 0) := by
  unfold InferRaw at h ⊢
  by_cases h1 : input.size % INPUT_DIM ≠ 0
  · simp [h1] at h
  · rw [if_neg h1] at h ⊢
    simp only at h ⊢
    cases hs : session (input.size / INPUT_DIM) input.data with
    | none => simp [hs] at h
    | some out_ptr =>
      simp only [hs] at h ⊢
      by_cases hall : ((List.range (input.size / INPUT_DIM * OUTPUT_DIM)).map out_ptr).all
          validOutput = true
      · rw [if_pos hall]
        have hval : ∀ k, k < input.size / INPUT_DIM * OUTPUT_DIM →
            ∃ x, out_ptr k = some x ∧ 0 ≤ x ∧ x ≤ 1 := by
          intro k hk
          have := List.all_eq_true.mp hall (out_ptr k)
            (List.mem_map.mpr ⟨k, List.mem_range.mpr hk, rfl⟩)
          cases hx : out_ptr k with
          | none => simp [hx, validOutput] at this
          | some x =>
            simp [hx, validOutput] at this
            exact ⟨x, rfl, this⟩
        have hmap : (List.range (input.size / INPUT_DIM * OUTPUT_DIM)).map out_ptr =
            ((List.range (input.size / INPUT_DIM * OUTPUT_DIM)).map
              (fun k => (out_ptr k).getD 0)).map some := by
          rw [List.map_map]
          apply List.map_congr_left
          intro k hk
          obtain ⟨x, hx, _⟩ := hval k (List.mem_range.mp hk)
          simp [hx]
        rw [hmap, List.filterMap_map]
        have hid : (List.filterMap (id ∘ some)
            ((List.range (input.size / INPUT_DIM * OUTPUT_DIM)).map
              (fun k => (out_ptr k).getD 0))) =
            (List.range (input.size / INPUT_DIM * OUTPUT_DIM)).map
              (fun k => (out_ptr k).getD 0) := by
          have : (id ∘ some : ℚ → Option ℚ) = some := rfl
          rw [this, List.filterMap_some]
        rw [hid]
        refine ⟨not_not.mp h1, by simp, ?_, out_ptr, rfl, ?_⟩
        · intro x hx
          obtain ⟨k, hk, rfl⟩ := List.mem_map.mp hx
          obtain ⟨y, hy, hb⟩ := hval k (List.mem_range.mp hk)
          simpa [hy] using hb
        · intro k hk
          obtain ⟨y, hy, _⟩ := hval k hk
          rw [List.getD_eq_getElem?_getD, List.getElem?_map, List.getElem?_range hk]
          simp [hy]
      · simp [hall] at h

/-- An output of `InferRaw` read at an index below its length lies in `[0, 1]`. -/
theorem getD_inferRaw_mem (session : Session) (input : FloatVector) (k : Nat)
    (h : InferRaw session input ≠ [])
    (hk : k < input.size / INPUT_DIM * OUTPUT_DIM) :
    0 ≤ (InferRaw session input).getD k 0 ∧ (InferRaw session input).getD k 0 ≤ 1 := by
  obtain ⟨_, hlen, hmem, _⟩ := inferRaw_spec session input h
  apply hmem
  rw [List.getD_eq_getElem?_getD, List.getElem?_eq_getElem (by omega)]
  simp

/-- What `Predict` returns when it returns a prediction. -/
theorem predict_eq_some (masks : Masks) (session : Session) (input : InferenceInput)
    (a : Augmentation) (t0 t1 : ℚ) (p : Prediction)
    (hp : Predict masks session input a t0 t1 = some p) :
    InferRaw session ⟨a.value * INPUT_DIM, buildBatch masks input.inputs a zeroRow⟩ ≠ [] ∧
    p = Prediction.make
      ((sumOutputs a (InferRaw session
        ⟨a.value * INPUT_DIM, buildBatch masks input.inputs a zeroRow⟩)).1 / a.value)
      ((sumOutputs a (InferRaw session
        ⟨a.value * INPUT_DIM, buildBatch masks input.inputs a zeroRow⟩)).2 / a.value)
      input.reliability a (t1 - t0) := by
  unfold Predict at hp
  simp only at hp
  by_cases he : (InferRaw session
      ⟨a.value * INPUT_DIM, buildBatch masks input.inputs a fun _ => 0⟩).isEmpty = true
  · rw [if_pos he] at hp
    simp at hp
  · rw [if_neg he] at hp
    refine ⟨?_, ?_⟩
    · intro h
      apply he
      show (InferRaw session
        ⟨a.value * INPUT_DIM, buildBatch masks input.inputs a zeroRow⟩).isEmpty = true
      rw [h]
      rfl
    · exact (Option.some.inj hp).symm

/-- Where the second `switch` reads the blue and the orange probability of each row. -/
theorem rowBlue_rowOrange_index (out : List ℚ) :
    (rowBlue out 0 = out.getD 0 0 ∧ rowOrange out 0 = out.getD 1 0) ∧
    (rowBlue out 1 = out.getD 4 0 ∧ rowOrange out 1 = out.getD 3 0) ∧
    (rowBlue out 2 = out.getD 6 0 ∧ rowOrange out 2 = out.getD 7 0) ∧
    (rowBlue out 3 = out.getD 10 0 ∧ rowOrange out 3 = out.getD 9 0) :=
  ⟨⟨rfl, rfl⟩, ⟨rfl, rfl⟩, ⟨rfl, rfl⟩, ⟨rfl, rfl⟩⟩

/-- The sums of the second `switch`, per row. -/
theorem sumOutputs_rows (a : Augmentation) (out : List ℚ)
    (ha : a = Augmentation.NO_AUGMENT ∨ a = Augmentation.AUGMENT_2X ∨
      a = Augmentation.AUGMENT_4X) :
    (sumOutputs a out).1 = ((List.range a.value).map (rowBlue out)).sum ∧
    (sumOutputs a out).2 = ((List.range a.value).map (rowOrange out)).sum := by
  have h1 : List.range 1 = [0] := rfl
  have h2 : List.range 2 = [0, 1] := rfl
  have h4 : List.range 4 = [0, 1, 2, 3] := rfl
  obtain ⟨⟨b0, o0⟩, ⟨b1, o1⟩, ⟨b2, o2⟩, ⟨b3, o3⟩⟩ := rowBlue_rowOrange_index out
  rcases ha with rfl | rfl | rfl
  · simp only [sumOutputs, Augmentation.NO_AUGMENT, Augmentation.AUGMENT_2X,
      Augmentation.AUGMENT_4X, h1, List.map_cons, List.map_nil, List.sum_cons, List.sum_nil,
      b0, o0]
    norm_num
  · simp only [sumOutputs, Augmentation.NO_AUGMENT, Augmentation.AUGMENT_2X,
      Augmentation.AUGMENT_4X, h2, List.map_cons, List.map_nil, List.sum_cons, List.sum_nil,
      b0, o0, b1, o1]
    norm_num
    constructor <;> ring
  · simp only [sumOutputs, Augmentation.NO_AUGMENT, Augmentation.AUGMENT_2X,
      Augmentation.AUGMENT_4X, h4, List.map_cons, List.map_nil, List.sum_cons, List.sum_nil,
      b0, o0, b1, o1, b2, o2, b3, o3]
    norm_num
    constructor <;> ring

/-- The means of the per-row readings lie in `[0, 1]` when the readings do. -/
theorem row_means_bounds (a : Augmentation) (out : List ℚ)
    (ha : a = Augmentation.NO_AUGMENT ∨ a = Augmentation.AUGMENT_2X ∨
      a = Augmentation.AUGMENT_4X)
    (hget : ∀ k, k < a.value * OUTPUT_DIM → 0 ≤ out.getD k 0 ∧ out.getD k 0 ≤ 1) :
    (0 ≤ ((List.range a.value).map (rowBlue out)).sum / a.value ∧
      ((List.range a.value).map (rowBlue out)).sum / a.value ≤ 1) ∧
    (0 ≤ ((List.range a.value).map (rowOrange out)).sum / a.value ∧
      ((List.range a.value).map (rowOrange out)).sum / a.value ≤ 1) := by
  obtain ⟨⟨b0, o0⟩, ⟨b1, o1⟩, ⟨b2, o2⟩, ⟨b3, o3⟩⟩ := rowBlue_rowOrange_index out
  rcases ha with rfl | rfl | rfl
  · have g0 := hget 0 (by decide)
    have g1 := hget 1 (by decide)
    have hv : ((Augmentation.NO_AUGMENT.value : Nat) : ℚ) = 1 := by
      simp [Augmentation.NO_AUGMENT]
    rw [show List.range Augmentation.NO_AUGMENT.value = [0] from rfl, hv]
    simp only [List.map_cons, List.map_nil, List.sum_cons, List.sum_nil, b0, o0]
    refine ⟨⟨?_, ?_⟩, ?_, ?_⟩ <;> linarith [g0.1, g0.2, g1.1, g1.2]
  · have g0 := hget 0 (by decide)
    have g1 := hget 1 (by decide)
    have g3 := hget 3 (by decide)
    have g4 := hget 4 (by decide)
    have hv : ((Augmentation.AUGMENT_2X.value : Nat) : ℚ) = 2 := by
      simp [Augmentation.AUGMENT_2X]
    rw [show List.range Augmentation.AUGMENT_2X.value = [0, 1] from rfl, hv]
    simp only [List.map_cons, List.map_nil, List.sum_cons, List.sum_nil, b0, o0, b1, o1]
    refine ⟨⟨?_, ?_⟩, ?_, ?_⟩ <;> linarith [g0.1, g0.2, g1.1, g1.2, g3.1, g3.2, g4.1, g4.2]
  · have g0 := hget 0 (by decide)
    have g1 := hget 1 (by decide)
    have g3 := hget 3 (by decide)
    have g4 := hget 4 (by decide)
    have g6 := hget 6 (by decide)
    have g7 := hget 7 (by decide)
    have g9 := hget 9 (by decide)
    have g10 := hget 10 (by decide)
    have hv : ((Augmentation.AUGMENT_4X.value : Nat) : ℚ) = 4 := by
      simp [Augmentation.AUGMENT_4X]
    rw [show List.range Augmentation.AUGMENT_4X.value = [0, 1, 2, 3] from rfl, hv]
    simp only [List.map_cons, List.map_nil, List.sum_cons, List.sum_nil, b0, o0, b1, o1, b2,
      o2, b3, o3]
    refine ⟨⟨?_, ?_⟩, ?_, ?_⟩ <;>
      linarith [g0.1, g0.2, g1.1, g1.2, g3.1, g3.2, g4.1, g4.2, g6.1, g6.2, g7.1, g7.2,
        g9.1, g9.2, g10.1, g10.2]

set_option maxRecDepth 100000 in
/-- The symbolic rows on the player columns: `flip_xy` and `flip_y` hold the
entry of the other team's player, `flip_x` the entry of the column itself, each
times the entry of the row's mask. -/
theorem symbolic_rows_player_columns :
    ∀ i, i < NUM_BALL_COLS + NUM_PLAYER_COLS * 6 → NUM_BALL_COLS ≤ i →
      flipXY Term.zero Term.var i = ⟨otherTeamIndex i, InitializeMasks.mask_flip_xy i⟩ ∧
      flipX Term.zero Term.var i = ⟨i, InitializeMasks.mask_flip_x i⟩ ∧
      flipY Term.zero Term.var i = ⟨otherTeamIndex i, InitializeMasks.mask_flip_y i⟩ := by
  decide!

set_option maxRecDepth 100000 in
/-- Every entry of the three masks is 1 or -1. -/
theorem masks_are_signs :
    ∀ i, i < INPUT_DIM →
      (InitializeMasks.mask_flip_x i = 1 ∨ InitializeMasks.mask_flip_x i = -1) ∧
      (InitializeMasks.mask_flip_y i = 1 ∨ InitializeMasks.mask_flip_y i = -1) ∧
      (InitializeMasks.mask_flip_xy i = 1 ∨ InitializeMasks.mask_flip_xy i = -1) := by
  decide!

/-- The three rows on the player columns. -/
theorem rows_player_columns (v : Nat → ℚ) (i : Nat)
    (h1 : i < NUM_BALL_COLS + NUM_PLAYER_COLS * 6) (h2 : NUM_BALL_COLS ≤ i) :
    flipXY zeroRow v i = v (otherTeamIndex i) * InitializeMasks.mask_flip_xy i ∧
    flipX zeroRow v i = v i * InitializeMasks.mask_flip_x i ∧
    flipY zeroRow v i = v (otherTeamIndex i) * InitializeMasks.mask_flip_y i := by
  obtain ⟨hxy, hx, hy⟩ := symbolic_rows_player_columns i h1 h2
  refine ⟨?_, ?_, ?_⟩
  · rw [flipXY_eval]
    simp only [hxy]
    rfl
  · rw [flipX_eval]
    simp only [hx]
    rfl
  · rw [flipY_eval]
    simp only [hy]
    rfl

theorem mul_sign (x m : ℚ) (h : m = 1 ∨ m = -1) : x * m = x ∨ x * m = -x := by
  rcases h with h | h
  · left
    rw [h, mul_one]
  · right
    rw [h]
    ring

/-- Which rows of the batch are built with the teams swapped. -/
theorem rows_teams (v : Nat → ℚ) :
    TeamsKept v v ∧ TeamsSwapped v (flipXY zeroRow v) ∧ TeamsKept v (flipX zeroRow v) ∧
      TeamsSwapped v (flipY zeroRow v) := by
  refine ⟨?_, ?_, ?_, ?_⟩
  · intro i _ _
    exact Or.inl rfl
  · intro i h1 h2
    rw [(rows_player_columns v i h1 h2).1]
    exact mul_sign _ _ (masks_are_signs i (by
      simp only [NUM_BALL_COLS, NUM_PLAYER_COLS, INPUT_DIM] at h1 ⊢
      omega)).2.2
  · intro i h1 h2
    rw [(rows_player_columns v i h1 h2).2.1]
    exact mul_sign _ _ (masks_are_signs i (by
      simp only [NUM_BALL_COLS, NUM_PLAYER_COLS, INPUT_DIM] at h1 ⊢
      omega)).1
  · intro i h1 h2
    rw [(rows_player_columns v i h1 h2).2.2]
    exact mul_sign _ _ (masks_are_signs i (by
      simp only [NUM_BALL_COLS, NUM_PLAYER_COLS, INPUT_DIM] at h1 ⊢
      omega)).2.1

/-- The rows of the batch `Predict` builds, for the three enumerators. -/
theorem batch_rows (v : Nat → ℚ) (a : Augmentation)
    (ha : a = Augmentation.NO_AUGMENT ∨ a = Augmentation.AUGMENT_2X ∨
      a = Augmentation.AUGMENT_4X) :
    (∀ i, i < INPUT_DIM → batchRow (buildBatch InitializeMasks v a zeroRow) 0 i = v i) ∧
    (1 < a.value → ∀ i, i < INPUT_DIM →
      batchRow (buildBatch InitializeMasks v a zeroRow) 1 i = flipXY zeroRow v i) ∧
    (2 < a.value → ∀ i, i < INPUT_DIM →
      batchRow (buildBatch InitializeMasks v a zeroRow) 2 i = flipX zeroRow v i ∧
      batchRow (buildBatch InitializeMasks v a zeroRow) 3 i = flipY zeroRow v i) := by
  rcases ha with rfl | rfl | rfl
  · refine ⟨?_, ?_, ?_⟩
    · intro i hi
      rw [buildBatch_NO]
      simp only [batchRow, INPUT_DIM] at hi ⊢
      rw [if_pos (by omega)]
      simp
    · intro h
      simp [Augmentation.NO_AUGMENT] at h
    · intro h
      simp [Augmentation.NO_AUGMENT] at h
  · refine ⟨?_, ?_, ?_⟩
    · intro i hi
      rw [buildBatch_2X]
      simp only [batchRow, INPUT_DIM] at hi ⊢
      rw [if_pos (by omega)]
      simp
    · intro _ i hi
      rw [buildBatch_2X]
      simp only [batchRow, INPUT_DIM] at hi ⊢
      rw [if_neg (by omega), if_pos (by omega), show 1 * 114 + i - 114 = i by omega]
    · intro h
      simp [Augmentation.AUGMENT_2X] at h
  · refine ⟨?_, ?_, ?_⟩
    · intro i hi
      rw [buildBatch_4X]
      simp only [batchRow, INPUT_DIM] at hi ⊢
      rw [if_pos (by omega)]
      simp
    · intro _ i hi
      rw [buildBatch_4X]
      simp only [batchRow, INPUT_DIM] at hi ⊢
      rw [if_neg (by omega), if_pos (by omega), show 1 * 114 + i - 114 = i by omega]
    · intro _ i hi
      rw [buildBatch_4X]
      simp only [batchRow, INPUT_DIM] at hi ⊢
      constructor
      · rw [if_neg (by omega), if_neg (by omega), if_pos (by omega),
          show 2 * 114 + i - 2 * 114 = i by omega]
      · rw [if_neg (by omega), if_neg (by omega), if_neg (by omega), if_pos (by omega),
          show 3 * 114 + i - 3 * 114 = i by omega]

theorem player_column_lt (i : Nat) (h : i < NUM_BALL_COLS + NUM_PLAYER_COLS * 6) :
    i < INPUT_DIM := by
  simp only [NUM_BALL_COLS, NUM_PLAYER_COLS, INPUT_DIM] at h ⊢
  omega

/-- The rows of the batch that are built with the teams swapped are the ones
`rowSwapsTeams` names. -/
theorem batch_rows_teams (v : Nat → ℚ) (a : Augmentation)
    (ha : a = Augmentation.NO_AUGMENT ∨ a = Augmentation.AUGMENT_2X ∨
      a = Augmentation.AUGMENT_4X) :
    ∀ k, k < a.value →
      (rowSwapsTeams k = true →
        TeamsSwapped v (batchRow (buildBatch InitializeMasks v a zeroRow) k)) ∧
      (rowSwapsTeams k = false →
        TeamsKept v (batchRow (buildBatch InitializeMasks v a zeroRow) k)) := by
  obtain ⟨h0, h1, h23⟩ := batch_rows v a ha
  obtain ⟨t0, t1, t2, t3⟩ := rows_teams v
  have hval : a.value ≤ 4 := by
    rcases ha with rfl | rfl | rfl <;> decide
  intro k hk
  have hk4 : k = 0 ∨ k = 1 ∨ k = 2 ∨ k = 3 := by omega
  rcases hk4 with rfl | rfl | rfl | rfl
  · refine ⟨fun h => Bool.noConfusion h, fun _ => ?_⟩
    intro i hi1 hi2
    rw [h0 i (player_column_lt i hi1)]
    exact t0 i hi1 hi2
  · refine ⟨fun _ => ?_, fun h => Bool.noConfusion h⟩
    intro i hi1 hi2
    rw [h1 hk i (player_column_lt i hi1)]
    exact t1 i hi1 hi2
  · refine ⟨fun h => Bool.noConfusion h, fun _ => ?_⟩
    intro i hi1 hi2
    rw [(h23 (by omega) i (player_column_lt i hi1)).1]
    exact t2 i hi1 hi2
  · refine ⟨fun _ => ?_, fun h => Bool.noConfusion h⟩
    intro i hi1 hi2
    rw [(h23 (by omega) i (player_column_lt i hi1)).2]
    exact t3 i hi1 hi2

end InferenceEngine

/-! ## The scheduling tick -/

namespace GoalPredictor

open TimeSeries

variable {T : Type}

/-- Iterating `GetRangeInclusive` on an ascending map yields the entries with
their key in the range. -/
theorem entries_of_ascending (m : Series T) (lo hi : ℚ) (hm : KeysAscending m)
    (hle : lo ≤ hi) :
    (GetRangeInclusive m lo hi).entries m =
      some (m.filter (fun e => decide (lo ≤ e.1 ∧ e.1 ≤ hi))) := by
  obtain ⟨A, W, B, hsplit, hlo, hhi, hA, hW, hB⟩ := window_split m lo hi hm hle
  unfold Subrange.entries GetRangeInclusive
  simp only
  rw [hlo, hhi]
  have hfilter := filter_range_of_split A W B lo hi hA hW hB
  rw [← hsplit] at hfilter
  rw [hfilter]
  have hdrop : m.drop A.length = W ++ B := by
    rw [hsplit]
    simp
  rw [hdrop]
  exact walk_window W B A.length

theorem radius_pos : (0 : ℚ) < PREDICTION_OVERLAP_RADIUS_MS := by
  unfold PREDICTION_OVERLAP_RADIUS_MS
  norm_num

theorem keysSpaced_ascending (m : Series T) (h : KeysSpaced m) : KeysAscending m := by
  unfold KeysSpaced at h
  unfold KeysAscending
  exact h.imp (fun hab => by linarith [radius_pos])

theorem keysSpaced_sublist {a b : Series T} (hs : a.Sublist b) (h : KeysSpaced b) :
    KeysSpaced a :=
  List.Pairwise.sublist hs h

/-- Two entries of a spaced map have keys more than the radius apart, or are equal. -/
theorem keysSpaced_apart (m : Series T) (h : KeysSpaced m) :
    ∀ a ∈ m, ∀ b ∈ m, a = b ∨ PREDICTION_OVERLAP_RADIUS_MS < |a.1 - b.1| := by
  induction m with
  | nil =>
    intro a ha
    simp at ha
  | cons e m ih =>
    unfold KeysSpaced at h
    rw [List.pairwise_cons] at h
    intro a ha b hb
    rcases List.mem_cons.mp ha with ha1 | ha1
    · rcases List.mem_cons.mp hb with hb1 | hb1
      · exact Or.inl (ha1.trans hb1.symm)
      · right
        have := h.1 b hb1
        rw [ha1, abs_sub_comm, abs_of_pos (by linarith [radius_pos])]
        linarith
    · rcases List.mem_cons.mp hb with hb1 | hb1
      · right
        have := h.1 a ha1
        rw [hb1, abs_of_pos (by linarith [radius_pos])]
        linarith
      · exact ih h.2 a ha1 b hb1

/-- Putting a key that is more than the radius away from every key into a spaced map. -/
theorem emplace_keysSpaced (m : Series T) (k : ℚ) (v : T) (hm : KeysSpaced m)
    (hfar : ∀ e ∈ m, PREDICTION_OVERLAP_RADIUS_MS < |e.1 - k|) :
    KeysSpaced (emplace m k v) := by
  induction m with
  | nil =>
    unfold emplace KeysSpaced
    simp
  | cons e m ih =>
    have hm0 := hm
    unfold KeysSpaced at hm
    rw [List.pairwise_cons] at hm
    have he := hfar e (List.mem_cons_self _ _)
    unfold emplace
    by_cases h1 : k < e.1
    · rw [if_pos h1]
      unfold KeysSpaced
      rw [List.pairwise_cons]
      refine ⟨?_, hm0⟩
      have hke : k + PREDICTION_OVERLAP_RADIUS_MS < e.1 := by
        rw [abs_of_pos (by linarith)] at he
        linarith
      intro x hx
      rcases List.mem_cons.mp hx with rfl | hx
      · exact hke
      · have := hm.1 x hx
        linarith [radius_pos]
    · rw [if_neg h1]
      by_cases h2 : e.1 < k
      · rw [if_pos h2]
        unfold KeysSpaced
        rw [List.pairwise_cons]
        refine ⟨?_, ih hm.2 (fun x hx => hfar x (List.mem_cons_of_mem _ hx))⟩
        intro x hx
        rcases mem_emplace m k v x hx with rfl | hx
        · rw [abs_of_neg (by linarith)] at he
          show e.1 + PREDICTION_OVERLAP_RADIUS_MS < k
          linarith
        · exact hm.1 x hx
      · rw [if_neg h2]
        exact hm0

/-- With `REPLACE` on an ascending map the overlap loop runs to completion. -/
theorem overlapScan_replace [DecidableEq T] (m : Series T) (t : ℚ) (v : T) (r : ℚ)
    (flag : Bool) (hm : KeysAscending m) (hr : 0 ≤ r) :
    overlapScan m t v ⟨r, flag, OverlapAction.REPLACE⟩ =
      LoopResult.completed (keptEntries t r flag v m) := by
  obtain ⟨A, W, B, _, _, _, hkept, _, hloop⟩ :=
    loop_of_ascending m t v ⟨r, flag, OverlapAction.REPLACE⟩ hm hr
  simp only at hkept hloop
  unfold overlapScan
  simp only
  rw [hloop, hkept]
  exact overlapLoop_replace t v _ rfl W B A

/-- The entries kept by a scan without the equality filter are those outside the window. -/
theorem mem_keptEntries_flag_off [DecidableEq T] (m : Series T) (t r : ℚ) (v : T)
    (e : ℚ × T) :
    e ∈ keptEntries t r false v m ↔ e ∈ m ∧ ¬ (t - r ≤ e.1 ∧ e.1 ≤ t + r) := by
  unfold keptEntries
  rw [List.mem_filter]
  simp only [inWindow, overlaps, Bool.not_false, Bool.true_or, Bool.and_true, Bool.not_eq_true',
    Bool.and_eq_false_imp, decide_eq_true_eq, decide_eq_false_iff_not, not_and]

theorem abs_sub_gt_iff (x t r : ℚ) : r < |x - t| ↔ ¬ (t - r ≤ x ∧ x ≤ t + r) := by
  rw [lt_abs]
  constructor
  · rintro (h | h) ⟨h1, h2⟩ <;> linarith
  · intro h
    by_contra hc
    push_neg at hc
    exact h ⟨by linarith [hc.2], by linarith [hc.1]⟩

/-- Writing a prediction: `AddEvent` with `REPLACE`, the radius of the plugin and
the equality filter off, on a spaced map, with one unit of fuel. -/
theorem addEvent_prediction [DecidableEq T] (fuel : Nat) (m : Series T) (t : ℚ) (v : T)
    (hm : KeysSpaced m) (hfuel : 0 < fuel) :
    ∃ m1, AddEvent fuel m t v ⟨PREDICTION_OVERLAP_RADIUS_MS, false, OverlapAction.REPLACE⟩ =
        Outcome.done m1 ∧
      KeysSpaced m1 ∧ (t, v) ∈ m1 ∧
      (∀ e ∈ m1, e = (t, v) ∨ (e ∈ m ∧ PREDICTION_OVERLAP_RADIUS_MS < |e.1 - t|)) ∧
      (∀ e ∈ m, PREDICTION_OVERLAP_RADIUS_MS < |e.1 - t| → e ∈ m1) := by
  have hasc := keysSpaced_ascending m hm
  have hr := le_of_lt radius_pos
  have hfree := contains_keptEntries_flag_off m t PREDICTION_OVERLAP_RADIUS_MS v hr
  refine ⟨emplace (keptEntries t PREDICTION_OVERLAP_RADIUS_MS false v m) t v, ?_, ?_, ?_, ?_, ?_⟩
  · rw [addEvent_eq_of_scan, overlapScan_replace m t v _ false hasc hr]
    simp only [jitterLoop_of_free fuel _ t hfuel hfree]
  · apply emplace_keysSpaced
    · exact keysSpaced_sublist (List.filter_sublist _) hm
    · intro e he
      rw [abs_sub_gt_iff]
      exact ((mem_keptEntries_flag_off m t _ v e).mp he).2
  · exact (emplace_perm _ _ _ hfree).mem_iff.mpr (List.mem_cons_self _ _)
  · intro e he
    rcases mem_emplace _ _ _ e he with h | h
    · exact Or.inl h
    · right
      obtain ⟨h1, h2⟩ := (mem_keptEntries_flag_off m t _ v e).mp h
      exact ⟨h1, (abs_sub_gt_iff _ _ _).mpr h2⟩
  · intro e he hfar
    apply (emplace_sublist _ t v).subset
    exact (mem_keptEntries_flag_off m t _ v e).mpr ⟨he, (abs_sub_gt_iff _ _ _).mp hfar⟩

/-- A window of twice the radius holds at most two entries of a spaced map. -/
theorem keysSpaced_window_length (m : Series T) (t : ℚ) (hm : KeysSpaced m) :
    (m.filter (fun e => decide (t - PREDICTION_OVERLAP_RADIUS_MS ≤ e.1 ∧
      e.1 ≤ t + PREDICTION_OVERLAP_RADIUS_MS))).length ≤ 2 := by
  have hW : KeysSpaced (m.filter (fun e => decide (t - PREDICTION_OVERLAP_RADIUS_MS ≤ e.1 ∧
      e.1 ≤ t + PREDICTION_OVERLAP_RADIUS_MS))) :=
    keysSpaced_sublist (List.filter_sublist m) hm
  have hin : ∀ e ∈ m.filter (fun e => decide (t - PREDICTION_OVERLAP_RADIUS_MS ≤ e.1 ∧
      e.1 ≤ t + PREDICTION_OVERLAP_RADIUS_MS)),
      t - PREDICTION_OVERLAP_RADIUS_MS ≤ e.1 ∧ e.1 ≤ t + PREDICTION_OVERLAP_RADIUS_MS := by
    intro e he
    simpa using (List.mem_filter.mp he).2
  generalize m.filter (fun e => decide (t - PREDICTION_OVERLAP_RADIUS_MS ≤ e.1 ∧
      e.1 ≤ t + PREDICTION_OVERLAP_RADIUS_MS)) = W at hW hin
  match W, hW, hin with
  | [], _, _ => simp
  | [_], _, _ => simp
  | [_, _], _, _ => simp
  | a :: b :: c :: rest, hW, hin =>
    exfalso
    unfold KeysSpaced at hW
    rw [List.pairwise_cons, List.pairwise_cons] at hW
    have h1 := hW.1 b (by simp)
    have h2 := hW.2.1 c (by simp)
    have ha := (hin a (by simp)).1
    have hc := (hin c (by simp)).2
    linarith

variable {H : Type}

theorem getAll_snd (g : GameDataTracker) (k : EventKind) : (g.GetAll k).2 = (g.GetMap k).2 :=
  rfl

/-- A query leaves the entries of every series as they are. -/
theorem getAll_after_getMap (g : GameDataTracker) (k u : EventKind) :
    ((g.GetMap k).1.GetAll u).2 = (g.GetAll u).2 := by
  rw [getAll_snd, getAll_snd]
  by_cases hu : u = k
  · subst hu
    rw [GameDataTracker.getMap_of_some _ _ _ (GameDataTracker.getMap_fst_self g u)]
  · apply GameDataTracker.getMap_snd_congr
    exact GameDataTracker.getMap_fst_other g k u hu

theorem getAll_clear (g : GameDataTracker) (k : EventKind) : (g.Clear.GetAll k).2 = [] := by
  rw [getAll_snd, GameDataTracker.getMap_of_none _ _ rfl]

/-- Writing a prediction into the tracker, on a spaced `Prediction` series. -/
theorem tracker_addEvent_prediction (fuel : Nat) (g : GameDataTracker) (t : ℚ) (v : Prediction)
    (hm : KeysSpaced (g.GetAll EventKind.prediction).2) (hfuel : 0 < fuel) :
    ∃ g1, g.AddEvent fuel EventKind.prediction t v
        ⟨PREDICTION_OVERLAP_RADIUS_MS, false, OverlapAction.REPLACE⟩ = Outcome.done g1 ∧
      KeysSpaced (g1.GetAll EventKind.prediction).2 ∧
      (t, v) ∈ (g1.GetAll EventKind.prediction).2 ∧
      (∀ e ∈ (g1.GetAll EventKind.prediction).2, e = (t, v) ∨
        (e ∈ (g.GetAll EventKind.prediction).2 ∧ PREDICTION_OVERLAP_RADIUS_MS < |e.1 - t|)) ∧
      (∀ e ∈ (g.GetAll EventKind.prediction).2, PREDICTION_OVERLAP_RADIUS_MS < |e.1 - t| →
        e ∈ (g1.GetAll EventKind.prediction).2) ∧
      (∀ u, u ≠ EventKind.prediction → (g1.GetAll u).2 = (g.GetAll u).2) := by
  rw [getAll_snd] at hm
  obtain ⟨m1, hadd, hsp, hmem, hfrom, hkeep⟩ :=
    addEvent_prediction fuel (g.GetMap EventKind.prediction).2 t v hm hfuel
  have hdone : g.AddEvent fuel EventKind.prediction t v
      ⟨PREDICTION_OVERLAP_RADIUS_MS, false, OverlapAction.REPLACE⟩ =
        Outcome.done ⟨Function.update (g.GetMap EventKind.prediction).1.timeSeriesMap
          EventKind.prediction (some m1)⟩ := by
    unfold GameDataTracker.AddEvent
    simp only
    rw [hadd]
  obtain ⟨hother, m2, hadd2, hslot⟩ := GameDataTracker.addEvent_slots fuel g _ EventKind.prediction t v _ hdone
  have hm2 : m2 = m1 := by
    rw [hadd] at hadd2
    exact (Outcome.done.inj hadd2).symm
  subst hm2
  have hall : ((⟨Function.update (g.GetMap EventKind.prediction).1.timeSeriesMap
      EventKind.prediction (some m2)⟩ : GameDataTracker).GetAll EventKind.prediction).2 = m2 := by
    rw [getAll_snd, GameDataTracker.getMap_of_some _ _ _ hslot]
  refine ⟨_, hdone, ?_, ?_, ?_, ?_, ?_⟩
  · rw [hall]
    exact hsp
  · rw [hall]
    exact hmem
  · rw [hall, getAll_snd]
    exact hfrom
  · rw [hall, getAll_snd]
    exact hkeep
  · intro u hu
    rw [getAll_snd, getAll_snd]
    exact GameDataTracker.getMap_snd_congr _ _ _ (hother u hu)


theorem recordCompleted_cons_none (fuel : Nat) (t : ℚ) (rest : List (ℚ × Option Prediction))
    (g : GameDataTracker) :
    recordCompleted fuel ((t, none) :: rest) g = recordCompleted fuel rest g := by
  rw [recordCompleted]

theorem recordCompleted_cons_some (fuel : Nat) (t : ℚ) (v : Prediction)
    (rest : List (ℚ × Option Prediction)) (g g1 : GameDataTracker)
    (h : g.AddEvent fuel EventKind.prediction t v
      ⟨PREDICTION_OVERLAP_RADIUS_MS, false, OverlapAction.REPLACE⟩ = Outcome.done g1) :
    recordCompleted fuel ((t, some v) :: rest) g = recordCompleted fuel rest g1 := by
  rw [recordCompleted, h]

/-- Results without a value leave the tracker as it is. -/
theorem recordCompleted_of_all_none (fuel : Nat) (l : List (ℚ × Option Prediction))
    (g : GameDataTracker) (h : ∀ x ∈ l, x.2 = none) :
    recordCompleted fuel l g = Outcome.done g := by
  induction l with
  | nil => rfl
  | cons x l ih =>
    obtain ⟨t, r⟩ := x
    have hr : r = none := h (t, r) (List.mem_cons_self _ _)
    subst hr
    rw [recordCompleted_cons_none]
    exact ih (fun y hy => h y (List.mem_cons_of_mem _ hy))

/-- The loop that records the completed predictions, on a spaced `Prediction`
series: it ends normally with one unit of fuel, the series stays spaced, every
entry it holds afterwards was there before or is one of the results, an entry
more than the radius away from every result with a value stays, the other
series are not touched, and when the results' timestamps are more than the
radius apart every result with a value is in the series afterwards. -/
theorem recordCompleted_spec (fuel : Nat) (hfuel : 0 < fuel) :
    ∀ (l : List (ℚ × Option Prediction)) (g : GameDataTracker),
      KeysSpaced (g.GetAll EventKind.prediction).2 →
      ∃ g1, recordCompleted fuel l g = Outcome.done g1 ∧
        KeysSpaced (g1.GetAll EventKind.prediction).2 ∧
        (∀ e ∈ (g1.GetAll EventKind.prediction).2,
          e ∈ (g.GetAll EventKind.prediction).2 ∨ (e.1, some e.2) ∈ l) ∧
        (∀ e ∈ (g.GetAll EventKind.prediction).2,
          (∀ x ∈ l, x.2 ≠ none → PREDICTION_OVERLAP_RADIUS_MS < |e.1 - x.1|) →
          e ∈ (g1.GetAll EventKind.prediction).2) ∧
        (∀ u, u ≠ EventKind.prediction → (g1.GetAll u).2 = (g.GetAll u).2) ∧
        (l.Pairwise (fun a b => PREDICTION_OVERLAP_RADIUS_MS < |a.1 - b.1|) →
          ∀ t v, (t, some v) ∈ l → (t, v) ∈ (g1.GetAll EventKind.prediction).2) := by
  intro l
  induction l with
  | nil =>
    intro g hg
    refine ⟨g, rfl, hg, fun e he => Or.inl he, fun e he _ => he, fun _ _ => rfl, ?_⟩
    intro _ t v h
    simp at h
  | cons x l ih =>
    intro g hg
    obtain ⟨t, r⟩ := x
    cases r with
    | none =>
      obtain ⟨g1, hrun, hsp, hfrom, hkeep, hother, hall⟩ := ih g hg
      refine ⟨g1, by rw [recordCompleted_cons_none]; exact hrun, hsp, ?_, ?_, hother, ?_⟩
      · intro e he
        rcases hfrom e he with h | h
        · exact Or.inl h
        · exact Or.inr (List.mem_cons_of_mem _ h)
      · intro e he hfar
        exact hkeep e he (fun x hx => hfar x (List.mem_cons_of_mem _ hx))
      · intro hpw t1 v1 hmem
        rcases List.mem_cons.mp hmem with h | h
        · simp at h
        · exact hall (List.pairwise_cons.mp hpw).2 t1 v1 h
    | some v =>
      obtain ⟨g0, hadd, hsp0, hmem0, hfrom0, hkeep0, hother0⟩ :=
        tracker_addEvent_prediction fuel g t v hg hfuel
      obtain ⟨g1, hrun, hsp, hfrom, hkeep, hother, hall⟩ := ih g0 hsp0
      refine ⟨g1, by rw [recordCompleted_cons_some fuel t v l g g0 hadd]; exact hrun, hsp,
        ?_, ?_, ?_, ?_⟩
      · intro e he
        rcases hfrom e he with h | h
        · rcases hfrom0 e h with h0 | h0
          · right
            rw [h0]
            exact List.mem_cons_self _ _
          · exact Or.inl h0.1
        · exact Or.inr (List.mem_cons_of_mem _ h)
      · intro e he hfar
        apply hkeep e
        · exact hkeep0 e he (hfar (t, some v) (List.mem_cons_self _ _) (by simp))
        · intro x hx
          exact hfar x (List.mem_cons_of_mem _ hx)
      · intro u hu
        rw [hother u hu, hother0 u hu]
      · intro hpw t1 v1 hmem
        rw [List.pairwise_cons] at hpw
        rcases List.mem_cons.mp hmem with h | h
        · have ht : t1 = t := (Prod.mk.inj h).1
          have hv : v1 = v := Option.some.inj (Prod.mk.inj h).2
          subst ht
          subst hv
          apply hkeep (t1, v1) hmem0
          intro x hx _
          exact hpw.1 x hx
        · exact hall hpw.2 t1 v1 h

theorem trackTime_fields (p : GoalPredictor H) (o : TickObservation H) :
    (trackTime p o).gameDataTracker = p.gameDataTracker ∧
    (trackTime p o).pendingPredictions = p.pendingPredictions ∧
    (trackTime p o).currentGameKey = p.currentGameKey := by
  unfold trackTime
  simp only
  split_ifs <;> exact ⟨rfl, rfl, rfl⟩

theorem duplicateLaunchCheck_eq (g : GameDataTracker) (s : TimedTaskSet H) (now : ℚ) :
    duplicateLaunchCheck g s now =
      ((g.GetMap EventKind.prediction).1,
        !(GetRangeAroundInclusive (g.GetAll EventKind.prediction).2 now
          PREDICTION_OVERLAP_RADIUS_MS).empty || alreadyScheduled s now) :=
  rfl

/-- The end of the tick: the `Prediction` series is only queried; either nothing
is launched and the pending list stays, or the overlap check found the window
around the game time empty and no pending task within the radius, and the new
task is appended under the game time. -/
theorem launchStep_spec (p : GoalPredictor H) (o : TickObservation H) :
    (OnlyQueries o.GetInferenceInput → (launchStep p o).1.predictions = p.predictions) ∧
    (((launchStep p o).2 = false ∧
        (launchStep p o).1.pendingPredictions = p.pendingPredictions) ∨
      ((launchStep p o).2 = true ∧
        (launchStep p o).1.pendingPredictions =
          p.pendingPredictions.Add o.currentGameTimeMs o.task ∧
        (GetRangeAroundInclusive p.predictions o.currentGameTimeMs
          PREDICTION_OVERLAP_RADIUS_MS).empty = true ∧
        alreadyScheduled p.pendingPredictions o.currentGameTimeMs = false)) := by
  have hq : ((duplicateLaunchCheck p.gameDataTracker p.pendingPredictions
      o.currentGameTimeMs).1.GetAll EventKind.prediction).2 = p.predictions := by
    rw [duplicateLaunchCheck_eq]
    exact getAll_after_getMap _ _ _
  unfold launchStep
  simp only
  by_cases h1 : (duplicateLaunchCheck p.gameDataTracker p.pendingPredictions
      o.currentGameTimeMs).2 = true
  · rw [if_pos h1]
    exact ⟨fun _ => hq, Or.inl ⟨rfl, rfl⟩⟩
  · rw [if_neg h1]
    have h1f : (!(GetRangeAroundInclusive p.predictions o.currentGameTimeMs
        PREDICTION_OVERLAP_RADIUS_MS).empty ||
        alreadyScheduled p.pendingPredictions o.currentGameTimeMs) = false := by
      rw [duplicateLaunchCheck_eq] at h1
      simpa using h1
    rw [Bool.or_eq_false_iff] at h1f
    by_cases h2 : (!(o.GetInferenceInput (duplicateLaunchCheck p.gameDataTracker
        p.pendingPredictions o.currentGameTimeMs).1).2) = true
    · rw [if_pos h2]
      refine ⟨fun hro => ?_, Or.inl ⟨rfl, rfl⟩⟩
      exact (hro _ _).trans hq
    · rw [if_neg h2]
      refine ⟨fun hro => ?_, Or.inr ⟨rfl, rfl, by simpa using h1f.1, h1f.2⟩⟩
      exact (hro _ _).trans hq

/-- What a tick that ended normally did, after the session check. -/
theorem tickBody_spec (fuel : Nat) (p : GoalPredictor H) (o : TickObservation H)
    (p1 : GoalPredictor H) (l : Bool) (h : tickBody fuel p o = Outcome.done (p1, l)) :
    (o.gameKey.IsActive = false ∧ p1 = p ∧ l = false) ∨
    (o.gameKey.IsActive = true ∧
      ∃ g1, recordCompleted fuel
          (TimedTaskSet.GetCompletedTasks o.futures p.pendingPredictions).1
          p.gameDataTracker = Outcome.done g1 ∧
        (OnlyQueries o.GetInferenceInput →
          p1.predictions = (g1.GetAll EventKind.prediction).2) ∧
        ((l = false ∧ p1.pendingPredictions =
            (TimedTaskSet.GetCompletedTasks o.futures p.pendingPredictions).2) ∨
          (l = true ∧
            p1.pendingPredictions =
              (TimedTaskSet.GetCompletedTasks o.futures p.pendingPredictions).2.Add
                o.currentGameTimeMs o.task ∧
            (GetRangeAroundInclusive (g1.GetAll EventKind.prediction).2 o.currentGameTimeMs
              PREDICTION_OVERLAP_RADIUS_MS).empty = true ∧
            alreadyScheduled (TimedTaskSet.GetCompletedTasks o.futures p.pendingPredictions).2
              o.currentGameTimeMs = false))) := by
  unfold tickBody at h
  by_cases hact : (!o.gameKey.IsActive) = true
  · rw [if_pos hact] at h
    have := Outcome.done.inj h
    left
    exact ⟨by simpa using hact, (Prod.mk.inj this).1.symm, (Prod.mk.inj this).2.symm⟩
  · rw [if_neg hact] at h
    right
    refine ⟨by simpa using hact, ?_⟩
    simp only at h
    cases hrec : recordCompleted fuel
        (TimedTaskSet.GetCompletedTasks o.futures p.pendingPredictions).1 p.gameDataTracker with
    | pastEnd => simp [hrec] at h
    | outOfFuel => simp [hrec] at h
    | done g1 =>
      simp only [hrec] at h
      refine ⟨g1, rfl, ?_⟩
      obtain ⟨htr, hpend, _⟩ := trackTime_fields
        { p with
          gameDataTracker :=
            if (!(TimedTaskSet.GetCompletedTasks o.futures p.pendingPredictions).1.isEmpty &&
                o.logsPredictionTime) = true then
              (g1.GetRangeInclusive EventKind.prediction (p.lastGameTimeMs - 1000)
                p.lastGameTimeMs).1
            else g1,
          pendingPredictions :=
            (TimedTaskSet.GetCompletedTasks o.futures p.pendingPredictions).2 } o
      simp only at htr hpend
      have hg2 : ((if (!(TimedTaskSet.GetCompletedTasks o.futures
            p.pendingPredictions).1.isEmpty && o.logsPredictionTime) = true then
              (g1.GetRangeInclusive EventKind.prediction (p.lastGameTimeMs - 1000)
                p.lastGameTimeMs).1
            else g1).GetAll EventKind.prediction).2 = (g1.GetAll EventKind.prediction).2 := by
        split_ifs
        · exact getAll_after_getMap g1 EventKind.prediction EventKind.prediction
        · rfl
      generalize trackTime
        { p with
          gameDataTracker :=
            if (!(TimedTaskSet.GetCompletedTasks o.futures p.pendingPredictions).1.isEmpty &&
                o.logsPredictionTime) = true then
              (g1.GetRangeInclusive EventKind.prediction (p.lastGameTimeMs - 1000)
                p.lastGameTimeMs).1
            else g1,
          pendingPredictions :=
            (TimedTaskSet.GetCompletedTasks o.futures p.pendingPredictions).2 } o = p2
        at h htr hpend
      have hpred : p2.predictions = (g1.GetAll EventKind.prediction).2 := by
        unfold predictions
        rw [htr, hg2]
      split_ifs at h
      · have := Outcome.done.inj h
        rw [← (Prod.mk.inj this).1, ← (Prod.mk.inj this).2]
        exact ⟨fun _ => hpred, Or.inl ⟨rfl, hpend⟩⟩
      · have hl := Outcome.done.inj h
        obtain ⟨hq, hcase⟩ := launchStep_spec p2 o
        rw [hl] at hq hcase
        simp only at hq hcase
        rw [hpred, hpend] at hcase
        exact ⟨fun hro => (hq hro).trans hpred, hcase⟩


/-- On a spaced `Prediction` series a tick ends normally with one unit of fuel. -/
theorem tickBody_total (fuel : Nat) (hfuel : 0 < fuel) (p : GoalPredictor H)
    (o : TickObservation H) (hsp : KeysSpaced p.predictions) :
    ∃ r, tickBody fuel p o = Outcome.done r := by
  unfold tickBody
  by_cases hact : (!o.gameKey.IsActive) = true
  · rw [if_pos hact]
    exact ⟨_, rfl⟩
  · rw [if_neg hact]
    obtain ⟨g1, hrec, _⟩ := recordCompleted_spec fuel hfuel
      (TimedTaskSet.GetCompletedTasks o.futures p.pendingPredictions).1 p.gameDataTracker hsp
    simp only [hrec]
    split_ifs <;> exact ⟨_, rfl⟩

/-- The session check leaves the state as it is or as `ResetLocalState` leaves
it, with nothing pending and nothing stored. -/
theorem sessionCheck_spec [DecidableEq H] (p : GoalPredictor H) (o : TickObservation H) :
    sessionCheck p o = p ∨
      ((sessionCheck p o).pendingPredictions.tasks = [] ∧
        (sessionCheck p o).predictions = []) := by
  unfold sessionCheck
  by_cases h : o.gameKey ≠ p.currentGameKey
  · rw [if_pos h]
    right
    exact ⟨rfl, getAll_clear p.gameDataTracker EventKind.prediction⟩
  · rw [if_neg h]
    exact Or.inl rfl

theorem pendingSpaced_nil (s : TimedTaskSet H) (h : s.tasks = []) : PendingSpaced s := by
  unfold PendingSpaced
  rw [h]
  exact List.Pairwise.nil

theorem keysSpaced_nil {T : Type} : KeysSpaced ([] : Series T) := List.Pairwise.nil

/-- Polling keeps the pending list spaced, and the results it returns carry
timestamps more than the radius apart. -/
theorem getCompletedTasks_spaced (futures : H → FutureState (Option Prediction))
    (s : TimedTaskSet H) (h : PendingSpaced s) :
    PendingSpaced (TimedTaskSet.GetCompletedTasks futures s).2 ∧
    (TimedTaskSet.GetCompletedTasks futures s).1.Pairwise
      (fun a b => PREDICTION_OVERLAP_RADIUS_MS < |a.1 - b.1|) := by
  rw [TimedTaskSet.getCompletedTasks_eq]
  unfold PendingSpaced at h ⊢
  constructor
  · exact h.sublist (List.filter_sublist _)
  · simp only
    rw [List.pairwise_filterMap]
    refine h.imp ?_
    intro a b hab x hx y hy
    unfold TimedTaskSet.completedPair at hx hy
    cases ha : futures a.task with
    | invalid => simp [ha] at hx
    | running => simp [ha] at hx
    | ready ra =>
      cases hb : futures b.task with
      | invalid => simp [hb] at hy
      | running => simp [hb] at hy
      | ready rb =>
        simp [ha] at hx
        simp [hb] at hy
        rw [← hx, ← hy]
        exact hab

/-- A tick keeps the pending list spaced. -/
theorem tick_pendingSpaced [DecidableEq H] (fuel : Nat) (p : GoalPredictor H)
    (o : TickObservation H) (p1 : GoalPredictor H) (l : Bool)
    (h : Tick fuel p o = Outcome.done (p1, l)) (hp : PendingSpaced p.pendingPredictions) :
    PendingSpaced p1.pendingPredictions := by
  have hs : PendingSpaced (sessionCheck p o).pendingPredictions := by
    rcases sessionCheck_spec p o with h1 | h1
    · rw [h1]
      exact hp
    · exact pendingSpaced_nil _ h1.1
  unfold Tick at h
  rcases tickBody_spec fuel _ o p1 l h with ⟨_, h1, _⟩ | ⟨_, g1, _, _, hcase⟩
  · rw [h1]
    exact hs
  · have hkept := (getCompletedTasks_spaced o.futures _ hs).1
    rcases hcase with ⟨_, h2⟩ | ⟨_, h2, _, hsched⟩
    · rw [h2]
      exact hkept
    · rw [h2]
      unfold PendingSpaced TimedTaskSet.Add
      simp only
      rw [List.pairwise_append]
      refine ⟨hkept, List.pairwise_singleton _ _, ?_⟩
      intro a ha b hb
      rw [List.mem_singleton] at hb
      subst hb
      simp only
      by_contra hnot
      have : alreadyScheduled (TimedTaskSet.GetCompletedTasks o.futures
          (sessionCheck p o).pendingPredictions).2 o.currentGameTimeMs = true :=
        (alreadyScheduled_iff _ _).mpr ⟨a, ha, not_lt.mp hnot⟩
      rw [hsched] at this
      exact Bool.false_ne_true this

/-- A tick keeps the `Prediction` series spaced. -/
theorem tick_keysSpaced [DecidableEq H] (fuel : Nat) (hfuel : 0 < fuel) (p : GoalPredictor H)
    (o : TickObservation H) (p1 : GoalPredictor H) (l : Bool)
    (hq : OnlyQueries o.GetInferenceInput)
    (h : Tick fuel p o = Outcome.done (p1, l)) (hp : KeysSpaced p.predictions) :
    KeysSpaced p1.predictions := by
  have hs : KeysSpaced (sessionCheck p o).predictions := by
    rcases sessionCheck_spec p o with h1 | h1
    · rw [h1]
      exact hp
    · rw [h1.2]
      exact keysSpaced_nil
  unfold Tick at h
  rcases tickBody_spec fuel _ o p1 l h with ⟨_, h1, _⟩ | ⟨_, g1, hrec, hpred, _⟩
  · rw [h1]
    exact hs
  · obtain ⟨g0, hrec0, hsp, _⟩ := recordCompleted_spec fuel hfuel
      (TimedTaskSet.GetCompletedTasks o.futures (sessionCheck p o).pendingPredictions).1
      (sessionCheck p o).gameDataTracker hs
    rw [hrec] at hrec0
    rw [hpred hq, Outcome.done.inj hrec0]
    exact hsp

/-- From a state with nothing pending, the pending list stays spaced. -/
theorem reachable_pendingSpaced [DecidableEq H] (p : GoalPredictor H)
    (h : ReachableFrom NothingPending p) : PendingSpaced p.pendingPredictions := by
  induction h with
  | init p hinit => exact pendingSpaced_nil _ hinit
  | tick fuel p o p1 l _ _ _ htick ih => exact tick_pendingSpaced fuel p o p1 l htick ih
  | reset p eventual futures key _ _ => exact pendingSpaced_nil _ rfl
  | other p p1 _ hpend _ ih =>
    rw [hpend]
    exact ih

/-- From a fresh state, the pending list and the `Prediction` series stay spaced. -/
theorem reachable_spaced [DecidableEq H] (p : GoalPredictor H) (h : ReachableFrom Fresh p) :
    PendingSpaced p.pendingPredictions ∧ KeysSpaced p.predictions := by
  induction h with
  | init p hinit =>
    refine ⟨pendingSpaced_nil _ hinit.1, ?_⟩
    rw [hinit.2]
    exact keysSpaced_nil
  | tick fuel p o p1 l _ hq hfuel htick ih =>
    exact ⟨tick_pendingSpaced fuel p o p1 l htick ih.1,
      tick_keysSpaced fuel hfuel p o p1 l hq htick ih.2⟩
  | reset p eventual futures key _ _ =>
    refine ⟨pendingSpaced_nil _ rfl, ?_⟩
    have : (ResetLocalState eventual futures p key).predictions = [] :=
      getAll_clear p.gameDataTracker EventKind.prediction
    rw [this]
    exact keysSpaced_nil
  | other p p1 _ hpend hpred ih =>
    rw [hpend, hpred]
    exact ih

/-- A state reached from a fresh state is reached from a state with nothing pending. -/
theorem reachable_of_fresh [DecidableEq H] (p : GoalPredictor H) (h : ReachableFrom Fresh p) :
    ReachableFrom NothingPending p := by
  induction h with
  | init p hinit => exact ReachableFrom.init p hinit.1
  | tick fuel p o p1 l _ hq hfuel htick ih => exact ReachableFrom.tick fuel p o p1 l ih hq hfuel htick
  | reset p eventual futures key _ ih => exact ReachableFrom.reset p eventual futures key ih
  | other p p1 _ hpend hpred ih => exact ReachableFrom.other p p1 ih hpend hpred

/-- Ticks that end normally lead from reachable states to reachable states. -/
theorem reachable_runTicks [DecidableEq H] (Init : GoalPredictor H → Prop) (fuel : Nat)
    (hfuel : 0 < fuel) :
    ∀ (os : List (TickObservation H)) (p p1 : GoalPredictor H),
      (∀ o ∈ os, OnlyQueries o.GetInferenceInput) → ReachableFrom Init p →
      runTicks fuel os p = Outcome.done p1 → ReachableFrom Init p1 := by
  intro os
  induction os with
  | nil =>
    intro p p1 _ hp h
    rw [runTicks] at h
    rw [← Outcome.done.inj h]
    exact hp
  | cons o os ih =>
    intro p p1 hq hp h
    rw [runTicks] at h
    cases ht : Tick fuel p o with
    | pastEnd => simp [ht] at h
    | outOfFuel => simp [ht] at h
    | done r =>
      simp only [ht] at h
      apply ih r.1 p1 (fun x hx => hq x (List.mem_cons_of_mem _ hx)) ?_ h
      exact ReachableFrom.tick fuel p o r.1 r.2 hp (hq o (List.mem_cons_self _ _)) hfuel ht

/-- A run whose pending timestamps can be read off ended normally. -/
theorem done_of_pendingAfter (r : Outcome (GoalPredictor H)) (fallback : GoalPredictor H)
    (ts : List ℚ) (h : pendingAfter r = some ts) : r = Outcome.done (stateAfter r fallback) := by
  cases r with
  | done p => rfl
  | pastEnd => simp [pendingAfter] at h
  | outOfFuel => simp [pendingAfter] at h

theorem exampleTick_onlyQueries (now : ℚ) (futures : Nat → FutureState (Option Prediction))
    (task : Nat) : OnlyQueries (exampleTick now futures task).GetInferenceInput :=
  fun _ _ => rfl

theorem freshPlugin_fresh : Fresh freshPlugin :=
  ⟨rfl, rfl⟩

/-- The entries of the window the overlap check of the tick examines, on an
ascending `Prediction` series. -/
theorem rangeEntries_around (g : GameDataTracker) (now : ℚ)
    (hm : KeysAscending (g.GetAll EventKind.prediction).2) :
    g.rangeEntries EventKind.prediction
        (g.GetRangeAroundInclusive EventKind.prediction now PREDICTION_OVERLAP_RADIUS_MS).2 =
      some ((g.GetAll EventKind.prediction).2.filter
        (fun e => decide (now - PREDICTION_OVERLAP_RADIUS_MS ≤ e.1 ∧
          e.1 ≤ now + PREDICTION_OVERLAP_RADIUS_MS))) := by
  have := entries_of_ascending (g.GetAll EventKind.prediction).2
    (now - PREDICTION_OVERLAP_RADIUS_MS) (now + PREDICTION_OVERLAP_RADIUS_MS) hm
    (by linarith [radius_pos])
  exact this

/-- A tick from a state with spaced pending list and spaced `Prediction` series
that drains a result with a value within the radius of the game time launches
nothing. -/
theorem tick_no_launch_after_drain [DecidableEq H] (fuel : Nat) (hfuel : 0 < fuel)
    (p : GoalPredictor H) (o : TickObservation H) (p1 : GoalPredictor H) (l : Bool)
    (hpend : PendingSpaced p.pendingPredictions) (hkeys : KeysSpaced p.predictions)
    (h : Tick fuel p o = Outcome.done (p1, l)) (tau : ℚ) (v : Prediction)
    (hmem : (tau, some v) ∈
      (TimedTaskSet.GetCompletedTasks o.futures (sessionCheck p o).pendingPredictions).1)
    (hnear : |tau - o.currentGameTimeMs| ≤ PREDICTION_OVERLAP_RADIUS_MS) : l = false := by
  have hs : PendingSpaced (sessionCheck p o).pendingPredictions ∧
      KeysSpaced (sessionCheck p o).predictions := by
    rcases sessionCheck_spec p o with h1 | h1
    · rw [h1]
      exact ⟨hpend, hkeys⟩
    · refine ⟨pendingSpaced_nil _ h1.1, ?_⟩
      rw [h1.2]
      exact keysSpaced_nil
  unfold Tick at h
  rcases tickBody_spec fuel _ o p1 l h with ⟨_, _, h1⟩ | ⟨_, g1, hrec, _, hcase⟩
  · exact h1
  · rcases hcase with ⟨h2, _⟩ | ⟨_, _, hempty, _⟩
    · exact h2
    · exfalso
      obtain ⟨g0, hrec0, hsp, _, _, _, hall⟩ := recordCompleted_spec fuel hfuel
        (TimedTaskSet.GetCompletedTasks o.futures (sessionCheck p o).pendingPredictions).1
        (sessionCheck p o).gameDataTracker hs.2
      rw [hrec] at hrec0
      have hg : g0 = g1 := (Outcome.done.inj hrec0).symm
      subst hg
      have hin := hall (getCompletedTasks_spaced o.futures _ hs.1).2 tau v hmem
      have hno := (rangeAround_empty_iff _ o.currentGameTimeMs PREDICTION_OVERLAP_RADIUS_MS
        (keysSpaced_ascending _ hsp) (le_of_lt radius_pos)).mp hempty
      apply hno
      obtain ⟨h1, h2⟩ := abs_sub_le_iff.mp hnear
      exact ⟨(tau, v), hin, by simp only; linarith, by simp only; linarith⟩

end GoalPredictor

namespace GoalPredictor

set_option maxRecDepth 100000 in
theorem oneLaunch_pending : pendingAfter oneLaunch = some [0] := by
  decide!

set_option maxRecDepth 100000 in
theorem twoLaunches_pending : pendingAfter twoLaunches = some [0, 31] := by
  decide!

set_option maxRecDepth 100000 in
theorem twoRecorded_pending : pendingAfter twoRecorded = some [100] := by
  decide!

theorem oneLaunch_reachable : ReachableFrom Fresh (stateAfter oneLaunch freshPlugin) := by
  apply reachable_runTicks Fresh 1 (by decide) [exampleTick 0 allRunning 1] freshPlugin
  · intro o ho
    simp only [List.mem_singleton] at ho
    rw [ho]
    exact exampleTick_onlyQueries _ _ _
  · exact ReachableFrom.init _ freshPlugin_fresh
  · exact done_of_pendingAfter oneLaunch freshPlugin _ oneLaunch_pending

theorem twoLaunches_reachable : ReachableFrom Fresh (stateAfter twoLaunches freshPlugin) := by
  apply reachable_runTicks Fresh 1 (by decide)
    [exampleTick 0 allRunning 1, exampleTick 31 allRunning 2] freshPlugin
  · intro o ho
    simp only [List.mem_cons, List.mem_singleton, List.not_mem_nil, or_false] at ho
    rcases ho with rfl | rfl <;> exact exampleTick_onlyQueries _ _ _
  · exact ReachableFrom.init _ freshPlugin_fresh
  · exact done_of_pendingAfter twoLaunches freshPlugin _ twoLaunches_pending

theorem twoRecorded_reachable : ReachableFrom Fresh (stateAfter twoRecorded freshPlugin) := by
  apply reachable_runTicks Fresh 1 (by decide)
    [exampleTick 0 allRunning 1, exampleTick 31 allRunning 2, exampleTick 100 allReady 3]
    freshPlugin
  · intro o ho
    simp only [List.mem_cons, List.mem_singleton, List.not_mem_nil, or_false] at ho
    rcases ho with rfl | rfl | rfl <;> exact exampleTick_onlyQueries _ _ _
  · exact ReachableFrom.init _ freshPlugin_fresh
  · exact done_of_pendingAfter twoRecorded freshPlugin _ twoRecorded_pending

/-- A tick from a state with spaced pending list and spaced `Prediction` series,
in a tracked game: every drained result with a value is in the series when the
tick ends. -/
theorem tick_records_drained [DecidableEq H] (fuel : Nat) (hfuel : 0 < fuel)
    (p : GoalPredictor H) (o : TickObservation H) (p1 : GoalPredictor H) (l : Bool)
    (hpend : PendingSpaced p.pendingPredictions) (hkeys : KeysSpaced p.predictions)
    (hq : OnlyQueries o.GetInferenceInput) (hact : o.gameKey.IsActive = true)
    (h : Tick fuel p o = Outcome.done (p1, l)) (tau : ℚ) (v : Prediction)
    (hmem : (tau, some v) ∈
      (TimedTaskSet.GetCompletedTasks o.futures (sessionCheck p o).pendingPredictions).1) :
    (tau, v) ∈ p1.predictions := by
  have hs : PendingSpaced (sessionCheck p o).pendingPredictions ∧
      KeysSpaced (sessionCheck p o).predictions := by
    rcases sessionCheck_spec p o with h1 | h1
    · rw [h1]
      exact ⟨hpend, hkeys⟩
    · refine ⟨pendingSpaced_nil _ h1.1, ?_⟩
      rw [h1.2]
      exact keysSpaced_nil
  unfold Tick at h
  rcases tickBody_spec fuel _ o p1 l h with ⟨h0, _, _⟩ | ⟨_, g1, hrec, hpred, _⟩
  · rw [hact] at h0
    exact absurd h0 (by simp)
  · obtain ⟨g0, hrec0, _, _, _, _, hall⟩ := recordCompleted_spec fuel hfuel
      (TimedTaskSet.GetCompletedTasks o.futures (sessionCheck p o).pendingPredictions).1
      (sessionCheck p o).gameDataTracker hs.2
    rw [hrec] at hrec0
    have hg : g0 = g1 := (Outcome.done.inj hrec0).symm
    subst hg
    rw [hpred hq]
    exact hall (getCompletedTasks_spaced o.futures _ hs.1).2 tau v hmem

/-- From a state with a spaced `Prediction` series a tick ends normally. -/
theorem tick_total [DecidableEq H] (fuel : Nat) (hfuel : 0 < fuel) (p : GoalPredictor H)
    (o : TickObservation H) (hkeys : KeysSpaced p.predictions) :
    ∃ r, Tick fuel p o = Outcome.done r := by
  unfold Tick
  apply tickBody_total fuel hfuel
  rcases sessionCheck_spec p o with h1 | h1
  · rw [h1]
    exact hkeys
  · rw [h1.2]
    exact keysSpaced_nil

end GoalPredictor

/-- The absolute value of a rounded difference is the rounded absolute value,
for a rounding that is monotone and odd. -/
theorem abs_rounded_eq (fl : ℚ → ℚ) (hfl : Monotone fl) (hodd : ∀ x, fl (-x) = -fl x)
    (x : ℚ) : |fl x| = fl |x| := by
  have h0 : fl 0 = 0 := by
    have := hodd 0
    rw [neg_zero] at this
    linarith
  rcases le_total 0 x with hx | hx
  · have : 0 ≤ fl x := by
      rw [← h0]
      exact hfl hx
    rw [abs_of_nonneg hx, abs_of_nonneg this]
  · have : fl x ≤ 0 := by
      rw [← h0]
      exact hfl hx
    rw [abs_of_nonpos hx, abs_of_nonpos this, hodd]

/-- The rounded `alreadyScheduled` is true exactly when some pending task has a
computed distance to the current game time within the overlap radius. -/
theorem rounded_alreadyScheduled_iff {H : Type} (fl : ℚ → ℚ) (s : TimedTaskSet H) (now : ℚ) :
    Rounded.alreadyScheduled fl s now = true ↔
      ∃ x ∈ s.tasks, |fl (x.timeMs - now)| ≤ PREDICTION_OVERLAP_RADIUS_MS := by
  unfold Rounded.alreadyScheduled
  by_cases hne : s.tasks = []
  · have : TimedTaskSet.Rounded.GetClosestTimeMs fl s now = none := by
      unfold TimedTaskSet.Rounded.GetClosestTimeMs
      rw [hne]
    rw [this, hne]
    simp
  · obtain ⟨i, e, hget, hres, hmin, _⟩ :=
      TimedTaskSet.rounded_getClosestTimeMs_spec fl s now hne
    rw [hres]
    simp only [decide_eq_true_eq]
    constructor
    · intro h
      exact ⟨e, List.getElem?_mem hget, h⟩
    · rintro ⟨x, hx, hxd⟩
      exact le_trans (hmin x hx) hxd

namespace GoalPredictor

open TimeSeries

variable {H : Type}

/-- After the session check the current game key is the one the tick observed. -/
theorem sessionCheck_currentGameKey [DecidableEq H] (p : GoalPredictor H)
    (o : TickObservation H) : (sessionCheck p o).currentGameKey = o.gameKey := by
  unfold sessionCheck
  by_cases h : o.gameKey ≠ p.currentGameKey
  · rw [if_pos h]
    rfl
  · rw [if_neg h]
    exact (not_not.mp h).symm

/-- After the session check the `Prediction` series is ascending if it was. -/
theorem sessionCheck_ascending [DecidableEq H] (p : GoalPredictor H) (o : TickObservation H)
    (h : KeysAscending p.predictions) : KeysAscending (sessionCheck p o).predictions := by
  rcases sessionCheck_spec p o with h1 | h1
  · rw [h1]
    exact h
  · rw [h1.2]
    exact List.Pairwise.nil

end GoalPredictor

namespace GameDataTracker

/-- The effect of the rounded `AddEvent<T>` on the slots of the tracker. -/
theorem rounded_addEvent_slots (fl : ℚ → ℚ) (fuel : Nat) (g g1 : GameDataTracker)
    (k : EventKind) (t : ℚ) (data : k.Payload) (o : OverlapOptions)
    (h : Rounded.AddEvent fl fuel g k t data o = Outcome.done g1) :
    ∃ m1, TimeSeries.Rounded.AddEvent fl fuel (g.GetMap k).2 t data o = Outcome.done m1 ∧
      g1.timeSeriesMap k = some m1 := by
  unfold Rounded.AddEvent at h
  simp only at h
  cases hadd : TimeSeries.Rounded.AddEvent fl fuel (g.GetMap k).2 t data o with
  | done m1 =>
    rw [hadd] at h
    simp only [Outcome.done.injEq] at h
    subst h
    refine ⟨m1, rfl, ?_⟩
    simp only
    exact Function.update_same _ _ _
  | pastEnd =>
    rw [hadd] at h
    simp at h
  | outOfFuel =>
    rw [hadd] at h
    simp at h

/-- The rounded `AddEvent<T>` ends normally when the rounded `AddEvent` on the map does. -/
theorem rounded_addEvent_of_done (fl : ℚ → ℚ) (fuel : Nat) (g : GameDataTracker)
    (k : EventKind) (t : ℚ) (data : k.Payload) (o : OverlapOptions) (m1 : Series k.Payload)
    (h : TimeSeries.Rounded.AddEvent fl fuel (g.GetMap k).2 t data o = Outcome.done m1) :
    ∃ g1, Rounded.AddEvent fl fuel g k t data o = Outcome.done g1 := by
  unfold Rounded.AddEvent
  simp only
  rw [h]
  exact ⟨_, rfl⟩

end GameDataTracker

namespace GoalPredictor

open TimeSeries

variable {H : Type}

/-- The rounded `AddEvent<Prediction>` keeps the `Prediction` series ascending. -/
theorem rounded_tracker_addEvent_ascending (fl : ℚ → ℚ) (fuel : Nat) (g g1 : GameDataTracker)
    (t : ℚ) (v : Prediction) (o : OverlapOptions)
    (hm : KeysAscending (g.GetAll EventKind.prediction).2)
    (h : GameDataTracker.Rounded.AddEvent fl fuel g EventKind.prediction t v o =
      Outcome.done g1) :
    KeysAscending (g1.GetAll EventKind.prediction).2 := by
  rw [getAll_snd] at hm
  obtain ⟨m1, hadd, hslot⟩ :=
    GameDataTracker.rounded_addEvent_slots fl fuel g g1 EventKind.prediction t v o h
  rw [getAll_snd, GameDataTracker.getMap_of_some _ _ m1 hslot]
  exact rounded_addEvent_keysAscending_of_done fl fuel _ m1 t v o hm hadd

/-- The rounded loop that records the completed predictions keeps the
`Prediction` series ascending. -/
theorem rounded_recordCompleted_ascending (fl : ℚ → ℚ) (fuel : Nat) :
    ∀ (l : List (ℚ × Option Prediction)) (g g1 : GameDataTracker),
      KeysAscending (g.GetAll EventKind.prediction).2 →
      Rounded.recordCompleted fl fuel l g = Outcome.done g1 →
      KeysAscending (g1.GetAll EventKind.prediction).2 := by
  intro l
  induction l with
  | nil =>
    intro g g1 hg h
    rw [Rounded.recordCompleted] at h
    rw [← Outcome.done.inj h]
    exact hg
  | cons x l ih =>
    intro g g1 hg h
    obtain ⟨t, r⟩ := x
    cases r with
    | none =>
      rw [Rounded.recordCompleted] at h
      exact ih g g1 hg h
    | some v =>
      rw [Rounded.recordCompleted] at h
      cases hadd : GameDataTracker.Rounded.AddEvent fl fuel g EventKind.prediction t v
          ⟨PREDICTION_OVERLAP_RADIUS_MS, false, OverlapAction.REPLACE⟩ with
      | done g2 =>
        rw [hadd] at h
        exact ih g2 g1 (rounded_tracker_addEvent_ascending fl fuel g g2 t v _ hg hadd) h
      | pastEnd =>
        rw [hadd] at h
        simp at h
      | outOfFuel =>
        rw [hadd] at h
        simp at h

/-- The rounded loop that records the completed predictions ends normally, with
one unit of fuel, on an ascending `Prediction` series, for a monotone rounding
that leaves the timestamps of the results as they are. -/
theorem rounded_recordCompleted_total (fl : ℚ → ℚ) (hfl : Monotone fl) (fuel : Nat)
    (hfuel : 0 < fuel) :
    ∀ (l : List (ℚ × Option Prediction)) (g : GameDataTracker),
      KeysAscending (g.GetAll EventKind.prediction).2 →
      (∀ x ∈ l, fl x.1 = x.1) →
      ∃ g1, Rounded.recordCompleted fl fuel l g = Outcome.done g1 := by
  intro l
  induction l with
  | nil =>
    intro g _ _
    exact ⟨g, rfl⟩
  | cons x l ih =>
    intro g hg hfix
    obtain ⟨t, r⟩ := x
    have hrest : ∀ y ∈ l, fl y.1 = y.1 := fun y hy => hfix y (List.mem_cons_of_mem _ hy)
    cases r with
    | none =>
      rw [Rounded.recordCompleted]
      exact ih g hg hrest
    | some v =>
      have ht : fl t = t := hfix (t, some v) (List.mem_cons_self _ _)
      have hr := radius_pos
      have hlo : fl (t - PREDICTION_OVERLAP_RADIUS_MS) ≤ t := by
        have := hfl (show t - PREDICTION_OVERLAP_RADIUS_MS ≤ t by linarith)
        rwa [ht] at this
      have hhi : t ≤ fl (t + PREDICTION_OVERLAP_RADIUS_MS) := by
        have := hfl (show t ≤ t + PREDICTION_OVERLAP_RADIUS_MS by linarith)
        rwa [ht] at this
      rw [getAll_snd] at hg
      obtain ⟨m1, hadd⟩ := rounded_addEvent_replace_total fl fuel
        (g.GetMap EventKind.prediction).2 t v PREDICTION_OVERLAP_RADIUS_MS hg hfuel hlo hhi
      obtain ⟨g2, hg2⟩ := GameDataTracker.rounded_addEvent_of_done fl fuel g
        EventKind.prediction t v ⟨PREDICTION_OVERLAP_RADIUS_MS, false, OverlapAction.REPLACE⟩
        m1 hadd
      have hasc2 := rounded_tracker_addEvent_ascending fl fuel g g2 t v _
        (by rw [getAll_snd]; exact hg) hg2
      rw [Rounded.recordCompleted, hg2]
      exact ih g2 hasc2 hrest

/-- The end of the rounded tick launches a computation exactly when the rounded
overlap check finds nothing and `GetInferenceInput` returns an input; a launch
appends the new task to the pending list, which otherwise stays. -/
theorem rounded_launchStep_spec (fl : ℚ → ℚ) (hfl : Monotone fl) (p : GoalPredictor H)
    (o : TickObservation H) (hasc : KeysAscending p.predictions) :
    ((Rounded.launchStep fl p o).2 = true ↔
      (¬ ∃ e ∈ p.predictions,
        fl (o.currentGameTimeMs - 30) ≤ e.1 ∧ e.1 ≤ fl (o.currentGameTimeMs + 30)) ∧
      (¬ ∃ x ∈ p.pendingPredictions.tasks, |fl (x.timeMs - o.currentGameTimeMs)| ≤ 30) ∧
      (o.GetInferenceInput (p.gameDataTracker.GetMap EventKind.prediction).1).2 = true) ∧
    (Rounded.launchStep fl p o).1.pendingPredictions =
      if (Rounded.launchStep fl p o).2 = true then
        p.pendingPredictions.Add o.currentGameTimeMs o.task
      else p.pendingPredictions := by
  have hsched := rounded_alreadyScheduled_iff fl p.pendingPredictions o.currentGameTimeMs
  have hle : fl (o.currentGameTimeMs - 30) ≤ fl (o.currentGameTimeMs + 30) :=
    hfl (by linarith)
  have hempty := range_empty_iff p.predictions (fl (o.currentGameTimeMs - 30))
    (fl (o.currentGameTimeMs + 30)) hasc hle
  unfold PREDICTION_OVERLAP_RADIUS_MS at hsched
  have hc1 : (RLGP.Rounded.duplicateLaunchCheck fl p.gameDataTracker p.pendingPredictions
      o.currentGameTimeMs).1 = (p.gameDataTracker.GetMap EventKind.prediction).1 := rfl
  have hc2 : (RLGP.Rounded.duplicateLaunchCheck fl p.gameDataTracker p.pendingPredictions
      o.currentGameTimeMs).2 =
      (!(GetRangeInclusive p.predictions (fl (o.currentGameTimeMs - 30))
          (fl (o.currentGameTimeMs + 30))).empty ||
        RLGP.Rounded.alreadyScheduled fl p.pendingPredictions o.currentGameTimeMs) := rfl
  unfold Rounded.launchStep
  simp only
  rw [hc1, hc2]
  cases he : (GetRangeInclusive p.predictions (fl (o.currentGameTimeMs - 30))
      (fl (o.currentGameTimeMs + 30))).empty with
  | false =>
    have hno : ¬ ¬ ∃ e ∈ p.predictions,
        fl (o.currentGameTimeMs - 30) ≤ e.1 ∧ e.1 ≤ fl (o.currentGameTimeMs + 30) := by
      intro hcon
      have := hempty.mpr hcon
      rw [he] at this
      exact Bool.noConfusion this
    simp only [Bool.not_false, Bool.true_or, if_true]
    refine ⟨⟨fun h => Bool.noConfusion h, fun h => absurd h.1 hno⟩, ?_⟩
    simp
  | true =>
    have hyes := hempty.mp he
    cases hs : RLGP.Rounded.alreadyScheduled fl p.pendingPredictions o.currentGameTimeMs with
    | true =>
      have hex := hsched.mp hs
      simp only [Bool.not_true, Bool.false_or, if_true]
      refine ⟨⟨fun h => Bool.noConfusion h, fun h => absurd hex h.2.1⟩, ?_⟩
      simp
    | false =>
      have hnex : ¬ ∃ x ∈ p.pendingPredictions.tasks,
          |fl (x.timeMs - o.currentGameTimeMs)| ≤ 30 := by
        intro hcon
        have := hsched.mpr hcon
        rw [hs] at this
        exact Bool.noConfusion this
      simp only [Bool.not_true, Bool.false_or, Bool.false_eq_true, if_false]
      cases hi : (o.GetInferenceInput (p.gameDataTracker.GetMap EventKind.prediction).1).2 with
      | false =>
        simp only [Bool.not_false, if_true]
        refine ⟨⟨fun h => Bool.noConfusion h, fun h => Bool.noConfusion h.2.2⟩, ?_⟩
        simp
      | true =>
        simp only [Bool.not_true, Bool.false_eq_true, if_false]
        refine ⟨⟨fun _ => ⟨hyes, hnex, trivial⟩, fun _ => trivial⟩, ?_⟩
        simp

/-- A rounded tick whose game key is active, from the state at the check on: it
stops at the condition on `IsActive()` and the clocks, or goes on to the overlap
check. -/
theorem rounded_tick_of_stateAtCheck [DecidableEq H] (fl : ℚ → ℚ) (fuel : Nat)
    (p : GoalPredictor H) (o : TickObservation H) (p2 : GoalPredictor H)
    (hs : stateAtCheck fl fuel p o = Outcome.done p2) (hact : o.gameKey.IsActive = true) :
    Rounded.Tick fl fuel p o =
      Outcome.done
        (if (!(p2.IsActive o.enabled o.serverAvailable o.roundActive false) ||
            (!decide (o.currentGameTimeMs ≠ (sessionCheck p o).lastGameTimeMs) &&
              !decide (o.currentWorldTimeMs ≠ (sessionCheck p o).lastTickWorldTimeMs))) = true
          then (p2, false) else Rounded.launchStep fl p2 o) := by
  unfold stateAtCheck at hs
  unfold Rounded.Tick Rounded.tickBody
  simp only [hact, Bool.not_true, Bool.false_eq_true, if_false]
  cases hrec : Rounded.recordCompleted fl fuel
      (TimedTaskSet.GetCompletedTasks o.futures (sessionCheck p o).pendingPredictions).1
      (sessionCheck p o).gameDataTracker with
  | pastEnd => simp [hrec] at hs
  | outOfFuel => simp [hrec] at hs
  | done g1 =>
    simp only [hrec] at hs ⊢
    have hp2 := Outcome.done.inj hs
    rw [hp2]
    split_ifs <;> rfl

/-- A rounded tick whose game key is active and that ends normally has got to
the check. -/
theorem stateAtCheck_of_tick [DecidableEq H] (fl : ℚ → ℚ) (fuel : Nat)
    (p : GoalPredictor H) (o : TickObservation H) (r : GoalPredictor H × Bool)
    (h : Rounded.Tick fl fuel p o = Outcome.done r) (hact : o.gameKey.IsActive = true) :
    ∃ p2, stateAtCheck fl fuel p o = Outcome.done p2 := by
  unfold Rounded.Tick Rounded.tickBody at h
  unfold stateAtCheck
  simp only [hact, Bool.not_true, Bool.false_eq_true, if_false] at h
  cases hrec : Rounded.recordCompleted fl fuel
      (TimedTaskSet.GetCompletedTasks o.futures (sessionCheck p o).pendingPredictions).1
      (sessionCheck p o).gameDataTracker with
  | pastEnd => simp [hrec] at h
  | outOfFuel => simp [hrec] at h
  | done g1 =>
    simp only [hrec]
    exact ⟨_, rfl⟩

/-- The state at the check, from an ascending `Prediction` series: its
`Prediction` series is ascending, and its game key is the one the tick
observed. -/
theorem stateAtCheck_spec [DecidableEq H] (fl : ℚ → ℚ) (fuel : Nat) (p : GoalPredictor H)
    (o : TickObservation H) (p2 : GoalPredictor H) (hasc : KeysAscending p.predictions)
    (hs : stateAtCheck fl fuel p o = Outcome.done p2) :
    KeysAscending p2.predictions ∧ p2.currentGameKey = o.gameKey := by
  have hq := sessionCheck_ascending p o hasc
  unfold stateAtCheck at hs
  cases hrec : Rounded.recordCompleted fl fuel
      (TimedTaskSet.GetCompletedTasks o.futures (sessionCheck p o).pendingPredictions).1
      (sessionCheck p o).gameDataTracker with
  | pastEnd => simp [hrec] at hs
  | outOfFuel => simp [hrec] at hs
  | done g1 =>
    have hasc1 := rounded_recordCompleted_ascending fl fuel _ _ g1 hq hrec
    simp only [hrec] at hs
    have hp2 := Outcome.done.inj hs
    obtain ⟨htr, _, hkey⟩ := trackTime_fields
      { sessionCheck p o with
        gameDataTracker :=
          if (!(TimedTaskSet.GetCompletedTasks o.futures
              (sessionCheck p o).pendingPredictions).1.isEmpty && o.logsPredictionTime) = true
          then
            (g1.GetRangeInclusive EventKind.prediction
              (fl ((sessionCheck p o).lastGameTimeMs - 1000))
              (sessionCheck p o).lastGameTimeMs).1
          else g1,
        pendingPredictions :=
          (TimedTaskSet.GetCompletedTasks o.futures (sessionCheck p o).pendingPredictions).2 } o
    rw [← hp2]
    constructor
    · unfold predictions
      rw [htr]
      simp only
      split_ifs
      · rw [show (g1.GetRangeInclusive EventKind.prediction
            (fl ((sessionCheck p o).lastGameTimeMs - 1000))
            (sessionCheck p o).lastGameTimeMs).1 = (g1.GetMap EventKind.prediction).1 from rfl,
          getAll_after_getMap g1 EventKind.prediction EventKind.prediction]
        exact hasc1
      · exact hasc1
    · rw [hkey]
      exact sessionCheck_currentGameKey p o

/-- The timestamps of the results of a poll are timestamps of pending tasks. -/
theorem getCompletedTasks_timestamps {R : Type} (state : H → FutureState R)
    (s : TimedTaskSet H) :
    ∀ y ∈ (TimedTaskSet.GetCompletedTasks state s).1, ∃ x ∈ s.tasks, y.1 = x.timeMs := by
  intro y hy
  rw [TimedTaskSet.getCompletedTasks_eq] at hy
  simp only at hy
  obtain ⟨x, hx, hpair⟩ := List.mem_filterMap.mp hy
  refine ⟨x, hx, ?_⟩
  unfold TimedTaskSet.completedPair at hpair
  cases hst : state x.task with
  | invalid => simp [hst] at hpair
  | running => simp [hst] at hpair
  | ready result =>
    simp only [hst, Option.some.injEq] at hpair
    rw [← hpair]

/-- From an ascending `Prediction` series and pending timestamps that rounding
leaves as they are, the rounded tick ends normally with one unit of fuel. -/
theorem rounded_tick_total [DecidableEq H] (fl : ℚ → ℚ) (hfl : Monotone fl) (fuel : Nat)
    (hfuel : 0 < fuel) (p : GoalPredictor H) (o : TickObservation H)
    (hasc : KeysAscending p.predictions)
    (hfix : ∀ x ∈ p.pendingPredictions.tasks, fl x.timeMs = x.timeMs) :
    ∃ r, Rounded.Tick fl fuel p o = Outcome.done r := by
  have hq := sessionCheck_ascending p o hasc
  have hqfix : ∀ x ∈ (sessionCheck p o).pendingPredictions.tasks, fl x.timeMs = x.timeMs := by
    rcases sessionCheck_spec p o with h1 | h1
    · rw [h1]
      exact hfix
    · rw [h1.1]
      intro x hx
      simp at hx
  obtain ⟨g1, hrec⟩ := rounded_recordCompleted_total fl hfl fuel hfuel
    (TimedTaskSet.GetCompletedTasks o.futures (sessionCheck p o).pendingPredictions).1
    (sessionCheck p o).gameDataTracker hq (by
      intro y hy
      obtain ⟨x, hx, hyx⟩ := getCompletedTasks_timestamps o.futures _ y hy
      rw [hyx]
      exact hqfix x hx)
  unfold Rounded.Tick Rounded.tickBody
  by_cases hact : (!o.gameKey.IsActive) = true
  · rw [if_pos hact]
    exact ⟨_, rfl⟩
  · rw [if_neg hact]
    simp only [hrec]
    split_ifs <;> exact ⟨_, rfl⟩

/-! ### With exact arithmetic the rounded tick is the tick -/

theorem rounded_tracker_addEvent_id (fuel : Nat) (g : GameDataTracker) (k : EventKind) (t : ℚ)
    (data : k.Payload) (o : OverlapOptions) :
    GameDataTracker.Rounded.AddEvent (fun x => x) fuel g k t data o =
      g.AddEvent fuel k t data o := by
  unfold GameDataTracker.Rounded.AddEvent GameDataTracker.AddEvent
  simp only [rounded_addEvent_id]

theorem rounded_recordCompleted_id (fuel : Nat) :
    ∀ (l : List (ℚ × Option Prediction)) (g : GameDataTracker),
      Rounded.recordCompleted (fun x => x) fuel l g = recordCompleted fuel l g := by
  intro l
  induction l with
  | nil =>
    intro g
    rfl
  | cons x l ih =>
    intro g
    obtain ⟨t, r⟩ := x
    cases r with
    | none =>
      rw [Rounded.recordCompleted, recordCompleted]
      exact ih g
    | some v =>
      rw [Rounded.recordCompleted, recordCompleted, rounded_tracker_addEvent_id]
      cases g.AddEvent fuel EventKind.prediction t v
          ⟨PREDICTION_OVERLAP_RADIUS_MS, false, OverlapAction.REPLACE⟩ with
      | done g1 => exact ih g1
      | pastEnd => rfl
      | outOfFuel => rfl

theorem rounded_alreadyScheduled_id (s : TimedTaskSet H) (now : ℚ) :
    RLGP.Rounded.alreadyScheduled (fun x => x) s now = alreadyScheduled s now := by
  unfold RLGP.Rounded.alreadyScheduled alreadyScheduled
  rw [TimedTaskSet.rounded_getClosestTimeMs_id]

theorem rounded_duplicateLaunchCheck_id (g : GameDataTracker) (s : TimedTaskSet H) (now : ℚ) :
    RLGP.Rounded.duplicateLaunchCheck (fun x => x) g s now = duplicateLaunchCheck g s now := by
  unfold RLGP.Rounded.duplicateLaunchCheck duplicateLaunchCheck
  simp only [rounded_alreadyScheduled_id]
  rfl

theorem rounded_launchStep_id (p : GoalPredictor H) (o : TickObservation H) :
    Rounded.launchStep (fun x => x) p o = launchStep p o := by
  unfold Rounded.launchStep launchStep
  simp only [rounded_duplicateLaunchCheck_id]

/-- With exact arithmetic the rounded tick hook is the tick hook. -/
theorem rounded_tick_id [DecidableEq H] (fuel : Nat) (p : GoalPredictor H)
    (o : TickObservation H) : Rounded.Tick (fun x => x) fuel p o = Tick fuel p o := by
  unfold Rounded.Tick Tick Rounded.tickBody tickBody
  simp only [rounded_recordCompleted_id, rounded_launchStep_id]

end GoalPredictor

/-! ## The claims -/

open TimeSeries

/-- C1 (Overlap-Skip).  For an ascending series, a radius `r ≥ 0` and either
value of the equality flag: if some entry of the series has its key in the
inclusive window `[t - r, t + r]` and counts as overlapping, then `AddEvent`
with `SKIP` ends normally and leaves the series exactly as it was. -/
theorem addEvent_skip_leaves_series {T : Type} [DecidableEq T] (fuel : Nat) (m : Series T)
    (t : ℚ) (v : T) (r : ℚ) (flag : Bool) (hm : KeysAscending m) (hr : 0 ≤ r)
    (hov : ∃ e ∈ m, inWindow t r e = true ∧ overlaps flag v e = true) :
    AddEvent fuel m t v ⟨r, flag, OverlapAction.SKIP⟩ = Outcome.done m := by
  obtain ⟨A, W, B, hsplit, _, hmem, _, _, hloop⟩ :=
    loop_of_ascending m t v ⟨r, flag, OverlapAction.SKIP⟩ hm hr
  simp only at hmem hloop
  apply addEvent_of_returned
  simp only
  rw [hloop, overlapLoop_skip t v _ rfl W B A]
  obtain ⟨e, he, hwin, hove⟩ := hov
  have hany : W.any (overlaps flag v) = true :=
    List.any_eq_true.mpr ⟨e, (hmem e).mp ⟨he, hwin⟩, hove⟩
  simp only at hany ⊢
  rw [if_pos hany, ← hsplit]

/-- Witness for C1: the series `{(10, 1)}`, adding the value `2` at `12` with
radius `5` and `SKIP`, is still exactly `{(10, 1)}`. -/
theorem addEvent_skip_leaves_series_witness :
    (KeysAscending [((10 : ℚ), (1 : Nat))] ∧ (0 : ℚ) ≤ 5 ∧
      ∃ e ∈ [((10 : ℚ), (1 : Nat))], inWindow 12 5 e = true ∧ overlaps false 2 e = true) ∧
    AddEvent 1 [((10 : ℚ), (1 : Nat))] 12 2 ⟨5, false, OverlapAction.SKIP⟩ =
      Outcome.done [(10, 1)] :=
  ⟨⟨by decide!, by decide!, by decide!⟩,
    addEvent_skip_leaves_series 1 [((10 : ℚ), (1 : Nat))] 12 2 5 false
      (by decide!) (by decide!) (by decide!)⟩

/-- C4 (Most-recent), as amended.  For an ascending series and every timestamp
`t`, `GetMostRecentTimeMs t` and `GetMostRecent t` return the entry with the
greatest key less than or equal to `t` (a key equal to `t` is returned), and
return none exactly when no key is `≤ t`. -/
theorem getMostRecent_greatest_key_le {T : Type} (m : Series T) (t : ℚ)
    (hm : KeysAscending m) :
    (GetMostRecentTimeMs m t = none ↔ ∀ e ∈ m, t < e.1) ∧
    (GetMostRecent m t = none ↔ ∀ e ∈ m, t < e.1) ∧
    (∀ p ∈ m, p.1 ≤ t → (∀ e ∈ m, e.1 ≤ t → e.1 ≤ p.1) →
      GetMostRecentTimeMs m t = some p.1 ∧ GetMostRecent m t = some p) ∧
    (∀ p, GetMostRecent m t = some p →
      p ∈ m ∧ p.1 ≤ t ∧ (∀ e ∈ m, e.1 ≤ t → e.1 ≤ p.1) ∧
        GetMostRecentTimeMs m t = some p.1) := by
  rcases mostRecent_of_ascending m t hm with ⟨hall, h1, h2⟩ | ⟨p, hp, hpt, hmax, h1, h2⟩
  · refine ⟨⟨fun _ => hall, fun _ => h1⟩, ⟨fun _ => hall, fun _ => h2⟩, ?_, ?_⟩
    · intro q hq hqt _
      exact absurd (hall q hq) (not_lt.mpr hqt)
    · intro q hq
      rw [h2] at hq
      simp at hq
  · refine ⟨⟨?_, ?_⟩, ⟨?_, ?_⟩, ?_, ?_⟩
    · intro h
      rw [h1] at h
      simp at h
    · intro h
      exact absurd (h p hp) (not_lt.mpr hpt)
    · intro h
      rw [h2] at h
      simp at h
    · intro h
      exact absurd (h p hp) (not_lt.mpr hpt)
    · intro q hq hqt hqmax
      have hkey : q.1 = p.1 := le_antisymm (hmax q hq hqt) (hqmax p hp hpt)
      have hqp : q = p := eq_of_key_eq m hm q p hq hp hkey
      rw [hqp]
      exact ⟨h1, h2⟩
    · intro q hq
      rw [h2] at hq
      have hqp : p = q := by simpa using hq
      rw [← hqp]
      exact ⟨hp, hpt, hmax, h1⟩

/-- Witness for C4 as amended: with entries at 10 and 20, the query at 21 returns
the entry at 20 (by the theorem), the query at 20 returns the entry at 20, the
query at 10 the entry at 10, and the query at 9 returns none. -/
theorem getMostRecent_greatest_key_le_witness :
    KeysAscending [((10 : ℚ), (1 : Nat)), (20, 2)] ∧
    (GetMostRecentTimeMs [((10 : ℚ), (1 : Nat)), (20, 2)] 21 = some 20 ∧
      GetMostRecent [((10 : ℚ), (1 : Nat)), (20, 2)] 21 = some (20, 2)) ∧
    GetMostRecentTimeMs [((10 : ℚ), (1 : Nat)), (20, 2)] 20 = some 20 ∧
    GetMostRecentTimeMs [((10 : ℚ), (1 : Nat)), (20, 2)] 10 = some 10 ∧
    GetMostRecentTimeMs [((10 : ℚ), (1 : Nat)), (20, 2)] 9 = none :=
  ⟨by decide!,
    (getMostRecent_greatest_key_le [((10 : ℚ), (1 : Nat)), (20, 2)] 21 (by decide!)).2.2.1
      (20, 2) (by decide!) (by decide!) (by decide!),
    by decide!, by decide!, by decide!⟩

/-- Counterexample to C4 as stated: with entries at 10 and 20,
`GetMostRecentTimeMs(20)` returns 20 (not 10) and `GetMostRecentTimeMs(10)`
returns 10 (not none); `GetMostRecent` returns the same entries. -/
theorem getMostRecent_returns_equal_key :
    GetMostRecentTimeMs [((10 : ℚ), (1 : Nat)), (20, 2)] 20 = some 20 ∧
    GetMostRecentTimeMs [((10 : ℚ), (1 : Nat)), (20, 2)] 10 = some 10 ∧
    GetMostRecent [((10 : ℚ), (1 : Nat)), (20, 2)] 20 = some (20, 2) ∧
    GetMostRecent [((10 : ℚ), (1 : Nat)), (20, 2)] 10 = some (10, 1) ∧
    GetMostRecentTimeMs [((10 : ℚ), (1 : Nat)), (20, 2)] 10 ≠ none := by
  decide!

/-- C5 (Range inclusivity).  For an ascending series and bounds `min ≤ max`,
iterating `GetRangeInclusive(min, max)` yields, in ascending key order, exactly
the entries whose key `k` satisfies `min ≤ k ≤ max`. -/
theorem getRangeInclusive_entries {T : Type} (m : Series T) (minTimeMs maxTimeMs : ℚ)
    (hm : KeysAscending m) (hle : minTimeMs ≤ maxTimeMs) :
    (GetRangeInclusive m minTimeMs maxTimeMs).entries m =
      some (m.filter (fun e => decide (minTimeMs ≤ e.1 ∧ e.1 ≤ maxTimeMs))) ∧
    KeysAscending (m.filter (fun e => decide (minTimeMs ≤ e.1 ∧ e.1 ≤ maxTimeMs))) := by
  obtain ⟨A, W, B, hsplit, hlo, hhi, hA, hW, hB⟩ :=
    window_split m minTimeMs maxTimeMs hm hle
  constructor
  · unfold Subrange.entries GetRangeInclusive
    simp only
    rw [hlo, hhi]
    have hfilter := filter_range_of_split A W B minTimeMs maxTimeMs hA hW hB
    rw [← hsplit] at hfilter
    rw [hfilter]
    have hdrop : m.drop A.length = W ++ B := by
      rw [hsplit]
      simp
    rw [hdrop]
    exact walk_window W B A.length
  · exact keysAscending_sublist (List.filter_sublist m) hm

/-- Witness for C5: with entries at 10, 20 and 30, `GetRangeInclusive(10, 30)`
yields all three, `GetRangeInclusive(10, 20)` the first two and
`GetRangeInclusive(11, 29)` the middle one. -/
theorem getRangeInclusive_entries_witness :
    (KeysAscending [((10 : ℚ), (1 : Nat)), (20, 2), (30, 3)] ∧ (10 : ℚ) ≤ 30) ∧
    (GetRangeInclusive [((10 : ℚ), (1 : Nat)), (20, 2), (30, 3)] 10 30).entries
        [((10 : ℚ), (1 : Nat)), (20, 2), (30, 3)] =
      some ([((10 : ℚ), (1 : Nat)), (20, 2), (30, 3)].filter
        (fun e => decide ((10 : ℚ) ≤ e.1 ∧ e.1 ≤ 30))) ∧
    (GetRangeInclusive [((10 : ℚ), (1 : Nat)), (20, 2), (30, 3)] 10 30).entries
        [((10 : ℚ), (1 : Nat)), (20, 2), (30, 3)] = some [(10, 1), (20, 2), (30, 3)] ∧
    (GetRangeInclusive [((10 : ℚ), (1 : Nat)), (20, 2), (30, 3)] 10 20).entries
        [((10 : ℚ), (1 : Nat)), (20, 2), (30, 3)] = some [(10, 1), (20, 2)] ∧
    (GetRangeInclusive [((10 : ℚ), (1 : Nat)), (20, 2), (30, 3)] 11 29).entries
        [((10 : ℚ), (1 : Nat)), (20, 2), (30, 3)] = some [(20, 2)] :=
  ⟨⟨by decide!, by decide!⟩,
    (getRangeInclusive_entries [((10 : ℚ), (1 : Nat)), (20, 2), (30, 3)] 10 30
      (by decide!) (by decide!)).1,
    by decide!, by decide!, by decide!⟩

/-- C6 (Closest entry), as amended.  The two distances `GetClosest` compares are
`double` differences, so they are rounded; `fl` is that rounding, of which only
monotonicity is used.  For an ascending series and every timestamp `t`,
`GetClosest t` returns none only for the empty series, and for a non-empty
series it returns an entry whose rounded distance to `t` is least among all
keys.  Hence a key strictly nearer to `t` than the returned one has the same
rounded distance; where the distances of all keys are computed exactly, the
returned key minimises `|k - t|`; and a key exactly as far from `t` as the
returned one is not lower. -/
theorem getClosest_nearest_after_rounding {T : Type} (fl : ℚ → ℚ) (hfl : Monotone fl)
    (m : Series T) (t : ℚ) (hm : KeysAscending m) :
    (Rounded.GetClosest fl m t = none ↔ m = []) ∧
    (m ≠ [] → ∃ p ∈ m, Rounded.GetClosest fl m t = some p ∧
      (∀ e ∈ m, fl |p.1 - t| ≤ fl |e.1 - t|) ∧
      (∀ e ∈ m, |e.1 - t| < |p.1 - t| → fl |e.1 - t| = fl |p.1 - t|) ∧
      ((∀ e ∈ m, fl |e.1 - t| = |e.1 - t|) → ∀ e ∈ m, |p.1 - t| ≤ |e.1 - t|) ∧
      (∀ e ∈ m, |e.1 - t| = |p.1 - t| → p.1 ≤ e.1)) := by
  have hsome : m ≠ [] → ∃ p ∈ m, Rounded.GetClosest fl m t = some p ∧
      (∀ e ∈ m, fl |p.1 - t| ≤ fl |e.1 - t|) ∧
      (∀ e ∈ m, |e.1 - t| < |p.1 - t| → fl |e.1 - t| = fl |p.1 - t|) ∧
      ((∀ e ∈ m, fl |e.1 - t| = |e.1 - t|) → ∀ e ∈ m, |p.1 - t| ≤ |e.1 - t|) ∧
      (∀ e ∈ m, |e.1 - t| = |p.1 - t| → p.1 ≤ e.1) := by
    intro hne
    obtain ⟨p, hp, hres, hmin, htie⟩ := rounded_getClosest_spec fl hfl m t hm hne
    refine ⟨p, hp, hres, hmin, ?_, ?_, htie⟩
    · intro e he hlt
      exact le_antisymm (hfl (le_of_lt hlt)) (hmin e he)
    · intro hexact e he
      have := hmin e he
      rwa [hexact p hp, hexact e he] at this
  constructor
  · constructor
    · intro hnone
      by_contra hne
      obtain ⟨p, _, hp, _⟩ := hsome hne
      rw [hp] at hnone
      simp at hnone
    · intro hnil
      subst hnil
      rfl
  · exact hsome

set_option maxRecDepth 100000 in
/-- Witness for C6: in binary64 arithmetic, with entries at 10 and 20,
`GetClosest(15)` returns the entry at 10 and `GetClosest(16)` the entry at 20. -/
theorem getClosest_nearest_after_rounding_witness :
    Monotone roundBinary64 ∧ KeysAscending [((10 : ℚ), (1 : Nat)), (20, 2)] ∧
    (Rounded.GetClosest roundBinary64 [((10 : ℚ), (1 : Nat)), (20, 2)] 15 = none ↔
      [((10 : ℚ), (1 : Nat)), (20, 2)] = []) ∧
    Rounded.GetClosest roundBinary64 [((10 : ℚ), (1 : Nat)), (20, 2)] 15 = some (10, 1) ∧
    Rounded.GetClosest roundBinary64 [((10 : ℚ), (1 : Nat)), (20, 2)] 16 = some (20, 2) :=
  ⟨roundBinary64_monotone, by decide!,
    (getClosest_nearest_after_rounding roundBinary64 roundBinary64_monotone
      [((10 : ℚ), (1 : Nat)), (20, 2)] 15 (by decide!)).1,
    by decide!, by decide!⟩

set_option maxRecDepth 100000 in
/-- Counterexample to C6 as stated: in binary64 arithmetic, with entries at
`-2^-70` and `2` (both of them binary64 numbers), `GetClosest(1)` returns the
entry at `-2^-70`, although the key `2` is strictly nearer to 1: the distance
`1 + 2^-70` rounds to `1`, the distance of the key `2`, and the comparison
`dist_prev <= dist_next` then takes the lower key.  With exact distances the
entry at `2` is returned. -/
theorem getClosest_double_returns_farther_key :
    KeysAscending [((-(1 / 2 ^ 70) : ℚ), (1 : Nat)), (2, 2)] ∧
    roundBinary64 (-(1 / 2 ^ 70)) = -(1 / 2 ^ 70) ∧ roundBinary64 2 = 2 ∧
    roundBinary64 1 = 1 ∧
    Rounded.GetClosest roundBinary64 [((-(1 / 2 ^ 70) : ℚ), (1 : Nat)), (2, 2)] 1 =
      some (-(1 / 2 ^ 70), 1) ∧
    |(2 : ℚ) - 1| < |(-(1 / 2 ^ 70) : ℚ) - 1| ∧
    GetClosest [((-(1 / 2 ^ 70) : ℚ), (1 : Nat)), (2, 2)] 1 = some (2, 2) := by
  refine ⟨by decide!, by decide!, by decide!, by decide!, by decide!, by decide!, by decide!⟩

/-- C8 (End-to-end scenario).  With the action that is none of the three
enumerators (the `Add` handling: an overlapping entry is left untouched and the
scan goes on), either setting of the equality flag and any positive fuel: after
a kickoff at 0 with radius 1000, a goal for blue at 5000 with radius 200 and a
second kickoff at 300 with radius 1000, the kickoff series has exactly the two
entries at the keys 0 and 300, and the goal series the one entry at 5000.  The
three insertions give the same maps in binary64 arithmetic, where every window
bound of the scenario is computed exactly. -/
theorem kickoffScenario_add_keeps_both (fuel : Nat) (flag : Bool) :
    GameDataTracker.seriesAfter
        (GameDataTracker.kickoffScenario (fuel + 1) flag OverlapAction.ADD)
        EventKind.kickoffEvent = some [(0, KickoffEvent.mk), (300, KickoffEvent.mk)] ∧
    GameDataTracker.seriesAfter
        (GameDataTracker.kickoffScenario (fuel + 1) flag OverlapAction.ADD)
        EventKind.goalEvent = some [(5000, GoalEvent.mk false)] ∧
    Rounded.AddEvent roundBinary64 (fuel + 1) [] 0 KickoffEvent.mk
        ⟨1000, flag, OverlapAction.ADD⟩ = Outcome.done [(0, KickoffEvent.mk)] ∧
    Rounded.AddEvent roundBinary64 (fuel + 1) [] 5000 (GoalEvent.mk false)
        ⟨200, flag, OverlapAction.ADD⟩ = Outcome.done [(5000, GoalEvent.mk false)] ∧
    Rounded.AddEvent roundBinary64 (fuel + 1) [(0, KickoffEvent.mk)] 300 KickoffEvent.mk
        ⟨1000, flag, OverlapAction.ADD⟩ =
      Outcome.done [(0, KickoffEvent.mk), (300, KickoffEvent.mk)] := by
  cases flag <;> refine ⟨?_, ?_, ?_, ?_, ?_⟩ <;> with_unfolding_all rfl

/-- C9 (Series invariant), as amended.  `fl` is the rounding of the `double`
arithmetic of `AddEvent` (the window bounds and the additions of the collision
loop).  For every ascending series (pairwise distinct keys in strictly
ascending order), every timestamp, value, radius, flag and overlap action:
whenever `AddEvent` returns, the resulting series again has pairwise distinct
keys in strictly ascending order and `GetAll` returns it in that order.  For a
monotone rounding and a radius `≥ 0` the call does not run past the end of the
map, and with more fuel than entries it returns whenever each addition of
`0.000001` the collision loop can make yields a larger key. -/
theorem addEvent_returns_keysAscending {T : Type} [DecidableEq T] (fl : ℚ → ℚ) (fuel : Nat)
    (m : Series T) (t : ℚ) (v : T) (o : OverlapOptions) (hm : KeysAscending m) :
    (∀ m2, Rounded.AddEvent fl fuel m t v o = Outcome.done m2 →
      KeysAscending m2 ∧ (m2.map Prod.fst).Nodup ∧ KeysAscending (GetAll m2) ∧ GetAll m2 = m2) ∧
    (Monotone fl → 0 ≤ o.overlapRadiusMs →
      Rounded.AddEvent fl fuel m t v o ≠ Outcome.pastEnd ∧
      (m.length < fuel →
        (∀ k, k < m.length → Rounded.jitterKey fl t k < Rounded.jitterKey fl t (k + 1)) →
        ∃ m2, Rounded.AddEvent fl fuel m t v o = Outcome.done m2)) := by
  constructor
  · intro m2 h
    have hasc := rounded_addEvent_keysAscending_of_done fl fuel m m2 t v o hm h
    exact ⟨hasc, keysAscending_nodup_keys m2 hasc, hasc, rfl⟩
  · intro hfl hr
    have hle : fl (t - o.overlapRadiusMs) ≤ fl (t + o.overlapRadiusMs) := hfl (by linarith)
    exact ⟨rounded_addEvent_ne_pastEnd fl fuel m t v o hm hle,
      rounded_addEvent_done_of_steps fl fuel m t v o hm hle⟩

set_option maxRecDepth 100000 in
/-- Witness for C9 as amended: in binary64 arithmetic, adding at 10, with radius 0
and the flag on, to the series holding another value at 10 returns an ascending
series, with the new value under the binary64 number next to 10.000001. -/
theorem addEvent_returns_keysAscending_witness :
    KeysAscending [((10 : ℚ), (1 : Nat))] ∧
    Rounded.AddEvent roundBinary64 2 [((10 : ℚ), (1 : Nat))] 10 2
        ⟨0, true, OverlapAction.REPLACE⟩ =
      Outcome.done [(10, 1), (5629500097163073 / 562949953421312, 2)] ∧
    KeysAscending [((10 : ℚ), (1 : Nat)), (5629500097163073 / 562949953421312, 2)] ∧
    Rounded.AddEvent roundBinary64 2 [((10 : ℚ), (1 : Nat))] 10 2
        ⟨0, true, OverlapAction.REPLACE⟩ ≠ Outcome.pastEnd ∧
    (∃ m2, Rounded.AddEvent roundBinary64 2 [((10 : ℚ), (1 : Nat))] 10 2
        ⟨0, true, OverlapAction.REPLACE⟩ = Outcome.done m2) :=
  ⟨by decide!, by decide!,
    ((addEvent_returns_keysAscending roundBinary64 2 [((10 : ℚ), (1 : Nat))] 10 2
      ⟨0, true, OverlapAction.REPLACE⟩ (by decide!)).1
        [(10, 1), (5629500097163073 / 562949953421312, 2)] (by decide!)).1,
    ((addEvent_returns_keysAscending roundBinary64 2 [((10 : ℚ), (1 : Nat))] 10 2
      ⟨0, true, OverlapAction.REPLACE⟩ (by decide!)).2 roundBinary64_monotone (by decide!)).1,
    ((addEvent_returns_keysAscending roundBinary64 2 [((10 : ℚ), (1 : Nat))] 10 2
      ⟨0, true, OverlapAction.REPLACE⟩ (by decide!)).2 roundBinary64_monotone (by decide!)).2
        (by decide!) (by
          intro k hk
          have hk0 : k = 0 := by
            simp only [List.length_cons, List.length_nil] at hk
            omega
          subst hk0
          decide!)⟩

set_option maxRecDepth 100000 in
/-- Counterexample to C9 as stated ("every `AddEvent` call ... the resulting
series"): with a negative radius the scan range is
`[lower_bound(t - r), upper_bound(t + r))` with its begin after its end.  On the
ascending series `{(0, 1)}`, adding at 0 with radius -1, the loop starts at
`map.end()`, which differs from `range.end()`, and reads, erases or increments
`map.end()`: there is no resulting series.  The same happens in exact and in
binary64 arithmetic.  With a radius `≥ 0` a call can still fail to return in
binary64 arithmetic: on the ascending series `{(2^34, 1)}`, adding the value 2
at `2^34` with radius 0, `REPLACE` and the equality flag on leaves the entry (the
values differ), and the collision loop adds `0.000001` to `2^34`, which rounds
back to `2^34`, for ever, whatever the fuel. -/
theorem addEvent_negative_radius_runs_past_end :
    KeysAscending [((0 : ℚ), (1 : Nat))] ∧
    GetRangeAroundInclusive [((0 : ℚ), (1 : Nat))] 0 (-1) = ⟨1, 0⟩ ∧
    AddEvent 2 [((0 : ℚ), (1 : Nat))] 0 2 ⟨-1, true, OverlapAction.SKIP⟩ = Outcome.pastEnd ∧
    AddEvent 2 [((0 : ℚ), (1 : Nat))] 0 2 ⟨-1, false, OverlapAction.REPLACE⟩ =
      Outcome.pastEnd ∧
    AddEvent 2 [((0 : ℚ), (1 : Nat))] 0 2 ⟨-1, false, OverlapAction.REPLACE_IF_EARLIER⟩ =
      Outcome.pastEnd ∧
    AddEvent 2 [((0 : ℚ), (1 : Nat))] 0 2 ⟨-1, false, OverlapAction.ADD⟩ = Outcome.pastEnd ∧
    Rounded.GetRangeAroundInclusive roundBinary64 [((0 : ℚ), (1 : Nat))] 0 (-1) = ⟨1, 0⟩ ∧
    Rounded.AddEvent roundBinary64 2 [((0 : ℚ), (1 : Nat))] 0 2
      ⟨-1, true, OverlapAction.SKIP⟩ = Outcome.pastEnd ∧
    Rounded.AddEvent roundBinary64 2 [((0 : ℚ), (1 : Nat))] 0 2
      ⟨-1, false, OverlapAction.REPLACE⟩ = Outcome.pastEnd ∧
    Rounded.AddEvent roundBinary64 2 [((0 : ℚ), (1 : Nat))] 0 2
      ⟨-1, false, OverlapAction.REPLACE_IF_EARLIER⟩ = Outcome.pastEnd ∧
    Rounded.AddEvent roundBinary64 2 [((0 : ℚ), (1 : Nat))] 0 2
      ⟨-1, false, OverlapAction.ADD⟩ = Outcome.pastEnd ∧
    KeysAscending [(((2 : ℚ) ^ 34), (1 : Nat))] ∧
    roundBinary64 (2 ^ 34 + roundBinary64 jitterStep) = 2 ^ 34 ∧
    (∀ fuel : Nat,
      Rounded.AddEvent roundBinary64 fuel [(((2 : ℚ) ^ 34), (1 : Nat))] (2 ^ 34) 2
        ⟨0, true, OverlapAction.REPLACE⟩ = Outcome.outOfFuel) := by
  refine ⟨by decide!, by decide!, by decide!, by decide!, by decide!, by decide!, by decide!,
    by decide!, by decide!, by decide!, by decide!, by decide!, by decide!, ?_⟩
  intro fuel
  have hscan : Rounded.overlapScan roundBinary64 [(((2 : ℚ) ^ 34), (1 : Nat))] (2 ^ 34) 2
      ⟨0, true, OverlapAction.REPLACE⟩ = LoopResult.completed [(2 ^ 34, 1)] := by
    decide!
  have hstuck := rounded_jitterLoop_stuck roundBinary64 [(((2 : ℚ) ^ 34), (1 : Nat))] (2 ^ 34)
    (by decide!) (by decide!) fuel
  rw [rounded_addEvent_eq_of_scan, hscan]
  simp only [hstuck]

/-- C10 (Insertion terminates with the least free perturbed key).  For every
series `m`, timestamp `t` and value `v`, when the insertion is not aborted (the
overlap loop runs to the end of the window, leaving the map `m1`), the
collision loop stops after `k ≤ m1.length ≤ m.length` iterations (fuel
`k + 1` is enough and fuel `k` is not, so any fuel above `m.length` is enough),
where `k` is the least number such that `t + k * 0.000001` is not a key of
`m1`; `v` is stored under that key, and every entry of `m1` is still there. -/
theorem addEvent_collision_loop_least_free_key {T : Type} [DecidableEq T] (fuel : Nat)
    (m m1 : Series T) (t : ℚ) (v : T) (o : OverlapOptions)
    (hscan : overlapScan m t v o = LoopResult.completed m1) (hfuel : m.length < fuel) :
    ∃ k : Nat, k ≤ m1.length ∧ m1.length ≤ m.length ∧
      jitterLoop (k + 1) m1 t = some (t + k * jitterStep) ∧
      jitterLoop k m1 t = none ∧
      jitterLoop fuel m1 t = some (t + k * jitterStep) ∧
      contains m1 (t + k * jitterStep) = false ∧
      (∀ j : Nat, j < k → contains m1 (t + j * jitterStep) = true) ∧
      AddEvent fuel m t v o = Outcome.done (emplace m1 (t + k * jitterStep) v) ∧
      m1.Sublist (emplace m1 (t + k * jitterStep) v) ∧
      (emplace m1 (t + k * jitterStep) v).Perm ((t + k * jitterStep, v) :: m1) := by
  have hlen := (overlapScan_sublist m m1 t v o (Or.inl hscan)).length_le
  obtain ⟨k, hk, hres, hloop, hfree, hocc⟩ :=
    addEvent_of_completed fuel m m1 t v o hscan (by omega)
  obtain ⟨hex1, hex2⟩ := jitterLoop_exact m1 k t hfree hocc
  exact ⟨k, hk, hlen, hex1, hex2, hloop, hfree, hocc, hres, emplace_sublist _ _ _,
    emplace_perm _ _ _ hfree⟩

/-- Witness for C10: on `{(10, 1), (10.000001, 2)}`, adding the value 3 at 10 with
radius 0 and the flag on, the loop steps twice and stores 3 under 10.000002. -/
theorem addEvent_collision_loop_least_free_key_witness :
    (overlapScan [((10 : ℚ), (1 : Nat)), (10000001 / 1000000, 2)] 10 3
        ⟨0, true, OverlapAction.SKIP⟩ =
      LoopResult.completed [((10 : ℚ), (1 : Nat)), (10000001 / 1000000, 2)] ∧
      [((10 : ℚ), (1 : Nat)), (10000001 / 1000000, 2)].length < 3) ∧
    (∃ k : Nat, k ≤ [((10 : ℚ), (1 : Nat)), (10000001 / 1000000, 2)].length ∧
      AddEvent 3 [((10 : ℚ), (1 : Nat)), (10000001 / 1000000, 2)] 10 3
        ⟨0, true, OverlapAction.SKIP⟩ =
        Outcome.done (emplace [((10 : ℚ), (1 : Nat)), (10000001 / 1000000, 2)]
          (10 + k * jitterStep) 3)) ∧
    AddEvent 3 [((10 : ℚ), (1 : Nat)), (10000001 / 1000000, 2)] 10 3
        ⟨0, true, OverlapAction.SKIP⟩ =
      Outcome.done [(10, 1), (10000001 / 1000000, 2), (10000002 / 1000000, 3)] :=
  ⟨⟨by decide!, by decide!⟩,
    (addEvent_collision_loop_least_free_key 3
      [((10 : ℚ), (1 : Nat)), (10000001 / 1000000, 2)]
      [((10 : ℚ), (1 : Nat)), (10000001 / 1000000, 2)] 10 3 ⟨0, true, OverlapAction.SKIP⟩
      (by decide!) (by decide!)).elim
      (fun k h => ⟨k, h.1, h.2.2.2.2.2.2.2.1⟩),
    by decide!⟩

/-- C11 (Per-type independence).  For every two distinct payload types `k` and
`u` and every call of `AddEvent` on `k`: whenever the call ends normally, the
series of `u` is what it was and every query on `u` returns the same result as
before; and the call does end normally when the series of `k` is ascending, the
radius is `≥ 0` and the fuel exceeds its length. -/
theorem addEvent_leaves_other_types (fuel : Nat) (g : GameDataTracker) (k u : EventKind)
    (t : ℚ) (data : k.Payload) (o : OverlapOptions) (hne : u ≠ k) :
    (∀ g1, g.AddEvent fuel k t data o = Outcome.done g1 →
      g1.timeSeriesMap u = g.timeSeriesMap u ∧ GameDataTracker.SameQueries g g1 u) ∧
    (KeysAscending (g.GetMap k).2 → 0 ≤ o.overlapRadiusMs → (g.GetMap k).2.length < fuel →
      ∃ g1, g.AddEvent fuel k t data o = Outcome.done g1) := by
  constructor
  · intro g1 h
    obtain ⟨hother, _⟩ := GameDataTracker.addEvent_slots fuel g g1 k t data o h
    have hu := hother u hne
    exact ⟨hu, GameDataTracker.sameQueries_of_getMap_eq g g1 u
      (GameDataTracker.getMap_snd_congr g g1 u hu)⟩
  · intro hasc hr hfuel
    obtain ⟨m1, hm1⟩ := addEvent_done_of_ascending fuel (g.GetMap k).2 t data o hasc hr hfuel
    refine ⟨⟨Function.update (g.GetMap k).1.timeSeriesMap k (some m1)⟩, ?_⟩
    unfold GameDataTracker.AddEvent
    simp only [hm1]

/-- Witness for C11: adding a goal leaves the kickoff series alone (by the
theorem, on the empty tracker); and after a kickoff at 0 and a goal at 5000 each
of the two series has exactly one entry and `GetMostRecentTimeMs<KickoffEvent>(5000)`
returns 0. -/
theorem addEvent_leaves_other_types_witness :
    EventKind.kickoffEvent ≠ EventKind.goalEvent ∧
    (∀ g1, GameDataTracker.empty.AddEvent 1 EventKind.goalEvent 5000 (GoalEvent.mk false)
        ⟨200, false, OverlapAction.SKIP⟩ = Outcome.done g1 →
      g1.timeSeriesMap EventKind.kickoffEvent =
          GameDataTracker.empty.timeSeriesMap EventKind.kickoffEvent ∧
        GameDataTracker.SameQueries GameDataTracker.empty g1 EventKind.kickoffEvent) ∧
    GameDataTracker.seriesAfter (GameDataTracker.kickoffGoalScenario 1)
      EventKind.kickoffEvent = some [(0, KickoffEvent.mk)] ∧
    GameDataTracker.seriesAfter (GameDataTracker.kickoffGoalScenario 1)
      EventKind.goalEvent = some [(5000, GoalEvent.mk false)] ∧
    GameDataTracker.mostRecentTimeMsAfter (GameDataTracker.kickoffGoalScenario 1)
      EventKind.kickoffEvent 5000 = some (some 0) :=
  ⟨by decide,
    (addEvent_leaves_other_types 1 GameDataTracker.empty EventKind.goalEvent
      EventKind.kickoffEvent 5000 (GoalEvent.mk false) ⟨200, false, OverlapAction.SKIP⟩
      (by decide)).1,
    by decide!, by decide!, by decide!⟩

/-- C12 (Clear).  For every tracker state, after `Clear()` no payload type has a
series, and for every type and every argument `GetAll` and `GetRangeInclusive`
(also `GetRangeAroundInclusive`) return the empty sequence and
`GetMostRecentTimeMs`, `GetMostRecent` and `GetClosest` return none. -/
theorem clear_empties_every_series (g : GameDataTracker) (k : EventKind) :
    g.Clear.timeSeriesMap k = none ∧ GameDataTracker.AllQueriesEmpty g.Clear k := by
  refine ⟨rfl, GameDataTracker.allQueriesEmpty_of_getMap_nil _ _ ?_⟩
  rw [GameDataTracker.getMap_of_none g.Clear k rfl]

/-- C13 (Queries are read-only, lazy creation is idempotent).  For every tracker
state and every query on any type `k`: the tracker after the query is the one
`GetMap<T>()` leaves; that one holds every series that existed, unchanged, and
differs from the tracker before at most in the slot of `k`, where an empty
series is registered if there was none; `GetMap<T>()` on an existing series
hands it out and changes nothing, so a second call changes nothing; and every
query on every type returns the same result after the query as before. -/
theorem queries_are_read_only (g : GameDataTracker) (k : EventKind) :
    ((g.GetAll k).1 = (g.GetMap k).1 ∧
      (∀ a b : ℚ, (g.GetRangeInclusive k a b).1 = (g.GetMap k).1) ∧
      (∀ t r : ℚ, (g.GetRangeAroundInclusive k t r).1 = (g.GetMap k).1) ∧
      (∀ t : ℚ, (g.GetMostRecentTimeMs k t).1 = (g.GetMap k).1) ∧
      (∀ t : ℚ, (g.GetMostRecent k t).1 = (g.GetMap k).1) ∧
      (∀ t : ℚ, (g.GetClosest k t).1 = (g.GetMap k).1)) ∧
    (∀ (u : EventKind) (s : Series u.Payload), g.timeSeriesMap u = some s →
      (g.GetMap k).1.timeSeriesMap u = some s) ∧
    (∀ u : EventKind, u ≠ k → (g.GetMap k).1.timeSeriesMap u = g.timeSeriesMap u) ∧
    (g.timeSeriesMap k = none →
      (g.GetMap k).1.timeSeriesMap k = some [] ∧ (g.GetMap k).2 = []) ∧
    (∀ s : Series k.Payload, g.timeSeriesMap k = some s → g.GetMap k = (g, s)) ∧
    ((g.GetMap k).1.GetMap k = ((g.GetMap k).1, (g.GetMap k).2)) ∧
    (∀ u : EventKind, GameDataTracker.SameQueries g (g.GetMap k).1 u) := by
  refine ⟨⟨rfl, fun _ _ => rfl, fun _ _ => rfl, fun _ => rfl, fun _ => rfl, fun _ => rfl⟩,
    ?_, ?_, ?_, ?_, ?_, ?_⟩
  · intro u s h
    exact GameDataTracker.getMap_fst_of_some g k u s h
  · intro u hne
    exact GameDataTracker.getMap_fst_other g k u hne
  · intro h
    rw [GameDataTracker.getMap_of_none g k h]
    exact ⟨Function.update_same _ _ _, rfl⟩
  · intro s h
    exact GameDataTracker.getMap_of_some g k s h
  · exact GameDataTracker.getMap_of_some _ k _ (GameDataTracker.getMap_fst_self g k)
  · intro u
    apply GameDataTracker.sameQueries_of_getMap_eq
    by_cases hne : u = k
    · subst hne
      rw [GameDataTracker.getMap_of_some _ u _ (GameDataTracker.getMap_fst_self g u)]
    · exact GameDataTracker.getMap_snd_congr g _ u (GameDataTracker.getMap_fst_other g k u hne)

/-- C14 (Absence instead of failure).  On an empty series `GetAll` and
`GetRangeInclusive` return the empty sequence and `GetMostRecentTimeMs`,
`GetMostRecent` and `GetClosest` return none; the same holds in a tracker for a
type whose series is empty or was never created; `GetMostRecentTimeMs` and
`GetMostRecent` return none whenever the timestamp is before the first entry's
key; and `TimedTaskSet::GetClosestTimeMs` returns none exactly when the pending
set is empty. -/
theorem absent_results_instead_of_failure {T H : Type} :
    (GetAll ([] : Series T) = [] ∧
      (∀ a b : ℚ, (GetRangeInclusive ([] : Series T) a b).entries ([] : Series T) = some []) ∧
      (∀ t : ℚ, GetMostRecentTimeMs ([] : Series T) t = none) ∧
      (∀ t : ℚ, GetMostRecent ([] : Series T) t = none) ∧
      (∀ t : ℚ, GetClosest ([] : Series T) t = none)) ∧
    (∀ (g : GameDataTracker) (k : EventKind),
      (g.timeSeriesMap k = none ∨ g.timeSeriesMap k = some []) →
        GameDataTracker.AllQueriesEmpty g k) ∧
    (∀ (e : ℚ × T) (rest : Series T) (t : ℚ), t < e.1 →
      GetMostRecentTimeMs (e :: rest) t = none ∧ GetMostRecent (e :: rest) t = none) ∧
    (∀ (s : TimedTaskSet H) (t : ℚ), s.GetClosestTimeMs t = none ↔ s.tasks = []) := by
  refine ⟨⟨rfl, fun _ _ => rfl, fun _ => rfl, fun _ => rfl, fun _ => rfl⟩, ?_, ?_, ?_⟩
  · intro g k h
    apply GameDataTracker.allQueriesEmpty_of_getMap_nil
    rcases h with h | h
    · rw [GameDataTracker.getMap_of_none g k h]
    · rw [GameDataTracker.getMap_of_some g k [] h]
  · intro e rest t hlt
    have hub : upper_bound (e :: rest) t = 0 := by
      unfold upper_bound
      simp [List.findIdx_cons, hlt]
    constructor
    · unfold GetMostRecentTimeMs
      simp [hub]
    · unfold GetMostRecent
      simp [hub]
  · intro s t
    rcases TimedTaskSet.getClosestTimeMs_spec s t with ⟨hnil, hnone⟩ | ⟨i, e, hget, hres, _⟩
    · exact ⟨fun _ => hnil, fun _ => hnone⟩
    · constructor
      · intro h
        rw [hres] at h
        simp at h
      · intro h
        rw [h] at hget
        simp at hget

/-- C15 (Closest pending task), as amended.  The distance `GetClosestTimeMs`
compares is `std::abs` of a `double` difference, so it is rounded; `fl` is that
rounding, and nothing is assumed of it.  For every non-empty pending list and
timestamp `t`, `GetClosestTimeMs(t)` returns the timestamp of a pending entry
whose computed distance to `t` is least among all pending entries, and that
entry is the first one in storage order to attain the least computed distance.
For a rounding that is monotone and odd, an entry strictly nearer to `t` than
the returned one has the same computed distance; and where the differences of
all entries are computed exactly, the returned entry minimises `|timeMs - t|`
and is the first in storage order to do so. -/
theorem getClosestTimeMs_first_nearest_after_rounding {H : Type} (fl : ℚ → ℚ)
    (s : TimedTaskSet H) (t : ℚ) (hne : s.tasks ≠ []) :
    ∃ (i : Nat) (e : TaskEntry H), s.tasks[i]? = some e ∧
      TimedTaskSet.Rounded.GetClosestTimeMs fl s t = some e.timeMs ∧
      (∀ x ∈ s.tasks, |fl (e.timeMs - t)| ≤ |fl (x.timeMs - t)|) ∧
      (∀ (j : Nat) (x : TaskEntry H), j < i → s.tasks[j]? = some x →
        |fl (e.timeMs - t)| < |fl (x.timeMs - t)|) ∧
      (Monotone fl → (∀ x, fl (-x) = -fl x) → ∀ x ∈ s.tasks,
        |x.timeMs - t| < |e.timeMs - t| → |fl (x.timeMs - t)| = |fl (e.timeMs - t)|) ∧
      ((∀ x ∈ s.tasks, fl (x.timeMs - t) = x.timeMs - t) →
        (∀ x ∈ s.tasks, |e.timeMs - t| ≤ |x.timeMs - t|) ∧
        (∀ (j : Nat) (x : TaskEntry H), j < i → s.tasks[j]? = some x →
          |e.timeMs - t| < |x.timeMs - t|)) := by
  obtain ⟨i, e, hget, hres, hmin, hfirst⟩ :=
    TimedTaskSet.rounded_getClosestTimeMs_spec fl s t hne
  have he : e ∈ s.tasks := List.getElem?_mem hget
  refine ⟨i, e, hget, hres, hmin, hfirst, ?_, ?_⟩
  · intro hfl hodd x hx hlt
    have h1 := hmin x hx
    rw [abs_rounded_eq fl hfl hodd, abs_rounded_eq fl hfl hodd] at h1 ⊢
    exact le_antisymm (hfl (le_of_lt hlt)) h1
  · intro hexact
    constructor
    · intro x hx
      have := hmin x hx
      rwa [hexact e he, hexact x hx] at this
    · intro j x hj hx
      have := hfirst j x hj hx
      rwa [hexact e he, hexact x (List.getElem?_mem hx)] at this

set_option maxRecDepth 100000 in
/-- Witness for C15: in binary64 arithmetic, with pending timestamps 40, 10, 30
and 20, the query at 25 returns 30, the first of the two nearest (30 and 20). -/
theorem getClosestTimeMs_first_nearest_after_rounding_witness :
    (⟨[⟨40, 1⟩, ⟨10, 2⟩, ⟨30, 3⟩, ⟨20, 4⟩]⟩ : TimedTaskSet Nat).tasks ≠ [] ∧
    (∃ (i : Nat) (e : TaskEntry Nat),
      (⟨[⟨40, 1⟩, ⟨10, 2⟩, ⟨30, 3⟩, ⟨20, 4⟩]⟩ : TimedTaskSet Nat).tasks[i]? = some e ∧
      TimedTaskSet.Rounded.GetClosestTimeMs roundBinary64
        ⟨[⟨40, 1⟩, ⟨10, 2⟩, ⟨30, 3⟩, ⟨20, 4⟩]⟩ 25 = some e.timeMs) ∧
    TimedTaskSet.Rounded.GetClosestTimeMs roundBinary64
      (⟨[⟨40, 1⟩, ⟨10, 2⟩, ⟨30, 3⟩, ⟨20, 4⟩]⟩ : TimedTaskSet Nat) 25 = some 30 ∧
    Monotone roundBinary64 ∧ (∀ x, roundBinary64 (-x) = -roundBinary64 x) :=
  ⟨by decide,
    let ⟨i, e, h1, h2, _⟩ := getClosestTimeMs_first_nearest_after_rounding roundBinary64
      (⟨[⟨40, 1⟩, ⟨10, 2⟩, ⟨30, 3⟩, ⟨20, 4⟩]⟩ : TimedTaskSet Nat) 25 (by decide)
    ⟨i, e, h1, h2⟩,
    by decide!, roundBinary64_monotone, roundBinary64_neg⟩

set_option maxRecDepth 100000 in
/-- Counterexample to C15 as stated: in binary64 arithmetic, with pending
timestamps `-2^-70` and `2` (both of them binary64 numbers, stored in that
order), the query at 1 returns `-2^-70`, although the timestamp `2` is strictly
nearer to 1: the difference `-2^-70 - 1` rounds to `-1`, so both computed
distances are 1 and the strict `diff < minDiffMs` keeps the first entry.  With
exact distances the query returns 2. -/
theorem getClosestTimeMs_double_returns_farther_task :
    roundBinary64 (-(1 / 2 ^ 70)) = -(1 / 2 ^ 70) ∧ roundBinary64 2 = 2 ∧
    roundBinary64 1 = 1 ∧
    TimedTaskSet.Rounded.GetClosestTimeMs roundBinary64
      (⟨[⟨-(1 / 2 ^ 70), 1⟩, ⟨2, 2⟩]⟩ : TimedTaskSet Nat) 1 = some (-(1 / 2 ^ 70)) ∧
    |(2 : ℚ) - 1| < |(-(1 / 2 ^ 70) : ℚ) - 1| ∧
    (⟨[⟨-(1 / 2 ^ 70), 1⟩, ⟨2, 2⟩]⟩ : TimedTaskSet Nat).GetClosestTimeMs 1 = some 2 := by
  refine ⟨by decide!, by decide!, by decide!, by decide!, by decide!, by decide!⟩

/-- C16 (Completed-task poll).  For every pending list and every state of the
futures, `GetCompletedTasks()` returns exactly the `(timestamp, result)` pairs
of the entries whose future is ready, in storage order, and leaves as the
pending list exactly the entries whose future is still running, in their
original relative order; an entry whose future is invalid appears neither in
the result nor in the list that is left.  `Add` appends the new entry at the
end of the pending list. -/
theorem getCompletedTasks_returns_ready_keeps_running {H R : Type}
    (state : H → FutureState R) (s : TimedTaskSet H) :
    TimedTaskSet.GetCompletedTasks state s =
        (s.tasks.filterMap (TimedTaskSet.completedPair state),
          ⟨s.tasks.filter (fun e => (state e.task).isRunning)⟩) ∧
    (∀ e : TaskEntry H, TimedTaskSet.completedPair state e =
      match state e.task with
      | FutureState.invalid => none
      | FutureState.ready result => some (e.timeMs, result)
      | FutureState.running => none) ∧
    (∀ e ∈ s.tasks, state e.task = FutureState.invalid →
      e ∉ (TimedTaskSet.GetCompletedTasks state s).2.tasks ∧
        TimedTaskSet.completedPair state e = none) ∧
    (∀ (timeMs : ℚ) (task : H), (s.Add timeMs task).tasks = s.tasks ++ [⟨timeMs, task⟩]) := by
  refine ⟨TimedTaskSet.getCompletedTasks_eq state s, fun _ => rfl, ?_, fun _ _ => rfl⟩
  intro e _ hinv
  constructor
  · rw [TimedTaskSet.getCompletedTasks_eq]
    simp only [List.mem_filter, not_and]
    intro _
    rw [hinv]
    simp [FutureState.isRunning]
  · unfold TimedTaskSet.completedPair
    rw [hinv]

/-- C17 (Task-drain idempotence).  For every pending list and every state of the
futures, a second `GetCompletedTasks()` under the same state returns an empty
collection and leaves the pending list unchanged; the number of pairs a call
returns are those of the ready entries, one each; and along any sequence of `Add` and
`GetCompletedTasks` calls that starts on the empty set and hands pairwise
distinct futures to `Add` (whatever the state of the futures at each poll), no
entry is returned twice: the futures of the returned entries are pairwise
distinct, and each of them was added. -/
theorem getCompletedTasks_returns_each_entry_once {H R : Type} (ops : List (TimedTaskSet.TaskOp H R))
    (hnd : (TimedTaskSet.addedHandles ops).Nodup) :
    (∀ (state : H → FutureState R) (s : TimedTaskSet H),
      TimedTaskSet.GetCompletedTasks state (TimedTaskSet.GetCompletedTasks state s).2 =
        ([], (TimedTaskSet.GetCompletedTasks state s).2)) ∧
    (∀ (state : H → FutureState R) (s : TimedTaskSet H),
      (TimedTaskSet.GetCompletedTasks state s).1 =
          (s.tasks.filter (fun e => (state e.task).isReady)).filterMap
            (TimedTaskSet.completedPair state) ∧
        (TimedTaskSet.GetCompletedTasks state s).1.length =
          (s.tasks.filter (fun e => (state e.task).isReady)).length) ∧
    (TimedTaskSet.returnedHandles ops ⟨[]⟩).Nodup ∧
    (∀ h ∈ TimedTaskSet.returnedHandles ops ⟨[]⟩, h ∈ TimedTaskSet.addedHandles ops) := by
  obtain ⟨h1, h2⟩ := TimedTaskSet.returnedHandles_nodup ops ⟨[]⟩ (by simpa using hnd)
  refine ⟨TimedTaskSet.getCompletedTasks_twice, ?_, h1, ?_⟩
  · intro state s
    rw [TimedTaskSet.getCompletedTasks_eq]
    exact ⟨TimedTaskSet.filterMap_completedPair_ready state s.tasks,
      TimedTaskSet.length_filterMap_completedPair state s.tasks⟩
  · intro h hh
    simpa using h2 h hh

/-- Witness for C17: the futures 1 and 2 are added, a poll finds 1 ready and 2
running, the future 3 is added, and a poll finds all three ready: the first
poll returns the entry of 1, the second those of 2 and 3, none twice. -/
theorem getCompletedTasks_returns_each_entry_once_witness :
    (TimedTaskSet.addedHandles
      [TimedTaskSet.TaskOp.add 10 (1 : Nat), TimedTaskSet.TaskOp.add 20 2,
        TimedTaskSet.TaskOp.poll (fun h => if h = 1 then FutureState.ready (7 : Nat) else FutureState.running),
        TimedTaskSet.TaskOp.add 30 3,
        TimedTaskSet.TaskOp.poll (fun _ => FutureState.ready 7)]).Nodup ∧
    (TimedTaskSet.returnedHandles
      [TimedTaskSet.TaskOp.add 10 (1 : Nat), TimedTaskSet.TaskOp.add 20 2,
        TimedTaskSet.TaskOp.poll (fun h => if h = 1 then FutureState.ready (7 : Nat) else FutureState.running),
        TimedTaskSet.TaskOp.add 30 3,
        TimedTaskSet.TaskOp.poll (fun _ => FutureState.ready 7)] ⟨[]⟩).Nodup ∧
    TimedTaskSet.returnedHandles
      [TimedTaskSet.TaskOp.add 10 (1 : Nat), TimedTaskSet.TaskOp.add 20 2,
        TimedTaskSet.TaskOp.poll (fun h => if h = 1 then FutureState.ready (7 : Nat) else FutureState.running),
        TimedTaskSet.TaskOp.add 30 3,
        TimedTaskSet.TaskOp.poll (fun _ => FutureState.ready 7)] ⟨[]⟩ = [1, 2, 3] :=
  ⟨by decide,
    (getCompletedTasks_returns_each_entry_once
      [TimedTaskSet.TaskOp.add 10 (1 : Nat), TimedTaskSet.TaskOp.add 20 2,
        TimedTaskSet.TaskOp.poll (fun h => if h = 1 then FutureState.ready (7 : Nat) else FutureState.running),
        TimedTaskSet.TaskOp.add 30 3,
        TimedTaskSet.TaskOp.poll (fun _ => FutureState.ready 7)] (by decide)).2.2.1,
    by decide⟩

/-- C18 (Shutdown drain).  For every pending list and state of the futures,
`WaitAllAndClear()` calls `wait()` on exactly the entries whose future is valid,
in storage order, so that each of those futures is ready when it returns, and
it leaves the pending list empty: a following `GetCompletedTasks()` returns
nothing and `GetClosestTimeMs` returns none.  The destructor does exactly what
`WaitAllAndClear()` does. -/
theorem waitAllAndClear_drains {H R : Type} [DecidableEq H] (eventual : H → R)
    (state : H → FutureState R) (s : TimedTaskSet H) :
    (TimedTaskSet.WaitAllAndClear eventual state s).set.tasks = [] ∧
    (TimedTaskSet.WaitAllAndClear eventual state s).waited =
      (s.tasks.filter (fun e => (state e.task).valid)).map (fun e => e.task) ∧
    (∀ e ∈ s.tasks, (state e.task).valid = true →
      ∃ result, (TimedTaskSet.WaitAllAndClear eventual state s).state e.task =
        FutureState.ready result) ∧
    (∀ (x : H) (result : R), state x = FutureState.ready result →
      (TimedTaskSet.WaitAllAndClear eventual state s).state x = FutureState.ready result) ∧
    (∀ state1 : H → FutureState R,
      TimedTaskSet.GetCompletedTasks state1 (TimedTaskSet.WaitAllAndClear eventual state s).set =
        ([], ⟨[]⟩)) ∧
    (∀ t : ℚ, (TimedTaskSet.WaitAllAndClear eventual state s).set.GetClosestTimeMs t = none) ∧
    TimedTaskSet.destructor eventual state s = TimedTaskSet.WaitAllAndClear eventual state s := by
  obtain ⟨h1, _, h3, h4, _⟩ := TimedTaskSet.waitLoop_spec eventual s.tasks state []
  refine ⟨rfl, ?_, h4, h3, fun _ => rfl, fun _ => rfl, rfl⟩
  simpa using h1

/-- C26 (no perturbation without the equality filter).  For an ascending series,
a radius `r ≥ 0`, the equality filter off, any of the three actions `SKIP`,
`REPLACE` and `REPLACE_IF_EARLIER` and one unit of fuel, `AddEvent` either
leaves the series unchanged, or its overlap loop
completes with a series `m1` that has no entry under the key `t`, so the
collision loop stops at its first test (one unit of fuel suffices and the body
never runs) and `v` is stored under exactly the key `t`; every entry of the
result is the new entry `(t, v)` or an entry of the series before. -/
theorem addEvent_flag_off_never_shifts_key {T : Type} [DecidableEq T] (fuel : Nat)
    (m : Series T) (t : ℚ) (v : T) (r : ℚ) (action : OverlapAction)
    (hm : KeysAscending m) (hr : 0 ≤ r) (hfuel : 0 < fuel)
    (haction : action = OverlapAction.SKIP ∨ action = OverlapAction.REPLACE ∨
      action = OverlapAction.REPLACE_IF_EARLIER) :
    AddEvent fuel m t v ⟨r, false, action⟩ = Outcome.done m ∨
      ∃ m1 : Series T, overlapScan m t v ⟨r, false, action⟩ = LoopResult.completed m1 ∧
        contains m1 t = false ∧ jitterLoop 1 m1 t = some t ∧
        AddEvent fuel m t v ⟨r, false, action⟩ = Outcome.done (emplace m1 t v) ∧
        (t, v) ∈ emplace m1 t v ∧
        ∀ e ∈ emplace m1 t v, e = (t, v) ∨ e ∈ m := by
  have hadd : action ≠ OverlapAction.ADD := by
    rcases haction with h | h | h <;> rw [h] <;> decide
  rcases addEvent_flag_off fuel m t v r action hm hr hfuel hadd with ⟨_, h⟩ | ⟨hscan, h⟩
  · exact Or.inl h
  · right
    have hfree := contains_keptEntries_flag_off m t r v hr
    refine ⟨_, hscan, hfree, jitterLoop_of_free 1 _ t (by omega) hfree, h, ?_, ?_⟩
    · exact (emplace_perm _ _ _ hfree).mem_iff.mpr (List.mem_cons_self _ _)
    · intro e he
      rcases mem_emplace _ _ _ e he with h1 | h1
      · exact Or.inl h1
      · right
        unfold keptEntries at h1
        exact (List.mem_filter.mp h1).1

/-- Witness for C26: on the series `{(10, 1)}`, adding the value `2` at `12` with
radius `5`, the flag off and `REPLACE_IF_EARLIER` leaves the series unchanged
(the entry at `10` is not after `12`), and with `REPLACE` the value is stored
under exactly `12`. -/
theorem addEvent_flag_off_never_shifts_key_witness :
    (KeysAscending [((10 : ℚ), (1 : Nat))] ∧ (0 : ℚ) ≤ 5 ∧ 0 < 1 ∧
      (OverlapAction.REPLACE_IF_EARLIER = OverlapAction.SKIP ∨
        OverlapAction.REPLACE_IF_EARLIER = OverlapAction.REPLACE ∨
        OverlapAction.REPLACE_IF_EARLIER = OverlapAction.REPLACE_IF_EARLIER)) ∧
    (AddEvent 1 [((10 : ℚ), (1 : Nat))] 12 2 ⟨5, false, OverlapAction.REPLACE_IF_EARLIER⟩ =
        Outcome.done [(10, 1)] ∨
      ∃ m1 : Series Nat,
        overlapScan [((10 : ℚ), (1 : Nat))] 12 2
          ⟨5, false, OverlapAction.REPLACE_IF_EARLIER⟩ = LoopResult.completed m1 ∧
        contains m1 12 = false ∧ jitterLoop 1 m1 12 = some 12 ∧
        AddEvent 1 [((10 : ℚ), (1 : Nat))] 12 2 ⟨5, false, OverlapAction.REPLACE_IF_EARLIER⟩ =
          Outcome.done (emplace m1 12 2) ∧
        ((12 : ℚ), 2) ∈ emplace m1 12 2 ∧
        ∀ e ∈ emplace m1 12 2, e = ((12 : ℚ), 2) ∨ e ∈ [((10 : ℚ), (1 : Nat))]) ∧
    AddEvent 1 [((10 : ℚ), (1 : Nat))] 12 2 ⟨5, false, OverlapAction.REPLACE⟩ =
      Outcome.done [(12, 2)] :=
  ⟨⟨by decide!, by decide!, by decide, Or.inr (Or.inr rfl)⟩,
    addEvent_flag_off_never_shifts_key 1 [((10 : ℚ), (1 : Nat))] 12 2 5
      OverlapAction.REPLACE_IF_EARLIER (by decide!) (by decide!) (by decide)
      (Or.inr (Or.inr rfl)),
    by decide!⟩

/-- C27, as the code has it (well-formed scan window).  For an ascending series
and bounds `min ≤ max`, the position of the first key `≥ min` is not after the
position of the first key `> max`, and neither is after the end of the series.
For a radius `r ≥ 0` the overlap loop of `AddEvent` never runs its body on the
position past the end of the series (it does not end as `pastEnd`, and its
visits are all entries), and the entries it visits are a prefix of the entries
of the window `[t - r, t + r]` in ascending key order, each visited once; when
the loop runs to completion it has visited every window entry. -/
theorem scan_window_well_formed {T : Type} [DecidableEq T] (m : Series T)
    (lo hi t : ℚ) (v : T) (o : OverlapOptions) (hm : KeysAscending m) (hle : lo ≤ hi)
    (hr : 0 ≤ o.overlapRadiusMs) :
    ((GetRangeInclusive m lo hi).first ≤ (GetRangeInclusive m lo hi).last ∧
      (GetRangeInclusive m lo hi).last ≤ m.length) ∧
    overlapScan m t v o ≠ LoopResult.pastEnd ∧
    ∃ P : Series T, P <+: m.filter (inWindow t o.overlapRadiusMs) ∧
      scanVisits m t v o = P.map some ∧ (scanVisits m t v o).Nodup ∧
      (∀ m1, overlapScan m t v o = LoopResult.completed m1 →
        P = m.filter (inWindow t o.overlapRadiusMs)) := by
  refine ⟨?_, ?_⟩
  · obtain ⟨A, W, B, hsplit, hlo, hhi, _⟩ := window_split m lo hi hm hle
    unfold GetRangeInclusive
    simp only
    rw [hlo, hhi, hsplit]
    simp
  · obtain ⟨P, hP, htrace, hend, hall⟩ := scanVisits_of_ascending m t v o hm hr
    refine ⟨hend, P, hP, htrace, ?_, hall⟩
    rw [htrace]
    apply List.Nodup.map (Option.some_injective _)
    have hsub : P.Sublist m := hP.sublist.trans (List.filter_sublist _)
    have hasc : KeysAscending P := keysAscending_sublist hsub hm
    unfold KeysAscending at hasc
    exact hasc.imp (fun h heq => by rw [heq] at h; exact lt_irrefl _ h)

/-- Witness for C27: in the series `{(10, 1), (20, 2), (40, 3)}` the range
`[5, 25]` runs from position 0 to position 2, and a `REPLACE` scan at `15` with
radius `10` visits the two window entries `(10, 1)` and `(20, 2)` in that order. -/
theorem scan_window_well_formed_witness :
    (KeysAscending [((10 : ℚ), (1 : Nat)), (20, 2), (40, 3)] ∧ (5 : ℚ) ≤ 25 ∧
      (0 : ℚ) ≤ (⟨10, false, OverlapAction.REPLACE⟩ : OverlapOptions).overlapRadiusMs) ∧
    (((GetRangeInclusive [((10 : ℚ), (1 : Nat)), (20, 2), (40, 3)] 5 25).first ≤
        (GetRangeInclusive [((10 : ℚ), (1 : Nat)), (20, 2), (40, 3)] 5 25).last ∧
      (GetRangeInclusive [((10 : ℚ), (1 : Nat)), (20, 2), (40, 3)] 5 25).last ≤
        [((10 : ℚ), (1 : Nat)), (20, 2), (40, 3)].length) ∧
    overlapScan [((10 : ℚ), (1 : Nat)), (20, 2), (40, 3)] 15 4
      ⟨10, false, OverlapAction.REPLACE⟩ ≠ LoopResult.pastEnd ∧
    ∃ P : Series Nat,
      P <+: [((10 : ℚ), (1 : Nat)), (20, 2), (40, 3)].filter (inWindow 15
        (⟨10, false, OverlapAction.REPLACE⟩ : OverlapOptions).overlapRadiusMs) ∧
      scanVisits [((10 : ℚ), (1 : Nat)), (20, 2), (40, 3)] 15 4
        ⟨10, false, OverlapAction.REPLACE⟩ = P.map some ∧
      (scanVisits [((10 : ℚ), (1 : Nat)), (20, 2), (40, 3)] 15 4
        ⟨10, false, OverlapAction.REPLACE⟩).Nodup ∧
      (∀ m1, overlapScan [((10 : ℚ), (1 : Nat)), (20, 2), (40, 3)] 15 4
          ⟨10, false, OverlapAction.REPLACE⟩ = LoopResult.completed m1 →
        P = [((10 : ℚ), (1 : Nat)), (20, 2), (40, 3)].filter (inWindow 15
          (⟨10, false, OverlapAction.REPLACE⟩ : OverlapOptions).overlapRadiusMs))) ∧
    scanVisits [((10 : ℚ), (1 : Nat)), (20, 2), (40, 3)] 15 4
      ⟨10, false, OverlapAction.REPLACE⟩ = [some (10, 1), some (20, 2)] :=
  ⟨⟨by decide!, by decide!, by decide!⟩,
    scan_window_well_formed [((10 : ℚ), (1 : Nat)), (20, 2), (40, 3)] 5 25 15 4
      ⟨10, false, OverlapAction.REPLACE⟩ (by decide!) (by decide!) (by decide!),
    by decide!⟩

/-- Counterexample to C27 as first stated ("visits each original window entry
exactly once").  In the series `{(10, 1), (20, 2)}` the window `[5, 25]` of a
`SKIP` scan at `15` with radius `10` holds both entries, yet the loop returns at
the first of them: it visits `(10, 1)` only and never reaches `(20, 2)`. -/
theorem skip_scan_stops_at_first_window_entry :
    KeysAscending [((10 : ℚ), (1 : Nat)), (20, 2)] ∧
    [((10 : ℚ), (1 : Nat)), (20, 2)].filter (inWindow 15 10) = [(10, 1), (20, 2)] ∧
    scanVisits [((10 : ℚ), (1 : Nat)), (20, 2)] 15 3 ⟨10, false, OverlapAction.SKIP⟩ =
      [some (10, 1)] ∧
    overlapScan [((10 : ℚ), (1 : Nat)), (20, 2)] 15 3 ⟨10, false, OverlapAction.SKIP⟩ =
      LoopResult.returned [(10, 1), (20, 2)] := by
  refine ⟨?_, ?_, ?_, ?_⟩ <;> decide!

open InferenceEngine

/-- C28 (augmentations compose).  With `flipX`, `flipY`, `flipXY` the rows 2, 3 and 1
that `Predict` builds for `AUGMENT_4X` (mask for x without team swap and
`SwapBoostX`; mask for y with team swap and `SwapBoostY`; mask for x and y with
team swap and `SwapBoostXY`), for every input vector `v` over the rationals and
every index `i` below `INPUT_DIM = 114`: `flipXY v` agrees at `i` with
`flipX (flipY v)` and with `flipY (flipX v)`, and each of the three transforms
applied twice gives back `v i`. -/
theorem augmentations_compose (v : Nat → ℚ) (i : Nat) (hi : i < INPUT_DIM) :
    (batchRow (buildBatch InitializeMasks v Augmentation.AUGMENT_4X zeroRow) 1 i =
        flipXY zeroRow v i ∧
      batchRow (buildBatch InitializeMasks v Augmentation.AUGMENT_4X zeroRow) 2 i =
        flipX zeroRow v i ∧
      batchRow (buildBatch InitializeMasks v Augmentation.AUGMENT_4X zeroRow) 3 i =
        flipY zeroRow v i) ∧
    flipXY zeroRow v i = flipX zeroRow (flipY zeroRow v) i ∧
    flipXY zeroRow v i = flipY zeroRow (flipX zeroRow v) i ∧
    flipX zeroRow (flipX zeroRow v) i = v i ∧
    flipY zeroRow (flipY zeroRow v) i = v i ∧
    flipXY zeroRow (flipXY zeroRow v) i = v i := by
  have hvar : Term.eval v (Term.var i) = v i := by simp [Term.eval, Term.var]
  obtain ⟨hx, hy, hxy⟩ := symbolic_flips_involutive i hi
  refine ⟨⟨?_, ?_, ?_⟩, ?_, ?_, ?_, ?_, ?_⟩
  · rw [buildBatch_4X]
    simp only [batchRow, INPUT_DIM] at hi ⊢
    rw [if_neg (by omega), if_pos (by omega), show 1 * 114 + i - 114 = i by omega]
  · rw [buildBatch_4X]
    simp only [batchRow, INPUT_DIM] at hi ⊢
    rw [if_neg (by omega), if_neg (by omega), if_pos (by omega),
      show 2 * 114 + i - 2 * 114 = i by omega]
  · rw [buildBatch_4X]
    simp only [batchRow, INPUT_DIM] at hi ⊢
    rw [if_neg (by omega), if_neg (by omega), if_neg (by omega), if_pos (by omega),
      show 3 * 114 + i - 3 * 114 = i by omega]
  · rw [flipXY_eval, flipX_flipY_eval]
    show Term.eval v _ = Term.eval v _
    rw [symbolic_flipXY_eq_flipX_flipY i hi]
  · rw [flipXY_eval, flipY_flipX_eval]
    show Term.eval v _ = Term.eval v _
    rw [symbolic_flipXY_eq_flipY_flipX i hi]
  · rw [flipX_flipX_eval]
    show Term.eval v _ = _
    rw [hx, hvar]
  · rw [flipY_flipY_eval]
    show Term.eval v _ = _
    rw [hy, hvar]
  · rw [flipXY_flipXY_eval]
    show Term.eval v _ = _
    rw [hxy, hvar]

set_option maxRecDepth 100000 in
/-- Witness for C28: the input vector whose entry `k` is the number `k`, at the
index 6 (x position of the first player) and at the index 108 (first boost
pad): `flipX` negates entry 6 and exchanges the boost pads 0 and 1, `flipY`
moves entry 57 of the other team to 6 and exchanges the pads 0 and 4, `flipXY`
does both. -/
theorem augmentations_compose_witness :
    6 < INPUT_DIM ∧
    ((batchRow (buildBatch InitializeMasks (fun k => (k : ℚ)) Augmentation.AUGMENT_4X
          zeroRow) 1 6 = flipXY zeroRow (fun k => (k : ℚ)) 6 ∧
      batchRow (buildBatch InitializeMasks (fun k => (k : ℚ)) Augmentation.AUGMENT_4X
          zeroRow) 2 6 = flipX zeroRow (fun k => (k : ℚ)) 6 ∧
      batchRow (buildBatch InitializeMasks (fun k => (k : ℚ)) Augmentation.AUGMENT_4X
          zeroRow) 3 6 = flipY zeroRow (fun k => (k : ℚ)) 6) ∧
    flipXY zeroRow (fun k => (k : ℚ)) 6 =
      flipX zeroRow (flipY zeroRow (fun k => (k : ℚ))) 6 ∧
    flipXY zeroRow (fun k => (k : ℚ)) 6 =
      flipY zeroRow (flipX zeroRow (fun k => (k : ℚ))) 6 ∧
    flipX zeroRow (flipX zeroRow (fun k => (k : ℚ))) 6 = (fun k : Nat => (k : ℚ)) 6 ∧
    flipY zeroRow (flipY zeroRow (fun k => (k : ℚ))) 6 = (fun k : Nat => (k : ℚ)) 6 ∧
    flipXY zeroRow (flipXY zeroRow (fun k => (k : ℚ))) 6 = (fun k : Nat => (k : ℚ)) 6) ∧
    flipX zeroRow (fun k => (k : ℚ)) 6 = -6 ∧
    flipY zeroRow (fun k => (k : ℚ)) 6 = 57 ∧
    flipXY zeroRow (fun k => (k : ℚ)) 6 = -57 ∧
    flipX zeroRow (fun k => (k : ℚ)) 108 = 109 ∧
    flipY zeroRow (fun k => (k : ℚ)) 108 = 112 ∧
    flipXY zeroRow (fun k => (k : ℚ)) 108 = 113 :=
  ⟨by decide, augmentations_compose (fun k => (k : ℚ)) 6 (by decide),
    by decide!, by decide!, by decide!, by decide!, by decide!, by decide!⟩

/-- C29 (averaging undoes the team swap).  For each of the three augmentation
levels, when `Predict` returns a prediction `p`: the model output `out` has
three entries per batch row, each in `[0, 1]`; row 0 of the batch is the input,
row 1 is `flipXY`, row 2 is `flipX` and row 3 is `flipY`.  For every row `k` of
the batch: on the rows 1 and 3 every player column holds, up to the sign, the
input entry of the other team's player in the same slot (the row is built with
the teams swapped), and the blue probability is read from entry 1 and the
orange one from entry 0 of the row's output; on the rows 0 and 2 every player
column holds, up to the sign, the input entry of that column, and blue is read
from entry 0 and orange from entry 1.  `p.prob_blue` and `p.prob_orange` are the
means of those readings over the rows; both lie in `[0, 1]` and
`p.prob_delta = p.prob_blue - p.prob_orange` lies in `[-1, 1]`. -/
theorem predict_averages_undo_team_swap (session : Session) (input : InferenceInput)
    (a : Augmentation) (t0 t1 : ℚ) (p : Prediction)
    (ha : a = Augmentation.NO_AUGMENT ∨ a = Augmentation.AUGMENT_2X ∨
      a = Augmentation.AUGMENT_4X)
    (hp : Predict InitializeMasks session input a t0 t1 = some p) :
    ∃ out : List ℚ,
      out = InferRaw session
        ⟨a.value * INPUT_DIM, buildBatch InitializeMasks input.inputs a zeroRow⟩ ∧
      out.length = a.value * OUTPUT_DIM ∧ (∀ x ∈ out, 0 ≤ x ∧ x ≤ 1) ∧
      (∀ i, i < INPUT_DIM →
        batchRow (buildBatch InitializeMasks input.inputs a zeroRow) 0 i = input.inputs i) ∧
      (1 < a.value → ∀ i, i < INPUT_DIM →
        batchRow (buildBatch InitializeMasks input.inputs a zeroRow) 1 i =
          flipXY zeroRow input.inputs i) ∧
      (2 < a.value → ∀ i, i < INPUT_DIM →
        batchRow (buildBatch InitializeMasks input.inputs a zeroRow) 2 i =
          flipX zeroRow input.inputs i ∧
        batchRow (buildBatch InitializeMasks input.inputs a zeroRow) 3 i =
          flipY zeroRow input.inputs i) ∧
      p.prob_blue = ((List.range a.value).map (rowBlue out)).sum / a.value ∧
      p.prob_orange = ((List.range a.value).map (rowOrange out)).sum / a.value ∧
      p.prob_delta = p.prob_blue - p.prob_orange ∧
      (0 ≤ p.prob_blue ∧ p.prob_blue ≤ 1) ∧ (0 ≤ p.prob_orange ∧ p.prob_orange ≤ 1) ∧
      (-1 ≤ p.prob_delta ∧ p.prob_delta ≤ 1) ∧
      (∀ k, k < a.value →
        (rowSwapsTeams k = true →
          TeamsSwapped input.inputs
            (batchRow (buildBatch InitializeMasks input.inputs a zeroRow) k) ∧
          rowBlue out k = out.getD (OUTPUT_DIM * k + 1) 0 ∧
          rowOrange out k = out.getD (OUTPUT_DIM * k) 0) ∧
        (rowSwapsTeams k = false →
          TeamsKept input.inputs
            (batchRow (buildBatch InitializeMasks input.inputs a zeroRow) k) ∧
          rowBlue out k = out.getD (OUTPUT_DIM * k) 0 ∧
          rowOrange out k = out.getD (OUTPUT_DIM * k + 1) 0)) := by
  obtain ⟨hne, hpeq⟩ := predict_eq_some InitializeMasks session input a t0 t1 p hp
  obtain ⟨_, hlen, hmem, _⟩ := inferRaw_spec session _ hne
  obtain ⟨hblue, horange⟩ := sumOutputs_rows a (InferRaw session
    ⟨a.value * INPUT_DIM, buildBatch InitializeMasks input.inputs a zeroRow⟩) ha
  have hdim : 0 < INPUT_DIM := by decide
  have hn : a.value * INPUT_DIM / INPUT_DIM = a.value := Nat.mul_div_cancel _ hdim
  simp only [hn] at hlen
  have hget : ∀ k, k < a.value * OUTPUT_DIM →
      0 ≤ (InferRaw session
        ⟨a.value * INPUT_DIM, buildBatch InitializeMasks input.inputs a zeroRow⟩).getD k 0 ∧
      (InferRaw session
        ⟨a.value * INPUT_DIM, buildBatch InitializeMasks input.inputs a zeroRow⟩).getD k 0 ≤
          1 := by
    intro k hk
    apply getD_inferRaw_mem session _ k hne
    simp only [hn]
    exact hk
  have hb : p.prob_blue = ((List.range a.value).map (rowBlue (InferRaw session
      ⟨a.value * INPUT_DIM, buildBatch InitializeMasks input.inputs a zeroRow⟩))).sum /
        a.value := by
    rw [hpeq, ← hblue]
    rfl
  have ho : p.prob_orange = ((List.range a.value).map (rowOrange (InferRaw session
      ⟨a.value * INPUT_DIM, buildBatch InitializeMasks input.inputs a zeroRow⟩))).sum /
        a.value := by
    rw [hpeq, ← horange]
    rfl
  have hd : p.prob_delta = p.prob_blue - p.prob_orange := by
    rw [hpeq]
    rfl
  have hrows := batch_rows input.inputs a ha
  have hteams := batch_rows_teams input.inputs a ha
  have hbounds : (0 ≤ p.prob_blue ∧ p.prob_blue ≤ 1) ∧
      (0 ≤ p.prob_orange ∧ p.prob_orange ≤ 1) := by
    rw [hb, ho]
    exact row_means_bounds a _ ha hget
  refine ⟨_, rfl, hlen, hmem, hrows.1, hrows.2.1, hrows.2.2, hb, ho, hd, hbounds.1,
    hbounds.2, ?_, ?_⟩
  · rw [hd]
    constructor <;> linarith [hbounds.1.1, hbounds.1.2, hbounds.2.1, hbounds.2.2]
  · intro k hk
    constructor
    · intro hsw
      refine ⟨(hteams k hk).1 hsw, ?_, ?_⟩
      · unfold rowBlue
        rw [hsw]
        rfl
      · unfold rowOrange
        rw [hsw]
        rfl
    · intro hsw
      refine ⟨(hteams k hk).2 hsw, ?_, ?_⟩
      · unfold rowBlue
        rw [hsw]
        rfl
      · unfold rowOrange
        rw [hsw]
        rfl

set_option maxRecDepth 100000 in
/-- Witness for C29: the model `nearSideSession` reads the batch and answers 3/4
for the team whose first player column has the smaller magnitude.  On
`rampInput` with `AUGMENT_4X` its answers for the rows 1 and 3, which hold the
other team's entries in the player columns, are the exchanged ones, and the
exchanged reading makes every row count 3/4 for the same team: `Predict`
returns blue 3/4 and orange 1/4, as it does without augmentation.  With the
model `squaresSession`, whose output entry `k` is `(k + 1)² / 200`, `Predict`
returns blue `(1 + 25 + 49 + 121) / 200 / 4 = 49/200` (entries 0, 4, 6, 10) and
orange `(4 + 16 + 64 + 100) / 200 / 4 = 23/100` (entries 1, 3, 7, 9). -/
theorem predict_averages_undo_team_swap_witness :
    ((Augmentation.AUGMENT_4X = Augmentation.NO_AUGMENT ∨
        Augmentation.AUGMENT_4X = Augmentation.AUGMENT_2X ∨
        Augmentation.AUGMENT_4X = Augmentation.AUGMENT_4X) ∧
      Predict InitializeMasks nearSideSession rampInput Augmentation.AUGMENT_4X 100 107 =
        some (Prediction.make (3 / 4) (1 / 4) PredictionReliability.RELIABLE
          Augmentation.AUGMENT_4X 7)) ∧
    (∃ out : List ℚ,
      out = InferRaw nearSideSession
        ⟨Augmentation.AUGMENT_4X.value * INPUT_DIM, buildBatch InitializeMasks rampInput.inputs Augmentation.AUGMENT_4X zeroRow⟩ ∧
      out.length = Augmentation.AUGMENT_4X.value * OUTPUT_DIM ∧ (∀ x ∈ out, 0 ≤ x ∧ x ≤ 1) ∧
      (∀ i, i < INPUT_DIM →
        batchRow (buildBatch InitializeMasks rampInput.inputs Augmentation.AUGMENT_4X zeroRow) 0 i = rampInput.inputs i) ∧
      (1 < Augmentation.AUGMENT_4X.value → ∀ i, i < INPUT_DIM →
        batchRow (buildBatch InitializeMasks rampInput.inputs Augmentation.AUGMENT_4X zeroRow) 1 i =
          flipXY zeroRow rampInput.inputs i) ∧
      (2 < Augmentation.AUGMENT_4X.value → ∀ i, i < INPUT_DIM →
        batchRow (buildBatch InitializeMasks rampInput.inputs Augmentation.AUGMENT_4X zeroRow) 2 i =
          flipX zeroRow rampInput.inputs i ∧
        batchRow (buildBatch InitializeMasks rampInput.inputs Augmentation.AUGMENT_4X zeroRow) 3 i =
          flipY zeroRow rampInput.inputs i) ∧
      (Prediction.make (3 / 4) (1 / 4) PredictionReliability.RELIABLE
          Augmentation.AUGMENT_4X 7).prob_blue = ((List.range Augmentation.AUGMENT_4X.value).map (rowBlue out)).sum / Augmentation.AUGMENT_4X.value ∧
      (Prediction.make (3 / 4) (1 / 4) PredictionReliability.RELIABLE
          Augmentation.AUGMENT_4X 7).prob_orange = ((List.range Augmentation.AUGMENT_4X.value).map (rowOrange out)).sum / Augmentation.AUGMENT_4X.value ∧
      (Prediction.make (3 / 4) (1 / 4) PredictionReliability.RELIABLE
          Augmentation.AUGMENT_4X 7).prob_delta = (Prediction.make (3 / 4) (1 / 4) PredictionReliability.RELIABLE
          Augmentation.AUGMENT_4X 7).prob_blue - (Prediction.make (3 / 4) (1 / 4) PredictionReliability.RELIABLE
          Augmentation.AUGMENT_4X 7).prob_orange ∧
      (0 ≤ (Prediction.make (3 / 4) (1 / 4) PredictionReliability.RELIABLE
          Augmentation.AUGMENT_4X 7).prob_blue ∧ (Prediction.make (3 / 4) (1 / 4) PredictionReliability.RELIABLE
          Augmentation.AUGMENT_4X 7).prob_blue ≤ 1) ∧ (0 ≤ (Prediction.make (3 / 4) (1 / 4) PredictionReliability.RELIABLE
          Augmentation.AUGMENT_4X 7).prob_orange ∧ (Prediction.make (3 / 4) (1 / 4) PredictionReliability.RELIABLE
          Augmentation.AUGMENT_4X 7).prob_orange ≤ 1) ∧
      (-1 ≤ (Prediction.make (3 / 4) (1 / 4) PredictionReliability.RELIABLE
          Augmentation.AUGMENT_4X 7).prob_delta ∧ (Prediction.make (3 / 4) (1 / 4) PredictionReliability.RELIABLE
          Augmentation.AUGMENT_4X 7).prob_delta ≤ 1) ∧
      (∀ k, k < Augmentation.AUGMENT_4X.value →
        (rowSwapsTeams k = true →
          TeamsSwapped rampInput.inputs
            (batchRow (buildBatch InitializeMasks rampInput.inputs Augmentation.AUGMENT_4X zeroRow) k) ∧
          rowBlue out k = out.getD (OUTPUT_DIM * k + 1) 0 ∧
          rowOrange out k = out.getD (OUTPUT_DIM * k) 0) ∧
        (rowSwapsTeams k = false →
          TeamsKept rampInput.inputs
            (batchRow (buildBatch InitializeMasks rampInput.inputs Augmentation.AUGMENT_4X zeroRow) k) ∧
          rowBlue out k = out.getD (OUTPUT_DIM * k) 0 ∧
          rowOrange out k = out.getD (OUTPUT_DIM * k + 1) 0))) ∧
    Predict InitializeMasks nearSideSession rampInput Augmentation.NO_AUGMENT 100 107 =
      some (Prediction.make (3 / 4) (1 / 4) PredictionReliability.RELIABLE
        Augmentation.NO_AUGMENT 7) ∧
    Predict InitializeMasks squaresSession rampInput Augmentation.AUGMENT_4X 100 107 =
      some (Prediction.make (49 / 200) (23 / 100) PredictionReliability.RELIABLE
        Augmentation.AUGMENT_4X 7) ∧
    ¬ TeamsSwapped rampInput.inputs
      (batchRow (buildBatch InitializeMasks rampInput.inputs Augmentation.AUGMENT_4X zeroRow) 0) ∧
    ¬ TeamsKept rampInput.inputs
      (batchRow (buildBatch InitializeMasks rampInput.inputs Augmentation.AUGMENT_4X zeroRow) 1) ∧
    ¬ TeamsSwapped rampInput.inputs
      (batchRow (buildBatch InitializeMasks rampInput.inputs Augmentation.AUGMENT_4X zeroRow) 2) ∧
    ¬ TeamsKept rampInput.inputs
      (batchRow (buildBatch InitializeMasks rampInput.inputs Augmentation.AUGMENT_4X zeroRow) 3) ∧
    batchRow (buildBatch InitializeMasks rampInput.inputs Augmentation.AUGMENT_4X zeroRow)
      0 6 = 7 ∧
    batchRow (buildBatch InitializeMasks rampInput.inputs Augmentation.AUGMENT_4X zeroRow)
      1 6 = -58 ∧
    batchRow (buildBatch InitializeMasks rampInput.inputs Augmentation.AUGMENT_4X zeroRow)
      2 6 = -7 ∧
    batchRow (buildBatch InitializeMasks rampInput.inputs Augmentation.AUGMENT_4X zeroRow)
      3 6 = 58 :=
  ⟨⟨Or.inr (Or.inr rfl), by decide!⟩,
    predict_averages_undo_team_swap nearSideSession rampInput Augmentation.AUGMENT_4X 100 107
      (Prediction.make (3 / 4) (1 / 4) PredictionReliability.RELIABLE
        Augmentation.AUGMENT_4X 7) (Or.inr (Or.inr rfl)) (by decide!),
    by decide!, by decide!, by decide!, by decide!, by decide!, by decide!, by decide!,
    by decide!, by decide!, by decide!⟩

set_option maxRecDepth 100000 in
/-- C30, at the setting 3 (evaluation of the code).  The setting
`GoalPredictor_Augmentation` admits 3 (its range is 1 to 4), and the cast makes
it an augmentation value that is none of the three enumerators.  `Predict` then
runs no case of either `switch`: for every input, the batch of three rows stays
all zero (its first row is not the input) and the sums stay `(0, 0)`, so every
prediction returned has `prob_blue = prob_orange = prob_delta = 0`, the mean of no
model output at all.  On `rampInput` with a model that answers, the result is
that all-zero prediction, while entry 0 of the input is 1. -/
theorem predict_setting_three_runs_no_case :
    (AUGMENTATION_CVAR_MIN ≤ 3 ∧ 3 ≤ AUGMENTATION_CVAR_MAX) ∧
    (∀ (masks : Masks) (session : Session) (input : InferenceInput) (t0 t1 : ℚ),
      buildBatch masks input.inputs (augmentationOfCvar 3) zeroRow = zeroRow ∧
      (∀ out : List ℚ, sumOutputs (augmentationOfCvar 3) out = (0, 0)) ∧
      ∀ p, Predict masks session input (augmentationOfCvar 3) t0 t1 = some p →
        p.prob_blue = 0 ∧ p.prob_orange = 0 ∧ p.prob_delta = 0) ∧
    Predict InitializeMasks squaresSession rampInput (augmentationOfCvar 3) 100 107 =
      some (Prediction.make 0 0 PredictionReliability.RELIABLE (augmentationOfCvar 3) 7) ∧
    batchRow (buildBatch InitializeMasks rampInput.inputs (augmentationOfCvar 3) zeroRow) 0 0 =
      0 ∧
    rampInput.inputs 0 = 1 := by
  have h1 : augmentationOfCvar 3 ≠ Augmentation.NO_AUGMENT := by decide
  have h2 : augmentationOfCvar 3 ≠ Augmentation.AUGMENT_2X := by decide
  have h4 : augmentationOfCvar 3 ≠ Augmentation.AUGMENT_4X := by decide
  have hsum : ∀ out : List ℚ, sumOutputs (augmentationOfCvar 3) out = (0, 0) := by
    intro out
    unfold sumOutputs
    simp [h1, h2, h4]
  refine ⟨by decide, ?_, by decide!, by decide!, by decide!⟩
  intro masks session input t0 t1
  refine ⟨buildBatch_other masks _ _ _ h1 h2 h4, hsum, ?_⟩
  intro p hp
  obtain ⟨_, hpeq⟩ := predict_eq_some masks session input _ t0 t1 p hp
  rw [hpeq, hsum]
  simp [Prediction.make]

open GoalPredictor

/-- C21 (no duplicate in-flight work).  In every state the plugin reaches from a
state with an empty pending list, by ticks (whatever game time each observes,
advancing or rewinding), by calls of `ResetLocalState` and by its other code,
the timestamps of any two pending tasks at distinct positions of the list
differ by more than `PREDICTION_OVERLAP_RADIUS_MS` (30 ms). -/
theorem pending_timestamps_spaced {H : Type} [DecidableEq H] (p : GoalPredictor H)
    (h : ReachableFrom NothingPending p) :
    ∀ (i j : Nat) (hi : i < p.pendingPredictions.tasks.length)
      (hj : j < p.pendingPredictions.tasks.length), i ≠ j →
      PREDICTION_OVERLAP_RADIUS_MS <
        |(p.pendingPredictions.tasks.get ⟨i, hi⟩).timeMs -
          (p.pendingPredictions.tasks.get ⟨j, hj⟩).timeMs| := by
  have hsp := reachable_pendingSpaced p h
  unfold PendingSpaced at hsp
  rw [List.pairwise_iff_get] at hsp
  intro i j hi hj hne
  rcases Nat.lt_or_gt_of_ne hne with hlt | hgt
  · exact hsp ⟨i, hi⟩ ⟨j, hj⟩ hlt
  · rw [abs_sub_comm]
    exact hsp ⟨j, hj⟩ ⟨i, hi⟩ hgt

set_option maxRecDepth 100000 in
/-- Witness for C21: after ticks at the game times 0 and 31 from the fresh
plugin, with both computations still running, two tasks are pending, under the
timestamps 0 and 31. -/
theorem pending_timestamps_spaced_witness :
    ReachableFrom NothingPending (stateAfter twoLaunches freshPlugin) ∧
    (∀ (i j : Nat)
      (hi : i < (stateAfter twoLaunches freshPlugin).pendingPredictions.tasks.length)
      (hj : j < (stateAfter twoLaunches freshPlugin).pendingPredictions.tasks.length), i ≠ j →
      PREDICTION_OVERLAP_RADIUS_MS <
        |((stateAfter twoLaunches freshPlugin).pendingPredictions.tasks.get ⟨i, hi⟩).timeMs -
          ((stateAfter twoLaunches freshPlugin).pendingPredictions.tasks.get ⟨j, hj⟩).timeMs|) ∧
    pendingAfter twoLaunches = some [0, 31] :=
  ⟨reachable_of_fresh _ twoLaunches_reachable,
    pending_timestamps_spaced _ (reachable_of_fresh _ twoLaunches_reachable), by decide!⟩

/-- C22 (a finished result supersedes nearby ones).  In every state the plugin
reaches from a fresh state: the keys of the `Prediction` series ascend and any
two entries with distinct keys have keys more than 30 ms apart; and recording a
completed prediction `v` with timestamp `tau` (the one write the tick hook
makes: `AddEvent` with `REPLACE`, radius 30 and the equality filter off) ends
normally with one unit of fuel and leaves `v` under exactly the key `tau` and no
other entry with its key in `[tau - 30, tau + 30]`. -/
theorem recorded_prediction_supersedes {H : Type} [DecidableEq H] (p : GoalPredictor H)
    (h : ReachableFrom Fresh p) :
    KeysAscending p.predictions ∧
    (∀ a ∈ p.predictions, ∀ b ∈ p.predictions, a.1 ≠ b.1 →
      PREDICTION_OVERLAP_RADIUS_MS < |a.1 - b.1|) ∧
    ∀ (fuel : Nat) (tau : ℚ) (v : Prediction), 0 < fuel →
      ∃ g1, recordCompleted fuel [(tau, some v)] p.gameDataTracker = Outcome.done g1 ∧
        p.gameDataTracker.AddEvent fuel EventKind.prediction tau v
          ⟨PREDICTION_OVERLAP_RADIUS_MS, false, OverlapAction.REPLACE⟩ = Outcome.done g1 ∧
        (tau, v) ∈ (g1.GetAll EventKind.prediction).2 ∧
        ∀ e ∈ (g1.GetAll EventKind.prediction).2,
          tau - PREDICTION_OVERLAP_RADIUS_MS ≤ e.1 ∧ e.1 ≤ tau + PREDICTION_OVERLAP_RADIUS_MS →
          e = (tau, v) := by
  obtain ⟨_, hkeys⟩ := reachable_spaced p h
  refine ⟨keysSpaced_ascending _ hkeys, ?_, ?_⟩
  · intro a ha b hb hne
    rcases keysSpaced_apart _ hkeys a ha b hb with heq | hfar
    · exact absurd (congrArg Prod.fst heq) hne
    · exact hfar
  · intro fuel tau v hfuel
    obtain ⟨g1, hadd, _, hmem, hfrom, _⟩ :=
      tracker_addEvent_prediction fuel p.gameDataTracker tau v hkeys hfuel
    refine ⟨g1, ?_, hadd, hmem, ?_⟩
    · rw [recordCompleted_cons_some fuel tau v [] _ g1 hadd]
      rfl
    · intro e he hwin
      rcases hfrom e he with h1 | ⟨_, hfar⟩
      · exact h1
      · exact absurd hwin ((abs_sub_gt_iff _ _ _).mp hfar)

set_option maxRecDepth 100000 in
/-- Witness for C22: after the three ticks of `twoRecorded` the series holds
predictions under the keys 0 and 31; recording a prediction with timestamp 20
then replaces both. -/
theorem recorded_prediction_supersedes_witness :
    ReachableFrom Fresh (stateAfter twoRecorded freshPlugin) ∧
    (KeysAscending (stateAfter twoRecorded freshPlugin).predictions ∧
    (∀ a ∈ (stateAfter twoRecorded freshPlugin).predictions,
      ∀ b ∈ (stateAfter twoRecorded freshPlugin).predictions, a.1 ≠ b.1 →
      PREDICTION_OVERLAP_RADIUS_MS < |a.1 - b.1|) ∧
    ∀ (fuel : Nat) (tau : ℚ) (v : Prediction), 0 < fuel →
      ∃ g1, recordCompleted fuel [(tau, some v)]
          (stateAfter twoRecorded freshPlugin).gameDataTracker = Outcome.done g1 ∧
        (stateAfter twoRecorded freshPlugin).gameDataTracker.AddEvent fuel EventKind.prediction
          tau v ⟨PREDICTION_OVERLAP_RADIUS_MS, false, OverlapAction.REPLACE⟩ =
            Outcome.done g1 ∧
        (tau, v) ∈ (g1.GetAll EventKind.prediction).2 ∧
        ∀ e ∈ (g1.GetAll EventKind.prediction).2,
          tau - PREDICTION_OVERLAP_RADIUS_MS ≤ e.1 ∧ e.1 ≤ tau + PREDICTION_OVERLAP_RADIUS_MS →
          e = (tau, v)) ∧
    predictionsAfter twoRecorded = some [(0, examplePrediction), (31, examplePrediction)] ∧
    GameDataTracker.seriesAfter
      (recordCompleted 1 [(20, some examplePrediction)]
        (stateAfter twoRecorded freshPlugin).gameDataTracker) EventKind.prediction =
      some [(20, examplePrediction)] :=
  ⟨twoRecorded_reachable, recorded_prediction_supersedes _ twoRecorded_reachable,
    by decide!, by decide!⟩

/-- C23 (session change clears everything).  For every plugin state and every
tick that observes a game key different from the current one: the tick is the
rest of the hook run on the state `ResetLocalState` leaves, in which the tracker
holds no series (every query on every type comes back empty), the pending list
is empty, the current game key is the observed key and the three time-tracking
fields are -1; and when the observed key is inactive the tick ends there, with
that state and without launching anything. -/
theorem session_change_resets {H : Type} [DecidableEq H] (fuel : Nat) (p : GoalPredictor H)
    (o : TickObservation H) (hkey : o.gameKey ≠ p.currentGameKey) :
    Tick fuel p o = tickBody fuel (ResetLocalState o.eventual o.futures p o.gameKey) o ∧
    (∀ k : EventKind,
      (ResetLocalState o.eventual o.futures p o.gameKey).gameDataTracker.timeSeriesMap k = none ∧
      ((ResetLocalState o.eventual o.futures p o.gameKey).gameDataTracker.GetAll k).2 = [] ∧
      GameDataTracker.AllQueriesEmpty
        (ResetLocalState o.eventual o.futures p o.gameKey).gameDataTracker k) ∧
    (ResetLocalState o.eventual o.futures p o.gameKey).pendingPredictions.tasks = [] ∧
    (ResetLocalState o.eventual o.futures p o.gameKey).currentGameKey = o.gameKey ∧
    (ResetLocalState o.eventual o.futures p o.gameKey).lastGameTimeMs = -1 ∧
    (ResetLocalState o.eventual o.futures p o.gameKey).lastGameTimeWorldTimeMs = -1 ∧
    (ResetLocalState o.eventual o.futures p o.gameKey).lastTickWorldTimeMs = -1 ∧
    (o.gameKey.IsActive = false →
      Tick fuel p o =
        Outcome.done (ResetLocalState o.eventual o.futures p o.gameKey, false)) := by
  have htick : Tick fuel p o =
      tickBody fuel (ResetLocalState o.eventual o.futures p o.gameKey) o := by
    unfold Tick sessionCheck
    rw [if_pos hkey]
  refine ⟨htick, ?_, rfl, rfl, rfl, rfl, rfl, ?_⟩
  · intro k
    have hnil : ((ResetLocalState o.eventual o.futures p o.gameKey).gameDataTracker.GetAll
        k).2 = [] := getAll_clear p.gameDataTracker k
    exact ⟨rfl, hnil, GameDataTracker.allQueriesEmpty_of_getMap_nil _ k hnil⟩
  · intro hinactive
    rw [htick]
    unfold tickBody
    rw [hinactive]
    rfl

set_option maxRecDepth 100000 in
/-- Witness for C23: the plugin holds two predictions and one pending task of an
online game when a tick observes `GAME_KEY_NONE`; the tick leaves no prediction
and no pending task and launches nothing. -/
theorem session_change_resets_witness :
    menuTick.gameKey ≠ (stateAfter twoRecorded freshPlugin).currentGameKey ∧
    (Tick 1 (stateAfter twoRecorded freshPlugin) menuTick =
      tickBody 1 (ResetLocalState menuTick.eventual menuTick.futures
        (stateAfter twoRecorded freshPlugin) menuTick.gameKey) menuTick ∧
    (∀ k : EventKind,
      (ResetLocalState menuTick.eventual menuTick.futures
        (stateAfter twoRecorded freshPlugin) menuTick.gameKey).gameDataTracker.timeSeriesMap
          k = none ∧
      ((ResetLocalState menuTick.eventual menuTick.futures
        (stateAfter twoRecorded freshPlugin) menuTick.gameKey).gameDataTracker.GetAll k).2 =
          [] ∧
      GameDataTracker.AllQueriesEmpty
        (ResetLocalState menuTick.eventual menuTick.futures
          (stateAfter twoRecorded freshPlugin) menuTick.gameKey).gameDataTracker k) ∧
    (ResetLocalState menuTick.eventual menuTick.futures
      (stateAfter twoRecorded freshPlugin) menuTick.gameKey).pendingPredictions.tasks = [] ∧
    (ResetLocalState menuTick.eventual menuTick.futures
      (stateAfter twoRecorded freshPlugin) menuTick.gameKey).currentGameKey =
        menuTick.gameKey ∧
    (ResetLocalState menuTick.eventual menuTick.futures
      (stateAfter twoRecorded freshPlugin) menuTick.gameKey).lastGameTimeMs = -1 ∧
    (ResetLocalState menuTick.eventual menuTick.futures
      (stateAfter twoRecorded freshPlugin) menuTick.gameKey).lastGameTimeWorldTimeMs = -1 ∧
    (ResetLocalState menuTick.eventual menuTick.futures
      (stateAfter twoRecorded freshPlugin) menuTick.gameKey).lastTickWorldTimeMs = -1 ∧
    (menuTick.gameKey.IsActive = false →
      Tick 1 (stateAfter twoRecorded freshPlugin) menuTick =
        Outcome.done (ResetLocalState menuTick.eventual menuTick.futures
          (stateAfter twoRecorded freshPlugin) menuTick.gameKey, false))) ∧
    predictionsAfter twoRecorded = some [(0, examplePrediction), (31, examplePrediction)] ∧
    pendingAfter twoRecorded = some [100] ∧
    predictionsAfter (tickState (Tick 1 (stateAfter twoRecorded freshPlugin) menuTick)) =
      some [] ∧
    pendingAfter (tickState (Tick 1 (stateAfter twoRecorded freshPlugin) menuTick)) = some [] ∧
    launchedIn (Tick 1 (stateAfter twoRecorded freshPlugin) menuTick) = some false :=
  ⟨by decide!, session_change_resets 1 (stateAfter twoRecorded freshPlugin) menuTick (by decide!),
    by decide!, by decide!, by decide!, by decide!, by decide!⟩

/-- C24 (drain before launch).  In every state the plugin reaches from a fresh
state, a tick (with a `GetInferenceInput` that only queries the tracker, and
one unit of fuel) ends normally, and for every task it drains that delivered a
prediction value `v` under a timestamp `tau` with `|tau - now| ≤ 30` for the
tick's game time `now`, the tick launches no new computation, and `(tau, v)` is
in the `Prediction` series when the tick ends (the overlap check ran on that
series).  A drained task that delivered no value is skipped by the recording
loop: the loop goes on with the tracker as it was, and results that all lack a
value leave every series as it was. -/
theorem drain_before_launch {H : Type} [DecidableEq H] (fuel : Nat) (p : GoalPredictor H)
    (o : TickObservation H) (h : ReachableFrom Fresh p)
    (hq : OnlyQueries o.GetInferenceInput) (hfuel : 0 < fuel) :
    (∃ r, Tick fuel p o = Outcome.done r ∧
      ∀ (tau : ℚ) (v : Prediction),
        (tau, some v) ∈
          (TimedTaskSet.GetCompletedTasks o.futures (sessionCheck p o).pendingPredictions).1 →
        |tau - o.currentGameTimeMs| ≤ PREDICTION_OVERLAP_RADIUS_MS →
        r.2 = false ∧ (o.gameKey.IsActive = true → (tau, v) ∈ r.1.predictions)) ∧
    (∀ (t : ℚ) (rest : List (ℚ × Option Prediction)) (g : GameDataTracker),
      recordCompleted fuel ((t, none) :: rest) g = recordCompleted fuel rest g) ∧
    (∀ (l : List (ℚ × Option Prediction)) (g : GameDataTracker),
      (∀ x ∈ l, x.2 = none) → recordCompleted fuel l g = Outcome.done g) := by
  obtain ⟨hpend, hkeys⟩ := reachable_spaced p h
  refine ⟨?_, recordCompleted_cons_none fuel, recordCompleted_of_all_none fuel⟩
  obtain ⟨r, hr⟩ := tick_total fuel hfuel p o hkeys
  refine ⟨r, hr, ?_⟩
  intro tau v hmem hnear
  have hr1 : Tick fuel p o = Outcome.done (r.1, r.2) := hr
  exact ⟨tick_no_launch_after_drain fuel hfuel p o r.1 r.2 hpend hkeys hr1 tau v hmem hnear,
    fun hact => tick_records_drained fuel hfuel p o r.1 r.2 hpend hkeys hq hact hr1 tau v hmem⟩

set_option maxRecDepth 100000 in
/-- Witness for C24: a task launched at the game time 0 has delivered when the
tick at the game time 10 drains it; that tick records the prediction under 0 and
launches nothing. -/
theorem drain_before_launch_witness :
    (ReachableFrom Fresh (stateAfter oneLaunch freshPlugin) ∧
      OnlyQueries (exampleTick 10 allReady 2).GetInferenceInput ∧ 0 < 1) ∧
    ((∃ r, Tick 1 (stateAfter oneLaunch freshPlugin) (exampleTick 10 allReady 2) =
        Outcome.done r ∧
      ∀ (tau : ℚ) (v : Prediction),
        (tau, some v) ∈
          (TimedTaskSet.GetCompletedTasks (exampleTick 10 allReady 2).futures
            (sessionCheck (stateAfter oneLaunch freshPlugin)
              (exampleTick 10 allReady 2)).pendingPredictions).1 →
        |tau - (exampleTick 10 allReady 2).currentGameTimeMs| ≤ PREDICTION_OVERLAP_RADIUS_MS →
        r.2 = false ∧ ((exampleTick 10 allReady 2).gameKey.IsActive = true →
          (tau, v) ∈ r.1.predictions)) ∧
    (∀ (t : ℚ) (rest : List (ℚ × Option Prediction)) (g : GameDataTracker),
      recordCompleted 1 ((t, none) :: rest) g = recordCompleted 1 rest g) ∧
    (∀ (l : List (ℚ × Option Prediction)) (g : GameDataTracker),
      (∀ x ∈ l, x.2 = none) → recordCompleted 1 l g = Outcome.done g)) ∧
    (TimedTaskSet.GetCompletedTasks (exampleTick 10 allReady 2).futures
      (sessionCheck (stateAfter oneLaunch freshPlugin)
        (exampleTick 10 allReady 2)).pendingPredictions).1 = [(0, some examplePrediction)] ∧
    launchedIn (Tick 1 (stateAfter oneLaunch freshPlugin) (exampleTick 10 allReady 2)) =
      some false ∧
    predictionsAfter (tickState (Tick 1 (stateAfter oneLaunch freshPlugin)
      (exampleTick 10 allReady 2))) = some [(0, examplePrediction)] :=
  ⟨⟨oneLaunch_reachable, exampleTick_onlyQueries _ _ _, by decide⟩,
    drain_before_launch 1 (stateAfter oneLaunch freshPlugin) (exampleTick 10 allReady 2)
      oneLaunch_reachable (exampleTick_onlyQueries _ _ _) (by decide),
    by decide!, by decide!, by decide!⟩

/-- C25, as the code has it (at most two nearby stored predictions).  In every
state the plugin reaches from a fresh state, for every game time `now`, the
range `GetRangeAroundInclusive<Prediction>(now, 30)` that the overlap check
examines holds exactly the stored predictions with their key in
`[now - 30, now + 30]`, and these are at most two. -/
theorem nearby_predictions_at_most_two {H : Type} [DecidableEq H] (p : GoalPredictor H)
    (h : ReachableFrom Fresh p) (now : ℚ) :
    ∃ es : Series Prediction,
      p.gameDataTracker.rangeEntries EventKind.prediction
        (p.gameDataTracker.GetRangeAroundInclusive EventKind.prediction now
          PREDICTION_OVERLAP_RADIUS_MS).2 = some es ∧
      es.length ≤ 2 ∧
      ∀ e, e ∈ es ↔ e ∈ p.predictions ∧ now - PREDICTION_OVERLAP_RADIUS_MS ≤ e.1 ∧
        e.1 ≤ now + PREDICTION_OVERLAP_RADIUS_MS := by
  obtain ⟨_, hkeys⟩ := reachable_spaced p h
  refine ⟨_, rangeEntries_around p.gameDataTracker now (keysSpaced_ascending _ hkeys),
    keysSpaced_window_length _ now hkeys, ?_⟩
  intro e
  rw [List.mem_filter]
  simp only [decide_eq_true_eq]
  rfl

set_option maxRecDepth 100000 in
/-- Witness for C25: after the three ticks of `twoRecorded` the window around
the game time 40 holds the one prediction stored under 31. -/
theorem nearby_predictions_at_most_two_witness :
    ReachableFrom Fresh (stateAfter twoRecorded freshPlugin) ∧
    (∃ es : Series Prediction,
      (stateAfter twoRecorded freshPlugin).gameDataTracker.rangeEntries EventKind.prediction
        ((stateAfter twoRecorded freshPlugin).gameDataTracker.GetRangeAroundInclusive
          EventKind.prediction 40 PREDICTION_OVERLAP_RADIUS_MS).2 = some es ∧
      es.length ≤ 2 ∧
      ∀ e, e ∈ es ↔ e ∈ (stateAfter twoRecorded freshPlugin).predictions ∧
        40 - PREDICTION_OVERLAP_RADIUS_MS ≤ e.1 ∧ e.1 ≤ 40 + PREDICTION_OVERLAP_RADIUS_MS) ∧
    (stateAfter twoRecorded freshPlugin).gameDataTracker.rangeEntries EventKind.prediction
        ((stateAfter twoRecorded freshPlugin).gameDataTracker.GetRangeAroundInclusive
          EventKind.prediction 40 PREDICTION_OVERLAP_RADIUS_MS).2 =
      some [(31, examplePrediction)] :=
  ⟨twoRecorded_reachable, nearby_predictions_at_most_two _ twoRecorded_reachable 40,
    by decide!⟩

set_option maxRecDepth 100000 in
/-- Counterexample to C25 as first stated ("0 or 1 entries").  Ticks at the game
times 0 and 31 each launch a computation (31 is more than 30 away from 0), and
the tick at 100 records both results, under the keys 0 and 31.  In the state
reached, the range `GetRangeAroundInclusive<Prediction>(15, 30)`, the window
`[-15, 45]`, holds two entries, and a tick at the game time 15 examines it and
launches nothing. -/
theorem two_predictions_within_one_window :
    ReachableFrom Fresh (stateAfter twoRecorded freshPlugin) ∧
    twoRecorded = Outcome.done (stateAfter twoRecorded freshPlugin) ∧
    predictionsAfter twoRecorded = some [(0, examplePrediction), (31, examplePrediction)] ∧
    (stateAfter twoRecorded freshPlugin).gameDataTracker.rangeEntries EventKind.prediction
        ((stateAfter twoRecorded freshPlugin).gameDataTracker.GetRangeAroundInclusive
          EventKind.prediction 15 PREDICTION_OVERLAP_RADIUS_MS).2 =
      some [(0, examplePrediction), (31, examplePrediction)] ∧
    launchedIn (Tick 1 (stateAfter twoRecorded freshPlugin) (exampleTick 15 allRunning 4)) =
      some false :=
  ⟨twoRecorded_reachable, done_of_pendingAfter twoRecorded freshPlugin _ twoRecorded_pending,
    by decide!, by decide!, by decide!⟩

/-- C20 (Duplicate-launch check), as amended.  `fl` is the rounding of the
`double` arithmetic of the tick hook, assumed monotone; with the identity for
`fl` the bounds and distances below are the exact ones.  For every state of the
plugin with an ascending Prediction series and every tick that ends normally:
the tick launches a new computation if and only if the observed game key is
active, the plugin is enabled and a server is at hand, the game time or the
world time differs from the one of the last tick, the Prediction series at the
check (after the results of this tick's poll were recorded) has no entry with
key between the computed bounds `fl (now - 30)` and `fl (now + 30)`, no task
still pending has a computed distance `|fl (tau - now)| ≤ 30`, and
`GetInferenceInput` returns an input; a launch appends the new task, under the
game time `now`, to the tasks still pending, and a tick that gets past the game
key and launches nothing leaves them as they are.  The tick does end normally,
with one unit of fuel, when rounding leaves the pending timestamps as they are.
The part of the test made on `GetClosestTimeMs(now)` alone is true exactly when
some pending task has a computed distance of at most 30 to `now`; a task within
30 ms of `now` has one when `fl` is odd and leaves 30 as it is, and where the
differences are computed exactly the test is true exactly when some pending
task lies within 30 ms of `now`. -/
theorem tick_launches_iff {H : Type} [DecidableEq H] (fl : ℚ → ℚ) (hfl : Monotone fl)
    (fuel : Nat) (p : GoalPredictor H) (o : TickObservation H)
    (hasc : KeysAscending p.predictions) :
    (∀ (p1 : GoalPredictor H) (launched : Bool),
      Rounded.Tick fl fuel p o = Outcome.done (p1, launched) →
      (launched = true ↔
        o.gameKey.IsActive = true ∧ o.enabled = true ∧ o.serverAvailable = true ∧
        (o.currentGameTimeMs ≠ (sessionCheck p o).lastGameTimeMs ∨
          o.currentWorldTimeMs ≠ (sessionCheck p o).lastTickWorldTimeMs) ∧
        ∃ p2, stateAtCheck fl fuel p o = Outcome.done p2 ∧
          (¬ ∃ e ∈ p2.predictions,
            fl (o.currentGameTimeMs - 30) ≤ e.1 ∧ e.1 ≤ fl (o.currentGameTimeMs + 30)) ∧
          (¬ ∃ x ∈ p2.pendingPredictions.tasks, |fl (x.timeMs - o.currentGameTimeMs)| ≤ 30) ∧
          (o.GetInferenceInput (p2.gameDataTracker.GetMap EventKind.prediction).1).2 = true) ∧
      (o.gameKey.IsActive = true →
        ∃ p2, stateAtCheck fl fuel p o = Outcome.done p2 ∧
          p1.pendingPredictions =
            if launched = true then p2.pendingPredictions.Add o.currentGameTimeMs o.task
            else p2.pendingPredictions) ∧
      (o.gameKey.IsActive = false → p1 = sessionCheck p o ∧ launched = false)) ∧
    (0 < fuel → (∀ x ∈ p.pendingPredictions.tasks, fl x.timeMs = x.timeMs) →
      ∃ (p1 : GoalPredictor H) (launched : Bool),
        Rounded.Tick fl fuel p o = Outcome.done (p1, launched)) ∧
    (∀ (s : TimedTaskSet H) (now : ℚ),
      (Rounded.alreadyScheduled fl s now = true ↔
        ∃ x ∈ s.tasks, |fl (x.timeMs - now)| ≤ 30) ∧
      ((∀ x, fl (-x) = -fl x) → fl 30 = 30 →
        (∃ x ∈ s.tasks, |x.timeMs - now| ≤ 30) → Rounded.alreadyScheduled fl s now = true) ∧
      ((∀ x ∈ s.tasks, fl (x.timeMs - now) = x.timeMs - now) →
        (Rounded.alreadyScheduled fl s now = true ↔
          ∃ x ∈ s.tasks, |x.timeMs - now| ≤ 30))) := by
  refine ⟨?_, ?_, ?_⟩
  · intro p1 launched htick
    by_cases hact : o.gameKey.IsActive = true
    · obtain ⟨p2, hs⟩ := stateAtCheck_of_tick fl fuel p o _ htick hact
      obtain ⟨hasc2, hkey⟩ := stateAtCheck_spec fl fuel p o p2 hasc hs
      have heq := rounded_tick_of_stateAtCheck fl fuel p o p2 hs hact
      rw [htick] at heq
      have hpair := Outcome.done.inj heq
      obtain ⟨hlaunch, hpend⟩ := rounded_launchStep_spec fl hfl p2 o hasc2
      have hisact : p2.IsActive o.enabled o.serverAvailable o.roundActive false =
          (o.enabled && o.serverAvailable) := by
        unfold GoalPredictor.IsActive
        rw [hkey, hact]
        cases o.enabled <;> cases o.serverAvailable <;> rfl
      by_cases hgate : (!(p2.IsActive o.enabled o.serverAvailable o.roundActive false) ||
          (!decide (o.currentGameTimeMs ≠ (sessionCheck p o).lastGameTimeMs) &&
            !decide (o.currentWorldTimeMs ≠ (sessionCheck p o).lastTickWorldTimeMs))) = true
      · rw [if_pos hgate] at hpair
        have hp1 : p1 = p2 := (Prod.mk.inj hpair).1
        have hl : launched = false := (Prod.mk.inj hpair).2
        subst hp1 hl
        refine ⟨?_, fun _ => ⟨p1, hs, by simp⟩, fun h => ?_⟩
        · constructor
          · intro h
            exact Bool.noConfusion h
          · rintro ⟨_, hen, hsrv, htime, _⟩
            exfalso
            rw [hisact, hen, hsrv] at hgate
            rcases htime with ht | ht
            · simp [ht] at hgate
            · simp [ht] at hgate
        · rw [hact] at h
          exact Bool.noConfusion h
      · rw [if_neg hgate] at hpair
        have hp1 : p1 = (Rounded.launchStep fl p2 o).1 := (Prod.mk.inj hpair).1
        have hl : launched = (Rounded.launchStep fl p2 o).2 := (Prod.mk.inj hpair).2
        rw [hisact] at hgate
        have hen : o.enabled = true := by
          cases h : o.enabled
          · rw [h] at hgate
            simp at hgate
          · rfl
        have hsrv : o.serverAvailable = true := by
          cases h : o.serverAvailable
          · rw [h, hen] at hgate
            simp at hgate
          · rfl
        have htime : o.currentGameTimeMs ≠ (sessionCheck p o).lastGameTimeMs ∨
            o.currentWorldTimeMs ≠ (sessionCheck p o).lastTickWorldTimeMs := by
          by_contra hcon
          push_neg at hcon
          apply hgate
          simp [hcon.1, hcon.2]
        refine ⟨?_, fun _ => ⟨p2, hs, ?_⟩, fun h => ?_⟩
        · rw [hl, hlaunch]
          constructor
          · intro h
            exact ⟨hact, hen, hsrv, htime, p2, hs, h⟩
          · rintro ⟨_, _, _, _, q2, hs2, h⟩
            rw [hs] at hs2
            rw [Outcome.done.inj hs2]
            exact h
        · rw [hp1, hl]
          exact hpend
        · rw [hact] at h
          exact Bool.noConfusion h
    · have hinact : o.gameKey.IsActive = false := by
        cases h : o.gameKey.IsActive
        · rfl
        · exact absurd h hact
      have hq : Rounded.Tick fl fuel p o = Outcome.done (sessionCheck p o, false) := by
        unfold Rounded.Tick Rounded.tickBody
        rw [hinact]
        rfl
      rw [htick] at hq
      have hpair := Outcome.done.inj hq
      have hp1 : p1 = sessionCheck p o := (Prod.mk.inj hpair).1
      have hl : launched = false := (Prod.mk.inj hpair).2
      refine ⟨?_, fun h => absurd h hact, fun _ => ⟨hp1, hl⟩⟩
      rw [hl]
      constructor
      · intro h
        exact Bool.noConfusion h
      · rintro ⟨h, _⟩
        exact absurd h hact
  · intro hfuel hfix
    obtain ⟨r, hr⟩ := rounded_tick_total fl hfl fuel hfuel p o hasc hfix
    exact ⟨r.1, r.2, hr⟩
  · intro s now
    have hsched := rounded_alreadyScheduled_iff fl s now
    unfold PREDICTION_OVERLAP_RADIUS_MS at hsched
    refine ⟨hsched, ?_, ?_⟩
    · rintro hodd h30 ⟨x, hx, hnear⟩
      rw [hsched]
      refine ⟨x, hx, ?_⟩
      rw [abs_rounded_eq fl hfl hodd, ← h30]
      exact hfl hnear
    · intro hexact
      rw [hsched]
      constructor
      · rintro ⟨x, hx, h⟩
        rw [hexact x hx] at h
        exact ⟨x, hx, h⟩
      · rintro ⟨x, hx, h⟩
        rw [← hexact x hx] at h
        exact ⟨x, hx, h⟩

set_option maxRecDepth 100000 in
/-- Witness for C20 as amended, in binary64 arithmetic: after one launch at the
game time 0, whose computation is still running, the tick at 30 ends normally and
launches nothing (the pending task is 30 ms away) and the tick at 31 launches,
as in exact arithmetic; the test on the pending tasks at 10 and 20 is true at 50
and false at 51. -/
theorem tick_launches_iff_witness :
    (Monotone roundBinary64 ∧ KeysAscending (stateAfter oneLaunch freshPlugin).predictions) ∧
    (∀ (p1 : GoalPredictor Nat) (launched : Bool),
      Rounded.Tick roundBinary64 1 (stateAfter oneLaunch freshPlugin)
          (exampleTick 30 allRunning 2) = Outcome.done (p1, launched) →
      (launched = true ↔
        (exampleTick 30 allRunning 2).gameKey.IsActive = true ∧
        (exampleTick 30 allRunning 2).enabled = true ∧
        (exampleTick 30 allRunning 2).serverAvailable = true ∧
        ((exampleTick 30 allRunning 2).currentGameTimeMs ≠
            (sessionCheck (stateAfter oneLaunch freshPlugin)
              (exampleTick 30 allRunning 2)).lastGameTimeMs ∨
          (exampleTick 30 allRunning 2).currentWorldTimeMs ≠
            (sessionCheck (stateAfter oneLaunch freshPlugin)
              (exampleTick 30 allRunning 2)).lastTickWorldTimeMs) ∧
        ∃ p2, stateAtCheck roundBinary64 1 (stateAfter oneLaunch freshPlugin)
            (exampleTick 30 allRunning 2) = Outcome.done p2 ∧
          (¬ ∃ e ∈ p2.predictions,
            roundBinary64 ((exampleTick 30 allRunning 2).currentGameTimeMs - 30) ≤ e.1 ∧
              e.1 ≤ roundBinary64 ((exampleTick 30 allRunning 2).currentGameTimeMs + 30)) ∧
          (¬ ∃ x ∈ p2.pendingPredictions.tasks,
            |roundBinary64 (x.timeMs - (exampleTick 30 allRunning 2).currentGameTimeMs)| ≤ 30) ∧
          ((exampleTick 30 allRunning 2).GetInferenceInput
            (p2.gameDataTracker.GetMap EventKind.prediction).1).2 = true) ∧
      ((exampleTick 30 allRunning 2).gameKey.IsActive = true →
        ∃ p2, stateAtCheck roundBinary64 1 (stateAfter oneLaunch freshPlugin)
            (exampleTick 30 allRunning 2) = Outcome.done p2 ∧
          p1.pendingPredictions =
            if launched = true then
              p2.pendingPredictions.Add (exampleTick 30 allRunning 2).currentGameTimeMs
                (exampleTick 30 allRunning 2).task
            else p2.pendingPredictions) ∧
      ((exampleTick 30 allRunning 2).gameKey.IsActive = false →
        p1 = sessionCheck (stateAfter oneLaunch freshPlugin) (exampleTick 30 allRunning 2) ∧
          launched = false)) ∧
    (∃ (p1 : GoalPredictor Nat) (launched : Bool),
      Rounded.Tick roundBinary64 1 (stateAfter oneLaunch freshPlugin)
        (exampleTick 30 allRunning 2) = Outcome.done (p1, launched)) ∧
    pendingAfter oneLaunch = some [0] ∧
    launchedIn (Rounded.Tick roundBinary64 1 (stateAfter oneLaunch freshPlugin)
      (exampleTick 30 allRunning 2)) = some false ∧
    launchedIn (Rounded.Tick roundBinary64 1 (stateAfter oneLaunch freshPlugin)
      (exampleTick 31 allRunning 2)) = some true ∧
    launchedIn (Tick 1 (stateAfter oneLaunch freshPlugin) (exampleTick 30 allRunning 2)) =
      some false ∧
    launchedIn (Tick 1 (stateAfter oneLaunch freshPlugin) (exampleTick 31 allRunning 2)) =
      some true ∧
    Rounded.alreadyScheduled roundBinary64 (⟨[⟨10, 1⟩, ⟨20, 2⟩]⟩ : TimedTaskSet Nat) 50 = true ∧
    Rounded.alreadyScheduled roundBinary64 (⟨[⟨10, 1⟩, ⟨20, 2⟩]⟩ : TimedTaskSet Nat) 51 = false :=
  ⟨⟨roundBinary64_monotone, by decide!⟩,
    (tick_launches_iff roundBinary64 roundBinary64_monotone 1
      (stateAfter oneLaunch freshPlugin) (exampleTick 30 allRunning 2) (by decide!)).1,
    (tick_launches_iff roundBinary64 roundBinary64_monotone 1
      (stateAfter oneLaunch freshPlugin) (exampleTick 30 allRunning 2) (by decide!)).2.1
        (by decide) (by decide!),
    by decide!, by decide!, by decide!, by decide!, by decide!, by decide!, by decide!⟩

set_option maxRecDepth 100000 in
/-- Counterexample to C20 as stated ("skipped if and only if" something is
nearby), in binary64 and in exact arithmetic: from the fresh plugin, with no
stored prediction and no pending task, the tick at the game time 0 launches a
computation, but the launch is skipped when the game key is `GAME_KEY_NONE`,
when the plugin is disabled, when no server is at hand, when neither clock has
moved since the last tick, and when `GetInferenceInput` returns no input. -/
theorem tick_skips_launch_with_nothing_nearby :
    freshPlugin.predictions = [] ∧ freshPlugin.pendingPredictions.tasks = [] ∧
    launchedIn (Rounded.Tick roundBinary64 1 freshPlugin (exampleTick 0 allRunning 1)) =
      some true ∧
    launchedIn (Rounded.Tick roundBinary64 1 freshPlugin menuTick) = some false ∧
    launchedIn (Rounded.Tick roundBinary64 1 freshPlugin
      { exampleTick 0 allRunning 1 with enabled := false }) = some false ∧
    launchedIn (Rounded.Tick roundBinary64 1 freshPlugin
      { exampleTick 0 allRunning 1 with serverAvailable := false }) = some false ∧
    launchedIn (Rounded.Tick roundBinary64 1 freshPlugin (exampleTick (-1) allRunning 1)) =
      some false ∧
    launchedIn (Rounded.Tick roundBinary64 1 freshPlugin
      { exampleTick 0 allRunning 1 with GetInferenceInput := fun g => (g, false) }) =
      some false ∧
    launchedIn (Tick 1 freshPlugin (exampleTick 0 allRunning 1)) = some true ∧
    launchedIn (Tick 1 freshPlugin menuTick) = some false ∧
    launchedIn (Tick 1 freshPlugin { exampleTick 0 allRunning 1 with enabled := false }) =
      some false ∧
    launchedIn (Tick 1 freshPlugin
      { exampleTick 0 allRunning 1 with serverAvailable := false }) = some false ∧
    launchedIn (Tick 1 freshPlugin (exampleTick (-1) allRunning 1)) = some false ∧
    launchedIn (Tick 1 freshPlugin
      { exampleTick 0 allRunning 1 with GetInferenceInput := fun g => (g, false) }) =
      some false := by
  refine ⟨by decide!, by decide!, by decide!, by decide!, by decide!, by decide!, by decide!,
    by decide!, by decide!, by decide!, by decide!, by decide!, by decide!, by decide!⟩

end RLGP
